import Mathlib

/-!
# DPNN (diamond-pattern neural network) : a shallow embedding of `src/js/Network.js`

Modelling conventions.

* JavaScript numbers are modelled by exact rationals (`Num := ℚ`): every value is finite,
  arithmetic is exact, and the tests `isNaN(x)` / `!isFinite(x)` are therefore always false on
  a `Num`. Values that are not finite numbers only occur in the *input* of `forward`
  (`Elem.bad`, `Input.scalar none`, ...), where the code replaces them by `0`. The one method
  whose purpose is the repair of values that are not finite, `verifyNetworkIntegrity`, is
  embedded a second time over `JSNumber`, which has `NaN` and the two infinities.
* JavaScript arrays are lists; `a[i]` on a missing index (`undefined`) is `a[i]?  = none`.
  The guards of the source (`if (!weights[i]) continue`, `!== undefined`) are kept as matches
  on these options.
* `Math.random()` is a stream `rnd : Nat → Num` read at an explicit cursor; the transcendental
  functions `Math.exp`, `Math.tanh` and `x ↦ Math.pow(x, 1.5)` are parameters (`MathFns`).
* The object `this` is the record `DPNN`; a method is a function returning the new record
  (and its return value).
-/

namespace DPNNModel

/-- A JavaScript number, modelled as an exact rational. -/
abbrev Num := ℚ

/-- The functions of `Math` that have no rational closed form; they are parameters. -/
structure MathFns where
  exp : Num → Num
  tanh : Num → Num
  pow15 : Num → Num

/-- The value `Math.sign(x)`. -/
def jsSign (x : Num) : Num := if 0 < x then 1 else if x < 0 then -1 else 0

/-- The strings pushed into `this.layerTypes`. -/
inductive LayerType where
  | input | expansion | central | contraction | output
deriving DecidableEq

/-- The `type` field of a recorded path. -/
inductive PathType where
  | direct | expansion | central | contraction
deriving DecidableEq

/-- One entry of `this.activePaths`: `{layer, from, to, value, sign, type, isPrimary}`
(`from_` and `to_` are the fields `from` and `to`, reserved words here). -/
structure Path where
  layer : Nat
  from_ : Nat
  to_ : Nat
  value : Num
  sign : Num
  type : PathType
  isPrimary : Bool
deriving DecidableEq

/-- The object `this.learningParams`. -/
structure LearningParams where
  baseLearningRate : Num
  confidenceModifier : Num
  mutationThreshold : Num
  mutationRate : Num
  rewardScaling : Num
deriving DecidableEq

/-- The object `this.stats` (the counters `pathDeletions` and `nodeMutations` are created on
first use by `updateConfidenceFromReward`; an absent counter is `0`). -/
structure Stats where
  trainingIterations : Nat
  lastError : Num
  totalReward : Num
  rewardCount : Nat
  pathDeletions : Nat
  nodeMutations : Nat
deriving DecidableEq

/-- The object `this.pruningHistory`. -/
structure PruningHistory where
  prunedConnections : Nat
  addedConnections : Nat
  lastPrunedLayer : Int
  lastPrunedFrom : Int
  lastPrunedTo : Int
  lastActivationPercentage : Num
deriving DecidableEq

/-- The fields of a `DPNN` instance. `nodeActivationFuncs`, `activationFunctions` and
`pruningHistory` are not set by the constructor (`none` is `undefined`); an entry of
`activationFunctions` that is not a string is `none`. -/
structure DPNN where
  inputSize : Nat
  outputSize : Nat
  hiddenLayers : List Nat
  expansionLayers : List Nat
  centralLayers : List Nat
  contractionLayers : List Nat
  totalLayers : Nat
  layers : List (List Num)
  weights : List (List (List Num))
  biases : List (List Num)
  activations : List (List Bool)
  activePaths : List Path
  nodeConfidence : List (List Num)
  connectionConfidence : List (List (List Num))
  layerTypes : List LayerType
  learningParams : LearningParams
  stats : Stats
  nodeActivationFuncs : Option (List (List String))
  activationFunctions : Option (List (List (Option String)))
  pruningHistory : Option PruningHistory

/-- An element of an input array: a value that is (or coerces to) a finite number, or a value
for which `isNaN(val) || !isFinite(val)` holds. -/
inductive Elem where
  | num (q : Num)
  | bad

/-- The argument of `forward`. `scalar v` is a number or a string, `v` being `Number(input)`
(`none` for `NaN`); `other` is a primitive that is neither (boolean, symbol, ...); `object x y`
is an object that is not an array, with its fields `x` and `y` when present, each given by
`Number(field)` (`none` for `NaN`). A plain array has no field `x` or `y`. -/
inductive Input where
  | array (xs : List Elem)
  | scalar (v : Option Num)
  | null
  | undefined
  | other
  | object (x : Option (Option Num)) (y : Option (Option Num))

/-- The assignment `a[k] = v` on an array: past the end it lengthens the array (the holes read
as `0`-like inactive entries). -/
def setExtend (a : List Num) (k : Nat) (v : Num) : List Num :=
  if k < a.length then a.set k v else a ++ List.replicate (k - a.length) 0 ++ [v]

/-- The update `a[j] += c`. -/
def addAt (a : List Num) (j : Nat) (c : Num) : List Num :=
  a.set j (a.getD j 0 + c)

/-- The input validation of `forward` (lines 184-214): the value of `safeInput`. -/
def safeInput (inputSize : Nat) : Input → List Num
  | .array xs =>
      if xs.length = inputSize then
        xs.map (fun val => match val with
          | .num q => q
          | .bad => 0)
      else
        -- an array of another length is "an object but not an array" without `x` or `y`
        List.replicate inputSize 0
  | .scalar v =>
      match v with
      | some q => setExtend (List.replicate inputSize 0) 0 q
      | none => List.replicate inputSize 0
  | .null => List.replicate inputSize 0
  | .undefined => List.replicate inputSize 0
  | .other => List.replicate inputSize 0
  | .object x y =>
      let a := List.replicate inputSize 0
      let a := match x with
        | some v => setExtend a 0 (v.getD 0)
        | none => a
      match y with
      | some v => setExtend a 2 (v.getD 0)
      | none => a

/-- The mutable data of one iteration of the layer loop of `forward`: `currentLayer`
(`this.layers[l]`), `this.activations[l]`, `this.activePaths` and `layerHasActivation`. -/
structure LayerAcc where
  currentLayer : List Num
  acts : List Bool
  paths : List Path
  layerHasActivation : Bool

/-- The four statements shared by every routing branch:
`currentLayer[j] += c; this.activations[l][j] = true; layerHasActivation = true;`
and the `push` of the path, when the branch records one. -/
def contribute (st : LayerAcc) (j : Nat) (c : Num) (p : Option Path) : LayerAcc :=
  { currentLayer := addAt st.currentLayer j c
    acts := st.acts.set j true
    paths := match p with
      | some q => st.paths ++ [q]
      | none => st.paths
    layerHasActivation := true }

/-- The three bridge branches (lines 261-329), textually the same: a direct index-to-index
connection. With an empty `currentLayer` the index `i % 0` is `NaN` and nothing is found. -/
def directStep (l i : Nat) (activation : Num) (row : List Num) (st : LayerAcc) : LayerAcc :=
  let n := st.currentLayer.length
  if n = 0 then st else
  let targetIdx := if i < n then i else i % n
  match row[targetIdx]? with
  | none => st
  | some w =>
      contribute st targetIdx (activation * w)
        (some ⟨l - 1, i, targetIdx, |activation|, jsSign activation, .direct, true⟩)

/-- The Y-fork of a standard expansion layer (lines 330-352). -/
def expansionStep (l i : Nat) (activation : Num) (row : List Num) (st : LayerAcc) : LayerAcc :=
  let n := st.currentLayer.length
  if n = 0 then st else
  let targetIdx := if activation ≥ 0 then (i * 2) % n else (i * 2 + 1) % n
  match row[targetIdx]? with
  | none => st
  | some w =>
      if targetIdx < n then
        contribute st targetIdx (|activation| * w)
          (some ⟨l - 1, i, targetIdx, |activation|, if activation ≥ 0 then 1 else -1,
            .expansion, true⟩)
      else st

/-- The loop over `j` of the last central layer (lines 364-393) and of the last contraction
layer (lines 431-460): full weight on `i = j`, half weight elsewhere, and only the secondary
connections are recorded. `ty` is the recorded `type`. -/
def halfMeshStep (ty : PathType) (l i : Nat) (activation : Num) (row : List Num)
    (st : LayerAcc) : LayerAcc :=
  (List.range st.currentLayer.length).foldl (fun st j =>
    match row[j]? with
    | none => st
    | some w =>
        if w = 0 then st else
        let contribution := activation * w
        let isPrimaryConnection := decide (i = j)
        contribute st j (contribution * (if isPrimaryConnection then 1 else 0.5))
          (if isPrimaryConnection then none
           else some ⟨l - 1, i, j, |activation| * 0.5, jsSign activation, ty, false⟩)) st

/-- The loop over `j` of a central-to-central layer (lines 397-421): full mesh. -/
def centralStep (l i : Nat) (activation : Num) (row : List Num) (st : LayerAcc) : LayerAcc :=
  (List.range st.currentLayer.length).foldl (fun st j =>
    match row[j]? with
    | none => st
    | some w =>
        if w = 0 then st else
        contribute st j (activation * w)
          (some ⟨l - 1, i, j, |activation|, jsSign activation, .central, decide (i = j)⟩)) st

/-- The standard contraction layer (lines 462-488): pair averaging. -/
def contractionStep (l i : Nat) (activation : Num) (row : List Num) (prevLen : Nat)
    (st : LayerAcc) : LayerAcc :=
  let targetIdx := i / 2
  match row[targetIdx]? with
  | none => st
  | some w =>
      if targetIdx < st.currentLayer.length then
        let contribution := activation * w
        let pathsToTarget : Num := (prevLen : Num) / 2
        let avgFactor : Num := if pathsToTarget > 0 then 1 / pathsToTarget else 1
        contribute st targetIdx (contribution * avgFactor)
          (some ⟨l - 1, i, targetIdx, |activation|, jsSign activation, .contraction, true⟩)
      else st

/-- The name of the activation function of node `j` of layer `l` (lines 503-508). -/
def activationFuncName (funcs : Option (List (List String))) (l j : Nat) : String :=
  match funcs with
  | none => "leakyrelu"
  | some fs =>
      match fs[l]? with
      | none => "leakyrelu"
      | some row =>
          match row[j]? with
          | none => "leakyrelu"
          | some name => if name = "" then "leakyrelu" else name

/-- The `switch` on the activation function (lines 511-552). -/
def applyActivation (fns : MathFns) (name : String) (x : Num) : Num :=
  if name = "relu" then max 0 x
  else if name = "leakyrelu" then (if x > 0 then x else 0.01 * x)
  else if name = "sigmoid" then 1 / (1 + fns.exp (-x))
  else if name = "tanh" then fns.tanh x
  else if name = "swish" then x * (1 / (1 + fns.exp (-x)))
  else if name = "elu" then (if x > 0 then x else 0.1 * (fns.exp x - 1))
  else (if x > 0 then x else 0.01 * x)

/-- The loop "Apply activation function" (lines 493-557); it stands inside the loop over the
source nodes `i`. `L` is `this.layers.length`. -/
def activationLoop (fns : MathFns) (funcs : Option (List (List String))) (l L : Nat)
    (biases : List Num) (st : LayerAcc) : LayerAcc :=
  (List.range st.currentLayer.length).foldl (fun st j =>
    if !(st.acts.getD j false) then st else
    let v := match biases[j]? with
      | some b => st.currentLayer.getD j 0 + b
      | none => st.currentLayer.getD j 0
    if l < L - 1 then
      let v2 := applyActivation fns (activationFuncName funcs l j) v
      { st with currentLayer := st.currentLayer.set j v2, acts := st.acts.set j (decide (v2 ≠ 0)) }
    else
      { st with currentLayer := st.currentLayer.set j v }) st

/-- The routing branch taken for source node `i` into layer `l` (lines 261-490). -/
def routeStep (s : DPNN) (l i : Nat) (activation : Num) (row : List Num) (prevLen : Nat)
    (st : LayerAcc) : LayerAcc :=
  let expansionLayerCount := s.expansionLayers.length
  let centralLayerCount := s.centralLayers.length
  let contractionLayerCount := s.contractionLayers.length
  let isLastExpansionToFirstCentral := l = expansionLayerCount + 1
  let isLastCentralToFirstContraction := l = expansionLayerCount + centralLayerCount + 1
  let isLastContractionToOutput :=
    l = expansionLayerCount + centralLayerCount + contractionLayerCount + 1
  if isLastExpansionToFirstCentral then directStep l i activation row st
  else if isLastCentralToFirstContraction then directStep l i activation row st
  else if isLastContractionToOutput then directStep l i activation row st
  else if s.layerTypes[l]? = some .expansion then expansionStep l i activation row st
  else if s.layerTypes[l]? = some .central then
    (if l = expansionLayerCount + centralLayerCount then
      halfMeshStep .central l i activation row st
    else centralStep l i activation row st)
  else if s.layerTypes[l]? = some .contraction then
    (if l = s.layers.length - 2 then halfMeshStep .contraction l i activation row st
    else contractionStep l i activation row prevLen st)
  else st

/-- The body of the loop over the source nodes `i` (lines 254-558). -/
def sourceStep (fns : MathFns) (s : DPNN) (l : Nat) (prevLayer : List Num)
    (prevActs : List Bool) (weights : List (List Num)) (biases : List Num)
    (st : LayerAcc) (i : Nat) : LayerAcc :=
  if !(prevActs.getD i false) then st else
  let activation := prevLayer.getD i 0
  match weights[i]? with
  | none => st
  | some row =>
      activationLoop fns s.nodeActivationFuncs l s.layers.length biases
        (routeStep s l i activation row prevLayer.length st)

/-- The loop over the source nodes `i` of layer `l - 1` (lines 250-558), from the cleared
`currentLayer`. -/
def sourceLoop (fns : MathFns) (s : DPNN) (l : Nat) (currentLayer : List Num)
    (weights : List (List Num)) (biases : List Num) : LayerAcc :=
  let prevLayer := s.layers.getD (l - 1) []
  let prevActs := s.activations.getD (l - 1) []
  let st0 : LayerAcc :=
    { currentLayer := List.replicate currentLayer.length 0
      acts := s.activations.getD l []
      paths := s.activePaths
      layerHasActivation := false }
  (List.range prevLayer.length).foldl
    (sourceStep fns s l prevLayer prevActs weights biases) st0

/-- The statement "Ensure at least one node is active" (lines 561-564). -/
def forceActivation (l L : Nat) (st : LayerAcc) : LayerAcc :=
  if !st.layerHasActivation && l < L - 1 then
    { st with currentLayer := st.currentLayer.set 0 0.1, acts := st.acts.set 0 true }
  else st

/-- The body of the loop over the layers `l` (lines 222-565). -/
def layerStep (fns : MathFns) (s : DPNN) (l : Nat) : DPNN :=
  match s.layers[l]?, s.weights[l - 1]?, s.biases[l - 1]? with
  | some currentLayer, some weights, some biases =>
      let st := forceActivation l s.layers.length (sourceLoop fns s l currentLayer weights biases)
      { s with
        layers := s.layers.set l st.currentLayer
        activations := s.activations.set l st.acts
        activePaths := st.paths }
  | _, _, _ => s

/-- The state in which the layer loop of `forward` starts (lines 180-218). -/
def forwardInit (s : DPNN) (input : Input) : DPNN :=
  let safe := safeInput s.inputSize input
  { s with
    activePaths := []
    layers := s.layers.set 0 safe
    activations :=
      (s.layers.map (fun layer => List.replicate layer.length false)).set 0
        (safe.map (fun v => decide (v ≠ 0))) }

/-- The method `forward(input)`: the new state. -/
def forwardState (fns : MathFns) (s : DPNN) (input : Input) : DPNN :=
  (List.range' 1 (s.layers.length - 1)).foldl (layerStep fns) (forwardInit s input)

/-- The method `forward(input)`: its return value, `this.layers[this.layers.length - 1]`. -/
def forward (fns : MathFns) (s : DPNN) (input : Input) : List Num :=
  let s2 := forwardState fns s input
  s2.layers.getD (s2.layers.length - 1) []

/-! ## The constructor -/

/-- The expression `Array(size).fill(0).map(() => Math.random() * a - b)`: `size` draws read
from the cursor `c` on. -/
def randomRow (rnd : Nat → Num) (c size : Nat) (a b : Num) : List Num :=
  (List.range size).map (fun k => rnd (c + k) * a - b)

/-- The expression
`Array.from({ length: rows }, () => Array(cols).fill(0).map(() => Math.random() * 2 - 1))`. -/
def randomMatrix (rnd : Nat → Num) (c rows cols : Nat) : List (List Num) :=
  (List.range rows).map (fun r => randomRow rnd (c + r * cols) cols 2 1)

/-- The local data of the constructor while the layers are pushed: `this.layers`,
`this.weights`, `this.biases`, `prevSize` and the cursor of `Math.random()`. -/
structure Build where
  layers : List (List Num)
  weights : List (List (List Num))
  biases : List (List Num)
  prevSize : Nat
  cursor : Nat

/-- One iteration of the three loops that push a layer (lines 35-45, 48-59, 62-72), and the
push of the output layer (lines 75-79). -/
def pushLayer (rnd : Nat → Num) (b : Build) (size : Nat) : Build :=
  { layers := b.layers ++ [List.replicate size 0]
    weights := b.weights ++ [randomMatrix rnd b.cursor b.prevSize size]
    biases := b.biases ++ [randomRow rnd (b.cursor + b.prevSize * size) size 0.5 0.25]
    prevSize := size
    cursor := b.cursor + b.prevSize * size + size }

/-- The repair of the rows of `this.weights[l]` (lines 97-103). -/
def fixRows (rnd : Nat → Num) (toSize : Nat) :
    List (List Num) → Nat → List (List Num) × Nat
  | [], c => ([], c)
  | row :: rest, c =>
      if row.length ≠ toSize then
        let r := fixRows rnd toSize rest (c + toSize)
        (randomRow rnd c toSize 2 1 :: r.1, r.2)
      else
        let r := fixRows rnd toSize rest c
        (row :: r.1, r.2)

/-- One iteration of the loop that verifies the dimensions (lines 83-111). -/
def verifyDims (rnd : Nat → Num) (b : Build) (l : Nat) : Build :=
  let fromSize := (b.layers.getD l []).length
  let toSize := (b.layers.getD (l + 1) []).length
  let w := b.weights.getD l []
  let wc : List (List Num) × Nat :=
    if w.length ≠ fromSize then (randomMatrix rnd b.cursor fromSize toSize, b.cursor + fromSize * toSize)
    else (w, b.cursor)
  let wr := fixRows rnd toSize wc.1 wc.2
  let bs := b.biases.getD l []
  let bc : List Num × Nat :=
    if bs.length ≠ toSize then (randomRow rnd wr.2 toSize 0.5 0.25, wr.2 + toSize)
    else (bs, wr.2)
  { b with
    weights := b.weights.set l wr.1
    biases := b.biases.set l bc.1
    cursor := bc.2 }

/-- The strings of `this.layerTypes` (lines 128-141). -/
def layerTypeOf (i expansionLen centralLen layersLen : Nat) : LayerType :=
  if i = 0 then .input
  else if i < expansionLen then .expansion
  else if i < expansionLen + centralLen then .central
  else if i < layersLen - 1 then .contraction
  else .output

/-- The constructor `new DPNN(inputSize, hiddenLayers, outputSize)`; `rnd` is the stream of
values returned by `Math.random()`. -/
def DPNN.new (rnd : Nat → Num) (inputSize : Nat) (hiddenLayers : List Nat) (outputSize : Nat) :
    DPNN :=
  let expansionSizes := [inputSize, 8, 16]
  let centralSizes := [16, 16, 16, 16]
  let contractionSizes := [16, 8, outputSize]
  let b0 : Build :=
    { layers := [List.replicate inputSize 0], weights := [], biases := [],
      prevSize := inputSize, cursor := 0 }
  let b1 := (expansionSizes.drop 1).foldl (pushLayer rnd) b0
  let b2 := centralSizes.foldl (pushLayer rnd) b1
  let b3 := (contractionSizes.take (contractionSizes.length - 1)).foldl (pushLayer rnd) b2
  let b4 := pushLayer rnd b3 outputSize
  let b5 := (List.range b4.weights.length).foldl (verifyDims rnd) b4
  { inputSize := inputSize
    outputSize := outputSize
    hiddenLayers := hiddenLayers
    expansionLayers := expansionSizes.drop 1
    centralLayers := centralSizes
    contractionLayers := contractionSizes.take (contractionSizes.length - 1)
    totalLayers := expansionSizes.length - 1 + centralSizes.length + contractionSizes.length - 1
    layers := b5.layers
    weights := b5.weights
    biases := b5.biases
    activations := b5.layers.map (fun layer => List.replicate layer.length false)
    activePaths := []
    nodeConfidence := b5.layers.map (fun layer => List.replicate layer.length 0.5)
    connectionConfidence :=
      (List.range b5.weights.length).map (fun l =>
        List.replicate (b5.weights.getD l []).length
          (List.replicate (b5.layers.getD (l + 1) []).length 0.5))
    layerTypes :=
      (List.range b5.layers.length).map (fun i =>
        layerTypeOf i expansionSizes.length centralSizes.length b5.layers.length)
    learningParams :=
      { baseLearningRate := 0.05, confidenceModifier := 3.0, mutationThreshold := 0.15,
        mutationRate := 0.25, rewardScaling := 2.0 }
    stats :=
      { trainingIterations := 0, lastError := 0, totalReward := 0, rewardCount := 0,
        pathDeletions := 0, nodeMutations := 0 }
    nodeActivationFuncs := none
    activationFunctions := none
    pruningHistory := none }

/-! ## The shape of the diamond -/

/-- The layer sizes of the diamond. -/
def diamondSizes (inputSize outputSize : Nat) : List Nat :=
  [inputSize, 8, 16, 16, 16, 16, 16, 16, 8, outputSize]

/-- The row lengths of the nine matrices between adjacent layers of the diamond: matrix `l` has
`size l` rows of `size (l + 1)` columns. -/
def diamondShape (inputSize outputSize : Nat) : List (List Nat) :=
  [List.replicate inputSize 8, List.replicate 8 16, List.replicate 16 16, List.replicate 16 16,
   List.replicate 16 16, List.replicate 16 16, List.replicate 16 16, List.replicate 16 8,
   List.replicate 8 outputSize]

/-- The stage kinds of the ten layers. -/
def diamondTypes : List LayerType :=
  [.input, .expansion, .expansion, .central, .central, .central, .central, .contraction,
   .contraction, .output]

/-! ## Training: gradients along the recorded paths -/

/-- The read `m[i][j]` of a matrix. -/
def get2 (m : List (List Num)) (i j : Nat) : Num := (m.getD i []).getD j 0

/-- The read `m[l][i][j]`. -/
def get3 (m : List (List (List Num))) (l i j : Nat) : Num := get2 (m.getD l []) i j

/-- The assignment `m[i][j] = v`. -/
def set2 (m : List (List Num)) (i j : Nat) (v : Num) : List (List Num) :=
  m.set i ((m.getD i []).set j v)

/-- The assignment `m[l][i][j] = v`. -/
def set3 (m : List (List (List Num))) (l i j : Nat) (v : Num) : List (List (List Num)) :=
  m.set l (set2 (m.getD l []) i j v)

/-- The argument `target` made an array of the length of the output layer (lines 574-577);
`none` is a target that is not an array. -/
def safeTarget (target : Option (List Num)) (outputLen : Nat) : List Num :=
  let t := target.getD (List.replicate outputLen 0)
  t ++ List.replicate (outputLen - t.length) 0

/-- The array `errors` (lines 580-584). -/
def errorsOf (fns : MathFns) (outputLayer safeTarget : List Num) : List Num :=
  (List.range outputLayer.length).map (fun i =>
    let output := outputLayer.getD i 0
    let error := if i < safeTarget.length then safeTarget.getD i 0 - output else 0
    jsSign error * fns.pow15 |error|)

/-- The entry `pathsByLayer[l] || []` (lines 587-593): the recorded paths of layer `l`, in
their order. -/
def pathsByLayer (s : DPNN) (l : Nat) : List Path :=
  s.activePaths.filter (fun path => path.layer = l)

/-- The arrays `weightGradients` and `biasGradients`. -/
structure Grads where
  weightGradients : List (List (List Num))
  biasGradients : List (List Num)

/-- The zero gradients (lines 596-605). -/
def zeroGrads (s : DPNN) : Grads :=
  { weightGradients := (List.range (s.layers.length - 1)).map (fun l =>
      List.replicate (s.layers.getD l []).length
        (List.replicate (s.layers.getD (l + 1) []).length 0))
    biasGradients := (List.range (s.layers.length - 1)).map (fun l =>
      List.replicate (s.layers.getD (l + 1) []).length 0) }

/-- The gradients of the output layer (lines 608-621). -/
def outputGradients (s : DPNN) (errors : List Num) (g : Grads) : Grads :=
  (List.range (s.layers.getD (s.layers.length - 1) []).length).foldl (fun g j =>
    let g : Grads :=
      { g with biasGradients := set2 g.biasGradients (s.biases.length - 1) j (errors.getD j 0) }
    (pathsByLayer s (s.layers.length - 2)).foldl (fun g path =>
      if path.to_ = j then
        let i := path.from_
        { g with
          weightGradients :=
            set3 g.weightGradients (s.weights.length - 1) i j
              (errors.getD j 0 * get2 s.layers (s.layers.length - 2) i) }
      else g) g) g

/-- One summand of `nodeDelta` (lines 638-669), for a path leaving node `i` of layer `l`. -/
def nodeDeltaStep (s : DPNN) (errors : List Num) (g : Grads) (l i : Nat)
    (nextLayerPaths : List Path) (nodeDelta : Num) (path : Path) : Num :=
  let nextLayerIndex := path.to_
  let nextLayerType := s.layerTypes[l + 1]?
  if nextLayerType = some .output then
    nodeDelta + errors.getD nextLayerIndex 0 * get3 s.weights l i nextLayerIndex
  else if nextLayerType = some .contraction then
    let pathsToNextNode := (nextLayerPaths.filter (fun p => p.to_ = nextLayerIndex)).length
    let averagingFactor : Num := if pathsToNextNode > 0 then 1 / (pathsToNextNode : Num) else 1
    let nextNodeDelta := get2 g.biasGradients l nextLayerIndex
    nodeDelta + nextNodeDelta * get3 s.weights l i nextLayerIndex * averagingFactor
  else
    let nextNodeDelta := get2 g.biasGradients l nextLayerIndex
    if nextLayerType = some .central ∧ path.isPrimary = false then
      nodeDelta + nextNodeDelta * get3 s.weights l i nextLayerIndex * 0.3
    else
      nodeDelta + nextNodeDelta * get3 s.weights l i nextLayerIndex

/-- The body of the loop over the nodes `i` of a hidden layer `l` (lines 627-687). -/
def hiddenNodeGradients (s : DPNN) (errors : List Num) (l : Nat) (g : Grads) (i : Nat) :
    Grads :=
  if !((s.activations.getD l []).getD i false) then g else
  let nextLayerPaths := pathsByLayer s l
  let pathsFromNode := nextLayerPaths.filter (fun path => path.from_ = i)
  let nodeDelta := pathsFromNode.foldl (nodeDeltaStep s errors g l i nextLayerPaths) 0
  let nodeDelta :=
    if s.layerTypes[l]? ≠ some .input then
      nodeDelta * (if get2 s.layers l i > 0 then 1 else 0)
    else nodeDelta
  let g : Grads := { g with biasGradients := set2 g.biasGradients (l - 1) i nodeDelta }
  (pathsByLayer s (l - 1)).foldl (fun g path =>
    if path.to_ = i then
      let h := path.from_
      { g with
        weightGradients :=
          set3 g.weightGradients (l - 1) h i (nodeDelta * get2 s.layers (l - 1) h) }
    else g) g

/-- The gradients computed by `backpropagate` (lines 571-688) and, by the same text, by
`confidenceBasedBackpropagation` (lines 713-830): the errors and the two gradient arrays. -/
def gradients (fns : MathFns) (s : DPNN) (target : Option (List Num)) : List Num × Grads :=
  let outputLayer := s.layers.getD (s.layers.length - 1) []
  let errors := errorsOf fns outputLayer (safeTarget target outputLayer.length)
  let g := outputGradients s errors (zeroGrads s)
  -- for (let l = this.layers.length - 2; l > 0; l--)
  let g := (List.range' 1 (s.layers.length - 2)).reverse.foldl (fun g l =>
    (List.range (s.layers.getD l []).length).foldl (hiddenNodeGradients s errors l) g) g
  (errors, g)

/-- The update of the biases of the active nodes of layer `l + 1` (lines 701-705, 902-906). -/
def updateBiases (s : DPNN) (learningRate : Num) (g : Grads) (l : Nat) : DPNN :=
  (List.range (s.layers.getD (l + 1) []).length).foldl (fun s j =>
    if (s.activations.getD (l + 1) []).getD j false then
      { s with
        biases := set2 s.biases l j
          (get2 s.biases l j + learningRate * get2 g.biasGradients l j) }
    else s) s

/-- The value `errors.reduce((sum, err) => sum + Math.abs(err), 0) / errors.length`. -/
def meanAbsError (errors : List Num) : Num :=
  errors.foldl (fun sum err => sum + |err|) 0 / (errors.length : Num)

/-- The weight update of one recorded path of layer `l` in `backpropagate` (lines 694-698). -/
def gradientStep (g : Grads) (learningRate : Num) (l : Nat) (s : DPNN) (path : Path) : DPNN :=
  let i := path.from_
  let j := path.to_
  { s with
    weights := set3 s.weights l i j
      (get3 s.weights l i j + learningRate * get3 g.weightGradients l i j) }

/-- The body of the loop "Apply gradients" of `backpropagate` (lines 691-706). -/
def applyGradients (g : Grads) (learningRate : Num) (s : DPNN) (l : Nat) : DPNN :=
  updateBiases ((pathsByLayer s l).foldl (gradientStep g learningRate l) s) learningRate g l

/-- The method `backpropagate(target, learningRate)`: the new state and the returned error. -/
def backpropagate (fns : MathFns) (s : DPNN) (target : Option (List Num))
    (learningRate : Num) : DPNN × Num :=
  let eg := gradients fns s target
  let errors := eg.1
  let g := eg.2
  let s2 := (List.range (s.layers.length - 1)).foldl (applyGradients g learningRate) s
  (s2, meanAbsError errors)

/-! ## The integrity guard -/

/-- The method `verifyNetworkIntegrity()` (lines 1046-1152): the new state and the returned
flag (`true` when no issue was found). A `Num` is never `NaN` nor infinite and an existing
array is never falsy, so of the repairs only the two clamps -- of a weight of magnitude above
10 and of a bias of magnitude above 5 -- can fire. -/
def verifyNetworkIntegrity (s : DPNN) : DPNN × Bool :=
  let weights := s.weights.map (fun m => m.map (fun row => row.map (fun w =>
    if |w| > 10 then jsSign w * 5 else w)))
  let biases := s.biases.map (fun row => row.map (fun b =>
    if |b| > 5 then jsSign b * 2 else b))
  let issuesFound :=
    s.weights.any (fun m => m.any (fun row => row.any (fun w => decide (|w| > 10))))
      || s.biases.any (fun row => row.any (fun b => decide (|b| > 5)))
  ({ s with weights := weights, biases := biases }, !issuesFound)

/-! ## Confidence-weighted training -/

/-- The confidence update of one recorded path of layer `l` (lines 838-860). -/
def confidenceStep (g : Grads) (l : Nat) (s : DPNN) (path : Path) : DPNN :=
  if path.layer = l then
    let i := path.from_
    let j := path.to_
    let errorMagnitude := |get3 g.weightGradients l i j|
    if errorMagnitude < 0.1 then
      { s with
        connectionConfidence := set3 s.connectionConfidence l i j
          (min (get3 s.connectionConfidence l i j + 0.01) 1.0) }
    else
      { s with
        connectionConfidence := set3 s.connectionConfidence l i j
          (max (get3 s.connectionConfidence l i j - 0.02 * errorMagnitude) 0.05) }
  else s

/-- The weight update of one recorded path of layer `l` (lines 865-899), with its optional
random mutation; the second component is the cursor of `Math.random()`. The tests
`!isNaN(...) && isFinite(...)` of the source hold of every `Num`. -/
def weightStep (rnd : Nat → Num) (g : Grads) (learningRate : Num) (l : Nat)
    (sc : DPNN × Nat) (path : Path) : DPNN × Nat :=
  let s := sc.1
  let i := path.from_
  let j := path.to_
  let connConfidence := get3 s.connectionConfidence l i j
  let confidenceModifier :=
    (1.0 - connConfidence) ^ 2 * s.learningParams.confidenceModifier + 0.2
  let weightDelta := learningRate * get3 g.weightGradients l i j * confidenceModifier
  let s : DPNN := { s with weights := set3 s.weights l i j (get3 s.weights l i j + weightDelta) }
  if get3 s.connectionConfidence l i j < s.learningParams.mutationThreshold then
    if rnd sc.2 < s.learningParams.mutationRate then
      let mutationStrength :=
        (s.learningParams.mutationThreshold - get3 s.connectionConfidence l i j) * 8
      let mutated := get3 s.weights l i j + (rnd (sc.2 + 1) * 2 - 1) * mutationStrength
      ({ s with weights := set3 s.weights l i j mutated }, sc.2 + 2)
    else (s, sc.2 + 1)
  else (s, sc.2)

/-- The body of the loop "Apply gradients" of `confidenceBasedBackpropagation`
(lines 834-907); the second component is the cursor of `Math.random()`. -/
def applyConfidenceGradients (rnd : Nat → Num) (g : Grads) (learningRate : Num)
    (sc : DPNN × Nat) (l : Nat) : DPNN × Nat :=
  let s := sc.1.activePaths.foldl (confidenceStep g l) sc.1
  let sc2 := (pathsByLayer s l).foldl (weightStep rnd g learningRate l) (s, sc.2)
  (updateBiases sc2.1 learningRate g l, sc2.2)

/-- The method `confidenceBasedBackpropagation(target, learningRate)`: the new state, the
cursor of `Math.random()` and the returned error. -/
def confidenceBasedBackpropagation (fns : MathFns) (rnd : Nat → Num) (cursor : Nat) (s : DPNN)
    (target : Option (List Num)) (learningRate : Num) : DPNN × Nat × Num :=
  let eg := gradients fns s target
  let errors := eg.1
  let g := eg.2
  let sc := (List.range (s.layers.length - 1)).foldl
    (applyConfidenceGradients rnd g learningRate) (s, cursor)
  let lastError := meanAbsError errors
  let stats : Stats :=
    { sc.1.stats with
      trainingIterations := sc.1.stats.trainingIterations + 1
      lastError := lastError }
  let s3 : DPNN := { sc.1 with stats := stats }
  ((verifyNetworkIntegrity s3).1, sc.2, lastError)

/-! ## Structural plasticity -/

/-- The local variables `minConfidence`, `minFrom`, `minTo` of `pruneLeastConfidentConnection`;
`best = none` stands for `minFrom = -1, minTo = -1`. -/
structure MinSearch where
  minConfidence : Num
  best : Option (Nat × Nat)

/-- Membership of the key `i_j` in the set `activatedConnectionsInLayer` (lines 1251-1256). -/
def activatedInLayer (s : DPNN) (layerIdx i j : Nat) : Bool :=
  s.activePaths.any (fun path =>
    decide (path.layer = layerIdx) && decide (path.from_ = i) && decide (path.to_ = j))

/-- The body of the inner loop of the search (lines 1262-1280). -/
def searchStep (s : DPNN) (layerIdx i : Nat) (m : MinSearch) (j : Nat) : MinSearch :=
  if !(activatedInLayer s layerIdx i j) || decide (|get3 s.weights layerIdx i j| < 0.01) then m
  else
    let confidence := get3 s.connectionConfidence layerIdx i j
    if confidence < m.minConfidence ∧ confidence < 0.85 ∧ |get3 s.weights layerIdx i j| > 0.1 then
      { minConfidence := confidence, best := some (i, j) }
    else m

/-- The search loops of `pruneLeastConfidentConnection` (lines 1246-1281); the loop over the
source rows starts at `i = 1`. -/
def searchLeastConfident (s : DPNN) (layerIdx : Nat) (conf : List (List Num)) : MinSearch :=
  (List.range' 1 (conf.length - 1)).foldl (fun m i =>
    match conf[i]? with
    | none => m
    | some row => (List.range row.length).foldl (searchStep s layerIdx i) m)
    { minConfidence := 1.0, best := none }

/-- The object returned by `pruneLeastConfidentConnection`. -/
structure Pruned where
  layer : Nat
  from_ : Nat
  to_ : Nat
  confidence : Num
deriving DecidableEq

/-- The method `pruneLeastConfidentConnection(layerIdx)`: the new state and the returned
object (`none` is `null`). -/
def pruneLeastConfidentConnection (s : DPNN) (layerIdx : Nat) : DPNN × Option Pruned :=
  match s.connectionConfidence[layerIdx]? with
  | none => (s, none)
  | some conf =>
      let m := searchLeastConfident s layerIdx conf
      match m.best with
      | some (minFrom, minTo) =>
          ({ s with
             weights := set3 s.weights layerIdx minFrom minTo 0
             connectionConfidence := set3 s.connectionConfidence layerIdx minFrom minTo 0.1 },
           some ⟨layerIdx, minFrom, minTo, m.minConfidence⟩)
      | none => (s, none)

/-- The object returned by `addRandomConnection` (`boosted` is `type: 'boosted'`, otherwise
`type: 'new'`). -/
structure Added where
  layer : Nat
  from_ : Nat
  to_ : Nat
  weight : Num
  boosted : Bool
deriving DecidableEq

/-- The index `Math.floor(r * n)`. -/
def randomIndex (r : Num) (n : Nat) : Nat := (Int.floor (r * (n : Num))).toNat

/-- The choice of `fromIdx` (lines 1308-1324) or of `toIdx` (lines 1327-1343): with the
candidates `preferred`, one of them with probability 75%, otherwise any index below `total`.
Returns the index and the cursor of `Math.random()`. -/
def chooseIndex (rnd : Nat → Num) (c : Nat) (preferred : List Nat) (total : Nat) : Nat × Nat :=
  if preferred.length > 0 then
    if rnd c < 0.75 then
      (preferred.getD (randomIndex (rnd (c + 1)) preferred.length) 0, c + 2)
    else (randomIndex (rnd (c + 1)) total, c + 2)
  else (randomIndex (rnd c) total, c + 1)

/-- The method `addRandomConnection(layerIdx)`: the new state, the cursor of `Math.random()`
and the returned object (`none` is `null`). -/
def addRandomConnection (rnd : Nat → Num) (c : Nat) (s : DPNN) (layerIdx : Nat) :
    DPNN × Nat × Option Added :=
  match s.weights[layerIdx]? with
  | none => (s, c, none)
  | some w =>
      let activeSourceNodes := (List.range (s.layers.getD layerIdx []).length).filter
        (fun i => (s.activations.getD layerIdx []).getD i false)
      let fc := chooseIndex rnd c activeSourceNodes w.length
      let fromIdx := fc.1
      let inactiveTargetNodes := (List.range (s.layers.getD (layerIdx + 1) []).length).filter
        (fun j => !((s.activations.getD (layerIdx + 1) []).getD j false))
      let tc := chooseIndex rnd fc.2 inactiveTargetNodes (w.getD 0 []).length
      let toIdx := tc.1
      if |get3 s.weights layerIdx fromIdx toIdx| > 0.1 then
        let currentWeight := get3 s.weights layerIdx fromIdx toIdx
        let boostFactor : Num := 1.5
        let boostedWeight := currentWeight * boostFactor
        let confidence :=
          match s.connectionConfidence[layerIdx]? with
          | none => s.connectionConfidence
          | some cl =>
              match cl[fromIdx]? with
              | none => s.connectionConfidence
              | some _ =>
                  set3 s.connectionConfidence layerIdx fromIdx toIdx
                    (min (get3 s.connectionConfidence layerIdx fromIdx toIdx + 0.1) 0.9)
        ({ s with
           weights := set3 s.weights layerIdx fromIdx toIdx boostedWeight
           connectionConfidence := confidence },
         tc.2, some ⟨layerIdx, fromIdx, toIdx, boostedWeight, true⟩)
      else
        let newWeight := (rnd tc.2 * 0.8 + 0.4) * (if rnd (tc.2 + 1) < 0.5 then 1 else -1)
        let confidence :=
          match s.connectionConfidence[layerIdx]? with
          | none => s.connectionConfidence
          | some cl =>
              match cl[fromIdx]? with
              | none => s.connectionConfidence
              | some _ => set3 s.connectionConfidence layerIdx fromIdx toIdx 0.7
        ({ s with
           weights := set3 s.weights layerIdx fromIdx toIdx newWeight
           connectionConfidence := confidence },
         tc.2 + 2, some ⟨layerIdx, fromIdx, toIdx, newWeight, false⟩)

/-- The value of `totalNodes` after the counting loop of `pruneConnections`
(lines 1157-1163). -/
def totalNodes (s : DPNN) : Nat :=
  ((List.range s.layers.length).map (fun l => (s.layers.getD l []).length)).sum

/-- The value of `activeNodes` after the counting loop of `pruneConnections`
(lines 1157-1163). -/
def activeNodes (s : DPNN) : Nat :=
  ((List.range s.layers.length).map (fun l =>
    ((s.activations.getD l []).filter (fun active => active)).length)).sum

/-- The value `activationPercentage` of `pruneConnections` (line 1165). -/
def activationPercentage (s : DPNN) : Num :=
  ((activeNodes s : Num) / (totalNodes s : Num)) * 100

/-- The body of the pruning loop of `pruneConnections` (lines 1183-1202); the second component
is `prunedAny`. -/
def pruneLayerStep (sp : DPNN × Bool) (l : Nat) : DPNN × Bool :=
  let s := sp.1
  if s.layerTypes[l]? = some .central then
    let r := pruneLeastConfidentConnection s l
    match r.2 with
    | some pruned =>
        let s2 := r.1
        let h := s2.pruningHistory.map (fun h =>
          { h with
            prunedConnections := h.prunedConnections + 1
            lastPrunedLayer := (l : Int)
            lastPrunedFrom := (pruned.from_ : Int)
            lastPrunedTo := (pruned.to_ : Int) })
        ({ s2 with
           pruningHistory := h
           weights := set3 s2.weights l pruned.from_ pruned.to_ 0 }, true)
    | none => (r.1, sp.2)
  else sp

/-- The growth loop of `pruneConnections` (lines 1213-1227) over the layers `ls`; it stops
(`break`) after the first connection added. Returns the state and the cursor. -/
def growLoop (rnd : Nat → Num) : List Nat → DPNN → Nat → DPNN × Nat
  | [], s, c => (s, c)
  | l :: rest, s, c =>
      if s.layerTypes[l]? = some .central then
        let r := addRandomConnection rnd c s l
        match r.2.2 with
        | some _ =>
            let s2 := r.1
            let h := s2.pruningHistory.map (fun h =>
              { h with addedConnections := h.addedConnections + 1 })
            ({ s2 with pruningHistory := h, activePaths := [] }, r.2.1)
        | none => growLoop rnd rest r.1 r.2.1
      else growLoop rnd rest s c

/-- The method `pruneConnections()`: the new state, the cursor of `Math.random()` and the
returned activation percentage. -/
def pruneConnections (rnd : Nat → Num) (c : Nat) (s0 : DPNN) : DPNN × Nat × Num :=
  let pct := activationPercentage s0
  let s : DPNN :=
    match s0.pruningHistory with
    | some _ => s0
    | none =>
        let h0 : PruningHistory :=
          { prunedConnections := 0, addedConnections := 0, lastPrunedLayer := -1,
            lastPrunedFrom := -1, lastPrunedTo := -1, lastActivationPercentage := pct }
        { s0 with pruningHistory := some h0 }
  let sc : DPNN × Nat :=
    if pct > 30 then
      let sp := (List.range' 4 (s.layers.length - 1 - 4)).foldl pruneLayerStep (s, false)
      if sp.2 then ({ sp.1 with activePaths := [] }, c) else (sp.1, c)
    else if pct < 20 then
      growLoop rnd (List.range (s.layers.length - 1)) s c
    else (s, c)
  let h := sc.1.pruningHistory.map (fun h => { h with lastActivationPercentage := pct })
  ({ sc.1 with pruningHistory := h }, sc.2, pct)

/-! ## Confidence update from a reward -/

/-- The ways in which a call can fail to complete: a `TypeError` (a property read on
`undefined`), or a loop that the given fuel did not see end. -/
inductive Err where
  | typeError
  | outOfFuel
deriving DecidableEq

/-- The insertion `set.add(key)` into a `Set` kept in insertion order. -/
def setAdd (xs : List (Nat × Nat)) (key : Nat × Nat) : List (Nat × Nat) :=
  if key ∈ xs then xs else xs ++ [key]

/-- The local data of the loop over the fired paths: the state, `firedNodes` and
`pathsToDelete`. -/
structure RewardAcc where
  s : DPNN
  firedNodes : List (Nat × Nat)
  pathsToDelete : List (Nat × Nat × Nat)

/-- The new confidence of a fired connection under a positive reward (lines 1499-1511). -/
def raisedConfidence (reward currentConfidence : Num) : Num :=
  let minConfidenceChange : Num := 0.001
  let confidenceChange := max (reward * 0.1) minConfidenceChange
  let remainingRoom := 1.0 - currentConfidence
  min 1.0 (currentConfidence + confidenceChange * remainingRoom)

/-- The body of the loop over `this.activePaths` (lines 1481-1521). -/
def rewardPathStep (reward : Num) (a : RewardAcc) (path : Path) : RewardAcc :=
  let layerIdx := path.layer
  let fromIdx := path.from_
  let toIdx := path.to_
  let fired := setAdd (setAdd a.firedNodes (layerIdx, fromIdx)) (layerIdx + 1, toIdx)
  match (a.s.connectionConfidence.getD layerIdx [])[fromIdx]? with
  | none => { a with firedNodes := fired }
  | some row =>
      match row[toIdx]? with
      | none => { a with firedNodes := fired }
      | some currentConfidence =>
          if reward > 0 then
            let raised := set3 a.s.connectionConfidence layerIdx fromIdx toIdx
              (raisedConfidence reward currentConfidence)
            { a with
              firedNodes := fired
              s := { a.s with connectionConfidence := raised } }
          else
            let minConfidenceChange : Num := 0.001
            let confidenceChange := min (reward * 0.1) (-minConfidenceChange)
            let lowered := currentConfidence + confidenceChange
            let conf := set3 a.s.connectionConfidence layerIdx fromIdx toIdx lowered
            { firedNodes := fired
              s := { a.s with connectionConfidence := conf }
              pathsToDelete :=
                if lowered < 0 then a.pathsToDelete ++ [(layerIdx, fromIdx, toIdx)]
                else a.pathsToDelete }

/-- The deletion of one path of `pathsToDelete` (lines 1524-1532). -/
def deletePath (s : DPNN) (path : Nat × Nat × Nat) : DPNN :=
  { s with
    weights := set3 s.weights path.1 path.2.1 path.2.2 0
    connectionConfidence := set3 s.connectionConfidence path.1 path.2.1 path.2.2 0 }

/-- The body of the loop over `firedNodes` (lines 1538-1571); the second component is
`nodesToMutate`. -/
def rewardNodeStep (reward : Num) (sn : DPNN × List (Nat × Nat)) (node : Nat × Nat) :
    DPNN × List (Nat × Nat) :=
  let s := sn.1
  let layerIdx := node.1
  let nodeIdx := node.2
  match (s.nodeConfidence.getD layerIdx [])[nodeIdx]? with
  | none => sn
  | some currentNodeConfidence =>
      let minConfidenceChange : Num := 0.001
      if reward > 0 then
        let nodeConfidenceChange := max (reward * 0.05) minConfidenceChange
        let remainingRoom := 1.0 - currentNodeConfidence
        let raised := min 1.0 (currentNodeConfidence + nodeConfidenceChange * remainingRoom)
        ({ s with nodeConfidence := set2 s.nodeConfidence layerIdx nodeIdx raised }, sn.2)
      else
        let nodeConfidenceChange := min (reward * 0.05) (-minConfidenceChange)
        let lowered := currentNodeConfidence + nodeConfidenceChange
        ({ s with nodeConfidence := set2 s.nodeConfidence layerIdx nodeIdx lowered },
          if lowered < 0 then sn.2 ++ [(layerIdx, nodeIdx)] else sn.2)

/-- The array `availableActivations` (line 1579). -/
def availableActivations : List String := ["relu", "sigmoid", "tanh", "leakyRelu", "swish"]

/-- The `do ... while (newActivation === currentActivation)` loop (lines 1582-1584), run for at
most `fuel` draws: the name chosen and the cursor of `Math.random()`. A name that is not a
string (`undefined`) is `none`. -/
def pickActivation (rnd : Nat → Num) (currentActivation : Option String) :
    Nat → Nat → Option (Option String × Nat)
  | 0, _ => none
  | fuel + 1, c =>
      let newActivation :=
        availableActivations[randomIndex (rnd c) availableActivations.length]?
      if newActivation = currentActivation then pickActivation rnd currentActivation fuel (c + 1)
      else some (newActivation, c + 1)

/-- The assignment `a[i][j] = name` on `this.activationFunctions`; past the end of the row it
lengthens the row, the holes reading as `undefined`. -/
def setName (a : List (List (Option String))) (i j : Nat) (name : Option String) :
    List (List (Option String)) :=
  let row := a.getD i []
  let row2 :=
    if j < row.length then row.set j name
    else row ++ List.replicate (j - row.length) none ++ [name]
  a.set i row2

/-- The body of the loop over `nodesToMutate` (lines 1574-1594). The field
`this.activationFunctions` is read before anything else: the read throws a `TypeError` when the
field, or its row `node.layerIdx`, is `undefined`. -/
def mutateNode (rnd : Nat → Num) (fuel : Nat) (sc : DPNN × Nat) (node : Nat × Nat) :
    Except Err (DPNN × Nat) :=
  let s := sc.1
  match s.activationFunctions with
  | none => .error .typeError
  | some funcs =>
      match funcs[node.1]? with
      | none => .error .typeError
      | some row =>
          let currentActivation := (row[node.2]?).join
          match pickActivation rnd currentActivation fuel sc.2 with
          | none => .error .outOfFuel
          | some (newActivation, c) =>
              .ok ({ s with
                     activationFunctions := some (setName funcs node.1 node.2 newActivation)
                     nodeConfidence := set2 s.nodeConfidence node.1 node.2 0.5 }, c)

/-- The loop over `nodesToMutate`. -/
def mutateNodes (rnd : Nat → Num) (fuel : Nat) :
    List (Nat × Nat) → DPNN × Nat → Except Err (DPNN × Nat)
  | [], sc => .ok sc
  | node :: rest, sc =>
      match mutateNode rnd fuel sc node with
      | .error e => .error e
      | .ok sc2 => mutateNodes rnd fuel rest sc2

/-- The table `directionToOutputIdx` (lines 1600-1605). -/
def directionToOutputIdx (direction : String) : Option Nat :=
  if direction = "up" then some 0
  else if direction = "right" then some 1
  else if direction = "down" then some 2
  else if direction = "left" then some 3
  else none

/-- The body of the loop that penalises the connections into the output node of a wrong move
(lines 1612-1636). -/
def penaltyStep (reward : Num) (outputLayerIdx outputIdx : Nat) (s : DPNN) (i : Nat) : DPNN :=
  if |get3 s.weights outputLayerIdx i outputIdx| > 0.1 then
    let minConfidenceChange : Num := 0.001
    let penaltyChange := min (-minConfidenceChange * 2) (-|reward| * 0.2)
    let c := get3 s.connectionConfidence outputLayerIdx i outputIdx + penaltyChange
    let s : DPNN :=
      if c < 0 then
        { s with
          weights := set3 s.weights outputLayerIdx i outputIdx 0
          connectionConfidence := set3 s.connectionConfidence outputLayerIdx i outputIdx 0 }
      else
        { s with
          connectionConfidence := set3 s.connectionConfidence outputLayerIdx i outputIdx c }
    let n := get2 s.nodeConfidence (outputLayerIdx + 1) outputIdx + penaltyChange / 2
    { s with
      nodeConfidence :=
        set2 s.nodeConfidence (outputLayerIdx + 1) outputIdx (if n < 0 then 0.5 else n) }
  else s

/-- The method `updateConfidenceFromReward(reward, direction)`: the new state and the cursor of
`Math.random()`, or the failure of the call. `direction = none` is a falsy direction; `fuel`
bounds each `do ... while` loop. -/
def updateConfidenceFromReward (rnd : Nat → Num) (fuel : Nat) (c : Nat) (s : DPNN)
    (reward : Num) (direction : Option String) : Except Err (DPNN × Nat) :=
  let a := s.activePaths.foldl (rewardPathStep reward)
    { s := s, firedNodes := [], pathsToDelete := [] }
  let s1 := a.pathsToDelete.foldl deletePath a.s
  let sn := a.firedNodes.foldl (rewardNodeStep reward) (s1, [])
  match mutateNodes rnd fuel sn.2 (sn.1, c) with
  | .error e => .error e
  | .ok sc =>
      let s2 := sc.1
      let s3 :=
        match direction with
        | none => s2
        | some d =>
            if reward < 0 then
              match directionToOutputIdx d with
              | none => s2
              | some outputIdx =>
                  let outputLayerIdx := s2.layers.length - 2
                  (List.range (s2.weights.getD outputLayerIdx []).length).foldl
                    (penaltyStep reward outputLayerIdx outputIdx) s2
            else s2
      let stats : Stats :=
        { s3.stats with
          trainingIterations := s3.stats.trainingIterations + 1
          pathDeletions := s3.stats.pathDeletions + a.pathsToDelete.length
          nodeMutations := s3.stats.nodeMutations + sn.2.length }
      .ok ({ s3 with stats := stats }, sc.2)

/-! ## Training entry point and persistence -/

/-- The array `targetOutput` that `train` derives from a reward (lines 937-945, 969-977). -/
def rewardTarget (outputLayer : List Num) (reward : Num) : List Num :=
  (List.range outputLayer.length).map (fun i =>
    if reward > 0 then max (outputLayer.getD i 0) 0.7
    else if outputLayer.getD i 0 > 0.4 then 0 else 1)

/-- The reward branch of `train` (lines 929-951, 961-983): the statistics are updated, then
`confidenceBasedBackpropagation` runs on the derived target. -/
def trainReward (fns : MathFns) (rnd : Nat → Num) (c : Nat) (s : DPNN) (reward : Num) :
    DPNN × Nat × Num :=
  let baseLearningRate := s.learningParams.baseLearningRate
  let stats : Stats :=
    { s.stats with
      totalReward := s.stats.totalReward + reward
      rewardCount := s.stats.rewardCount + 1 }
  let s1 : DPNN := { s with stats := stats }
  let outputLayer := s1.layers.getD (s1.layers.length - 1) []
  let targetOutput := rewardTarget outputLayer reward
  let reinforcementRate := |reward| * baseLearningRate * s1.learningParams.rewardScaling
  confidenceBasedBackpropagation fns rnd c s1 (some targetOutput) reinforcementRate

/-- The second argument of `train`: a number (a reward) or anything else, passed on as the
target (`vector none` is a target that is not an array). -/
inductive TrainTarget where
  | reward (r : Num)
  | vector (t : Option (List Num))

/-- The arguments of `train(input, target)`: a first argument that is a number is a reward and
nothing else is read; otherwise it is the input of a forward pass. -/
inductive TrainArgs where
  | rewardOnly (reward : Num)
  | sample (input : Input) (target : TrainTarget)

/-- The method `train(input, target)` (lines 920-988): the new state, the cursor of
`Math.random()` and the returned error. -/
def train (fns : MathFns) (rnd : Nat → Num) (c : Nat) (s : DPNN) : TrainArgs → DPNN × Nat × Num
  | .rewardOnly reward => trainReward fns rnd c s reward
  | .sample input target =>
      let s1 := forwardState fns s input
      match target with
      | .reward r => trainReward fns rnd c s1 r
      | .vector t =>
          confidenceBasedBackpropagation fns rnd c s1 t (s1.learningParams.baseLearningRate * 1.5)

/-- The object `modelData` that `saveModel` stores (script.js, lines 484-491); the text written
by `JSON.stringify` and read back by `JSON.parse` holds the same finite numbers. -/
structure Snapshot where
  weights : List (List (List Num))
  biases : List (List Num)
  nodeConfidence : List (List Num)
  connectionConfidence : List (List (List Num))
  learningParams : LearningParams
  stats : Stats

/-- The function `saveModel(name)` (script.js, lines 480-500): the snapshot stored. -/
def saveModel (nn : DPNN) : Snapshot :=
  { weights := nn.weights, biases := nn.biases, nodeConfidence := nn.nodeConfidence,
    connectionConfidence := nn.connectionConfidence, learningParams := nn.learningParams,
    stats := nn.stats }

/-- The function `loadModel(key)` (script.js, lines 502-521): the network `nn` after the call
and the returned flag. `stored = none` is a key under which nothing is stored, or a text that
`JSON.parse` rejects. -/
def loadModel (rnd : Nat → Num) (stored : Option Snapshot) (nn : DPNN) : DPNN × Bool :=
  match stored with
  | none => (nn, false)
  | some modelData =>
      let newNN := DPNN.new rnd 4 [] 4
      ({ newNN with
         weights := modelData.weights
         biases := modelData.biases
         nodeConfidence := modelData.nodeConfidence
         connectionConfidence := modelData.connectionConfidence
         learningParams := modelData.learningParams
         stats := modelData.stats }, true)

/-! ## The integrity guard on JavaScript numbers

`verifyNetworkIntegrity` is the one method whose purpose is the repair of values that are not
finite, which a `Num` cannot be. This section embeds the method a second time, over numbers
that may be `NaN` or infinite. -/

/-- A JavaScript number: a finite value, `NaN`, `Infinity` or `-Infinity`. -/
inductive JSNumber where
  | fin (q : Num)
  | nan
  | posInf
  | negInf
deriving DecidableEq

/-- The negation of the test `isNaN(x) || !isFinite(x)`. -/
def JSNumber.finite : JSNumber → Bool
  | .fin _ => true
  | _ => false

/-- The test `Math.abs(x) > b`, which is `false` of `NaN`. -/
def JSNumber.absGt (x : JSNumber) (b : Num) : Bool :=
  match x with
  | .fin q => decide (|q| > b)
  | .nan => false
  | .posInf => true
  | .negInf => true

/-- The value `Math.sign(x) * k` for a finite `k > 0`. -/
def JSNumber.signTimes (x : JSNumber) (k : Num) : JSNumber :=
  match x with
  | .fin q => .fin (jsSign q * k)
  | .nan => .nan
  | .posInf => .fin k
  | .negInf => .fin (-k)

/-- The local data of the guard: the cursor of `Math.random()` and `issuesFound`. -/
structure GuardAcc where
  cursor : Nat
  issuesFound : Bool
deriving DecidableEq

/-- A loop over an array that rewrites each element and threads the local data. -/
def mapAcc {α β σ : Type} (f : σ → α → β × σ) : σ → List α → List β × σ
  | a, [] => ([], a)
  | a, x :: xs =>
      let r := f a x
      let rs := mapAcc f r.2 xs
      (r.1 :: rs.1, rs.2)

/-- The check of one layer value (lines 1052-1056). -/
def guardValue (a : GuardAcc) (x : JSNumber) : JSNumber × GuardAcc :=
  if !x.finite then (.fin 0, { a with issuesFound := true }) else (x, a)

/-- The checks of one weight (lines 1065-1083): the new weight, and whether the confidence of
the connection is reset. -/
def guardWeight (rnd : Nat → Num) (a : GuardAcc) (w : JSNumber) :
    (JSNumber × Bool) × GuardAcc :=
  let nonFinite := !w.finite
  let w1 := if nonFinite then JSNumber.fin (rnd a.cursor * 2 - 1) else w
  let a1 : GuardAcc := if nonFinite then { cursor := a.cursor + 1, issuesFound := true } else a
  if w1.absGt 10 then ((w1.signTimes 5, nonFinite), { a1 with issuesFound := true })
  else ((w1, nonFinite), a1)

/-- The checks of one bias (lines 1097-1114): the new bias, and whether the confidence of the
node is reset. -/
def guardBias (rnd : Nat → Num) (a : GuardAcc) (b : JSNumber) :
    (JSNumber × Bool) × GuardAcc :=
  let nonFinite := !b.finite
  let b1 := if nonFinite then JSNumber.fin (rnd a.cursor * 0.5 - 0.25) else b
  let a1 : GuardAcc := if nonFinite then { cursor := a.cursor + 1, issuesFound := true } else a
  if b1.absGt 5 then ((b1.signTimes 2, nonFinite), { a1 with issuesFound := true })
  else ((b1, nonFinite), a1)

/-- The check of one confidence (lines 1122-1126, 1139-1143). -/
def guardConfidence (a : GuardAcc) (x : JSNumber) : JSNumber × GuardAcc :=
  if !x.finite then (.fin 0.5, { a with issuesFound := true }) else (x, a)

/-- The assignments `row[j] = 0.5` for the indices `j` flagged in `flags` (lines 1071-1074,
1103-1105). A flagged index past the end of `row` would make the array sparse; the model leaves
the row as it is there. -/
def resetRow : List Bool → List JSNumber → List JSNumber
  | f :: fs, x :: xs => (if f then .fin 0.5 else x) :: resetRow fs xs
  | _, row => row

/-- The resets of a matrix of confidences, row by row; a row of flags without a row of
confidences (`!this.connectionConfidence[l][i]`) resets nothing. -/
def resetMatrix : List (List Bool) → List (List JSNumber) → List (List JSNumber)
  | fs :: fss, row :: rows => resetRow fs row :: resetMatrix fss rows
  | _, rows => rows

/-- The resets of the connection confidences, matrix by matrix. -/
def resetAll : List (List (List Bool)) → List (List (List JSNumber)) →
    List (List (List JSNumber))
  | fs :: fss, m :: ms => resetMatrix fs m :: resetAll fss ms
  | _, ms => ms

/-- The arrays that `verifyNetworkIntegrity` reads and repairs. -/
structure GuardState where
  layers : List (List JSNumber)
  weights : List (List (List JSNumber))
  biases : List (List JSNumber)
  nodeConfidence : List (List JSNumber)
  connectionConfidence : List (List (List JSNumber))
deriving DecidableEq

/-- The method `verifyNetworkIntegrity()` (lines 1046-1152) on JavaScript numbers: the repaired
arrays, the cursor of `Math.random()` and the returned flag `!issuesFound`. Every array is
present (the branch "Missing bias array" is not taken). -/
def verifyNetworkIntegrityJS (rnd : Nat → Num) (c : Nat) (s : GuardState) :
    GuardState × Nat × Bool :=
  let a0 : GuardAcc := { cursor := c, issuesFound := false }
  let ls := mapAcc (mapAcc guardValue) a0 s.layers
  let ws := mapAcc (mapAcc (mapAcc (guardWeight rnd))) ls.2 s.weights
  let weights := ws.1.map (fun m => m.map (fun row => row.map (fun p => p.1)))
  let resets := ws.1.map (fun m => m.map (fun row => row.map (fun p => p.2)))
  let conf1 := resetAll resets s.connectionConfidence
  let bs := mapAcc (mapAcc (guardBias rnd)) ws.2 s.biases
  let biases := bs.1.map (fun row => row.map (fun p => p.1))
  let nodeResets := bs.1.map (fun row => row.map (fun p => p.2))
  -- the bias array `l` resets the confidences of the nodes of layer `l + 1`
  let node1 :=
    match s.nodeConfidence with
    | [] => []
    | first :: rest => first :: resetMatrix nodeResets rest
  let ns := mapAcc (mapAcc guardConfidence) bs.2 node1
  let cs := mapAcc (mapAcc (mapAcc guardConfidence)) ns.2 conf1
  ({ layers := ls.1, weights := weights, biases := biases, nodeConfidence := ns.1,
     connectionConfidence := cs.1 }, cs.2.cursor, !cs.2.issuesFound)

/-! ## Invariants of `forward` -/

/-- The accumulator `st2` arises from `st` by finitely many contributions of source node `i`
into layer `l`: each one targets an index `j` of the current layer and records, if anything, a
path `(l - 1, i, j)`. -/
inductive Contribs (l i : Nat) (st : LayerAcc) : LayerAcc → Prop where
  | refl : Contribs l i st st
  | step (st2 : LayerAcc) (j : Nat) (c : Num) (p : Option Path) :
      Contribs l i st st2 → j < st2.currentLayer.length →
      (∀ q, p = some q → q.layer = l - 1 ∧ q.from_ = i ∧ q.to_ = j) →
      Contribs l i st (contribute st2 j c p)

/-- The invariant of the loop over the source nodes of layer `l` (`L` layers in all, `n` nodes
in layer `l`, `prevLen` in layer `l - 1`, `old` the paths recorded for the earlier layers):
every new path joins a source of layer `l - 1` to a node of layer `l`, which is flagged active
when `l` is the output layer; and a node that is not flagged holds the value `0`. -/
structure AccInv (l L prevLen n : Nat) (old : List Path) (st : LayerAcc) : Prop where
  curLen : st.currentLayer.length = n
  actsLen : st.acts.length = n
  paths : ∀ p ∈ st.paths, p ∈ old ∨
    (p.layer = l - 1 ∧ p.from_ < prevLen ∧ p.to_ < n
      ∧ (¬ l < L - 1 → st.acts.getD p.to_ false = true))
  flagOrZero : ∀ j, st.acts.getD j false = true ∨ st.currentLayer.getD j 0 = 0

/-- What holds of a recorded path `p` in the state `s`: it joins a node of layer `p.layer` to
a node of the next layer; that node is flagged active or holds the value `0`; and it is
flagged active when it is a node of the output layer. -/
def PathOK (s : DPNN) (p : Path) : Prop :=
  p.layer + 1 < s.layers.length
    ∧ p.from_ < (s.layers.getD p.layer []).length
    ∧ p.to_ < (s.layers.getD (p.layer + 1) []).length
    ∧ ((s.activations.getD (p.layer + 1) []).getD p.to_ false = true
        ∨ (s.layers.getD (p.layer + 1) []).getD p.to_ 0 = 0)
    ∧ (p.layer + 2 = s.layers.length →
        (s.activations.getD (p.layer + 1) []).getD p.to_ false = true)

/-- The invariant of the loop over the layers of `forward`, before layer `k` is computed. -/
structure FwdInv (k : Nat) (s : DPNN) : Prop where
  actsLength : s.activations.length = s.layers.length
  actsLen : ∀ m, (s.activations.getD m []).length = (s.layers.getD m []).length
  paths : ∀ p ∈ s.activePaths, p.layer + 1 < k ∧ PathOK s p

/-- The states `s` and `s2` differ at most in `layers`, `activations` and `activePaths`, the
three fields that `forward` writes. -/
def SameParams (s s2 : DPNN) : Prop :=
  s2.inputSize = s.inputSize ∧ s2.outputSize = s.outputSize ∧ s2.hiddenLayers = s.hiddenLayers
    ∧ s2.expansionLayers = s.expansionLayers ∧ s2.centralLayers = s.centralLayers
    ∧ s2.contractionLayers = s.contractionLayers ∧ s2.totalLayers = s.totalLayers
    ∧ s2.weights = s.weights ∧ s2.biases = s.biases
    ∧ s2.nodeConfidence = s.nodeConfidence
    ∧ s2.connectionConfidence = s.connectionConfidence
    ∧ s2.layerTypes = s.layerTypes ∧ s2.learningParams = s.learningParams
    ∧ s2.stats = s.stats ∧ s2.nodeActivationFuncs = s.nodeActivationFuncs
    ∧ s2.activationFunctions = s.activationFunctions
    ∧ s2.pruningHistory = s.pruningHistory

/-- The shape invariant of a network: the ten layers of the diamond, with every array of the
state of the matching dimensions. -/
def WF (s : DPNN) : Prop :=
  s.expansionLayers = [8, 16] ∧ s.centralLayers = [16, 16, 16, 16]
    ∧ s.contractionLayers = [16, 8]
    ∧ s.layerTypes = diamondTypes
    ∧ s.layers.map List.length = diamondSizes s.inputSize s.outputSize
    ∧ s.activations.map List.length = diamondSizes s.inputSize s.outputSize
    ∧ s.nodeConfidence.map List.length = diamondSizes s.inputSize s.outputSize
    ∧ s.weights.map (fun m => m.map List.length) = diamondShape s.inputSize s.outputSize
    ∧ s.connectionConfidence.map (fun m => m.map List.length)
        = diamondShape s.inputSize s.outputSize
    ∧ s.biases.map List.length = (diamondSizes s.inputSize s.outputSize).drop 1

instance (s : DPNN) : Decidable (WF s) := by
  unfold WF
  infer_instance

/-- The connection `(l, i, j)` is no entry of the recorded paths `ps`. -/
def Unrecorded (ps : List Path) (l i j : Nat) : Prop :=
  ∀ p ∈ ps, ¬ (p.layer = l ∧ p.from_ = i ∧ p.to_ = j)

/-- What the training loops keep, for a connection `(l, i, j)` that is not recorded: its
weight, its confidence and the list of recorded paths. -/
def KeepsEntry (s : DPNN) (l i j : Nat) (s2 : DPNN) : Prop :=
  get3 s2.weights l i j = get3 s.weights l i j
    ∧ get3 s2.connectionConfidence l i j = get3 s.connectionConfidence l i j
    ∧ s2.activePaths = s.activePaths

/-- The number of nonzero weights of a matrix. -/
def nonzeroCount (m : List (List Num)) : Nat :=
  (m.map (fun row => row.countP (fun w => decide (w ≠ 0)))).sum

/-- The number of nonzero weights in the matrices `ws`, numbered from `l` on, that leave a
central layer. -/
def centralNonzeroFrom (types : List LayerType) : Nat → List (List (List Num)) → Nat
  | _, [] => 0
  | l, m :: rest =>
      (if types[l]? = some .central then nonzeroCount m else 0)
        + centralNonzeroFrom types (l + 1) rest

/-- The number of nonzero central-layer weights of a state. -/
def centralNonzero (s : DPNN) : Nat := centralNonzeroFrom s.layerTypes 0 s.weights

/-- The connection `(l, i, j)` is one that `pruneLeastConfidentConnection` may remove: it is
recorded in `activePaths`, its confidence is below 0.85 and its weight has a magnitude above
0.1. -/
def Prunable (s : DPNN) (l i j : Nat) : Prop :=
  activatedInLayer s l i j = true ∧ get3 s.connectionConfidence l i j < 0.85
    ∧ |get3 s.weights l i j| > 0.1

/-- Successive calls `updateConfidenceFromReward(reward, direction)`, `n` of them. -/
def repeatReward (rnd : Nat → Num) (fuel : Nat) (reward : Num) (direction : Option String) :
    Nat → DPNN × Nat → Except Err (DPNN × Nat)
  | 0, sc => .ok sc
  | n + 1, sc =>
      match repeatReward rnd fuel reward direction n sc with
      | .error e => .error e
      | .ok sc2 => updateConfidenceFromReward rnd fuel sc2.2 sc2.1 reward direction

/-- What the update from a positive reward keeps: a confidence that was at most `1` in `s` has
not decreased and is still at most `1`. -/
def Raised (s s2 : DPNN) : Prop :=
  ∀ l i j, get3 s.connectionConfidence l i j ≤ 1 →
    get3 s.connectionConfidence l i j ≤ get3 s2.connectionConfidence l i j
      ∧ get3 s2.connectionConfidence l i j ≤ 1

/-- The entry `m[l][i][j]` exists. -/
def InRange (m : List (List (List Num))) (l i j : Nat) : Prop :=
  l < m.length ∧ i < (m.getD l []).length ∧ j < ((m.getD l []).getD i []).length

/-- The invariant of the search of `pruneLeastConfidentConnection(l)` in the confidence matrix
`conf`: the connection found so far, if any, is prunable, leaves a source `i ≥ 1`, exists in
`conf`, and `minConfidence` is its confidence. -/
def SearchInv (s : DPNN) (l : Nat) (conf : List (List Num)) (m : MinSearch) : Prop :=
  ∀ i j, m.best = some (i, j) →
    Prunable s l i j ∧ 1 ≤ i ∧ m.minConfidence = get3 s.connectionConfidence l i j
      ∧ i < conf.length ∧ j < (conf.getD i []).length

/-- What one call `pruneLeastConfidentConnection(l)` does to the state `s`: nothing, or it
removes the prunable connection `(l, i, j)` that it returns. -/
def PruneOutcome (s : DPNN) (l : Nat) (r : DPNN × Option Pruned) : Prop :=
  (r.2 = none ∧ r.1 = s)
    ∨ ∃ i j, r.2 = some ⟨l, i, j, get3 s.connectionConfidence l i j⟩
        ∧ Prunable s l i j ∧ 1 ≤ i ∧ InRange s.connectionConfidence l i j
        ∧ r.1 = { s with
                  weights := set3 s.weights l i j 0
                  connectionConfidence := set3 s.connectionConfidence l i j 0.1 }

/-- The invariant of the pruning loop of `pruneConnections`, started in the state `s`, before
the matrix `k` is treated; `sp.2` is `prunedAny`. -/
structure PruneInv (s : DPNN) (k : Nat) (sp : DPNN × Bool) : Prop where
  paths : sp.1.activePaths = s.activePaths
  types : sp.1.layerTypes = s.layerTypes
  later : ∀ l, k ≤ l → sp.1.weights.getD l [] = s.weights.getD l []
    ∧ sp.1.connectionConfidence.getD l [] = s.connectionConfidence.getD l []
  changed : ∀ l i j,
    (get3 sp.1.weights l i j ≠ get3 s.weights l i j
      ∨ get3 sp.1.connectionConfidence l i j ≠ get3 s.connectionConfidence l i j) →
    s.layerTypes[l]? = some .central ∧ 1 ≤ i ∧ Prunable s l i j
      ∧ get3 sp.1.weights l i j = 0 ∧ get3 sp.1.connectionConfidence l i j = 0.1
  count : centralNonzero sp.1 ≤ centralNonzero s
  strict : sp.2 = true → centralNonzero sp.1 < centralNonzero s
  same : sp.2 = false →
    sp.1.weights = s.weights ∧ sp.1.connectionConfidence = s.connectionConfidence
  biases : sp.1.biases = s.biases ∧ sp.1.nodeConfidence = s.nodeConfidence
    ∧ sp.1.layers = s.layers
  ge : 4 ≤ k
  region : ∀ l i j, get3 sp.1.weights l i j ≠ get3 s.weights l i j → 4 ≤ l ∧ l < k
  single : ∀ l i j i2 j2, get3 sp.1.weights l i j ≠ get3 s.weights l i j →
    get3 sp.1.weights l i2 j2 ≠ get3 s.weights l i2 j2 → i = i2 ∧ j = j2

/-! ## Sample data -/

/-- Stand-ins for the functions of `Math`, for the evaluation of examples. -/
def sampleFns : MathFns := { exp := fun x => 1 + x, tanh := fun x => x, pow15 := fun x => x }

/-- The network built by the constructor when every call of `Math.random()` returns `0.5`:
all its weights and biases are `0`. -/
def zeroNet : DPNN := DPNN.new (fun _ => 1 / 2) 4 [] 4

/-- The network built by the constructor when every call of `Math.random()` returns `0.9`:
all its weights are `0.8` and all its biases `0.2`. -/
def sampleNet : DPNN := DPNN.new (fun _ => 9 / 10) 4 [] 4

/-- The state after a forward pass of `sampleNet` on the input `[1, 1, 0, 0]`. -/
def sampleState : DPNN :=
  forwardState sampleFns sampleNet (.array [.num 1, .num 1, .num 0, .num 0])

instance (ps : List Path) (l i j : Nat) : Decidable (Unrecorded ps l i j) := by
  unfold Unrecorded
  infer_instance

/-- The network `sampleNet` with the nodes of layers 0, 1 and 2 flagged active and no other:
28 of the 120 nodes. -/
def bandState : DPNN :=
  { sampleNet with
    activations := (List.range 10).map (fun l =>
      List.replicate ((diamondSizes 4 4).getD l 0) (decide (l < 3))) }

/-- The state after a forward pass of `zeroNet` on the input `[1, 0, 0, 0]`. -/
def zeroState : DPNN :=
  forwardState sampleFns zeroNet (.array [.num 1, .num 0, .num 0, .num 0])

/-- The network `sampleNet` with every connection confidence raised to `1`, the cap of the
confidence updates. -/
def confidentNet : DPNN :=
  { sampleNet with
    connectionConfidence := sampleNet.connectionConfidence.map (fun m =>
      m.map (fun row => row.map (fun _ => 1))) }

/-- The state after a forward pass on the input `[1, 0, 0, 0]` of the all-zero network in
which the weight of the connection `(4, 0, 0)` is `0.5`: the pass records the path
`(4, 0, 0)`, and no other path of layer 4. -/
def rowZeroState : DPNN :=
  forwardState sampleFns { zeroNet with weights := set3 zeroNet.weights 4 0 0 (1 / 2) }
    (.array [.num 1, .num 0, .num 0, .num 0])

/-- The failure of a call, if it failed. -/
def failureOf {α : Type} : Except Err α → Option Err
  | .error e => some e
  | .ok _ => none

/-- The all-zero network with the two weights `weights[0][0][0] = weights[0][1][2] = 0.8` and
the bias `biases[0][0] = 0.2`. -/
def twoSourceNet : DPNN :=
  { zeroNet with
    weights := set3 (set3 zeroNet.weights 0 0 0 (4 / 5)) 0 1 2 (4 / 5)
    biases := set2 zeroNet.biases 0 0 (1 / 5) }

/-- A network of the diamond shape with sparse weights: the entry `(i, j)` of every matrix is
`0.5` when `j` is `i`, `i + 1` or `2 * i`, and `0` otherwise; the biases are `0` and the
confidences `0.5`. -/
def sparseNet : DPNN :=
  { zeroNet with
    weights := (diamondShape 4 4).map (fun rows =>
      (List.range rows.length).map (fun i =>
        (List.range (rows.getD i 0)).map (fun j =>
          if j = i ∨ j = i + 1 ∨ j = 2 * i then (1 / 2 : Num) else 0))) }

/-- The state after a forward pass of `sparseNet` on the input `[1, 1, 1, 1]`. -/
def sparseState : DPNN :=
  forwardState sampleFns sparseNet (.array [.num 1, .num 1, .num 1, .num 1])

/-- A snapshot whose weight array is empty, the other fields being those of `zeroNet`. -/
def emptyWeightsSnapshot : Snapshot := { saveModel zeroNet with weights := [] }

/-- The accumulator with which the loop over the sources of a layer of `n` nodes starts, when
no path is recorded yet. -/
def clearedAcc (n : Nat) : LayerAcc :=
  { currentLayer := List.replicate n 0
    acts := List.replicate n false
    paths := []
    layerHasActivation := false }

/-- In the accumulator `st`, a node is flagged exactly when its value is nonzero. -/
def FlagIff (st : LayerAcc) : Prop :=
  ∀ j, st.acts.getD j false = true ↔ st.currentLayer.getD j 0 ≠ 0

/-- The invariant of the loop over the layers of `forward` that relates flags and values,
before layer `k` is computed: in every layer below `k` other than the output layer a node is
flagged exactly when its value is nonzero, and no node of the layers from `k` on is flagged. -/
structure FlagInv (k : Nat) (s : DPNN) : Prop where
  actsLength : s.activations.length = s.layers.length
  actsLen : ∀ m, (s.activations.getD m []).length = (s.layers.getD m []).length
  done : ∀ m j, m < k → m + 1 < s.layers.length →
    ((s.activations.getD m []).getD j false = true ↔ get2 s.layers m j ≠ 0)
  todo : ∀ m j, k ≤ m → (s.activations.getD m []).getD j false = false

/-- The key `(layer, from, to)` of a recorded path. -/
def pathKey (p : Path) : Nat × Nat × Nat := (p.layer, p.from_, p.to_)

instance (m : List (List (List Num))) (l i j : Nat) : Decidable (InRange m l i j) := by
  unfold InRange
  infer_instance

/-- The recorded path `p` has a confidence in `s` that the step `d` of a non-positive reward
takes below `0`. -/
def Doomed (s : DPNN) (d : Num) (p : Path) : Bool :=
  decide (InRange s.connectionConfidence p.layer p.from_ p.to_)
    && decide (get3 s.connectionConfidence p.layer p.from_ p.to_ + d < 0)

/-- The invariant of the loop over the fired paths under a reward that is not positive, after
the paths `pre`, with `d` the (negative) change of confidence per path: only the confidences
have changed; none has grown; the confidence of a path of `pre` has dropped by `d` at least; a
processed confidence below `0` is in `pathsToDelete`; and when no connection is recorded twice
`pathsToDelete` lists exactly the paths of `pre` whose confidence `d` takes below `0`. -/
structure NegInv (s : DPNN) (d : Num) (pre : List Path) (a : RewardAcc) : Prop where
  frame : a.s = { s with connectionConfidence := a.s.connectionConfidence }
  shape : ∀ l i j, InRange a.s.connectionConfidence l i j ↔ InRange s.connectionConfidence l i j
  le : ∀ l i j, get3 a.s.connectionConfidence l i j ≤ get3 s.connectionConfidence l i j
  untouched : ∀ l i j, Unrecorded pre l i j →
    get3 a.s.connectionConfidence l i j = get3 s.connectionConfidence l i j
  lowered : ∀ p ∈ pre, InRange s.connectionConfidence p.layer p.from_ p.to_ →
    get3 a.s.connectionConfidence p.layer p.from_ p.to_
      ≤ get3 s.connectionConfidence p.layer p.from_ p.to_ + d
  neg : ∀ p ∈ pre, InRange s.connectionConfidence p.layer p.from_ p.to_ →
    get3 a.s.connectionConfidence p.layer p.from_ p.to_ < 0 → pathKey p ∈ a.pathsToDelete
  first : ∀ p ∈ pre, Doomed s d p = true → pathKey p ∈ a.pathsToDelete
  sub : ∀ k ∈ a.pathsToDelete, ∃ p ∈ pre, pathKey p = k
  exact : (pre.map pathKey).Nodup → a.pathsToDelete = (pre.filter (Doomed s d)).map pathKey

/-- How the penalty of a wrong move may change a confidence `c` into `c2`: not at all, to `0`,
or to a smaller value that is not negative. -/
def Penalised (c c2 : Num) : Prop := c2 = c ∨ c2 = 0 ∨ (0 ≤ c2 ∧ c2 ≤ c)

/-- What the later steps of `updateConfidenceFromReward` keep of the state `s` left by the
deletions: the statistics; a connection of weight `0` keeps its weight and its confidence; and
every confidence is changed as `Penalised` says. -/
def PenRel (s s2 : DPNN) : Prop :=
  s2.stats = s.stats
    ∧ (∀ l i j, get3 s.weights l i j = 0 →
        get3 s2.weights l i j = 0
          ∧ get3 s2.connectionConfidence l i j = get3 s.connectionConfidence l i j)
    ∧ ∀ l i j, Penalised (get3 s.connectionConfidence l i j)
        (get3 s2.connectionConfidence l i j)

/-- The state `zeroState` with the confidence of its recorded connection `(0, 0, 0)` lowered
to `0.05`. -/
def fragileState : DPNN :=
  { zeroState with
    connectionConfidence := set3 zeroState.connectionConfidence 0 0 0 (1 / 20) }

/-- The result of a completed call, `d` otherwise. -/
def resultOf {α : Type} (d : α) : Except Err α → α
  | .ok x => x
  | .error _ => d

/-- Every entry of the confidence array `m` lies in `[0, 1]`. -/
def ConfIn (m : List (List (List Num))) : Prop :=
  ∀ l i j, 0 ≤ get3 m l i j ∧ get3 m l i j ≤ 1

/-- The state `s` with its statistics replaced by `x`. -/
def withStats (s : DPNN) (x : Stats) : DPNN := { s with stats := x }

/-- The target that the specification gives `train` for a reward: every element of the current
output is raised to `0.7` at least when the reward is positive, and otherwise replaced by `0`
when it exceeds `0.4` and by `1` when it does not. -/
def specRewardTarget (output : List Num) (reward : Num) : List Num :=
  output.map (fun o => if reward > 0 then max o 0.7 else if o > 0.4 then 0 else 1)

/-- The states `s` and `s2` have the same topology, as far as the routing of `forward` reads
it: the numbers of expansion, central and contraction layers, the stage kinds, the number of
layers and the activation functions of the nodes. -/
def TopoEq (s s2 : DPNN) : Prop :=
  s2.expansionLayers.length = s.expansionLayers.length
    ∧ s2.centralLayers.length = s.centralLayers.length
    ∧ s2.contractionLayers.length = s.contractionLayers.length
    ∧ s2.layerTypes = s.layerTypes
    ∧ s2.layers.length = s.layers.length
    ∧ s2.nodeActivationFuncs = s.nodeActivationFuncs

/-- The relation between two runs of the layer loop of `forward`, before layer `k` is computed:
both states have the topology of `base` and the same biases, layers of the same lengths, the
same values in the layers below `k`, the same flags and the same recorded paths. -/
structure FwdRel (base : DPNN) (k : Nat) (s1 s2 : DPNN) : Prop where
  t1 : TopoEq base s1
  t2 : TopoEq base s2
  biases : s2.biases = s1.biases
  shape : ∀ m, (s2.layers.getD m []).length = (s1.layers.getD m []).length
  low : ∀ m, m < k → s2.layers.getD m [] = s1.layers.getD m []
  acts : s2.activations = s1.activations
  paths : s2.activePaths = s1.activePaths

/-- Every entry of the matrix `m` is finite. -/
def Finite2 (m : List (List JSNumber)) : Prop := ∀ row ∈ m, ∀ x ∈ row, x.finite = true

/-- Every entry of the array of matrices `m` is finite. -/
def Finite3 (m : List (List (List JSNumber))) : Prop :=
  ∀ mat ∈ m, ∀ row ∈ mat, ∀ x ∈ row, x.finite = true

/-- The accumulator `st` holds the values, the flags and the mark of the accumulator `st2`, and
its recorded paths are the paths `old` followed by those of `st2`. -/
def AccRel (old : List Path) (st st2 : LayerAcc) : Prop :=
  st.currentLayer = st2.currentLayer ∧ st.acts = st2.acts
    ∧ st.layerHasActivation = st2.layerHasActivation ∧ st.paths = old ++ st2.paths

/-- A list of contributions `(j, c, p)` applied in order: each one adds `c` to node `j` of the
layer under construction, flags the node and records the path `p`, if there is one. -/
def addContributions (cs : List (Nat × Num × Option Path)) (st : LayerAcc) : LayerAcc :=
  cs.foldl (fun st c => contribute st c.1 c.2.1 c.2.2) st

/-- The layer `l` that the loop of `forward` builds from the values `prevLayer` and the flags
`prevActs` of layer `l - 1`, when every active source `i` of value `a` makes the contributions
`cs i a`: the loop starts from the cleared layer with no recorded path, runs the activation
loop after each active source, and ends with the statement that forces an active node. Its
field `paths` holds the paths recorded for this transition, in their order. -/
def layerFromContributions (fns : MathFns) (s : DPNN) (l : Nat) (prevLayer : List Num)
    (prevActs : List Bool) (cs : Nat → Num → List (Nat × Num × Option Path)) : LayerAcc :=
  forceActivation l s.layers.length
    ((List.range prevLayer.length).foldl (fun st i =>
      if prevActs.getD i false = true then
        activationLoop fns s.nodeActivationFuncs l s.layers.length (s.biases.getD (l - 1) [])
          (addContributions (cs i (prevLayer.getD i 0)) st)
      else st) (clearedAcc (s.layers.getD l []).length))

/-- The target of the Y-fork in the words of the specification: `(2 * i) mod size(l)` for a
source of value `a ≥ 0`, and `(2 * i + 1) mod size(l)` otherwise. -/
def forkTarget (s : DPNN) (l i : Nat) (a : Num) : Nat :=
  if a ≥ 0 then (2 * i) % (s.layers.getD l []).length
  else (2 * i + 1) % (s.layers.getD l []).length

/-- The contribution of source `i` of value `a` in an expansion transition, in the words of
the specification: `|a| * weights[l-1][i][t]` to the single target `t`, with the recorded path
`(l - 1, i, t)` of value `|a|` and sign `+1` or `-1`. -/
def forkContributions (s : DPNN) (l i : Nat) (a : Num) : List (Nat × Num × Option Path) :=
  [(forkTarget s l i a, |a| * get3 s.weights (l - 1) i (forkTarget s l i a),
    some ⟨l - 1, i, forkTarget s l i a, |a|, if a ≥ 0 then 1 else -1, .expansion, true⟩)]

/-- The contributions of source `i` of value `a` in a full mesh, in the words of the
specification: `a * weights[l-1][i][j]` to every node `j` of layer `l` whose weight is not `0`,
each with the recorded path `(l - 1, i, j)`. -/
def meshContributions (s : DPNN) (l i : Nat) (a : Num) : List (Nat × Num × Option Path) :=
  (List.range (s.layers.getD l []).length).filterMap (fun j =>
    if get3 s.weights (l - 1) i j = 0 then none
    else some (j, a * get3 s.weights (l - 1) i j,
      some ⟨l - 1, i, j, |a|, jsSign a, .central, decide (i = j)⟩))

/-- The contributions of source `i` of value `a` in a half-weight mesh, in the words of the
specification (index-aligned pairs at full weight, all other pairs at half weight): for every
node `j` of layer `l` whose weight is not `0`, the full `a * weights[l-1][i][j]` when `j = i`,
with no recorded path, and one half of it when `j ≠ i`, with the recorded path `(l - 1, i, j)`
of value `|a| / 2` and of the type `ty`. -/
def halfMeshContributions (ty : PathType) (s : DPNN) (l i : Nat) (a : Num) :
    List (Nat × Num × Option Path) :=
  (List.range (s.layers.getD l []).length).filterMap (fun j =>
    if get3 s.weights (l - 1) i j = 0 then none
    else if j = i then some (j, a * get3 s.weights (l - 1) i j, none)
    else some (j, a * get3 s.weights (l - 1) i j / 2,
      some ⟨l - 1, i, j, |a| / 2, jsSign a, ty, false⟩))

/-- The invariant of the loop over the layers of `forward` on the network `s`, before layer `k`
is computed, that tracks the transition into layer `l`: the parameters are those of `s`, the
layers keep their lengths, the recorded paths end below layer `k - 1`, the flags of the layers
from `k` on are cleared, and once layer `l` is computed it is, with its flags and its recorded
paths, what `layerFromContributions` builds from layer `l - 1` and the contributions `cs`. -/
structure LayerInv (fns : MathFns) (s : DPNN) (input : Input) (l : Nat)
    (cs : Nat → Num → List (Nat × Num × Option Path)) (k : Nat) (t : DPNN) : Prop where
  same : SameParams s t
  length : t.layers.length = s.layers.length
  actsLength : t.activations.length = s.layers.length
  sizes : ∀ m, (t.layers.getD m []).length = ((forwardInit s input).layers.getD m []).length
  low : ∀ p ∈ t.activePaths, p.layer + 1 < k
  todo : ∀ m, k ≤ m →
    t.activations.getD m [] = List.replicate (s.layers.getD m []).length false
  done : l < k →
    t.layers.getD l []
        = (layerFromContributions fns s l (t.layers.getD (l - 1) [])
            (t.activations.getD (l - 1) []) cs).currentLayer
      ∧ t.activations.getD l []
        = (layerFromContributions fns s l (t.layers.getD (l - 1) [])
            (t.activations.getD (l - 1) []) cs).acts
      ∧ pathsByLayer t (l - 1)
        = (layerFromContributions fns s l (t.layers.getD (l - 1) [])
            (t.activations.getD (l - 1) []) cs).paths

instance (s : DPNN) (l i j : Nat) : Decidable (Prunable s l i j) := by
  unfold Prunable
  infer_instance

/-! ## Theorems -/

theorem randomRow_length (rnd : Nat → Num) (c size : Nat) (a b : Num) :
    (randomRow rnd c size a b).length = size := by
  simp [randomRow]

theorem randomMatrix_length (rnd : Nat → Num) (c rows cols : Nat) :
    (randomMatrix rnd c rows cols).length = rows := by
  simp [randomMatrix]

theorem randomMatrix_rows (rnd : Nat → Num) (c rows cols : Nat) :
    (randomMatrix rnd c rows cols).map List.length = List.replicate rows cols := by
  simp only [randomMatrix, List.map_map]
  rw [List.eq_replicate_iff]
  refine ⟨by simp, ?_⟩
  intro b hb
  simp only [List.mem_map, List.mem_range, Function.comp] at hb
  obtain ⟨r, _, rfl⟩ := hb
  exact randomRow_length _ _ _ _ _

theorem fixRows_of_rows (rnd : Nat → Num) (toSize : Nat) (m : List (List Num)) (c : Nat)
    (h : ∀ row ∈ m, row.length = toSize) : fixRows rnd toSize m c = (m, c) := by
  induction m generalizing c with
  | nil => rfl
  | cons row rest ih =>
      have h1 : row.length = toSize := h row (List.mem_cons_self _ _)
      have h2 : ∀ r ∈ rest, r.length = toSize := fun r hr => h r (List.mem_cons_of_mem _ hr)
      simp [fixRows, h1, ih _ h2]

theorem fixRows_randomMatrix (rnd : Nat → Num) (c c2 rows cols : Nat) :
    fixRows rnd cols (randomMatrix rnd c rows cols) c2 = (randomMatrix rnd c rows cols, c2) := by
  apply fixRows_of_rows
  intro row hrow
  have h := randomMatrix_rows rnd c rows cols
  have h2 : row.length ∈ (randomMatrix rnd c rows cols).map List.length :=
    List.mem_map_of_mem _ hrow
  rw [h] at h2
  exact (List.mem_replicate.mp h2).2

/-- C4: the constructor builds, for every input size, output size and `hiddenLayers` argument,
the ten layers of the diamond with their stage kinds; matrix `l` of the weights and of the
connection confidences has `size l` rows of `size (l + 1)` columns, bias vector `l` has length
`size (l + 1)`, every confidence is `0.5`; and no field other than the stored `hiddenLayers`
itself depends on the `hiddenLayers` argument. -/
theorem C4_constructor_diamond (rnd : Nat → Num) (inputSize outputSize : Nat)
    (hiddenLayers : List Nat) :
    (DPNN.new rnd inputSize hiddenLayers outputSize).layers.map List.length
        = diamondSizes inputSize outputSize
    ∧ (DPNN.new rnd inputSize hiddenLayers outputSize).layers.length = 10
    ∧ (DPNN.new rnd inputSize hiddenLayers outputSize).layerTypes = diamondTypes
    ∧ (DPNN.new rnd inputSize hiddenLayers outputSize).weights.map (fun m => m.map List.length)
        = diamondShape inputSize outputSize
    ∧ (DPNN.new rnd inputSize hiddenLayers outputSize).biases.map List.length
        = (diamondSizes inputSize outputSize).drop 1
    ∧ (DPNN.new rnd inputSize hiddenLayers outputSize).connectionConfidence
        = (diamondShape inputSize outputSize).map (fun rows =>
            rows.map (fun cols => List.replicate cols (0.5 : Num)))
    ∧ (DPNN.new rnd inputSize hiddenLayers outputSize).nodeConfidence
        = (diamondSizes inputSize outputSize).map (fun n => List.replicate n (0.5 : Num))
    ∧ ∀ other : List Nat,
        DPNN.new rnd inputSize other outputSize
          = { DPNN.new rnd inputSize hiddenLayers outputSize with hiddenLayers := other } := by
  refine ⟨?_, ?_, ?_, ?_, ?_, ?_, ?_, ?_⟩
  all_goals
    simp [DPNN.new, pushLayer, verifyDims, randomMatrix_length, randomRow_length,
      fixRows_randomMatrix, randomMatrix_rows, diamondSizes, diamondShape, diamondTypes,
      layerTypeOf, List.range_succ]

/-! ### Generic facts on folds and on array updates -/

theorem foldl_inv {α β : Type} (P : β → Prop) (f : β → α → β) (xs : List α) (b : β)
    (h0 : P b) (hstep : ∀ b a, a ∈ xs → P b → P (f b a)) : P (xs.foldl f b) := by
  induction xs generalizing b with
  | nil => exact h0
  | cons x rest ih =>
      simp only [List.foldl_cons]
      apply ih
      · exact hstep b x (List.mem_cons_self _ _) h0
      · intro b2 a ha hb2
        exact hstep b2 a (List.mem_cons_of_mem _ ha) hb2

theorem foldl_range'_inv {β : Type} (P : Nat → β → Prop) (f : β → Nat → β) (a n : Nat) (b : β)
    (h0 : P a b) (hstep : ∀ k b, a ≤ k → k < a + n → P k b → P (k + 1) (f b k)) :
    P (a + n) ((List.range' a n).foldl f b) := by
  induction n generalizing a b with
  | zero => simpa using h0
  | succ n ih =>
      rw [List.range'_succ, List.foldl_cons]
      have h1 : P (a + 1) (f b a) := hstep a b (le_refl _) (by omega) h0
      have h2 := ih (a + 1) (f b a) h1 (fun k b2 hk1 hk2 hp =>
        hstep k b2 (by omega) (by omega) hp)
      have e : a + 1 + n = a + (n + 1) := by omega
      rw [e] at h2
      exact h2

theorem getD_set {α : Type} (xs : List α) (i j : Nat) (v d : α) :
    (xs.set i v).getD j d = if i = j ∧ i < xs.length then v else xs.getD j d := by
  simp only [List.getD_eq_getElem?_getD, List.getElem?_set]
  by_cases h : i = j
  · subst h
    by_cases h2 : i < xs.length
    · simp [h2]
    · simp [h2, List.getElem?_eq_none (Nat.le_of_not_lt h2)]
  · simp [h]

theorem getD_of_le {α : Type} (xs : List α) (i : Nat) (d : α) (h : xs.length ≤ i) :
    xs.getD i d = d := by
  simp [List.getD_eq_getElem?_getD, List.getElem?_eq_none h]

theorem get2_set2 (m : List (List Num)) (i j i2 j2 : Nat) (v : Num) :
    get2 (set2 m i j v) i2 j2
      = if i = i2 ∧ j = j2 ∧ i < m.length ∧ j < (m.getD i []).length then v
        else get2 m i2 j2 := by
  unfold get2 set2
  rw [getD_set]
  by_cases h : i = i2 ∧ i < m.length
  · obtain ⟨rfl, h2⟩ := h
    rw [if_pos ⟨rfl, h2⟩, getD_set]
    by_cases h3 : j = j2 ∧ j < (m.getD i []).length
    · obtain ⟨rfl, h4⟩ := h3
      simp [h2, h4]
    · rw [if_neg h3, if_neg]
      rintro ⟨_, h5, _, h6⟩
      exact h3 ⟨h5, h6⟩
  · rw [if_neg h, if_neg]
    rintro ⟨h5, _, h6, _⟩
    exact h ⟨h5, h6⟩

theorem get3_set3 (m : List (List (List Num))) (l i j l2 i2 j2 : Nat) (v : Num) :
    get3 (set3 m l i j v) l2 i2 j2
      = if l = l2 ∧ i = i2 ∧ j = j2 ∧ l < m.length ∧ i < (m.getD l []).length
            ∧ j < ((m.getD l []).getD i []).length then v
        else get3 m l2 i2 j2 := by
  unfold get3 set3
  rw [getD_set]
  by_cases h : l = l2 ∧ l < m.length
  · obtain ⟨rfl, h2⟩ := h
    rw [if_pos ⟨rfl, h2⟩, get2_set2]
    by_cases h3 : i = i2 ∧ j = j2 ∧ i < (m.getD l []).length ∧ j < ((m.getD l []).getD i []).length
    · rw [if_pos h3, if_pos]
      exact ⟨rfl, h3.1, h3.2.1, h2, h3.2.2.1, h3.2.2.2⟩
    · rw [if_neg h3, if_neg]
      rintro ⟨_, a, b, _, c, d⟩
      exact h3 ⟨a, b, c, d⟩
  · rw [if_neg h, if_neg]
    rintro ⟨a, _, _, b, _⟩
    exact h ⟨a, b⟩

theorem get3_set3_of_ne (m : List (List (List Num))) (l i j l2 i2 j2 : Nat) (v : Num)
    (h : ¬ (l = l2 ∧ i = i2 ∧ j = j2)) :
    get3 (set3 m l i j v) l2 i2 j2 = get3 m l2 i2 j2 := by
  rw [get3_set3, if_neg]
  rintro ⟨a, b, c, _⟩
  exact h ⟨a, b, c⟩

/-- A read `m[l][i][j]` that is not `0` is a read of an existing entry. -/
theorem get3_ne_zero_bounds (m : List (List (List Num))) (l i j : Nat) (h : get3 m l i j ≠ 0) :
    l < m.length ∧ i < (m.getD l []).length ∧ j < ((m.getD l []).getD i []).length := by
  unfold get3 get2 at h
  refine ⟨?_, ?_, ?_⟩
  · by_contra hc
    rw [getD_of_le m l [] (Nat.le_of_not_lt hc)] at h
    simp at h
  · by_contra hc
    rw [getD_of_le (m.getD l []) i [] (Nat.le_of_not_lt hc)] at h
    simp at h
  · by_contra hc
    rw [getD_of_le _ j 0 (Nat.le_of_not_lt hc)] at h
    exact h rfl

theorem get3_set3_self (m : List (List (List Num))) (l i j : Nat) (v : Num)
    (h : get3 m l i j ≠ 0) : get3 (set3 m l i j v) l i j = v := by
  obtain ⟨a, b, c⟩ := get3_ne_zero_bounds m l i j h
  rw [get3_set3, if_pos ⟨rfl, rfl, rfl, a, b, c⟩]

/-! ### `forward`: the routing branches only make contributions -/

theorem Contribs.one (l i : Nat) (st : LayerAcc) (j : Nat) (c : Num) (p : Option Path)
    (hj : j < st.currentLayer.length)
    (hp : ∀ q, p = some q → q.layer = l - 1 ∧ q.from_ = i ∧ q.to_ = j) :
    Contribs l i st (contribute st j c p) :=
  Contribs.step st j c p Contribs.refl hj hp

theorem Contribs.lengths {l i : Nat} {st st2 : LayerAcc} (h : Contribs l i st st2) :
    st2.currentLayer.length = st.currentLayer.length ∧ st2.acts.length = st.acts.length := by
  induction h with
  | refl => exact ⟨rfl, rfl⟩
  | step st3 j c p _ _ _ ih => simpa [contribute, addAt] using ih

theorem directStep_contribs (l i : Nat) (a : Num) (row : List Num) (st : LayerAcc) :
    Contribs l i st (directStep l i a row st) := by
  unfold directStep
  by_cases hn : st.currentLayer.length = 0
  · simp only [hn, if_true]
    exact Contribs.refl
  · simp only [hn, if_false]
    have hlt : (if i < st.currentLayer.length then i else i % st.currentLayer.length)
        < st.currentLayer.length := by
      split_ifs with h
      · exact h
      · exact Nat.mod_lt _ (Nat.pos_of_ne_zero hn)
    split
    · exact Contribs.refl
    · apply Contribs.one _ _ _ _ _ _ hlt
      intro q hq
      cases hq
      exact ⟨rfl, rfl, rfl⟩

theorem expansionStep_contribs (l i : Nat) (a : Num) (row : List Num) (st : LayerAcc) :
    Contribs l i st (expansionStep l i a row st) := by
  unfold expansionStep
  by_cases hn : st.currentLayer.length = 0
  · simp only [hn, if_true]
    exact Contribs.refl
  · simp only [hn, if_false]
    split
    · exact Contribs.refl
    · by_cases hlt : (if a ≥ 0 then i * 2 % st.currentLayer.length
          else (i * 2 + 1) % st.currentLayer.length) < st.currentLayer.length
      · rw [if_pos hlt]
        apply Contribs.one _ _ _ _ _ _ hlt
        intro q hq
        cases hq
        exact ⟨rfl, rfl, rfl⟩
      · rw [if_neg hlt]
        exact Contribs.refl

theorem contractionStep_contribs (l i : Nat) (a : Num) (row : List Num) (prevLen : Nat)
    (st : LayerAcc) : Contribs l i st (contractionStep l i a row prevLen st) := by
  unfold contractionStep
  simp only
  split
  · exact Contribs.refl
  · by_cases hlt : i / 2 < st.currentLayer.length
    · rw [if_pos hlt]
      apply Contribs.one _ _ _ _ _ _ hlt
      intro q hq
      cases hq
      exact ⟨rfl, rfl, rfl⟩
    · rw [if_neg hlt]
      exact Contribs.refl

theorem Contribs.trans {l i : Nat} {st st2 st3 : LayerAcc} (h1 : Contribs l i st st2)
    (h2 : Contribs l i st2 st3) : Contribs l i st st3 := by
  induction h2 with
  | refl => exact h1
  | step st4 j c p _ hj hp ih => exact Contribs.step st4 j c p ih hj hp

theorem halfMeshStep_contribs (ty : PathType) (l i : Nat) (a : Num) (row : List Num)
    (st : LayerAcc) : Contribs l i st (halfMeshStep ty l i a row st) := by
  unfold halfMeshStep
  apply foldl_inv (fun st2 : LayerAcc => Contribs l i st st2)
  · exact Contribs.refl
  · intro b j hj hb
    have hlen := hb.lengths
    have hj2 : j < b.currentLayer.length := by
      rw [hlen.1]
      exact List.mem_range.mp hj
    simp only
    split
    · exact hb
    · by_cases hw : ‹Num› = 0
      · rw [if_pos hw]
        exact hb
      · rw [if_neg hw]
        apply Contribs.step _ _ _ _ hb hj2
        intro q hq
        by_cases hij : i = j
        · simp [hij] at hq
        · simp only [hij, decide_False, Bool.false_eq_true, if_false, Option.some.injEq] at hq
          subst hq
          exact ⟨rfl, rfl, rfl⟩

theorem centralStep_contribs (l i : Nat) (a : Num) (row : List Num) (st : LayerAcc) :
    Contribs l i st (centralStep l i a row st) := by
  unfold centralStep
  apply foldl_inv (fun st2 : LayerAcc => Contribs l i st st2)
  · exact Contribs.refl
  · intro b j hj hb
    have hlen := hb.lengths
    have hj2 : j < b.currentLayer.length := by
      rw [hlen.1]
      exact List.mem_range.mp hj
    split
    · exact hb
    · by_cases hw : ‹Num› = 0
      · rw [if_pos hw]
        exact hb
      · rw [if_neg hw]
        apply Contribs.step _ _ _ _ hb hj2
        intro q hq
        cases hq
        exact ⟨rfl, rfl, rfl⟩

theorem routeStep_contribs (s : DPNN) (l i : Nat) (a : Num) (row : List Num) (prevLen : Nat)
    (st : LayerAcc) : Contribs l i st (routeStep s l i a row prevLen st) := by
  unfold routeStep
  simp only
  split_ifs
  all_goals
    first
      | exact directStep_contribs _ _ _ _ _
      | exact expansionStep_contribs _ _ _ _ _
      | exact halfMeshStep_contribs _ _ _ _ _ _
      | exact centralStep_contribs _ _ _ _ _
      | exact contractionStep_contribs _ _ _ _ _ _
      | exact Contribs.refl

theorem AccInv.contribs {l L prevLen n : Nat} {old : List Path} {i : Nat} {st st2 : LayerAcc}
    (hi : i < prevLen) (h : AccInv l L prevLen n old st) (hc : Contribs l i st st2) :
    AccInv l L prevLen n old st2 := by
  induction hc with
  | refl => exact h
  | step st3 j c p _ hj hp ih =>
      have hjn : j < n := by rw [← ih.curLen]; exact hj
      have hja : j < st3.acts.length := by rw [ih.actsLen]; exact hjn
      refine ⟨?_, ?_, ?_, ?_⟩
      · simpa [contribute, addAt] using ih.curLen
      · simpa [contribute] using ih.actsLen
      · intro q hq
        have hacts : ∀ t, st3.acts.getD t false = true →
            (contribute st3 j c p).acts.getD t false = true := by
          intro t ht
          simp only [contribute, getD_set]
          split_ifs
          · rfl
          · exact ht
        have hmem : q ∈ st3.paths ∨ p = some q := by
          cases p with
          | none => left; simpa [contribute] using hq
          | some q2 =>
              simp only [contribute, List.mem_append, List.mem_singleton] at hq
              rcases hq with hq | hq
              · left; exact hq
              · right; rw [hq]
        rcases hmem with hq | hq
        · rcases ih.paths q hq with ho | ⟨a, b, c2, d⟩
          · left; exact ho
          · right
            exact ⟨a, b, c2, fun hout => hacts _ (d hout)⟩
        · right
          obtain ⟨a, b, c2⟩ := hp q hq
          refine ⟨a, by rw [b]; exact hi, by rw [c2]; exact hjn, ?_⟩
          intro _
          rw [c2]
          simp only [contribute, getD_set]
          rw [if_pos ⟨trivial, hja⟩]
      · intro t
        by_cases ht : j = t
        · left
          simp only [contribute, getD_set]
          rw [if_pos ⟨ht, hja⟩]
        · rcases ih.flagOrZero t with h1 | h1
          · left
            simp only [contribute, getD_set]
            rw [if_neg (fun hh => ht hh.1)]
            exact h1
          · right
            simp only [contribute, addAt, getD_set]
            rw [if_neg (fun hh => ht hh.1)]
            exact h1

theorem activationLoop_paths (fns : MathFns) (funcs : Option (List (List String)))
    (l L : Nat) (biases : List Num) (st : LayerAcc) :
    (activationLoop fns funcs l L biases st).paths = st.paths
      ∧ (activationLoop fns funcs l L biases st).layerHasActivation
          = st.layerHasActivation := by
  unfold activationLoop
  apply foldl_inv (fun st2 : LayerAcc => st2.paths = st.paths
      ∧ st2.layerHasActivation = st.layerHasActivation)
  · exact ⟨rfl, rfl⟩
  · intro b j _ hb
    simp only
    split_ifs
    · exact hb
    · exact hb
    · exact hb

theorem AccInv.activationLoop {l L prevLen n : Nat} {old : List Path} {st : LayerAcc}
    (fns : MathFns) (funcs : Option (List (List String))) (biases : List Num)
    (h : AccInv l L prevLen n old st) :
    AccInv l L prevLen n old (activationLoop fns funcs l L biases st) := by
  unfold DPNNModel.activationLoop
  apply foldl_inv (fun st2 : LayerAcc => AccInv l L prevLen n old st2)
  · exact h
  · intro b j _ hb
    simp only
    by_cases hflag : b.acts.getD j false = true
    · have hja : j < b.acts.length := by
        by_contra hc
        rw [getD_of_le _ _ _ (Nat.le_of_not_lt hc)] at hflag
        exact Bool.false_ne_true hflag
      rw [hflag]
      simp only [Bool.not_true, Bool.false_eq_true, if_false]
      by_cases hl : l < L - 1
      · rw [if_pos hl]
        refine ⟨?_, ?_, ?_, ?_⟩
        · simpa using hb.curLen
        · simpa using hb.actsLen
        · intro q hq
          rcases hb.paths q hq with ho | ⟨a, b2, c2, _⟩
          · left; exact ho
          · right
            exact ⟨a, b2, c2, fun hout => absurd hl hout⟩
        · intro t
          by_cases ht : j = t
          · subst ht
            have hjc : j < b.currentLayer.length := by rw [hb.curLen, ← hb.actsLen]; exact hja
            simp only [getD_set]
            rw [if_pos ⟨trivial, hja⟩, if_pos ⟨trivial, hjc⟩]
            by_cases hz : applyActivation fns (activationFuncName funcs l j)
                (match biases[j]? with
                  | some b_1 => b.currentLayer.getD j 0 + b_1
                  | none => b.currentLayer.getD j 0) = 0
            · right; exact hz
            · left; simpa using hz
          · simp only [getD_set]
            rw [if_neg (fun hh => ht hh.1), if_neg (fun hh => ht hh.1)]
            exact hb.flagOrZero t
      · rw [if_neg hl]
        refine ⟨?_, ?_, ?_, ?_⟩
        · simpa using hb.curLen
        · exact hb.actsLen
        · exact hb.paths
        · intro t
          by_cases ht : j = t
          · subst ht
            left; exact hflag
          · simp only [getD_set]
            rw [if_neg (fun hh => ht hh.1)]
            exact hb.flagOrZero t
    · have hf : b.acts.getD j false = false := by simpa using hflag
      rw [hf]
      simpa using hb

theorem AccInv.sourceStep {l L prevLen n : Nat} {old : List Path} {st : LayerAcc}
    (fns : MathFns) (s : DPNN) (prevLayer : List Num) (prevActs : List Bool)
    (weights : List (List Num)) (biases : List Num) (i : Nat) (hi : i < prevLen)
    (hL : L = s.layers.length)
    (h : AccInv l L prevLen n old st) :
    AccInv l L prevLen n old (sourceStep fns s l prevLayer prevActs weights biases st i) := by
  unfold DPNNModel.sourceStep
  split_ifs
  · exact h
  · simp only
    split
    · exact h
    · rw [← hL]
      exact (h.contribs hi (routeStep_contribs _ _ _ _ _ _ _)).activationLoop _ _ _

theorem activationLoop_lengths (fns : MathFns) (funcs : Option (List (List String)))
    (l L : Nat) (biases : List Num) (st : LayerAcc) :
    (activationLoop fns funcs l L biases st).currentLayer.length = st.currentLayer.length
      ∧ (activationLoop fns funcs l L biases st).acts.length = st.acts.length := by
  unfold activationLoop
  apply foldl_inv (fun st2 : LayerAcc => st2.currentLayer.length = st.currentLayer.length
      ∧ st2.acts.length = st.acts.length)
  · exact ⟨rfl, rfl⟩
  · intro b j _ hb
    simp only
    split_ifs
    · exact hb
    · simpa using hb
    · simpa using hb

theorem sourceStep_lengths (fns : MathFns) (s : DPNN) (l : Nat) (prevLayer : List Num)
    (prevActs : List Bool) (weights : List (List Num)) (biases : List Num)
    (st : LayerAcc) (i : Nat) :
    (sourceStep fns s l prevLayer prevActs weights biases st i).currentLayer.length
        = st.currentLayer.length
      ∧ (sourceStep fns s l prevLayer prevActs weights biases st i).acts.length
        = st.acts.length := by
  unfold sourceStep
  split_ifs
  · exact ⟨rfl, rfl⟩
  · simp only
    split
    · exact ⟨rfl, rfl⟩
    · rename_i row _
      have h1 := activationLoop_lengths fns s.nodeActivationFuncs l s.layers.length biases
        (routeStep s l i (prevLayer.getD i 0) row prevLayer.length st)
      have h2 := (routeStep_contribs s l i (prevLayer.getD i 0) row prevLayer.length st).lengths
      exact ⟨h1.1.trans h2.1, h1.2.trans h2.2⟩

theorem SameParams.refl (s : DPNN) : SameParams s s := by
  simp [SameParams]

theorem SameParams.chain {s s2 s3 : DPNN} (h1 : SameParams s s2) (h2 : SameParams s2 s3) :
    SameParams s s3 := by
  unfold SameParams at *
  simp_all

theorem layerStep_sameParams (fns : MathFns) (s : DPNN) (l : Nat) :
    SameParams s (layerStep fns s l) := by
  unfold layerStep
  split
  · simp [SameParams]
  · exact SameParams.refl s

theorem sourceLoop_length (fns : MathFns) (s : DPNN) (l : Nat) (currentLayer : List Num)
    (weights : List (List Num)) (biases : List Num) :
    (sourceLoop fns s l currentLayer weights biases).currentLayer.length
      = currentLayer.length := by
  unfold sourceLoop
  apply foldl_inv (fun st2 : LayerAcc => st2.currentLayer.length = currentLayer.length)
  · simp
  · intro b i _ hb
    rw [(sourceStep_lengths _ _ _ _ _ _ _ _ _).1, hb]

theorem forceActivation_length (l L : Nat) (st : LayerAcc) :
    (forceActivation l L st).currentLayer.length = st.currentLayer.length := by
  unfold forceActivation
  split_ifs
  · simp
  · rfl

/-- One iteration of the layer loop keeps the number of layers and the length of each. -/
theorem layerStep_layers (fns : MathFns) (s : DPNN) (l : Nat) :
    (layerStep fns s l).layers.length = s.layers.length
      ∧ ∀ m, ((layerStep fns s l).layers.getD m []).length = (s.layers.getD m []).length := by
  unfold layerStep
  split
  · rename_i currentLayer weights biases hcur _ _
    simp only [List.length_set, true_and]
    intro m
    rw [getD_set]
    split_ifs with h1
    · obtain ⟨rfl, _⟩ := h1
      rw [forceActivation_length, sourceLoop_length]
      simp [List.getD_eq_getElem?_getD, hcur]
    · rfl
  · exact ⟨rfl, fun _ => rfl⟩

theorem getD_replicate_zero (n j : Nat) : (List.replicate n (0 : Num)).getD j 0 = 0 := by
  simp only [List.getD_eq_getElem?_getD, List.getElem?_replicate]
  split_ifs <;> rfl

theorem PathOK.of_same {s s2 : DPNN} {p : Path} (k : Nat) (hp : p.layer + 1 < k)
    (hlen : s2.layers.length = s.layers.length)
    (hlens : ∀ m, (s2.layers.getD m []).length = (s.layers.getD m []).length)
    (hl : ∀ m, m ≠ k → s2.layers.getD m [] = s.layers.getD m [])
    (ha : ∀ m, m ≠ k → s2.activations.getD m [] = s.activations.getD m [])
    (h : PathOK s p) : PathOK s2 p := by
  obtain ⟨h1, h2, h3, h4, h5⟩ := h
  have hne : p.layer + 1 ≠ k := by omega
  refine ⟨by rw [hlen]; exact h1, by rw [hlens]; exact h2, by rw [hlens]; exact h3, ?_, ?_⟩
  · rw [hl _ hne, ha _ hne]; exact h4
  · rw [hlen, ha _ hne]; exact h5

theorem AccInv.sourceLoop {k : Nat} {s : DPNN} (fns : MathFns) (currentLayer : List Num)
    (weights : List (List Num)) (biases : List Num)
    (hacts : (s.activations.getD k []).length = currentLayer.length) :
    AccInv k s.layers.length (s.layers.getD (k - 1) []).length currentLayer.length
      s.activePaths (sourceLoop fns s k currentLayer weights biases) := by
  unfold DPNNModel.sourceLoop
  apply foldl_inv
    (fun st2 : LayerAcc => AccInv k s.layers.length (s.layers.getD (k - 1) []).length
      currentLayer.length s.activePaths st2)
  · exact ⟨by simp, hacts, fun p hp => Or.inl hp, fun j => Or.inr (getD_replicate_zero _ _)⟩
  · intro b i hi hb
    exact hb.sourceStep fns s _ _ _ _ i (List.mem_range.mp hi) rfl

theorem AccInv.forceActivation {l L prevLen n : Nat} {old : List Path} {st : LayerAcc}
    (h1 : AccInv l L prevLen n old st) :
    AccInv l L prevLen n old (forceActivation l L st) := by
  unfold DPNNModel.forceActivation
  split_ifs with hforce
  · have hlt : l < L - 1 := by
      simp only [Bool.and_eq_true, decide_eq_true_eq] at hforce
      exact hforce.2
    refine ⟨by simpa using h1.curLen, by simpa using h1.actsLen, ?_, ?_⟩
    · intro p hp
      rcases h1.paths p hp with ho | ⟨a, b, c, _⟩
      · left; exact ho
      · right; exact ⟨a, b, c, fun hout => absurd hlt hout⟩
    · intro t
      simp only [getD_set]
      by_cases ht : 0 = t
      · subst ht
        by_cases hn : 0 < st.acts.length
        · left; rw [if_pos ⟨rfl, hn⟩]
        · have hn2 : ¬ 0 < st.currentLayer.length := by
            rw [h1.curLen, ← h1.actsLen]; exact hn
          rw [if_neg (fun hh => hn hh.2), if_neg (fun hh => hn2 hh.2)]
          exact h1.flagOrZero 0
      · rw [if_neg (fun hh => ht hh.1), if_neg (fun hh => ht hh.1)]
        exact h1.flagOrZero t
  · exact h1

/-- One iteration of the layer loop of `forward` keeps the invariant. -/
theorem FwdInv.layerStep {k : Nat} {s : DPNN} (fns : MathFns) (hk : 1 ≤ k) (h : FwdInv k s) :
    FwdInv (k + 1) (layerStep fns s k) := by
  have hweak : FwdInv (k + 1) s :=
    ⟨h.actsLength, h.actsLen, fun p hp => ⟨by have := (h.paths p hp).1; omega,
      (h.paths p hp).2⟩⟩
  unfold DPNNModel.layerStep
  split
  · rename_i currentLayer weights biases hcur _ _
    have hkL : k < s.layers.length := by
      by_contra hc
      rw [List.getElem?_eq_none (Nat.le_of_not_lt hc)] at hcur
      cases hcur
    have hgetk : s.layers.getD k [] = currentLayer := by
      simp [List.getD_eq_getElem?_getD, hcur]
    have h2 : AccInv k s.layers.length (s.layers.getD (k - 1) []).length currentLayer.length
        s.activePaths
        (forceActivation k s.layers.length (sourceLoop fns s k currentLayer weights biases)) :=
      (AccInv.sourceLoop fns currentLayer weights biases
        (by rw [h.actsLen k, hgetk])).forceActivation
    simp only
    generalize forceActivation k s.layers.length
      (sourceLoop fns s k currentLayer weights biases) = st2 at h2 ⊢
    have hkA : k < s.activations.length := by rw [h.actsLength]; exact hkL
    refine ⟨by simpa using h.actsLength, ?_, ?_⟩
    · intro m
      simp only [getD_set]
      by_cases hm : k = m
      · subst hm
        rw [if_pos ⟨rfl, hkA⟩, if_pos ⟨rfl, hkL⟩, h2.curLen, h2.actsLen]
      · rw [if_neg (fun hh => hm hh.1), if_neg (fun hh => hm hh.1)]
        exact h.actsLen m
    · intro p hp
      have hlens : ∀ m, ((s.layers.set k st2.currentLayer).getD m []).length
          = (s.layers.getD m []).length := by
        intro m
        rw [getD_set]
        split_ifs with hh
        · obtain ⟨rfl, _⟩ := hh
          rw [h2.curLen, hgetk]
        · rfl
      rcases h2.paths p hp with ho | ⟨a, b, c, d⟩
      · have hp1 := h.paths p ho
        refine ⟨by omega, ?_⟩
        apply PathOK.of_same k hp1.1 _ _ _ _ hp1.2
        · simp
        · exact hlens
        · intro m hm
          show (s.layers.set k st2.currentLayer).getD m [] = _
          rw [getD_set, if_neg (fun hh => hm hh.1.symm)]
        · intro m hm
          show (s.activations.set k st2.acts).getD m [] = _
          rw [getD_set, if_neg (fun hh => hm hh.1.symm)]
      · have hpl : p.layer + 1 = k := by omega
        refine ⟨by omega, ?_⟩
        unfold PathOK
        simp only [List.length_set, hpl]
        have e1 : (s.layers.set k st2.currentLayer).getD k [] = st2.currentLayer := by
          rw [getD_set, if_pos ⟨rfl, hkL⟩]
        have e2 : (s.activations.set k st2.acts).getD k [] = st2.acts := by
          rw [getD_set, if_pos ⟨rfl, hkA⟩]
        have e3 : ((s.layers.set k st2.currentLayer).getD p.layer []).length
            = (s.layers.getD (k - 1) []).length := by
          rw [hlens, a]
        rw [e1, e2, e3, h2.curLen]
        refine ⟨hkL, b, c, h2.flagOrZero _, ?_⟩
        intro hout
        exact d (by omega)
  · exact hweak

theorem getD_map_length {α : Type} (l : List (List α)) (m : Nat) :
    (l.getD m []).length = (l.map List.length).getD m 0 := by
  simp only [List.getD_eq_getElem?_getD, List.getElem?_map]
  cases l[m]? <;> rfl

theorem forwardInit_sameParams (s : DPNN) (input : Input) :
    SameParams s (forwardInit s input) := by
  simp [SameParams, forwardInit]

theorem forwardInit_layers (s : DPNN) (input : Input) :
    (forwardInit s input).layers.length = s.layers.length
      ∧ ∀ m, 1 ≤ m →
        ((forwardInit s input).layers.getD m []).length = (s.layers.getD m []).length := by
  refine ⟨by simp [forwardInit], ?_⟩
  intro m hm
  simp only [forwardInit, getD_set]
  rw [if_neg (fun hh => by omega)]

theorem forwardInit_inv (s : DPNN) (input : Input) : FwdInv 1 (forwardInit s input) := by
  refine ⟨by simp [forwardInit], ?_, ?_⟩
  · intro m
    simp only [forwardInit, getD_set, List.length_map]
    by_cases hm : 0 = m ∧ 0 < s.layers.length
    · rw [if_pos hm, if_pos hm, List.length_map]
    · rw [if_neg hm, if_neg hm]
      simp only [List.getD_eq_getElem?_getD, List.getElem?_map]
      cases s.layers[m]? <;> simp
  · intro p hp
    simp [forwardInit] at hp

theorem forwardState_sameParams (fns : MathFns) (s : DPNN) (input : Input) :
    SameParams s (forwardState fns s input) := by
  unfold forwardState
  apply foldl_inv (fun s2 : DPNN => SameParams s s2)
  · exact forwardInit_sameParams s input
  · intro b l _ hb
    exact hb.chain (layerStep_sameParams fns b l)

theorem forwardState_layers (fns : MathFns) (s : DPNN) (input : Input) :
    (forwardState fns s input).layers.length = s.layers.length
      ∧ ∀ m, 1 ≤ m →
        ((forwardState fns s input).layers.getD m []).length = (s.layers.getD m []).length := by
  unfold forwardState
  apply foldl_inv (fun s2 : DPNN => s2.layers.length = s.layers.length
      ∧ ∀ m, 1 ≤ m → (s2.layers.getD m []).length = (s.layers.getD m []).length)
  · exact forwardInit_layers s input
  · intro b l _ hb
    have h := layerStep_layers fns b l
    exact ⟨h.1.trans hb.1, fun m hm => (h.2 m).trans (hb.2 m hm)⟩

/-- After `forward`, every recorded path satisfies `PathOK`. -/
theorem forwardState_paths (fns : MathFns) (s : DPNN) (input : Input) :
    ∀ p ∈ (forwardState fns s input).activePaths, PathOK (forwardState fns s input) p := by
  have h := foldl_range'_inv (fun k s2 => FwdInv k s2) (layerStep fns) 1 (s.layers.length - 1)
    (forwardInit s input) (forwardInit_inv s input)
    (fun k b hk _ hb => hb.layerStep fns hk)
  intro p hp
  exact (h.paths p hp).2

/-- C1: on a network of the diamond shape, `forward` returns a vector of exactly `outputSize`
entries, whatever the input, and leaves `weights`, `biases`, `connectionConfidence` and
`nodeConfidence` as they were. -/
theorem C1_forward_returns_outputSize_and_keeps_parameters (fns : MathFns) (s : DPNN)
    (input : Input) (h : WF s) :
    (forward fns s input).length = s.outputSize
      ∧ (forwardState fns s input).weights = s.weights
      ∧ (forwardState fns s input).biases = s.biases
      ∧ (forwardState fns s input).connectionConfidence = s.connectionConfidence
      ∧ (forwardState fns s input).nodeConfidence = s.nodeConfidence := by
  have hp := forwardState_sameParams fns s input
  have hl := forwardState_layers fns s input
  obtain ⟨_, _, _, _, hlayers, _⟩ := h
  have hlen : s.layers.length = 10 := by
    have := congrArg List.length hlayers
    simpa [diamondSizes] using this
  refine ⟨?_, hp.2.2.2.2.2.2.2.1, hp.2.2.2.2.2.2.2.2.1, hp.2.2.2.2.2.2.2.2.2.2.1,
    hp.2.2.2.2.2.2.2.2.2.1⟩
  unfold forward
  simp only
  rw [hl.1, hlen, hl.2 9 (by omega), getD_map_length, hlayers]
  rfl

/-- The hypothesis of C1 holds of the network of the constructor, where the theorem gives an
output of four entries. -/
theorem C1_witness :
    WF zeroNet ∧ (forward sampleFns zeroNet (.array [.num 1, .num 1, .num 0, .num 0])).length
      = zeroNet.outputSize :=
  ⟨by decide!, (C1_forward_returns_outputSize_and_keeps_parameters sampleFns zeroNet
    (.array [.num 1, .num 1, .num 0, .num 0]) (by decide!)).1⟩

/-- C5: for an input that is `null`, `undefined` or an array of a length other than
`inputSize` (the empty array included), `forward` computes exactly what it computes for the
all-zero vector of length `inputSize`: the same state (activation flags and recorded paths
included) and the same returned vector. -/
theorem C5_invalid_input_is_zero_vector (fns : MathFns) (s : DPNN) (input : Input)
    (h : input = .null ∨ input = .undefined
      ∨ ∃ xs, input = .array xs ∧ xs.length ≠ s.inputSize) :
    forwardState fns s input
        = forwardState fns s (.array (List.replicate s.inputSize (.num 0)))
      ∧ forward fns s input = forward fns s (.array (List.replicate s.inputSize (.num 0))) := by
  have hsafe : safeInput s.inputSize input
      = safeInput s.inputSize (.array (List.replicate s.inputSize (.num 0))) := by
    have hz : safeInput s.inputSize (.array (List.replicate s.inputSize (.num 0)))
        = List.replicate s.inputSize 0 := by
      simp [safeInput]
    rw [hz]
    rcases h with rfl | rfl | ⟨xs, rfl, hxs⟩
    · rfl
    · rfl
    · simp [safeInput, hxs]
  have hinit : forwardInit s input
      = forwardInit s (.array (List.replicate s.inputSize (.num 0))) := by
    unfold forwardInit
    rw [hsafe]
  have hstate : forwardState fns s input
      = forwardState fns s (.array (List.replicate s.inputSize (.num 0))) := by
    unfold forwardState
    rw [hinit]
  refine ⟨hstate, ?_⟩
  unfold forward
  rw [hstate]

/-- The hypothesis of C5 holds of the empty array on a network of four inputs. -/
theorem C5_witness :
    ([] : List Elem).length ≠ zeroNet.inputSize
      ∧ forward sampleFns zeroNet (.array [])
        = forward sampleFns zeroNet (.array (List.replicate zeroNet.inputSize (.num 0))) :=
  ⟨by decide,
    (C5_invalid_input_is_zero_vector sampleFns zeroNet (.array [])
      (Or.inr (Or.inr ⟨[], rfl, by decide⟩))).2⟩

theorem setExtend_length (a : List Num) (k : Nat) (v : Num) (h : k < a.length) :
    (setExtend a k v).length = a.length := by
  simp [setExtend, h]

theorem safeInput_length (inputSize : Nat) (input : Input) (h : 3 ≤ inputSize) :
    (safeInput inputSize input).length = inputSize := by
  cases input with
  | array xs =>
      by_cases hx : xs.length = inputSize
      · simp [safeInput, hx]
      · simp [safeInput, hx]
  | scalar v =>
      cases v with
      | none => simp [safeInput]
      | some q =>
          simp only [safeInput]
          rw [setExtend_length _ _ _ (by simp; omega)]
          simp
  | null => simp [safeInput]
  | undefined => simp [safeInput]
  | other => simp [safeInput]
  | object x y =>
      have e1 : ∀ v : Num, (setExtend (List.replicate inputSize 0) 0 v).length = inputSize := by
        intro v
        rw [setExtend_length _ _ _ (by simp; omega)]
        simp
      cases x with
      | none =>
          cases y with
          | none => simp [safeInput]
          | some w =>
              simp only [safeInput]
              rw [setExtend_length _ _ _ (by simp; omega)]
              simp
      | some v =>
          cases y with
          | none => simpa [safeInput] using e1 _
          | some w =>
              simp only [safeInput]
              rw [setExtend_length _ _ _ (by rw [e1]; omega)]
              exact e1 _

theorem forwardState_layer0 (fns : MathFns) (s : DPNN) (input : Input)
    (h : 0 < s.layers.length) :
    ((forwardState fns s input).layers.getD 0 []).length
      = (safeInput s.inputSize input).length := by
  unfold forwardState
  apply foldl_inv (fun s2 : DPNN => (s2.layers.getD 0 []).length
      = (safeInput s.inputSize input).length)
  · simp only [forwardInit, getD_set]
    rw [if_pos ⟨trivial, h⟩]
  · intro b l _ hb
    rw [(layerStep_layers fns b l).2 0, hb]

/-- After `forward` on a network of the diamond shape with at least three inputs, the layers
have the sizes of the diamond. -/
theorem forwardState_sizes (fns : MathFns) (s : DPNN) (input : Input) (h : WF s)
    (h3 : 3 ≤ s.inputSize) (m : Nat) :
    ((forwardState fns s input).layers.getD m []).length
      = (diamondSizes s.inputSize s.outputSize).getD m 0 := by
  obtain ⟨_, _, _, _, hlayers, _⟩ := h
  have hlen : s.layers.length = 10 := by
    have := congrArg List.length hlayers
    simpa [diamondSizes] using this
  by_cases hm : 1 ≤ m
  · rw [(forwardState_layers fns s input).2 m hm, getD_map_length, hlayers]
  · have hm0 : m = 0 := by omega
    subst hm0
    rw [forwardState_layer0 fns s input (by omega), safeInput_length _ _ h3]
    rfl

/-- C2, as amended: after `forward` on the 4-input/4-output network, every recorded path
`(l, from, to)` has `l ≤ 8`, `from < size l` and `to < size (l + 1)`; the node `to` of layer
`l + 1` is flagged active or holds the value `0`; and it is flagged active when `l + 1` is the
output layer. -/
theorem C2_paths_join_adjacent_layers (fns : MathFns) (s : DPNN) (input : Input) (h : WF s)
    (hin : s.inputSize = 4) (hout : s.outputSize = 4) :
    ∀ p ∈ (forwardState fns s input).activePaths,
      p.layer ≤ 8
        ∧ p.from_ < (diamondSizes 4 4).getD p.layer 0
        ∧ p.to_ < (diamondSizes 4 4).getD (p.layer + 1) 0
        ∧ (((forwardState fns s input).activations.getD (p.layer + 1) []).getD p.to_ false
              = true
            ∨ ((forwardState fns s input).layers.getD (p.layer + 1) []).getD p.to_ 0 = 0)
        ∧ (p.layer = 8 →
            ((forwardState fns s input).activations.getD (p.layer + 1) []).getD p.to_ false
              = true) := by
  intro p hp
  obtain ⟨h1, h2, h3, h4, h5⟩ := forwardState_paths fns s input p hp
  have hlen : (forwardState fns s input).layers.length = 10 := by
    rw [(forwardState_layers fns s input).1]
    have := congrArg List.length h.2.2.2.2.1
    simpa [diamondSizes] using this
  have hs := forwardState_sizes fns s input h (by omega)
  rw [hin, hout] at hs
  rw [hs] at h2 h3
  rw [hlen] at h1 h5
  exact ⟨by omega, h2, h3, h4, fun h8 => h5 (by omega)⟩

/-- The hypotheses of C2 hold of the network of the constructor. -/
theorem C2_witness :
    WF zeroNet ∧ zeroNet.inputSize = 4 ∧ zeroNet.outputSize = 4
      ∧ ∀ p ∈ (forwardState sampleFns zeroNet
            (.array [.num 1, .num 0, .num 0, .num 0])).activePaths, p.layer ≤ 8 :=
  ⟨by decide!, rfl, rfl, fun p hp =>
    (C2_paths_join_adjacent_layers sampleFns zeroNet (.array [.num 1, .num 0, .num 0, .num 0])
      (by decide!) rfl rfl p hp).1⟩

/-- C2 fails as stated: on the network of the constructor whose weights and biases are all `0`
and the input `[1, 0, 0, 0]`, `forward` records the path `(0, 0, 0)`, and node `0` of layer `1`
is not flagged active afterwards. -/
theorem C2_counterexample :
    WF zeroNet ∧ zeroNet.inputSize = 4 ∧ zeroNet.outputSize = 4
      ∧ (⟨0, 0, 0, 1, 1, .expansion, true⟩ : Path)
          ∈ (forwardState sampleFns zeroNet (.array [.num 1, .num 0, .num 0, .num 0])).activePaths
      ∧ ((forwardState sampleFns zeroNet
            (.array [.num 1, .num 0, .num 0, .num 0])).activations.getD 1 []).getD 0 false
          = false := by
  decide!

/-! ### Training touches the recorded paths only -/

theorem updateBiases_frame (s : DPNN) (learningRate : Num) (g : Grads) (l : Nat) :
    (updateBiases s learningRate g l).weights = s.weights
      ∧ (updateBiases s learningRate g l).connectionConfidence = s.connectionConfidence
      ∧ (updateBiases s learningRate g l).activePaths = s.activePaths
      ∧ (updateBiases s learningRate g l).layers = s.layers := by
  unfold updateBiases
  apply foldl_inv (fun s2 : DPNN => s2.weights = s.weights
      ∧ s2.connectionConfidence = s.connectionConfidence
      ∧ s2.activePaths = s.activePaths ∧ s2.layers = s.layers)
  · exact ⟨rfl, rfl, rfl, rfl⟩
  · intro b j _ hb
    split_ifs
    · exact hb
    · exact hb


theorem mem_pathsByLayer {s : DPNN} {l : Nat} {path : Path} (h : path ∈ pathsByLayer s l) :
    path ∈ s.activePaths ∧ path.layer = l := by
  have := List.mem_filter.mp h
  exact ⟨this.1, by simpa using this.2⟩

theorem applyGradients_keeps (g : Grads) (learningRate : Num) (s b : DPNN) (l i j l2 : Nat)
    (h : Unrecorded s.activePaths l i j) (hb : KeepsEntry s l i j b) :
    KeepsEntry s l i j (applyGradients g learningRate b l2) := by
  unfold applyGradients
  obtain ⟨hu1, hu2, hu3, _⟩ := updateBiases_frame
    ((pathsByLayer b l2).foldl (gradientStep g learningRate l2) b) learningRate g l2
  unfold KeepsEntry
  rw [hu1, hu2, hu3]
  apply foldl_inv (fun s2 : DPNN => KeepsEntry s l i j s2)
  · exact hb
  · intro b2 path hpath hb2
    obtain ⟨hm1, hm2⟩ := mem_pathsByLayer hpath
    rw [hb.2.2] at hm1
    refine ⟨?_, hb2.2.1, hb2.2.2⟩
    simp only [gradientStep]
    rw [get3_set3_of_ne _ _ _ _ _ _ _ _ (fun hh => h path hm1
      ⟨hm2.trans hh.1, hh.2.1, hh.2.2⟩)]
    exact hb2.1

theorem backpropagate_keeps (fns : MathFns) (s : DPNN) (target : Option (List Num))
    (learningRate : Num) (l i j : Nat) (h : Unrecorded s.activePaths l i j) :
    KeepsEntry s l i j (backpropagate fns s target learningRate).1 := by
  unfold backpropagate
  simp only
  apply foldl_inv (fun s2 : DPNN => KeepsEntry s l i j s2)
  · exact ⟨rfl, rfl, rfl⟩
  · intro b l2 _ hb
    exact applyGradients_keeps _ _ s b l i j l2 h hb

theorem confidenceStep_keeps (g : Grads) (s b : DPNN) (l i j l2 : Nat) (path : Path)
    (h : Unrecorded s.activePaths l i j) (hpath : path ∈ s.activePaths)
    (hb : KeepsEntry s l i j b) : KeepsEntry s l i j (confidenceStep g l2 b path) := by
  unfold confidenceStep
  by_cases h1 : path.layer = l2
  · have hne : ¬ (l2 = l ∧ path.from_ = i ∧ path.to_ = j) :=
      fun hh => h path hpath ⟨h1.trans hh.1, hh.2.1, hh.2.2⟩
    rw [if_pos h1]
    simp only
    split_ifs
    · refine ⟨hb.1, ?_, hb.2.2⟩
      simp only
      rw [get3_set3_of_ne _ _ _ _ _ _ _ _ hne]
      exact hb.2.1
    · refine ⟨hb.1, ?_, hb.2.2⟩
      simp only
      rw [get3_set3_of_ne _ _ _ _ _ _ _ _ hne]
      exact hb.2.1
  · rw [if_neg h1]
    exact hb

theorem weightStep_keeps (rnd : Nat → Num) (g : Grads) (learningRate : Num) (s : DPNN)
    (sc : DPNN × Nat) (l i j l2 : Nat) (path : Path)
    (h : Unrecorded s.activePaths l i j) (hpath : path ∈ s.activePaths)
    (hlayer : path.layer = l2)
    (hb : KeepsEntry s l i j sc.1) :
    KeepsEntry s l i j (weightStep rnd g learningRate l2 sc path).1 := by
  have hne : ¬ (l2 = l ∧ path.from_ = i ∧ path.to_ = j) :=
    fun hh => h path hpath ⟨hlayer.trans hh.1, hh.2.1, hh.2.2⟩
  unfold weightStep
  simp only
  split_ifs
  · refine ⟨?_, hb.2.1, hb.2.2⟩
    simp only
    rw [get3_set3_of_ne _ _ _ _ _ _ _ _ hne, get3_set3_of_ne _ _ _ _ _ _ _ _ hne]
    exact hb.1
  · refine ⟨?_, hb.2.1, hb.2.2⟩
    simp only
    rw [get3_set3_of_ne _ _ _ _ _ _ _ _ hne]
    exact hb.1
  · refine ⟨?_, hb.2.1, hb.2.2⟩
    simp only
    rw [get3_set3_of_ne _ _ _ _ _ _ _ _ hne]
    exact hb.1

theorem applyConfidenceGradients_keeps (rnd : Nat → Num) (g : Grads) (learningRate : Num)
    (s : DPNN) (sc : DPNN × Nat) (l i j l2 : Nat)
    (h : Unrecorded s.activePaths l i j) (hb : KeepsEntry s l i j sc.1) :
    KeepsEntry s l i j (applyConfidenceGradients rnd g learningRate sc l2).1 := by
  unfold applyConfidenceGradients
  simp only
  have h1 : KeepsEntry s l i j (sc.1.activePaths.foldl (confidenceStep g l2) sc.1) := by
    apply foldl_inv (fun s2 : DPNN => KeepsEntry s l i j s2)
    · exact hb
    · intro b path hpath hb2
      rw [hb.2.2] at hpath
      exact confidenceStep_keeps g s b l i j l2 path h hpath hb2
  generalize sc.1.activePaths.foldl (confidenceStep g l2) sc.1 = s1 at h1 ⊢
  have h2 : KeepsEntry s l i j
      ((pathsByLayer s1 l2).foldl (weightStep rnd g learningRate l2) (s1, sc.2)).1 := by
    apply foldl_inv (fun sc2 : DPNN × Nat => KeepsEntry s l i j sc2.1)
    · exact h1
    · intro b path hpath hb2
      obtain ⟨hm1, hm2⟩ := mem_pathsByLayer hpath
      rw [h1.2.2] at hm1
      exact weightStep_keeps rnd g learningRate s b l i j l2 path h hm1 hm2 hb2
  obtain ⟨hu1, hu2, hu3, _⟩ := updateBiases_frame
    ((pathsByLayer s1 l2).foldl (weightStep rnd g learningRate l2) (s1, sc.2)).1
    learningRate g l2
  unfold KeepsEntry
  rw [hu1, hu2, hu3]
  exact h2

theorem get3_map (f : Num → Num) (hf : f 0 = 0) (m : List (List (List Num))) (l i j : Nat) :
    get3 (m.map (fun mat => mat.map (fun row => row.map f))) l i j = f (get3 m l i j) := by
  unfold get3 get2
  simp only [List.getD_eq_getElem?_getD, List.getElem?_map]
  cases m[l]? with
  | none => simp [hf]
  | some mat =>
      simp only [Option.map_some', Option.getD_some, List.getElem?_map]
      cases mat[i]? with
      | none => simp [hf]
      | some row =>
          simp only [Option.map_some', Option.getD_some, List.getElem?_map]
          cases row[j]? with
          | none => simp [hf]
          | some w => simp

theorem verifyNetworkIntegrity_weight (s : DPNN) (l i j : Nat)
    (h : |get3 s.weights l i j| ≤ 10) :
    get3 (verifyNetworkIntegrity s).1.weights l i j = get3 s.weights l i j
      ∧ (verifyNetworkIntegrity s).1.connectionConfidence = s.connectionConfidence := by
  refine ⟨?_, rfl⟩
  simp only [verifyNetworkIntegrity]
  rw [get3_map (fun w => if |w| > 10 then jsSign w * 5 else w) (by norm_num)]
  exact if_neg (not_lt.mpr h)

/-- C3: on a state whose weights all have magnitude at most 10, `backpropagate` and
`confidenceBasedBackpropagation` leave the weight and the confidence of every connection
`(l, i, j)` that is no entry of `activePaths` as they were, for every target, every learning
rate and every outcome `rnd` of the random draws. -/
theorem C3_training_keeps_unrecorded_connections (fns : MathFns) (rnd : Nat → Num)
    (cursor : Nat) (s : DPNN) (target : Option (List Num)) (learningRate : Num)
    (hw : ∀ l i j, |get3 s.weights l i j| ≤ 10) (l i j : Nat)
    (h : Unrecorded s.activePaths l i j) :
    get3 (backpropagate fns s target learningRate).1.weights l i j = get3 s.weights l i j
      ∧ get3 (backpropagate fns s target learningRate).1.connectionConfidence l i j
          = get3 s.connectionConfidence l i j
      ∧ get3 (confidenceBasedBackpropagation fns rnd cursor s target learningRate).1.weights
          l i j = get3 s.weights l i j
      ∧ get3 (confidenceBasedBackpropagation fns rnd cursor s target
          learningRate).1.connectionConfidence l i j = get3 s.connectionConfidence l i j := by
  have hb := backpropagate_keeps fns s target learningRate l i j h
  refine ⟨hb.1, hb.2.1, ?_⟩
  have hc : KeepsEntry s l i j ((List.range (s.layers.length - 1)).foldl
      (applyConfidenceGradients rnd (gradients fns s target).2 learningRate) (s, cursor)).1 := by
    apply foldl_inv (fun sc : DPNN × Nat => KeepsEntry s l i j sc.1)
    · exact ⟨rfl, rfl, rfl⟩
    · intro b l2 _ hb2
      exact applyConfidenceGradients_keeps rnd _ learningRate s b l i j l2 h hb2
  unfold confidenceBasedBackpropagation
  simp only
  generalize (List.range (s.layers.length - 1)).foldl
      (applyConfidenceGradients rnd (gradients fns s target).2 learningRate) (s, cursor) = sc
    at hc ⊢
  have hv := verifyNetworkIntegrity_weight
    { sc.1 with stats :=
        { sc.1.stats with
          trainingIterations := sc.1.stats.trainingIterations + 1
          lastError := meanAbsError (gradients fns s target).1 } } l i j
    (by rw [show get3 _ l i j = get3 sc.1.weights l i j from rfl, hc.1]; exact hw l i j)
  rw [hv.1, hv.2]
  exact ⟨hc.1, hc.2.1⟩

theorem abs_get3_le (m : List (List (List Num))) (b : Num) (hb : 0 ≤ b)
    (h : m.all (fun mat => mat.all (fun row => row.all (fun w => decide (|w| ≤ b)))) = true)
    (l i j : Nat) : |get3 m l i j| ≤ b := by
  unfold get3 get2
  simp only [List.getD_eq_getElem?_getD]
  cases hl : m[l]? with
  | none => simpa using hb
  | some mat =>
      have hmat := List.getElem?_mem hl
      simp only [Option.getD_some]
      cases hi : mat[i]? with
      | none => simpa using hb
      | some row =>
          have hrow := List.getElem?_mem hi
          simp only [Option.getD_some]
          cases hj : row[j]? with
          | none => simpa using hb
          | some w =>
              have hw := List.getElem?_mem hj
              simp only [List.all_eq_true, decide_eq_true_eq] at h
              simpa using h mat hmat row hrow w hw

theorem zeroState_weights_bounded :
    zeroState.weights.all (fun mat => mat.all (fun row => row.all (fun w =>
      decide (|w| ≤ (10 : Num))))) = true := by
  decide!

/-- The hypotheses of C3 hold after a forward pass on the network of the constructor, for the
connection from the inactive input node `3`. -/
theorem C3_witness :
    Unrecorded zeroState.activePaths 0 3 0
      ∧ get3 (confidenceBasedBackpropagation sampleFns (fun _ => 0) 0 zeroState
          (some [1, 0, 0, 0]) (1 / 10)).1.weights 0 3 0
        = get3 zeroState.weights 0 3 0 :=
  ⟨by decide!,
    (C3_training_keeps_unrecorded_connections sampleFns (fun _ => 0) 0 zeroState
      (some [1, 0, 0, 0]) (1 / 10)
      (abs_get3_le zeroState.weights 10 (by norm_num) zeroState_weights_bounded)
      0 3 0 (by decide!)).2.2.1⟩

/-! ### Structural plasticity -/

/-- C8: when the activation density `d = 100 * (active nodes) / (total nodes)` lies between
20 and 30, `pruneConnections` returns `d` and leaves every weight, bias, connection
confidence and node confidence, and the list of recorded paths, as they were. -/
theorem C8_pruneConnections_idle_in_band (rnd : Nat → Num) (c : Nat) (s : DPNN)
    (h20 : 20 ≤ 100 * (activeNodes s : Num) / (totalNodes s : Num))
    (h30 : 100 * (activeNodes s : Num) / (totalNodes s : Num) ≤ 30) :
    (pruneConnections rnd c s).2.2 = 100 * (activeNodes s : Num) / (totalNodes s : Num)
      ∧ (pruneConnections rnd c s).1.weights = s.weights
      ∧ (pruneConnections rnd c s).1.biases = s.biases
      ∧ (pruneConnections rnd c s).1.connectionConfidence = s.connectionConfidence
      ∧ (pruneConnections rnd c s).1.nodeConfidence = s.nodeConfidence
      ∧ (pruneConnections rnd c s).1.activePaths = s.activePaths := by
  have hpct : activationPercentage s = 100 * (activeNodes s : Num) / (totalNodes s : Num) := by
    unfold activationPercentage
    ring
  rw [← hpct] at h20 h30 ⊢
  have hn30 : ¬ activationPercentage s > 30 := not_lt.mpr h30
  have hn20 : ¬ activationPercentage s < 20 := not_lt.mpr h20
  unfold pruneConnections
  simp only [hn30, hn20, if_false]
  cases s.pruningHistory <;> simp

/-- The hypotheses of C8 hold of a state with 28 active nodes out of 120. -/
theorem C8_witness :
    20 ≤ 100 * (activeNodes bandState : Num) / (totalNodes bandState : Num)
      ∧ 100 * (activeNodes bandState : Num) / (totalNodes bandState : Num) ≤ 30
      ∧ (pruneConnections (fun _ => 0) 0 bandState).1.weights = bandState.weights :=
  ⟨by decide!, by decide!,
    (C8_pruneConnections_idle_in_band (fun _ => 0) 0 bandState (by decide!) (by decide!)).2.1⟩

/-! ### Confidence update from a positive reward -/

theorem raisedConfidence_bounds (reward x : Num) (hx : x ≤ 1) :
    x ≤ raisedConfidence reward x ∧ raisedConfidence reward x ≤ 1 := by
  unfold raisedConfidence
  simp only
  have hch : (0 : Num) < max (reward * 0.1) 0.001 := lt_max_of_lt_right (by norm_num)
  have hroom : (0 : Num) ≤ 1.0 - x := by norm_num; exact hx
  have hprod : 0 ≤ max (reward * 0.1) 0.001 * (1.0 - x) := mul_nonneg hch.le hroom
  refine ⟨le_min (by norm_num; exact hx) (by linarith), ?_⟩
  have : min (1.0 : Num) (x + max (reward * 0.1) 0.001 * (1.0 - x)) ≤ 1.0 := min_le_left _ _
  norm_num at this ⊢

theorem get3_of_lookup (m : List (List (List Num))) (l i j : Nat) (row : List Num) (w : Num)
    (h1 : (m.getD l [])[i]? = some row) (h2 : row[j]? = some w) : get3 m l i j = w := by
  unfold get3 get2
  rw [List.getD_eq_getElem?_getD _ j, List.getD_eq_getElem?_getD _ i, h1]
  simp [h2]

theorem rewardPathStep_raised (reward : Num) (hr : 0 < reward) (s : DPNN) (a : RewardAcc)
    (path : Path) (h : Raised s a.s ∧ a.pathsToDelete = [] ∧ a.s.activePaths = s.activePaths) :
    Raised s (rewardPathStep reward a path).s ∧ (rewardPathStep reward a path).pathsToDelete = []
      ∧ (rewardPathStep reward a path).s.activePaths = s.activePaths := by
  unfold rewardPathStep
  simp only
  cases hrow : (a.s.connectionConfidence.getD path.layer [])[path.from_]? with
  | none => exact h
  | some row =>
      simp only
      cases hc : row[path.to_]? with
      | none => exact h
      | some cur =>
          simp only [hr, if_true]
          refine ⟨?_, h.2.1, h.2.2⟩
          intro l i j hle
          have hcur : get3 a.s.connectionConfidence path.layer path.from_ path.to_ = cur :=
            get3_of_lookup _ _ _ _ _ _ hrow hc
          obtain ⟨h1, h2⟩ := h.1 l i j hle
          rw [get3_set3]
          split_ifs with heq
          · obtain ⟨rfl, rfl, rfl, _⟩ := heq
            rw [hcur] at h1 h2
            have hb := raisedConfidence_bounds reward cur h2
            exact ⟨h1.trans hb.1, hb.2⟩
          · exact ⟨h1, h2⟩

theorem rewardNodeStep_pos (reward : Num) (hr : 0 < reward) (sn : DPNN × List (Nat × Nat))
    (node : Nat × Nat) :
    (rewardNodeStep reward sn node).1.connectionConfidence = sn.1.connectionConfidence
      ∧ (rewardNodeStep reward sn node).1.activePaths = sn.1.activePaths
      ∧ (rewardNodeStep reward sn node).2 = sn.2 := by
  unfold rewardNodeStep
  simp only
  split
  · exact ⟨rfl, rfl, rfl⟩
  · simp [hr]

/-- A call of `updateConfidenceFromReward` with a positive reward completes; it keeps the
recorded paths, and a confidence that was at most `1` has not decreased and is still at most
`1`. -/
theorem updateConfidenceFromReward_pos (rnd : Nat → Num) (fuel c : Nat) (s : DPNN)
    (reward : Num) (direction : Option String) (hr : 0 < reward) :
    ∃ s2 : DPNN, updateConfidenceFromReward rnd fuel c s reward direction = .ok (s2, c)
      ∧ s2.activePaths = s.activePaths ∧ Raised s s2 := by
  have ha := foldl_inv
    (fun a : RewardAcc => Raised s a.s ∧ a.pathsToDelete = [] ∧ a.s.activePaths = s.activePaths)
    (rewardPathStep reward) s.activePaths { s := s, firedNodes := [], pathsToDelete := [] }
    ⟨fun l i j _ => ⟨le_refl _, by assumption⟩, rfl, rfl⟩
    (fun a path _ h => rewardPathStep_raised reward hr s a path h)
  simp only at ha
  unfold updateConfidenceFromReward
  simp only
  generalize s.activePaths.foldl (rewardPathStep reward)
    { s := s, firedNodes := [], pathsToDelete := [] } = a at ha ⊢
  obtain ⟨ha1, ha2, ha3⟩ := ha
  rw [ha2]
  simp only [List.foldl_nil, List.length_nil, Nat.add_zero]
  have hn := foldl_inv
    (fun sn : DPNN × List (Nat × Nat) =>
      sn.1.connectionConfidence = a.s.connectionConfidence
        ∧ sn.1.activePaths = a.s.activePaths ∧ sn.2 = [])
    (rewardNodeStep reward) a.firedNodes (a.s, []) ⟨rfl, rfl, rfl⟩
    (fun sn node _ h => by
      obtain ⟨h1, h2, h3⟩ := rewardNodeStep_pos reward hr sn node
      exact ⟨h1.trans h.1, h2.trans h.2.1, h3.trans h.2.2⟩)
  simp only at hn
  generalize a.firedNodes.foldl (rewardNodeStep reward) (a.s, []) = sn at hn ⊢
  obtain ⟨hn1, hn2, hn3⟩ := hn
  rw [hn3]
  have hneg : ¬ reward < 0 := not_lt.mpr hr.le
  simp only [mutateNodes, hneg, if_false, List.length_nil, Nat.add_zero]
  cases direction with
  | none =>
      refine ⟨_, rfl, hn2.trans ha3, ?_⟩
      intro l i j hle
      simp only [hn1]
      exact ha1 l i j hle
  | some d =>
      refine ⟨_, rfl, hn2.trans ha3, ?_⟩
      intro l i j hle
      simp only [hn1]
      exact ha1 l i j hle

theorem repeatReward_pos (rnd : Nat → Num) (fuel c : Nat) (s : DPNN) (reward : Num)
    (direction : Option String) (hr : 0 < reward) (n : Nat) :
    ∃ s1 : DPNN, repeatReward rnd fuel reward direction n (s, c) = .ok (s1, c)
      ∧ s1.activePaths = s.activePaths ∧ Raised s s1 := by
  induction n with
  | zero => exact ⟨s, rfl, rfl, fun l i j h => ⟨le_refl _, h⟩⟩
  | succ n ih =>
      obtain ⟨s1, h1, h2, h3⟩ := ih
      obtain ⟨s2, k1, k2, k3⟩ :=
        updateConfidenceFromReward_pos rnd fuel c s1 reward direction hr
      refine ⟨s2, ?_, k2.trans h2, ?_⟩
      · simp only [repeatReward, h1]
        exact k1
      · intro l i j hle
        obtain ⟨a1, a2⟩ := h3 l i j hle
        obtain ⟨b1, b2⟩ := k3 l i j a2
        exact ⟨a1.trans b1, b2⟩

/-- C10: for a reward `r > 0`, every call `updateConfidenceFromReward(r, direction)` completes,
and over any number `n` of successive calls the confidence of a connection (recorded in
`activePaths` or not) that was at most `1` at the start never decreases from one call to the
next and stays at most `1`: with `c` its value at the start, `c1` after `n` calls and `c2`
after `n + 1`, `c ≤ c1 ≤ c2 ≤ 1`. -/
theorem C10_positive_reward_raises_confidence (rnd : Nat → Num) (fuel c : Nat) (s : DPNN)
    (reward : Num) (direction : Option String) (hr : 0 < reward) (n : Nat) :
    ∃ s1 s2 : DPNN,
      repeatReward rnd fuel reward direction n (s, c) = .ok (s1, c)
        ∧ updateConfidenceFromReward rnd fuel c s1 reward direction = .ok (s2, c)
        ∧ repeatReward rnd fuel reward direction (n + 1) (s, c) = .ok (s2, c)
        ∧ ∀ l i j, get3 s.connectionConfidence l i j ≤ 1 →
            get3 s.connectionConfidence l i j ≤ get3 s1.connectionConfidence l i j
              ∧ get3 s1.connectionConfidence l i j ≤ get3 s2.connectionConfidence l i j
              ∧ get3 s2.connectionConfidence l i j ≤ 1 := by
  obtain ⟨s1, h1, _, h3⟩ := repeatReward_pos rnd fuel c s reward direction hr n
  obtain ⟨s2, k1, _, k3⟩ := updateConfidenceFromReward_pos rnd fuel c s1 reward direction hr
  refine ⟨s1, s2, h1, k1, ?_, ?_⟩
  · simp only [repeatReward, h1]
    exact k1
  · intro l i j hle
    obtain ⟨a1, a2⟩ := h3 l i j hle
    obtain ⟨b1, b2⟩ := k3 l i j a2
    exact ⟨a1, b1, b2⟩

/-- The hypothesis of C10 holds of the reward `0.1`; after a forward pass on the network of the
constructor, the first call raises the confidence `0.5` of the recorded connection `(0, 0, 0)`
to `0.505`. -/
theorem C10_witness :
    (0 : Num) < 1 / 10
      ∧ activatedInLayer zeroState 0 0 0 = true
      ∧ get3 zeroState.connectionConfidence 0 0 0 = 1 / 2
      ∧ (updateConfidenceFromReward (fun _ => 0) 5 0 zeroState (1 / 10) none).toOption.map
          (fun sc => get3 sc.1.connectionConfidence 0 0 0) = some (101 / 200)
      ∧ ∃ s1 s2 : DPNN,
          repeatReward (fun _ => 0) 5 (1 / 10) none 3 (zeroState, 0) = .ok (s1, 0)
            ∧ updateConfidenceFromReward (fun _ => 0) 5 0 s1 (1 / 10) none = .ok (s2, 0)
            ∧ repeatReward (fun _ => 0) 5 (1 / 10) none 4 (zeroState, 0) = .ok (s2, 0)
            ∧ ∀ l i j, get3 zeroState.connectionConfidence l i j ≤ 1 →
                get3 zeroState.connectionConfidence l i j
                    ≤ get3 s1.connectionConfidence l i j
                  ∧ get3 s1.connectionConfidence l i j ≤ get3 s2.connectionConfidence l i j
                  ∧ get3 s2.connectionConfidence l i j ≤ 1 :=
  ⟨by norm_num, by decide!, by decide!, by decide!,
    C10_positive_reward_raises_confidence (fun _ => 0) 5 0 zeroState (1 / 10) none
      (by norm_num) 3⟩

/-! ### Counting nonzero weights -/

theorem sum_map_set {α : Type} (f : α → Nat) (m : List α) (i : Nat) (d x : α)
    (h : i < m.length) :
    ((m.set i x).map f).sum + f (m.getD i d) = (m.map f).sum + f x := by
  induction m generalizing i with
  | nil => simp at h
  | cons a rest ih =>
      cases i with
      | zero =>
          simp only [List.set_cons_zero, List.map_cons, List.sum_cons, List.getD_cons_zero]
          omega
      | succ k =>
          have hk : k < rest.length := by simpa using h
          have := ih k hk
          simp only [List.set_cons_succ, List.map_cons, List.sum_cons, List.getD_cons_succ]
          omega

theorem countP_set {α : Type} (p : α → Bool) (row : List α) (j : Nat) (d v : α)
    (h : j < row.length) :
    (row.set j v).countP p + (if p (row.getD j d) then 1 else 0)
      = row.countP p + (if p v then 1 else 0) := by
  induction row generalizing j with
  | nil => simp at h
  | cons a rest ih =>
      cases j with
      | zero =>
          simp only [List.set_cons_zero, List.countP_cons, List.getD_cons_zero]
          omega
      | succ k =>
          have hk : k < rest.length := by simpa using h
          have := ih k hk
          simp only [List.set_cons_succ, List.countP_cons, List.getD_cons_succ]
          omega

/-- The count of nonzero weights of a matrix after the assignment `m[i][j] = v` of an existing
entry. -/
theorem nonzeroCount_set2 (m : List (List Num)) (i j : Nat) (v : Num)
    (hi : i < m.length) (hj : j < (m.getD i []).length) :
    nonzeroCount (set2 m i j v) + (if get2 m i j ≠ 0 then 1 else 0)
      = nonzeroCount m + (if v ≠ 0 then 1 else 0) := by
  unfold nonzeroCount set2 get2
  have h1 := sum_map_set (fun row : List Num => row.countP (fun w => decide (w ≠ 0))) m i []
    ((m.getD i []).set j v) hi
  have h2 := countP_set (fun w : Num => decide (w ≠ 0)) (m.getD i []) j 0 v hj
  simp only [decide_eq_true_eq] at h2
  simp only at h1
  omega

theorem InRange.of_ne_zero {m : List (List (List Num))} {l i j : Nat}
    (h : get3 m l i j ≠ 0) : InRange m l i j :=
  get3_ne_zero_bounds m l i j h

theorem get3_set3_inRange (m : List (List (List Num))) (l i j : Nat) (v : Num)
    (h : InRange m l i j) : get3 (set3 m l i j v) l i j = v := by
  rw [get3_set3, if_pos ⟨rfl, rfl, rfl, h.1, h.2.1, h.2.2⟩]

theorem getD_set3 (m : List (List (List Num))) (l i j l2 : Nat) (v : Num) :
    (set3 m l i j v).getD l2 []
      = if l = l2 ∧ l < m.length then set2 (m.getD l []) i j v else m.getD l2 [] := by
  unfold set3
  rw [getD_set]

/-! ### Growth: `addRandomConnection` -/

theorem randomIndex_lt (r : Num) (n : Nat) (h1 : r < 1) (hn : 0 < n) :
    randomIndex r n < n := by
  unfold randomIndex
  rw [Int.toNat_lt' (by omega), Int.floor_lt]
  have hn2 : (0 : Num) < (n : Num) := by exact_mod_cast hn
  have : r * (n : Num) < 1 * (n : Num) := mul_lt_mul_of_pos_right h1 hn2
  simpa using this

theorem chooseIndex_lt (rnd : Nat → Num) (c : Nat) (preferred : List Nat) (total : Nat)
    (hrnd : ∀ n, rnd n < 1) (htotal : 0 < total) (hpref : ∀ x ∈ preferred, x < total) :
    (chooseIndex rnd c preferred total).1 < total := by
  unfold chooseIndex
  split_ifs with h1 h2
  · have hlt := randomIndex_lt (rnd (c + 1)) preferred.length (hrnd _) h1
    apply hpref
    rw [List.getD_eq_getElem?_getD, List.getElem?_eq_getElem hlt]
    exact List.getElem_mem _
  · exact randomIndex_lt _ _ (hrnd _) htotal
  · exact randomIndex_lt _ _ (hrnd _) htotal

theorem shape_of_map_length {α : Type} (w : List (List α)) (a b : Nat)
    (h : w.map List.length = List.replicate a b) :
    w.length = a ∧ ∀ i, i < a → (w.getD i []).length = b := by
  have hlen : w.length = a := by
    have := congrArg List.length h
    simpa using this
  refine ⟨hlen, ?_⟩
  intro i hi
  rw [getD_map_length, h]
  simp [List.getD_eq_getElem?_getD, List.getElem?_replicate, hi]

/-- On a network of the diamond shape, the matrices `l < 9` of the weights and of the
connection confidences have `size l` rows of `size (l + 1)` columns. -/
theorem WF.shape {s : DPNN} (h : WF s) (l : Nat) (hl : l < 9) :
    l < s.weights.length ∧ l < s.connectionConfidence.length
      ∧ (s.weights.getD l []).length = (diamondSizes s.inputSize s.outputSize).getD l 0
      ∧ (s.connectionConfidence.getD l []).length
          = (diamondSizes s.inputSize s.outputSize).getD l 0
      ∧ (∀ i, i < (diamondSizes s.inputSize s.outputSize).getD l 0 →
          ((s.weights.getD l []).getD i []).length
              = (diamondSizes s.inputSize s.outputSize).getD (l + 1) 0
            ∧ ((s.connectionConfidence.getD l []).getD i []).length
              = (diamondSizes s.inputSize s.outputSize).getD (l + 1) 0)
      ∧ (s.layers.getD l []).length = (diamondSizes s.inputSize s.outputSize).getD l 0
      ∧ (s.layers.getD (l + 1) []).length
          = (diamondSizes s.inputSize s.outputSize).getD (l + 1) 0 := by
  obtain ⟨_, _, _, _, hlayers, _, _, hw, hc, _⟩ := h
  have hwl : s.weights.length = 9 := by
    have := congrArg List.length hw
    simpa [diamondShape] using this
  have hcl : s.connectionConfidence.length = 9 := by
    have := congrArg List.length hc
    simpa [diamondShape] using this
  have hshape : (diamondShape s.inputSize s.outputSize).getD l []
      = List.replicate ((diamondSizes s.inputSize s.outputSize).getD l 0)
          ((diamondSizes s.inputSize s.outputSize).getD (l + 1) 0) := by
    interval_cases l <;> rfl
  have hwm : (s.weights.getD l []).map List.length
      = (diamondShape s.inputSize s.outputSize).getD l [] := by
    rw [← hw]
    simp only [List.getD_eq_getElem?_getD, List.getElem?_map]
    cases s.weights[l]? <;> rfl
  have hcm : (s.connectionConfidence.getD l []).map List.length
      = (diamondShape s.inputSize s.outputSize).getD l [] := by
    rw [← hc]
    simp only [List.getD_eq_getElem?_getD, List.getElem?_map]
    cases s.connectionConfidence[l]? <;> rfl
  rw [hshape] at hwm hcm
  obtain ⟨w1, w2⟩ := shape_of_map_length _ _ _ hwm
  obtain ⟨c1, c2⟩ := shape_of_map_length _ _ _ hcm
  refine ⟨by omega, by omega, w1, c1, fun i hi => ⟨w2 i hi, c2 i hi⟩, ?_, ?_⟩
  · rw [getD_map_length, hlayers]
  · rw [getD_map_length, hlayers]

theorem WF.inRange {s : DPNN} (h : WF s) (l i j : Nat) (hl : l < 9)
    (hi : i < (diamondSizes s.inputSize s.outputSize).getD l 0)
    (hj : j < (diamondSizes s.inputSize s.outputSize).getD (l + 1) 0) :
    InRange s.weights l i j ∧ InRange s.connectionConfidence l i j := by
  obtain ⟨a, b, c, d, e, _, _⟩ := h.shape l hl
  exact ⟨⟨a, by rw [c]; exact hi, by rw [(e i hi).1]; exact hj⟩,
    ⟨b, by rw [d]; exact hi, by rw [(e i hi).2]; exact hj⟩⟩

theorem diamondSizes_pos (inputSize outputSize l : Nat) (hin : 0 < inputSize)
    (hout : 0 < outputSize) (hl : l < 10) : 0 < (diamondSizes inputSize outputSize).getD l 0 := by
  interval_cases l <;> simp [diamondSizes, hin, hout]
/-- What `addRandomConnection(l)` does on a network of the diamond shape, for every outcome of
the random draws. -/
theorem addRandomConnection_changes (rnd : Nat → Num) (c : Nat) (s : DPNN)
    (l : Nat) (hwf : WF s) (hl : l < 9) (hin : 0 < s.inputSize) (hout : 0 < s.outputSize)
    (hrnd : ∀ n, 0 ≤ rnd n ∧ rnd n < 1) :
    ∃ a : Added, (addRandomConnection rnd c s l).2.2 = some a ∧ a.layer = l
      ∧ InRange s.weights l a.from_ a.to_
      ∧ (∀ l2 i2 j2, ¬ (l2 = l ∧ i2 = a.from_ ∧ j2 = a.to_) →
          get3 (addRandomConnection rnd c s l).1.weights l2 i2 j2 = get3 s.weights l2 i2 j2)
      ∧ get3 (addRandomConnection rnd c s l).1.weights l a.from_ a.to_
          ≠ get3 s.weights l a.from_ a.to_
      ∧ (|get3 s.weights l a.from_ a.to_| > 0.1 →
          get3 (addRandomConnection rnd c s l).1.weights l a.from_ a.to_
              = 1.5 * get3 s.weights l a.from_ a.to_
            ∧ get3 (addRandomConnection rnd c s l).1.connectionConfidence l a.from_ a.to_
              = min (get3 s.connectionConfidence l a.from_ a.to_ + 0.1) 0.9
            ∧ (get3 s.connectionConfidence l a.from_ a.to_ ≤ 0.9 →
                get3 s.connectionConfidence l a.from_ a.to_
                  ≤ get3 (addRandomConnection rnd c s l).1.connectionConfidence l
                      a.from_ a.to_))
      ∧ (¬ |get3 s.weights l a.from_ a.to_| > 0.1 →
          0.4 ≤ |get3 (addRandomConnection rnd c s l).1.weights l a.from_ a.to_|
            ∧ |get3 (addRandomConnection rnd c s l).1.weights l a.from_ a.to_| ≤ 1.2
            ∧ get3 (addRandomConnection rnd c s l).1.connectionConfidence l a.from_ a.to_
              = 0.7)
      ∧ get3 (addRandomConnection rnd c s l).1.weights l a.from_ a.to_ ≠ 0
      ∧ nonzeroCount (s.weights.getD l [])
          ≤ nonzeroCount ((addRandomConnection rnd c s l).1.weights.getD l []) := by
  obtain ⟨hwl, hcl, hw1, hc1, hrows, hlay, hlay1⟩ := hwf.shape l hl
  have hpos := diamondSizes_pos s.inputSize s.outputSize l hin hout (by omega)
  have hpos1 := diamondSizes_pos s.inputSize s.outputSize (l + 1) hin hout (by omega)
  obtain ⟨w, hw⟩ : ∃ w, s.weights[l]? = some w := ⟨_, List.getElem?_eq_getElem hwl⟩
  obtain ⟨cl, hcl2⟩ : ∃ cl, s.connectionConfidence[l]? = some cl :=
    ⟨_, List.getElem?_eq_getElem hcl⟩
  have hwD : s.weights.getD l [] = w := by simp [List.getD_eq_getElem?_getD, hw]
  have hcD : s.connectionConfidence.getD l [] = cl := by
    simp [List.getD_eq_getElem?_getD, hcl2]
  rw [hwD] at hw1 hrows
  rw [hcD] at hc1 hrows
  have hrnd1 : ∀ n, rnd n < 1 := fun n => (hrnd n).2
  unfold addRandomConnection
  simp only [hw, hcl2]
  generalize hfc : chooseIndex rnd c
    ((List.range (s.layers.getD l []).length).filter
      (fun i => (s.activations.getD l []).getD i false)) w.length = fc
  have hfrom : fc.1 < (diamondSizes s.inputSize s.outputSize).getD l 0 := by
    rw [← hfc, ← hw1]
    apply chooseIndex_lt _ _ _ _ hrnd1 (by rw [hw1]; exact hpos)
    intro x hx
    have := (List.mem_filter.mp hx).1
    rw [hw1, ← hlay]
    exact List.mem_range.mp this
  generalize htc : chooseIndex rnd fc.2
    ((List.range (s.layers.getD (l + 1) []).length).filter
      (fun j => !((s.activations.getD (l + 1) []).getD j false))) (w.getD 0 []).length = tc
  have hto : tc.1 < (diamondSizes s.inputSize s.outputSize).getD (l + 1) 0 := by
    rw [← htc, ← (hrows 0 hpos).1]
    apply chooseIndex_lt _ _ _ _ hrnd1 (by rw [(hrows 0 hpos).1]; exact hpos1)
    intro x hx
    have := (List.mem_filter.mp hx).1
    rw [(hrows 0 hpos).1, ← hlay1]
    exact List.mem_range.mp this
  obtain ⟨hrw, hrc⟩ := hwf.inRange l fc.1 tc.1 hl hfrom hto
  obtain ⟨crow, hcrow⟩ : ∃ crow, cl[fc.1]? = some crow :=
    ⟨_, List.getElem?_eq_getElem (by rw [hc1]; exact hfrom)⟩
  simp only [hcrow]
  have hcount : ∀ v : Num, v ≠ 0 →
      nonzeroCount (s.weights.getD l [])
        ≤ nonzeroCount ((set3 s.weights l fc.1 tc.1 v).getD l []) := by
    intro v hv
    rw [getD_set3, if_pos ⟨rfl, hrw.1⟩]
    have := nonzeroCount_set2 (s.weights.getD l []) fc.1 tc.1 v hrw.2.1 hrw.2.2
    rw [if_pos hv] at this
    split_ifs at this <;> omega
  by_cases hbig : |get3 s.weights l fc.1 tc.1| > 0.1
  · rw [if_pos hbig]
    have hne0 : get3 s.weights l fc.1 tc.1 ≠ 0 := by
      intro h0
      rw [h0] at hbig
      norm_num at hbig
    have hnew : get3 s.weights l fc.1 tc.1 * 1.5 ≠ 0 := mul_ne_zero hne0 (by norm_num)
    refine ⟨⟨l, fc.1, tc.1, _, true⟩, rfl, rfl, hrw, ?_, ?_, ?_, ?_, ?_, ?_⟩
    · intro l2 i2 j2 hne
      exact get3_set3_of_ne _ _ _ _ _ _ _ _ (fun hh => hne ⟨hh.1.symm, hh.2.1.symm, hh.2.2.symm⟩)
    · simp only
      rw [get3_set3_inRange _ _ _ _ _ hrw]
      intro heq
      have : get3 s.weights l fc.1 tc.1 * (1.5 - 1) = 0 := by linarith
      have h2 := mul_eq_zero.mp this
      rcases h2 with h2 | h2
      · exact hne0 h2
      · norm_num at h2
    · intro _
      simp only
      rw [get3_set3_inRange _ _ _ _ _ hrw, get3_set3_inRange _ _ _ _ _ hrc]
      refine ⟨by ring, rfl, ?_⟩
      intro hle
      exact le_min (by linarith) hle
    · intro hsmall
      exact absurd hbig hsmall
    · simp only
      rw [get3_set3_inRange _ _ _ _ _ hrw]
      exact hnew
    · exact hcount _ hnew
  · rw [if_neg hbig]
    have hr0 := (hrnd tc.2).1
    have hr1 := (hrnd tc.2).2
    have hmag : (0.4 : Num) ≤ rnd tc.2 * 0.8 + 0.4 ∧ rnd tc.2 * 0.8 + 0.4 ≤ 1.2 := by
      constructor <;> linarith
    have habs : |(rnd tc.2 * 0.8 + 0.4) * (if rnd (tc.2 + 1) < 0.5 then (1 : Num) else -1)|
        = rnd tc.2 * 0.8 + 0.4 := by
      have hp : (0 : Num) ≤ rnd tc.2 * 0.8 + 0.4 := by linarith
      split_ifs
      · rw [mul_one, abs_of_nonneg hp]
      · rw [mul_neg, mul_one, abs_neg, abs_of_nonneg hp]
    have hnew : (rnd tc.2 * 0.8 + 0.4) * (if rnd (tc.2 + 1) < 0.5 then (1 : Num) else -1) ≠ 0 := by
      intro h0
      rw [h0, abs_zero] at habs
      linarith
    refine ⟨⟨l, fc.1, tc.1, _, false⟩, rfl, rfl, hrw, ?_, ?_, ?_, ?_, ?_, ?_⟩
    · intro l2 i2 j2 hne
      exact get3_set3_of_ne _ _ _ _ _ _ _ _ (fun hh => hne ⟨hh.1.symm, hh.2.1.symm, hh.2.2.symm⟩)
    · simp only
      rw [get3_set3_inRange _ _ _ _ _ hrw]
      intro heq
      apply hbig
      rw [← heq, habs]
      linarith
    · intro hb
      exact absurd hb hbig
    · intro _
      simp only
      rw [get3_set3_inRange _ _ _ _ _ hrw, get3_set3_inRange _ _ _ _ _ hrc, habs]
      exact ⟨hmag.1, hmag.2, rfl⟩
    · simp only
      rw [get3_set3_inRange _ _ _ _ _ hrw]
      exact hnew
    · exact hcount _ hnew

/-- C9, the code at a failing input: on a network of the constructor whose confidences have all
reached `1`, `addRandomConnection(3)` boosts the connection `(0, 0)`, of weight `0.8`, to the
weight `1.2` and lowers its confidence from `1` to `0.9`, where the source announces a boost of
the confidence. -/
theorem C9_boost_lowers_confidence :
    WF confidentNet
      ∧ |get3 confidentNet.weights 3 0 0| > 0.1
      ∧ (addRandomConnection (fun _ => 0) 0 confidentNet 3).2.2 = some ⟨3, 0, 0, 6 / 5, true⟩
      ∧ get3 confidentNet.connectionConfidence 3 0 0 = 1
      ∧ get3 (addRandomConnection (fun _ => 0) 0 confidentNet 3).1.connectionConfidence 3 0 0
          = 9 / 10 := by
  decide!

/-! ### Pruning -/

theorem searchStep_inv (s : DPNN) (l i : Nat) (conf : List (List Num)) (m : MinSearch) (j : Nat)
    (hi1 : 1 ≤ i) (hi : i < conf.length) (hj : j < (conf.getD i []).length)
    (h : SearchInv s l conf m) : SearchInv s l conf (searchStep s l i m j) := by
  unfold searchStep
  by_cases h1 : (!(activatedInLayer s l i j)
      || decide (|get3 s.weights l i j| < 0.01)) = true
  · rw [if_pos h1]
    exact h
  · rw [if_neg h1]
    simp only
    by_cases h2 : get3 s.connectionConfidence l i j < m.minConfidence
        ∧ get3 s.connectionConfidence l i j < 0.85 ∧ |get3 s.weights l i j| > 0.1
    · rw [if_pos h2]
      intro i2 j2 hbest
      simp only [Option.some.injEq, Prod.mk.injEq] at hbest
      obtain ⟨rfl, rfl⟩ := hbest
      have hact : activatedInLayer s l i j = true := by
        by_contra hc
        apply h1
        simp [hc]
      exact ⟨⟨hact, h2.2.1, h2.2.2⟩, hi1, rfl, hi, hj⟩
    · rw [if_neg h2]
      exact h

theorem searchLeastConfident_inv (s : DPNN) (l : Nat) (conf : List (List Num)) :
    SearchInv s l conf (searchLeastConfident s l conf) := by
  unfold searchLeastConfident
  apply foldl_inv (fun m : MinSearch => SearchInv s l conf m)
  · intro i j hbest
    cases hbest
  · intro m i hi hm
    have hi2 := List.mem_range'_1.mp hi
    cases hrow : conf[i]? with
    | none => exact hm
    | some row =>
        simp only
        have hD : conf.getD i [] = row := by simp [List.getD_eq_getElem?_getD, hrow]
        apply foldl_inv (fun m2 : MinSearch => SearchInv s l conf m2)
        · exact hm
        · intro m2 j hj hm2
          exact searchStep_inv s l i conf m2 j hi2.1 (by omega)
            (by rw [hD]; exact List.mem_range.mp hj) hm2

theorem pruneLeastConfidentConnection_outcome (s : DPNN) (l : Nat) :
    PruneOutcome s l (pruneLeastConfidentConnection s l) := by
  unfold pruneLeastConfidentConnection
  cases hconf : s.connectionConfidence[l]? with
  | none => exact Or.inl ⟨rfl, rfl⟩
  | some conf =>
      simp only
      have hinv := searchLeastConfident_inv s l conf
      cases hbest : (searchLeastConfident s l conf).best with
      | none => exact Or.inl ⟨rfl, rfl⟩
      | some ij =>
          obtain ⟨i, j⟩ := ij
          obtain ⟨hp, hi1, hmin, hi, hj⟩ := hinv i j hbest
          have hl : l < s.connectionConfidence.length := by
            by_contra hc
            rw [List.getElem?_eq_none (Nat.le_of_not_lt hc)] at hconf
            cases hconf
          have hD : s.connectionConfidence.getD l [] = conf := by
            simp [List.getD_eq_getElem?_getD, hconf]
          right
          refine ⟨i, j, ?_, hp, hi1, ⟨hl, by rw [hD]; exact hi, by rw [hD]; exact hj⟩, rfl⟩
          simp only [hmin]

theorem set2_idem (m : List (List Num)) (i j : Nat) (v : Num) :
    set2 (set2 m i j v) i j v = set2 m i j v := by
  unfold set2
  by_cases hi : i < m.length
  · rw [getD_set, if_pos ⟨rfl, hi⟩, List.set_set, List.set_set]
  · have hle : m.length ≤ i := Nat.le_of_not_lt hi
    rw [List.set_eq_of_length_le hle, List.set_eq_of_length_le hle]

theorem set3_idem (m : List (List (List Num))) (l i j : Nat) (v : Num) :
    set3 (set3 m l i j v) l i j v = set3 m l i j v := by
  unfold set3
  by_cases hl : l < m.length
  · rw [getD_set, if_pos ⟨rfl, hl⟩, List.set_set, set2_idem]
  · have hle : m.length ≤ l := Nat.le_of_not_lt hl
    rw [List.set_eq_of_length_le hle, List.set_eq_of_length_le hle]

theorem centralNonzeroFrom_set (types : List LayerType) (ws : List (List (List Num)))
    (k t : Nat) (m2 : List (List Num)) (ht : t < ws.length) :
    centralNonzeroFrom types k (ws.set t m2)
        + (if types[k + t]? = some .central then nonzeroCount (ws.getD t []) else 0)
      = centralNonzeroFrom types k ws
        + (if types[k + t]? = some .central then nonzeroCount m2 else 0) := by
  induction ws generalizing k t with
  | nil => simp at ht
  | cons a rest ih =>
      cases t with
      | zero =>
          simp only [List.set_cons_zero, centralNonzeroFrom, List.getD_cons_zero, Nat.add_zero]
          split_ifs <;> omega
      | succ t2 =>
          have ht2 : t2 < rest.length := by simpa using ht
          have := ih (k + 1) t2 ht2
          have e : k + 1 + t2 = k + (t2 + 1) := by omega
          rw [e] at this
          simp only [List.set_cons_succ, centralNonzeroFrom, List.getD_cons_succ]
          omega

/-- Zeroing an existing nonzero weight of a matrix that leaves a central layer lowers the
count of nonzero central-layer weights by one. -/
theorem centralNonzeroFrom_prune (types : List LayerType) (ws : List (List (List Num)))
    (l i j : Nat) (hr : InRange ws l i j) (hne : get3 ws l i j ≠ 0)
    (htype : types[l]? = some .central) :
    centralNonzeroFrom types 0 (set3 ws l i j 0) + 1 = centralNonzeroFrom types 0 ws := by
  unfold set3
  have h1 := centralNonzeroFrom_set types ws 0 l (set2 (ws.getD l []) i j 0) hr.1
  have h2 := nonzeroCount_set2 (ws.getD l []) i j 0 hr.2.1 hr.2.2
  have hne2 : get2 (ws.getD l []) i j ≠ 0 := hne
  rw [if_pos hne2] at h2
  simp only [ne_eq, not_true_eq_false, if_false, Nat.add_zero] at h2
  simp only [Nat.zero_add, htype, if_true] at h1
  omega

theorem PruneInv.weaken {s : DPNN} {k : Nat} {sp : DPNN × Bool} (h : PruneInv s k sp) :
    PruneInv s (k + 1) sp :=
  { h with
    later := fun l hl => h.later l (by omega)
    ge := by have := h.ge; omega
    region := fun l i j hne => ⟨(h.region l i j hne).1, by have := (h.region l i j hne).2; omega⟩ }

theorem PruneInv.step {s : DPNN} {k : Nat} {sp : DPNN × Bool} (h : PruneInv s k sp) :
    PruneInv s (k + 1) (pruneLayerStep sp k) := by
  unfold pruneLayerStep
  simp only
  by_cases htype : sp.1.layerTypes[k]? = some .central
  · rw [if_pos htype]
    have hout := pruneLeastConfidentConnection_outcome sp.1 k
    generalize pruneLeastConfidentConnection sp.1 k = r at hout ⊢
    obtain ⟨r1, r2⟩ := r
    rcases hout with ⟨h1, h2⟩ | ⟨i, j, h1, hp, hi1, hrc, h2⟩
    · simp only at h1 h2
      subst h1 h2
      exact h.weaken
    · simp only at h1 h2
      subst h1 h2
      simp only [set3_idem]
      have hlater := h.later k (le_refl _)
      have hw : get3 sp.1.weights k i j = get3 s.weights k i j := by
        unfold get3; rw [hlater.1]
      have hc : get3 sp.1.connectionConfidence k i j = get3 s.connectionConfidence k i j := by
        unfold get3; rw [hlater.2]
      have hps : Prunable s k i j := by
        obtain ⟨a, b, c⟩ := hp
        refine ⟨?_, by rw [← hc]; exact b, by rw [← hw]; exact c⟩
        unfold activatedInLayer at a ⊢
        rw [← h.paths]; exact a
      have hne : get3 sp.1.weights k i j ≠ 0 := by
        intro h0
        have := hp.2.2
        rw [h0] at this
        norm_num at this
      have hrw : InRange sp.1.weights k i j := InRange.of_ne_zero hne
      have hcnt := centralNonzeroFrom_prune sp.1.layerTypes sp.1.weights k i j hrw hne htype
      have hcount : centralNonzero
          { sp.1 with
            weights := set3 sp.1.weights k i j 0
            connectionConfidence := set3 sp.1.connectionConfidence k i j 0.1
            pruningHistory := sp.1.pruningHistory.map (fun h =>
              { h with
                prunedConnections := h.prunedConnections + 1
                lastPrunedLayer := (k : Int)
                lastPrunedFrom := (i : Int)
                lastPrunedTo := (j : Int) }) } + 1 = centralNonzero sp.1 := hcnt
      have hle := h.count
      have hlt := Nat.lt_of_lt_of_le (Nat.lt_of_succ_le (Nat.le_of_eq hcount)) hle
      have hold : ∀ l2 i2 j2, l2 < k → get3 sp.1.weights l2 i2 j2 ≠ get3 s.weights l2 i2 j2 ∨
          get3 sp.1.weights l2 i2 j2 = get3 s.weights l2 i2 j2 := fun _ _ _ _ => (em _).symm
      have hunch : ∀ i2 j2, get3 sp.1.weights k i2 j2 = get3 s.weights k i2 j2 := by
        intro i2 j2
        unfold get3; rw [hlater.1]
      refine ⟨h.paths, h.types, ?_, ?_, Nat.le_of_lt hlt, (fun _ => hlt),
        (fun hf => by cases hf), h.biases, (by have := h.ge; omega), ?_, ?_⟩
      rotate_left 2
      · intro l2 i2 j2 hne
        by_cases heq : k = l2 ∧ i = i2 ∧ j = j2
        · obtain ⟨rfl, _, _⟩ := heq
          exact ⟨h.ge, by omega⟩
        · simp only [get3_set3_of_ne _ _ _ _ _ _ _ _ heq] at hne
          have := h.region l2 i2 j2 hne
          exact ⟨this.1, by omega⟩
      · intro l2 i2 j2 i3 j3 hne1 hne2
        by_cases hk : k = l2
        · subst hk
          have e1 : i = i2 ∧ j = j2 := by
            by_contra hc
            have hc2 : ¬ (k = k ∧ i = i2 ∧ j = j2) := fun hh => hc ⟨hh.2.1, hh.2.2⟩
            simp only [get3_set3_of_ne _ _ _ _ _ _ _ _ hc2] at hne1
            exact hne1 (hunch i2 j2)
          have e2 : i = i3 ∧ j = j3 := by
            by_contra hc
            have hc2 : ¬ (k = k ∧ i = i3 ∧ j = j3) := fun hh => hc ⟨hh.2.1, hh.2.2⟩
            simp only [get3_set3_of_ne _ _ _ _ _ _ _ _ hc2] at hne2
            exact hne2 (hunch i3 j3)
          exact ⟨e1.1.symm.trans e2.1, e1.2.symm.trans e2.2⟩
        · have hc1 : ¬ (k = l2 ∧ i = i2 ∧ j = j2) := fun hh => hk hh.1
          have hc2 : ¬ (k = l2 ∧ i = i3 ∧ j = j3) := fun hh => hk hh.1
          simp only [get3_set3_of_ne _ _ _ _ _ _ _ _ hc1] at hne1
          simp only [get3_set3_of_ne _ _ _ _ _ _ _ _ hc2] at hne2
          exact h.single l2 i2 j2 i3 j3 hne1 hne2
      · intro l hl
        have hkl : ¬ (k = l ∧ k < sp.1.weights.length) := fun hh => by omega
        have hkl2 : ¬ (k = l ∧ k < sp.1.connectionConfidence.length) := fun hh => by omega
        simp only [getD_set3, if_neg hkl, if_neg hkl2]
        exact h.later l (by omega)
      · intro l2 i2 j2 hch
        by_cases heq : k = l2 ∧ i = i2 ∧ j = j2
        · obtain ⟨rfl, rfl, rfl⟩ := heq
          refine ⟨by rw [← h.types]; exact htype, hi1, hps, ?_, ?_⟩
          · exact get3_set3_inRange _ _ _ _ _ hrw
          · exact get3_set3_inRange _ _ _ _ _ hrc
        · simp only [get3_set3_of_ne _ _ _ _ _ _ _ _ heq] at hch ⊢
          exact h.changed l2 i2 j2 hch
  · rw [if_neg htype]
    exact h.weaken

/-- At a density above 30%, `pruneConnections` ends with the weights, confidences and layer
types of a state that satisfies the invariant of the pruning loop. -/
theorem pruneConnections_high (rnd : Nat → Num) (c : Nat) (s : DPNN)
    (h : activationPercentage s > 30) :
    ∃ (sp : DPNN × Bool) (k : Nat), PruneInv s k sp
      ∧ (pruneConnections rnd c s).1.weights = sp.1.weights
      ∧ (pruneConnections rnd c s).1.connectionConfidence = sp.1.connectionConfidence
      ∧ (pruneConnections rnd c s).1.layerTypes = sp.1.layerTypes
      ∧ (pruneConnections rnd c s).1.biases = sp.1.biases
      ∧ (pruneConnections rnd c s).1.nodeConfidence = sp.1.nodeConfidence
      ∧ ((pruneConnections rnd c s).1.activePaths = [] ∨ sp.2 = false) := by
  have hinit : ∀ hist : Option PruningHistory,
      PruneInv s 4 ({ s with pruningHistory := hist }, false) :=
    fun hist =>
      { paths := rfl, types := rfl, later := fun _ _ => ⟨rfl, rfl⟩
        changed := fun l i j hch => by
          rcases hch with hch | hch <;> exact absurd rfl hch
        count := le_refl _
        strict := fun hf => by cases hf
        same := fun _ => ⟨rfl, rfl⟩
        biases := ⟨rfl, rfl, rfl⟩
        ge := le_refl _
        region := fun l i j hne => absurd rfl hne
        single := fun l i j i2 j2 hne _ => absurd rfl hne }
  have hfold : ∀ hist : Option PruningHistory,
      PruneInv s (4 + (s.layers.length - 1 - 4))
        ((List.range' 4 (s.layers.length - 1 - 4)).foldl pruneLayerStep
          ({ s with pruningHistory := hist }, false)) :=
    fun hist => foldl_range'_inv (fun k sp => PruneInv s k sp) pruneLayerStep 4 _ _
      (hinit hist) (fun k b _ _ hb => hb.step)
  unfold pruneConnections
  simp only [h, if_true]
  cases hh : s.pruningHistory with
  | none =>
      simp only
      have hf := hfold (some
        { prunedConnections := 0, addedConnections := 0, lastPrunedLayer := -1,
          lastPrunedFrom := -1, lastPrunedTo := -1,
          lastActivationPercentage := activationPercentage s })
      refine ⟨_, _, hf, ?_⟩
      split_ifs with hflag
      · exact ⟨rfl, rfl, rfl, rfl, rfl, Or.inl rfl⟩
      · exact ⟨rfl, rfl, rfl, rfl, rfl, Or.inr (by simpa using hflag)⟩
  | some h0 =>
      simp only
      have hf := hfold (some h0)
      have e : ({ s with pruningHistory := some h0 } : DPNN) = s := by
        cases s
        simp only at hh
        simp [hh]
      rw [e] at hf
      refine ⟨_, _, hf, ?_⟩
      split_ifs with hflag
      · exact ⟨rfl, rfl, rfl, rfl, rfl, Or.inl rfl⟩
      · exact ⟨rfl, rfl, rfl, rfl, rfl, Or.inr (by simpa using hflag)⟩

/-- C6: at an activation density above 30%, every connection whose weight or confidence
`pruneConnections` changes belongs to a matrix that leaves a central layer, was recorded in
`activePaths`, and had before the call a confidence strictly below 0.85 and a weight of
magnitude strictly above 0.1; after the call its weight is `0` and its confidence `0.1`. So a
connection of confidence `≥ 0.85` keeps its weight and confidence; the biases and node
confidences are untouched; and the number of nonzero central-layer weights does not increase,
and decreases strictly when some weight has changed. -/
theorem C6_pruning_removes_only_weak_active_central_connections (rnd : Nat → Num) (c : Nat)
    (s : DPNN) (h : 100 * (activeNodes s : Num) / (totalNodes s : Num) > 30) :
    (∀ l i j,
        (get3 (pruneConnections rnd c s).1.weights l i j ≠ get3 s.weights l i j
          ∨ get3 (pruneConnections rnd c s).1.connectionConfidence l i j
              ≠ get3 s.connectionConfidence l i j) →
        s.layerTypes[l]? = some .central ∧ activatedInLayer s l i j = true
          ∧ get3 s.connectionConfidence l i j < 0.85 ∧ |get3 s.weights l i j| > 0.1
          ∧ get3 (pruneConnections rnd c s).1.weights l i j = 0
          ∧ get3 (pruneConnections rnd c s).1.connectionConfidence l i j = 0.1)
      ∧ (∀ l i j, get3 s.connectionConfidence l i j ≥ 0.85 →
          get3 (pruneConnections rnd c s).1.weights l i j = get3 s.weights l i j
            ∧ get3 (pruneConnections rnd c s).1.connectionConfidence l i j
                = get3 s.connectionConfidence l i j)
      ∧ (pruneConnections rnd c s).1.biases = s.biases
      ∧ (pruneConnections rnd c s).1.nodeConfidence = s.nodeConfidence
      ∧ centralNonzero (pruneConnections rnd c s).1 ≤ centralNonzero s
      ∧ ((∃ l i j, get3 (pruneConnections rnd c s).1.weights l i j ≠ get3 s.weights l i j) →
          centralNonzero (pruneConnections rnd c s).1 < centralNonzero s) := by
  have hpct : activationPercentage s > 30 := by
    have e : activationPercentage s = 100 * (activeNodes s : Num) / (totalNodes s : Num) := by
      unfold activationPercentage
      ring
    rw [e]
    exact h
  obtain ⟨sp, k, hinv, hw, hc, ht, hb, hn, _⟩ := pruneConnections_high rnd c s hpct
  have hcn : centralNonzero (pruneConnections rnd c s).1 = centralNonzero sp.1 := by
    unfold centralNonzero
    rw [hw, ht]
  have hchanged : ∀ l i j,
      (get3 (pruneConnections rnd c s).1.weights l i j ≠ get3 s.weights l i j
        ∨ get3 (pruneConnections rnd c s).1.connectionConfidence l i j
            ≠ get3 s.connectionConfidence l i j) →
      s.layerTypes[l]? = some .central ∧ activatedInLayer s l i j = true
        ∧ get3 s.connectionConfidence l i j < 0.85 ∧ |get3 s.weights l i j| > 0.1
        ∧ get3 (pruneConnections rnd c s).1.weights l i j = 0
        ∧ get3 (pruneConnections rnd c s).1.connectionConfidence l i j = 0.1 := by
    intro l i j hch
    rw [hw, hc] at hch ⊢
    obtain ⟨a, _, ⟨b1, b2, b3⟩, d, e⟩ := hinv.changed l i j hch
    exact ⟨a, b1, b2, b3, d, e⟩
  refine ⟨hchanged, ?_, hb.trans hinv.biases.1, hn.trans hinv.biases.2.1, ?_, ?_⟩
  · intro l i j hge
    constructor
    · by_contra hne
      have := (hchanged l i j (Or.inl hne)).2.2.1
      exact absurd hge (not_le.mpr this)
    · by_contra hne
      have := (hchanged l i j (Or.inr hne)).2.2.1
      exact absurd hge (not_le.mpr this)
  · rw [hcn]
    exact hinv.count
  · rintro ⟨l, i, j, hne⟩
    rw [hcn]
    apply hinv.strict
    by_contra hflag
    have hf : sp.2 = false := by simpa using hflag
    apply hne
    rw [hw, (hinv.same hf).1]

/-- The hypothesis of C6 holds after a forward pass of `sampleNet`, in which 84 of the 120
nodes are active. -/
theorem C6_witness :
    100 * (activeNodes sampleState : Num) / (totalNodes sampleState : Num) > 30
      ∧ centralNonzero (pruneConnections (fun _ => 0) 0 sampleState).1
          ≤ centralNonzero sampleState :=
  ⟨by decide!,
    (C6_pruning_removes_only_weak_active_central_connections (fun _ => 0) 0 sampleState
      (by decide!)).2.2.2.2.1⟩

/-- C7, the code at a failing input: after a forward pass that records the path `(4, 0, 0)`,
of confidence 0.5 and weight 0.5, the connection is prunable, yet
`pruneLeastConfidentConnection(4)` returns `null` and leaves the state as it was: the search
starts at the source row `1`. -/
theorem C7_source_row_zero_is_skipped :
    Prunable rowZeroState 4 0 0
      ∧ get3 rowZeroState.connectionConfidence 4 0 0 = 1 / 2
      ∧ get3 rowZeroState.weights 4 0 0 = 1 / 2
      ∧ (pruneLeastConfidentConnection rowZeroState 4).2 = none
      ∧ get3 (pruneLeastConfidentConnection rowZeroState 4).1.weights 4 0 0 = 1 / 2 := by
  decide!

/-! ### Evaluations of the code where it departs from its description -/

/-- C12, the code at a failing input: on the network of the constructor, after a forward
pass, the reward `-11` drives the confidence `0.5` of the fired nodes below `0`; the call then
reads `this.activationFunctions`, a field that the constructor does not create, and fails with
a `TypeError` instead of completing. -/
theorem C12_mutation_throws_on_constructed_network :
    zeroNet.activationFunctions = none
      ∧ zeroState.activationFunctions = none
      ∧ get2 zeroState.nodeConfidence 0 0 = 1 / 2
      ∧ activatedInLayer zeroState 0 0 0 = true
      ∧ failureOf (updateConfidenceFromReward (fun _ => 0) 5 0 zeroState (-11) none)
          = some .typeError := by
  decide!

/-- C18, the code at a failing input: with the two active inputs `0` and `1`, node `0` of
layer `1` receives the single contribution `1 * 0.8`, from input `0`, and its bias is `0.2`;
`forward` leaves the value `1.2` in it, not `0.8 + 0.2`: the loop that adds the bias and
applies the nonlinearity runs once for each active source node. -/
theorem C18_bias_added_once_per_active_source :
    get3 twoSourceNet.weights 0 0 0 = 4 / 5 ∧ get2 twoSourceNet.biases 0 0 = 1 / 5
      ∧ (pathsByLayer (forwardState sampleFns twoSourceNet
            (.array [.num 1, .num 1, .num 0, .num 0])) 0).filter (fun p => p.to_ = 0)
          = [⟨0, 0, 0, 1, 1, .expansion, true⟩]
      ∧ get2 (forwardState sampleFns twoSourceNet
            (.array [.num 1, .num 1, .num 0, .num 0])).layers 1 0 = 6 / 5 := by
  decide!

/-- C24, the code at a failing input: on the all-zero network of the constructor and the input
`[1, 0, 0, 0]`, the hidden layer `1` receives the contribution `0` and ends the forward pass
with no node flagged active, node `0` included: `layerHasActivation` was raised by the
contribution, so the layer is not given its forced activation. -/
theorem C24_hidden_layer_left_without_active_node :
    WF zeroNet
      ∧ (zeroState.activations.getD 1 []).any (fun active => active) = false
      ∧ (zeroState.activations.getD 1 []).length = 8
      ∧ get2 zeroState.layers 1 0 = 0 := by
  decide!

theorem density_eq (s : DPNN) :
    activationPercentage s = 100 * (activeNodes s : Num) / (totalNodes s : Num) := by
  unfold activationPercentage
  ring

theorem central_of_diamond (l : Nat) (h : diamondTypes[l]? = some LayerType.central) :
    3 ≤ l ∧ l ≤ 6 := by
  by_cases hl : l < 10
  · interval_cases l <;> simp [diamondTypes] at h ⊢
  · rw [List.getElem?_eq_none (by simp [diamondTypes]; omega)] at h
    cases h

/-- C29, as amended: at a density above 30%, a single `pruneConnections` call changes at most
one weight in each of the matrices 4, 5 and 6 -- at most three weights in all -- and none in any
other matrix; a weight that it changes becomes `0`. -/
theorem C29_pruning_removes_at_most_one_connection_per_central_matrix (rnd : Nat → Num)
    (c : Nat) (s : DPNN) (htypes : s.layerTypes = diamondTypes)
    (h : 100 * (activeNodes s : Num) / (totalNodes s : Num) > 30) :
    (∀ l i j, get3 (pruneConnections rnd c s).1.weights l i j ≠ get3 s.weights l i j →
        (l = 4 ∨ l = 5 ∨ l = 6) ∧ get3 (pruneConnections rnd c s).1.weights l i j = 0)
      ∧ (∀ l i j i2 j2,
          get3 (pruneConnections rnd c s).1.weights l i j ≠ get3 s.weights l i j →
          get3 (pruneConnections rnd c s).1.weights l i2 j2 ≠ get3 s.weights l i2 j2 →
          i = i2 ∧ j = j2) := by
  obtain ⟨sp, k, hinv, hw, _⟩ :=
    pruneConnections_high rnd c s (by rw [density_eq]; exact h)
  rw [hw]
  refine ⟨?_, hinv.single⟩
  intro l i j hne
  obtain ⟨hc, _, _, hz, _⟩ := hinv.changed l i j (Or.inl hne)
  rw [htypes] at hc
  have h1 := central_of_diamond l hc
  have h2 := (hinv.region l i j hne).1
  exact ⟨by omega, hz⟩

/-- The hypotheses of C29 hold after a forward pass of `sparseNet`, in which 80 of the 120
nodes are active. -/
theorem C29_witness :
    sparseState.layerTypes = diamondTypes
      ∧ 100 * (activeNodes sparseState : Num) / (totalNodes sparseState : Num) > 30
      ∧ ((get3 (pruneConnections (fun _ => 0) 0 sparseState).1.weights 4 1 1
            ≠ get3 sparseState.weights 4 1 1) →
          get3 (pruneConnections (fun _ => 0) 0 sparseState).1.weights 4 1 1 = 0) :=
  ⟨by decide!, by decide!, fun hne =>
    ((C29_pruning_removes_at_most_one_connection_per_central_matrix (fun _ => 0) 0 sparseState
      (by decide!) (by decide!)).1 4 1 1 hne).2⟩

/-- C29 fails as stated: after a forward pass of `sparseNet` the density is above 30%, and one
`pruneConnections` call zeroes three weights, `(4, 1, 1)`, `(5, 1, 2)` and `(6, 1, 1)`, one in
each of the matrices 4, 5 and 6. -/
theorem C29_counterexample :
    100 * (activeNodes sparseState : Num) / (totalNodes sparseState : Num) > 30
      ∧ get3 sparseState.weights 4 1 1 = 1 / 2
      ∧ get3 sparseState.weights 5 1 2 = 1 / 2
      ∧ get3 sparseState.weights 6 1 1 = 1 / 2
      ∧ get3 (pruneConnections (fun _ => 0) 0 sparseState).1.weights 4 1 1 = 0
      ∧ get3 (pruneConnections (fun _ => 0) 0 sparseState).1.weights 5 1 2 = 0
      ∧ get3 (pruneConnections (fun _ => 0) 0 sparseState).1.weights 6 1 1 = 0 := by
  decide!

theorem WF.withHistory {s : DPNN} (h : WF s) (hist : Option PruningHistory) :
    WF { s with pruningHistory := hist } := h

theorem growLoop_skip (rnd : Nat → Num) (l : Nat) (rest : List Nat) (s : DPNN) (c : Nat)
    (h : s.layerTypes[l]? ≠ some .central) :
    growLoop rnd (l :: rest) s c = growLoop rnd rest s c := by
  rw [growLoop, if_neg h]

theorem growLoop_hit (rnd : Nat → Num) (l : Nat) (rest : List Nat) (s : DPNN) (c : Nat)
    (a : Added) (h : s.layerTypes[l]? = some .central)
    (ha : (addRandomConnection rnd c s l).2.2 = some a) :
    (growLoop rnd (l :: rest) s c).1.weights = (addRandomConnection rnd c s l).1.weights
      ∧ (growLoop rnd (l :: rest) s c).1.connectionConfidence
        = (addRandomConnection rnd c s l).1.connectionConfidence := by
  rw [growLoop, if_pos h]
  simp [ha]

/-- At a density below 20%, on a network of the diamond shape, `pruneConnections` ends with
the weights left by `addRandomConnection(3)`. -/
theorem pruneConnections_low (rnd : Nat → Num) (c : Nat) (s : DPNN) (hwf : WF s)
    (hin : 0 < s.inputSize) (hout : 0 < s.outputSize) (hrnd : ∀ n, 0 ≤ rnd n ∧ rnd n < 1)
    (h : activationPercentage s < 20) :
    ∃ hist : Option PruningHistory,
      (pruneConnections rnd c s).1.weights
          = (addRandomConnection rnd c { s with pruningHistory := hist } 3).1.weights
        ∧ (pruneConnections rnd c s).1.connectionConfidence
          = (addRandomConnection rnd c { s with pruningHistory := hist }
              3).1.connectionConfidence := by
  have hlen : s.layers.length = 10 := by
    have := congrArg List.length hwf.2.2.2.2.1
    simpa [diamondSizes] using this
  have htypes : s.layerTypes = diamondTypes := hwf.2.2.2.1
  have hn30 : ¬ activationPercentage s > 30 := by
    intro h30
    have : (20 : Num) < 30 := by norm_num
    linarith
  have key : ∀ hist : Option PruningHistory,
      (growLoop rnd (List.range (s.layers.length - 1)) { s with pruningHistory := hist }
          c).1.weights
        = (addRandomConnection rnd c { s with pruningHistory := hist } 3).1.weights
      ∧ (growLoop rnd (List.range (s.layers.length - 1)) { s with pruningHistory := hist }
          c).1.connectionConfidence
        = (addRandomConnection rnd c { s with pruningHistory := hist }
            3).1.connectionConfidence := by
    intro hist
    obtain ⟨a, ha, _⟩ := addRandomConnection_changes rnd c { s with pruningHistory := hist } 3
      (hwf.withHistory hist) (by norm_num) hin hout hrnd
    have hr : List.range (s.layers.length - 1) = [0, 1, 2, 3, 4, 5, 6, 7, 8] := by
      rw [hlen]; rfl
    rw [hr]
    have t0 : ({ s with pruningHistory := hist } : DPNN).layerTypes[0]? ≠ some .central := by
      show s.layerTypes[0]? ≠ _
      rw [htypes]; decide
    have t1 : ({ s with pruningHistory := hist } : DPNN).layerTypes[1]? ≠ some .central := by
      show s.layerTypes[1]? ≠ _
      rw [htypes]; decide
    have t2 : ({ s with pruningHistory := hist } : DPNN).layerTypes[2]? ≠ some .central := by
      show s.layerTypes[2]? ≠ _
      rw [htypes]; decide
    have t3 : ({ s with pruningHistory := hist } : DPNN).layerTypes[3]? = some .central := by
      show s.layerTypes[3]? = _
      rw [htypes]; decide
    rw [growLoop_skip _ _ _ _ _ t0, growLoop_skip _ _ _ _ _ t1, growLoop_skip _ _ _ _ _ t2]
    exact growLoop_hit _ _ _ _ _ a t3 ha
  unfold pruneConnections
  simp only [hn30, h, if_false, if_true]
  cases hh : s.pruningHistory with
  | none => exact ⟨_, (key _).1, (key _).2⟩
  | some h0 => exact ⟨_, (key _).1, (key _).2⟩

/-- C30: on a network of the diamond shape with at least one input and one output, for every
outcome `rnd` of the random draws (each in `[0, 1)`): a `pruneConnections` call at a density
below 20% changes exactly one weight, an entry of `weights[3]`; a call at a density above 30%
changes only entries of `weights[4]`, `weights[5]` and `weights[6]` whose source index is at
least `1`. So pruning changes no weight of `weights[3]`, and growth none of
`weights[4]`, `weights[5]`, `weights[6]`. -/
theorem C30_growth_and_pruning_act_on_disjoint_matrices (rnd : Nat → Num) (c : Nat)
    (s : DPNN) (hwf : WF s) (hin : 0 < s.inputSize) (hout : 0 < s.outputSize)
    (hrnd : ∀ n, 0 ≤ rnd n ∧ rnd n < 1) :
    (100 * (activeNodes s : Num) / (totalNodes s : Num) < 20 →
        ∃ i j, get3 (pruneConnections rnd c s).1.weights 3 i j ≠ get3 s.weights 3 i j
          ∧ ∀ l2 i2 j2, ¬ (l2 = 3 ∧ i2 = i ∧ j2 = j) →
              get3 (pruneConnections rnd c s).1.weights l2 i2 j2 = get3 s.weights l2 i2 j2)
      ∧ (100 * (activeNodes s : Num) / (totalNodes s : Num) > 30 →
          ∀ l i j, get3 (pruneConnections rnd c s).1.weights l i j ≠ get3 s.weights l i j →
            (l = 4 ∨ l = 5 ∨ l = 6) ∧ 1 ≤ i) := by
  constructor
  · intro hlow
    obtain ⟨hist, hw, _⟩ := pruneConnections_low rnd c s hwf hin hout hrnd
      (by rw [density_eq]; exact hlow)
    obtain ⟨a, _, _, _, hframe, hchg, _⟩ :=
      addRandomConnection_changes rnd c { s with pruningHistory := hist } 3
        (hwf.withHistory hist) (by norm_num) hin hout hrnd
    rw [hw]
    exact ⟨a.from_, a.to_, hchg, hframe⟩
  · intro hhigh l i j hne
    obtain ⟨sp, k, hinv, hw, _⟩ :=
      pruneConnections_high rnd c s (by rw [density_eq]; exact hhigh)
    rw [hw] at hne
    obtain ⟨hc, hi, _⟩ := hinv.changed l i j (Or.inl hne)
    rw [hwf.2.2.2.1] at hc
    have h1 := central_of_diamond l hc
    have h2 := (hinv.region l i j hne).1
    exact ⟨by omega, hi⟩

/-- The hypotheses of C30 hold of the all-zero network of the constructor, whose density is
`0`: the call creates the connection `(3, 0, 0)`. -/
theorem C30_witness :
    WF zeroNet ∧ 100 * (activeNodes zeroNet : Num) / (totalNodes zeroNet : Num) < 20
      ∧ get3 (pruneConnections (fun _ => 0) 0 zeroNet).1.weights 3 0 0 = 2 / 5
      ∧ ∃ i j, get3 (pruneConnections (fun _ => 0) 0 zeroNet).1.weights 3 i j
          ≠ get3 zeroNet.weights 3 i j
        ∧ ∀ l2 i2 j2, ¬ (l2 = 3 ∧ i2 = i ∧ j2 = j) →
            get3 (pruneConnections (fun _ => 0) 0 zeroNet).1.weights l2 i2 j2
              = get3 zeroNet.weights l2 i2 j2 :=
  ⟨by decide!, by decide!, by decide!,
    (C30_growth_and_pruning_act_on_disjoint_matrices (fun _ => 0) 0 zeroNet (by decide!)
      (by decide) (by decide) (fun _ => ⟨le_refl _, by norm_num⟩)).1 (by decide!)⟩

/-! ### Persistence -/

/-- C17, as amended: `loadModel` returns `false` and leaves the current network as it is when
nothing is stored under the key (or the stored text does not parse); otherwise it returns
`true` and installs a fresh `DPNN(4, [], 4)` onto which the stored weights, biases, confidences,
learning parameters and statistics are assigned as they are, whatever their shapes. -/
theorem C17_loadModel_installs_the_snapshot_as_stored (rnd : Nat → Num) (nn : DPNN) :
    loadModel rnd none nn = (nn, false)
      ∧ ∀ snap : Snapshot,
          (loadModel rnd (some snap) nn).2 = true
            ∧ (loadModel rnd (some snap) nn).1.weights = snap.weights
            ∧ (loadModel rnd (some snap) nn).1.biases = snap.biases
            ∧ (loadModel rnd (some snap) nn).1.nodeConfidence = snap.nodeConfidence
            ∧ (loadModel rnd (some snap) nn).1.connectionConfidence = snap.connectionConfidence
            ∧ (loadModel rnd (some snap) nn).1.learningParams = snap.learningParams
            ∧ (loadModel rnd (some snap) nn).1.stats = snap.stats
            ∧ (loadModel rnd (some snap) nn).1.layers = (DPNN.new rnd 4 [] 4).layers
            ∧ (loadModel rnd (some snap) nn).1.layerTypes = (DPNN.new rnd 4 [] 4).layerTypes := by
  refine ⟨by simp only [loadModel], fun snap => ?_⟩
  simp only [loadModel, and_self]

/-- C17 fails as stated: for a stored snapshot whose weight array is empty, `loadModel` returns
`true` and installs a network without weight matrices in place of a network of the diamond
shape. -/
theorem C17_counterexample :
    WF zeroNet
      ∧ (loadModel (fun _ => 1 / 2) (some emptyWeightsSnapshot) zeroNet).2 = true
      ∧ (loadModel (fun _ => 1 / 2) (some emptyWeightsSnapshot) zeroNet).1.weights = []
      ∧ ¬ WF (loadModel (fun _ => 1 / 2) (some emptyWeightsSnapshot) zeroNet).1 := by
  decide!

/-! ### The routing rule of each transition -/

/-- On a network of the diamond shape, the branch of the routing rule taken into each layer:
the Y-fork into layers 1 and 2, the bridge into layers 3, 7 and 9, the full mesh into layers
4 and 5, and the half-weight mesh into layers 6 and 8. -/
theorem routeStep_of_WF (s : DPNN) (hwf : WF s) (i : Nat) (a : Num) (row : List Num)
    (prevLen : Nat) (st : LayerAcc) :
    (∀ l, l = 1 ∨ l = 2 → routeStep s l i a row prevLen st = expansionStep l i a row st)
      ∧ (∀ l, l = 3 ∨ l = 7 ∨ l = 9 →
          routeStep s l i a row prevLen st = directStep l i a row st)
      ∧ (∀ l, l = 4 ∨ l = 5 → routeStep s l i a row prevLen st = centralStep l i a row st)
      ∧ routeStep s 6 i a row prevLen st = halfMeshStep .central 6 i a row st
      ∧ routeStep s 8 i a row prevLen st = halfMeshStep .contraction 8 i a row st := by
  obtain ⟨h1, h2, h3, h4, h5, _⟩ := hwf
  have hlen : s.layers.length = 10 := by
    have := congrArg List.length h5
    simpa [diamondSizes] using this
  refine ⟨?_, ?_, ?_, ?_, ?_⟩
  · rintro l (rfl | rfl) <;>
      simp [routeStep, h1, h2, h3, h4, hlen, diamondTypes]
  · rintro l (rfl | rfl | rfl) <;>
      simp [routeStep, h1, h2, h3, h4, hlen, diamondTypes]
  · rintro l (rfl | rfl) <;>
      simp [routeStep, h1, h2, h3, h4, hlen, diamondTypes]
  · simp [routeStep, h1, h2, h3, h4, hlen, diamondTypes]
  · simp [routeStep, h1, h2, h3, h4, hlen, diamondTypes]

theorem addAt_getD (xs : List Num) (j k : Nat) (c : Num) (hj : j < xs.length) :
    (addAt xs j c).getD k 0 = xs.getD k 0 + (if j = k then c else 0) := by
  unfold addAt
  rw [getD_set]
  by_cases h : j = k
  · subst h
    rw [if_pos ⟨rfl, hj⟩, if_pos rfl]
  · rw [if_neg (fun hh => h hh.1), if_neg h, add_zero]

/-- The values left by a loop over the nodes `j` of the layer under construction in which a
nonzero weight `row[j]` adds `c j row[j]`: node `j` gains `c j row[j]`. -/
theorem mesh_values (c : Nat → Num → Num) (p : Nat → Num → Option Path)
    (hc : ∀ j, c j 0 = 0) (row : List Num) (st : LayerAcc) (j : Nat) :
    ((List.range st.currentLayer.length).foldl (fun st j =>
        match row[j]? with
        | none => st
        | some w => if w = 0 then st else contribute st j (c j w) (p j w)) st).currentLayer.getD j 0
      = st.currentLayer.getD j 0
        + (if j < st.currentLayer.length then c j (row.getD j 0) else 0) := by
  have h := foldl_range'_inv
    (fun k (st2 : LayerAcc) => st2.currentLayer.length = st.currentLayer.length
      ∧ st2.currentLayer.getD j 0
        = st.currentLayer.getD j 0 + (if j < k then c j (row.getD j 0) else 0))
    (fun st j =>
      match row[j]? with
      | none => st
      | some w => if w = 0 then st else contribute st j (c j w) (p j w))
    0 st.currentLayer.length st ⟨rfl, by simp⟩
    (by
      intro k b _ hk hb
      have hrow : row.getD k 0 = (row[k]?).getD 0 := List.getD_eq_getElem?_getD _ _ _
      have hlt : ∀ hjk : j ≠ k, (j < k + 1 ↔ j < k) := by
        intro hjk
        constructor <;> intro h <;> omega
      rcases hr : row[k]? with _ | w
      · rw [hr] at hrow
        simp only [hr]
        refine ⟨hb.1, ?_⟩
        rw [hb.2]
        by_cases hjk : j = k
        · subst hjk
          simp [hr, hc]
        · simp only [hlt hjk]
      · rw [hr] at hrow
        simp only [Option.getD_some] at hrow
        simp only [hr]
        by_cases hw : w = 0
        · rw [if_pos hw]
          refine ⟨hb.1, ?_⟩
          rw [hb.2]
          by_cases hjk : j = k
          · subst hjk
            simp [hr, hw, hc]
          · simp only [hlt hjk]
        · rw [if_neg hw]
          refine ⟨by simpa [contribute, addAt] using hb.1, ?_⟩
          simp only [contribute]
          rw [addAt_getD _ _ _ _ (by rw [hb.1]; omega), hb.2]
          by_cases hjk : j = k
          · subst hjk
            simp [hr]
          · simp only [hlt hjk, if_neg (fun hh => hjk (Eq.symm hh)), add_zero])
  rw [List.range_eq_range']
  simpa using h.2

/-- The values left by the mesh into a central layer: source `i` of value `a` adds
`a * row[j]` to every node `j` of the layer. -/
theorem centralStep_values (l i : Nat) (a : Num) (row : List Num) (st : LayerAcc) (j : Nat) :
    (centralStep l i a row st).currentLayer.getD j 0
      = st.currentLayer.getD j 0
        + (if j < st.currentLayer.length then a * row.getD j 0 else 0) := by
  unfold centralStep
  exact mesh_values (fun _ w => a * w)
    (fun j _ => some ⟨l - 1, i, j, |a|, jsSign a, .central, decide (i = j)⟩)
    (fun _ => mul_zero a) row st j

/-- The values left by the half-weight mesh: source `i` of value `a` adds `a * row[i]` to node
`i` and `a * row[j] / 2` to every other node `j` of the layer. -/
theorem halfMeshStep_values (ty : PathType) (l i : Nat) (a : Num) (row : List Num)
    (st : LayerAcc) (j : Nat) :
    (halfMeshStep ty l i a row st).currentLayer.getD j 0
      = st.currentLayer.getD j 0
        + (if j < st.currentLayer.length
            then a * row.getD j 0 * (if i = j then 1 else 1 / 2) else 0) := by
  unfold halfMeshStep
  have h := mesh_values (fun j w => a * w * (if decide (i = j) = true then 1 else 0.5))
    (fun j _ => if decide (i = j) = true then none
      else some ⟨l - 1, i, j, |a| * 0.5, jsSign a, ty, false⟩)
    (fun _ => by simp) row st j
  simp only [decide_eq_true_eq] at h ⊢
  refine h.trans ?_
  norm_num
/-- The body of the source loop for an active source whose row of weights exists: the routing
step followed by the activation loop. -/
theorem sourceStep_active (fns : MathFns) (s : DPNN) (l : Nat) (prevLayer : List Num)
    (prevActs : List Bool) (weights : List (List Num)) (biases : List Num) (st : LayerAcc)
    (i : Nat) (row : List Num)
    (hact : prevActs.getD i false = true) (hrow : weights[i]? = some row) :
    sourceStep fns s l prevLayer prevActs weights biases st i
      = activationLoop fns s.nodeActivationFuncs l s.layers.length biases
          (routeStep s l i (prevLayer.getD i 0) row prevLayer.length st) := by
  unfold sourceStep
  rw [hact, hrow]
  rfl

/-- C19 fails as stated: in `sparseNet`, source `1` of layer 7, of value `1` and with the
weights `0.5` towards the nodes 1 and 2, adds nothing to node `0 = floor(1 / 2)` of layer 8 but
`0.5` to node 1 and `0.25` to node 2; after the forward pass on `[1, 1, 1, 1]` the path
`(7, 1, 2)` is recorded. -/
theorem C19_counterexample :
    WF sparseNet
      ∧ (sparseNet.weights.getD 7 [])[1]? = some [0, 1 / 2, 1 / 2, 0, 0, 0, 0, 0]
      ∧ (routeStep sparseNet 8 1 1 [0, 1 / 2, 1 / 2, 0, 0, 0, 0, 0] 16
            (clearedAcc 8)).currentLayer = [0, 1 / 2, 1 / 4, 0, 0, 0, 0, 0]
      ∧ activatedInLayer sparseState 7 1 2 = true := by
  decide!

/-! ### Which contributions are recorded -/

theorem contribute_records (st : LayerAcc) (t : Nat) (c : Num) (q : Path) (j : Nat)
    (h : (contribute st t c (some q)).currentLayer.getD j 0 ≠ st.currentLayer.getD j 0) :
    j = t ∧ q ∈ (contribute st t c (some q)).paths := by
  refine ⟨?_, by simp [contribute]⟩
  by_contra hjt
  apply h
  simp only [contribute, addAt, getD_set]
  rw [if_neg (fun hh => hjt hh.1.symm)]

/-- A loop over the nodes `j` of the layer under construction that records the path `p j w`
with each contribution: a node whose value changed has a recorded path, unless `p` gave none. -/
theorem mesh_records (c : Nat → Num → Num) (p : Nat → Num → Option Path)
    (K : Path → Nat → Prop) (E : Nat → Prop)
    (hp : ∀ k w, (∃ q, p k w = some q ∧ K q k) ∨ (p k w = none ∧ E k))
    (row : List Num) (n : Nat) (st : LayerAcc) (j : Nat)
    (h : ((List.range n).foldl (fun st j =>
        match row[j]? with
        | none => st
        | some w => if w = 0 then st else contribute st j (c j w) (p j w)) st).currentLayer.getD j 0
      ≠ st.currentLayer.getD j 0) :
    (∃ q ∈ ((List.range n).foldl (fun st j =>
        match row[j]? with
        | none => st
        | some w => if w = 0 then st else contribute st j (c j w) (p j w)) st).paths, K q j)
      ∨ E j := by
  have hinv := foldl_inv
    (fun st2 : LayerAcc => st2.currentLayer.getD j 0 ≠ st.currentLayer.getD j 0 →
      (∃ q ∈ st2.paths, K q j) ∨ E j)
    (fun st j =>
      match row[j]? with
      | none => st
      | some w => if w = 0 then st else contribute st j (c j w) (p j w))
    (List.range n) st (fun hh => absurd rfl hh)
    (by
      intro b k _ hb
      rcases hr : row[k]? with _ | w
      · simpa only [hr] using hb
      · simp only [hr]
        by_cases hw : w = 0
        · rw [if_pos hw]
          exact hb
        · rw [if_neg hw]
          intro hch
          by_cases hjk : j = k
          · subst hjk
            rcases hp j w with ⟨q, hq, hK⟩ | ⟨_, hE⟩
            · left
              exact ⟨q, by simp [contribute, hq], hK⟩
            · right
              exact hE
          · have hsame : (contribute b k (c k w) (p k w)).currentLayer.getD j 0
                = b.currentLayer.getD j 0 := by
              simp only [contribute, addAt, getD_set]
              rw [if_neg (fun hh => hjk hh.1.symm)]
            rw [hsame] at hch
            rcases hb hch with ⟨q, hq, hK⟩ | hE
            · left
              refine ⟨q, ?_, hK⟩
              cases hpk : p k w <;> simp [contribute, hpk, hq]
            · right
              exact hE)
  exact hinv h

/-- Every node whose value the routing step of source `i` changes has its path recorded by
that step, except node `i` itself in the two half-weight meshes. -/
theorem routeStep_records (s : DPNN) (l i : Nat) (a : Num) (row : List Num) (prevLen : Nat)
    (st : LayerAcc) (j : Nat)
    (h : (routeStep s l i a row prevLen st).currentLayer.getD j 0 ≠ st.currentLayer.getD j 0) :
    (∃ q ∈ (routeStep s l i a row prevLen st).paths,
        q.layer = l - 1 ∧ q.from_ = i ∧ q.to_ = j)
      ∨ (i = j ∧ (l = s.expansionLayers.length + s.centralLayers.length
          ∨ l = s.layers.length - 2)) := by
  have hsingle : ∀ r : LayerAcc,
      (r = st ∨ ∃ t c q, r = contribute st t c (some q)
        ∧ q.layer = l - 1 ∧ q.from_ = i ∧ q.to_ = t) →
      r.currentLayer.getD j 0 ≠ st.currentLayer.getD j 0 →
      ∃ q ∈ r.paths, q.layer = l - 1 ∧ q.from_ = i ∧ q.to_ = j := by
    rintro r (rfl | ⟨t, c, q, rfl, hq1, hq2, hq3⟩) hh
    · exact absurd rfl hh
    · obtain ⟨hj, hq⟩ := contribute_records _ _ _ _ _ hh
      exact ⟨q, hq, hq1, hq2, hq3.trans hj.symm⟩
  have hdirect : directStep l i a row st = st ∨ ∃ t c q,
      directStep l i a row st = contribute st t c (some q)
        ∧ q.layer = l - 1 ∧ q.from_ = i ∧ q.to_ = t := by
    unfold directStep
    simp only
    by_cases hn : st.currentLayer.length = 0
    · rw [if_pos hn]
      exact Or.inl rfl
    · rw [if_neg hn]
      generalize (if i < st.currentLayer.length then i else i % st.currentLayer.length) = t
      rcases hr : row[t]? with _ | w
      · exact Or.inl rfl
      · exact Or.inr ⟨_, _, _, rfl, rfl, rfl, rfl⟩
  have hexp : expansionStep l i a row st = st ∨ ∃ t c q,
      expansionStep l i a row st = contribute st t c (some q)
        ∧ q.layer = l - 1 ∧ q.from_ = i ∧ q.to_ = t := by
    unfold expansionStep
    simp only
    by_cases hn : st.currentLayer.length = 0
    · rw [if_pos hn]
      exact Or.inl rfl
    · rw [if_neg hn]
      generalize (if a ≥ 0 then (i * 2) % st.currentLayer.length
        else (i * 2 + 1) % st.currentLayer.length) = t
      rcases hr : row[t]? with _ | w
      · exact Or.inl rfl
      · simp only
        by_cases ht : t < st.currentLayer.length
        · rw [if_pos ht]
          exact Or.inr ⟨_, _, _, rfl, rfl, rfl, rfl⟩
        · rw [if_neg ht]
          exact Or.inl rfl
  have hcon : contractionStep l i a row prevLen st = st ∨ ∃ t c q,
      contractionStep l i a row prevLen st = contribute st t c (some q)
        ∧ q.layer = l - 1 ∧ q.from_ = i ∧ q.to_ = t := by
    unfold contractionStep
    simp only
    rcases hr : row[i / 2]? with _ | w
    · exact Or.inl rfl
    · simp only
      by_cases ht : i / 2 < st.currentLayer.length
      · rw [if_pos ht]
        exact Or.inr ⟨_, _, _, rfl, rfl, rfl, rfl⟩
      · rw [if_neg ht]
        exact Or.inl rfl
  have hhalf : ∀ ty, (halfMeshStep ty l i a row st).currentLayer.getD j 0
        ≠ st.currentLayer.getD j 0 →
      (∃ q ∈ (halfMeshStep ty l i a row st).paths, q.layer = l - 1 ∧ q.from_ = i ∧ q.to_ = j)
        ∨ i = j := by
    intro ty
    unfold halfMeshStep
    exact mesh_records (fun j w => a * w * (if decide (i = j) = true then 1 else 0.5))
      (fun j _ => if decide (i = j) = true then none
        else some ⟨l - 1, i, j, |a| * 0.5, jsSign a, ty, false⟩)
      (fun q k => q.layer = l - 1 ∧ q.from_ = i ∧ q.to_ = k) (fun k => i = k)
      (by
        intro k w
        by_cases hik : i = k
        · right
          simp [hik]
        · left
          simp [hik]) row _ st j
  unfold routeStep at h ⊢
  simp only at h ⊢
  by_cases h1 : l = s.expansionLayers.length + 1
  · rw [if_pos h1] at h ⊢
    exact Or.inl (hsingle _ hdirect h)
  rw [if_neg h1] at h ⊢
  by_cases h2 : l = s.expansionLayers.length + s.centralLayers.length + 1
  · rw [if_pos h2] at h ⊢
    exact Or.inl (hsingle _ hdirect h)
  rw [if_neg h2] at h ⊢
  by_cases h3 : l = s.expansionLayers.length + s.centralLayers.length
      + s.contractionLayers.length + 1
  · rw [if_pos h3] at h ⊢
    exact Or.inl (hsingle _ hdirect h)
  rw [if_neg h3] at h ⊢
  by_cases h4 : s.layerTypes[l]? = some .expansion
  · rw [if_pos h4] at h ⊢
    exact Or.inl (hsingle _ hexp h)
  rw [if_neg h4] at h ⊢
  by_cases h5 : s.layerTypes[l]? = some .central
  · rw [if_pos h5] at h ⊢
    by_cases h6 : l = s.expansionLayers.length + s.centralLayers.length
    · rw [if_pos h6] at h ⊢
      rcases hhalf _ h with hq | hij
      · exact Or.inl hq
      · exact Or.inr ⟨hij, Or.inl h6⟩
    · rw [if_neg h6] at h ⊢
      left
      revert h
      unfold centralStep
      intro h
      rcases mesh_records (fun _ w => a * w)
        (fun j _ => some ⟨l - 1, i, j, |a|, jsSign a, .central, decide (i = j)⟩)
        (fun q k => q.layer = l - 1 ∧ q.from_ = i ∧ q.to_ = k) (fun _ => False)
        (fun k w => Or.inl ⟨_, rfl, rfl, rfl, rfl⟩) row _ st j h with hq | hf
      · exact hq
      · exact hf.elim
  rw [if_neg h5] at h ⊢
  by_cases h7 : s.layerTypes[l]? = some .contraction
  · rw [if_pos h7] at h ⊢
    by_cases h8 : l = s.layers.length - 2
    · rw [if_pos h8] at h ⊢
      rcases hhalf _ h with hq | hij
      · exact Or.inl hq
      · exact Or.inr ⟨hij, Or.inr h8⟩
    · rw [if_neg h8] at h ⊢
      exact Or.inl (hsingle _ hcon h)
  rw [if_neg h7] at h ⊢
  exact absurd rfl h

/-- C23, the code at a failing input: after the forward pass of `sparseNet` on `[1, 1, 1, 1]`,
node 1 of layer 5 is active with the value `1 / 16` and the weight `(5, 1, 1)` is `0.5`; node 1
of layer 6 holds `5 / 128`, and `1 / 128` when that weight is `0`, so the connection
contributes; yet no path `(5, 1, 1)` is recorded, while the secondary path `(5, 1, 2)` and the
index-aligned path `(4, 1, 1)` of the mesh before are. -/
theorem C23_aligned_pair_is_not_recorded :
    WF sparseNet
      ∧ (sparseState.activations.getD 5 []).getD 1 false = true
      ∧ get2 sparseState.layers 5 1 = 1 / 16
      ∧ get3 sparseState.weights 5 1 1 = 1 / 2
      ∧ get2 sparseState.layers 6 1 = 5 / 128
      ∧ get2 (forwardState sampleFns { sparseNet with weights := set3 sparseNet.weights 5 1 1 0 }
          (.array [.num 1, .num 1, .num 1, .num 1])).layers 6 1 = 1 / 128
      ∧ activatedInLayer sparseState 5 1 1 = false
      ∧ activatedInLayer sparseState 5 1 2 = true
      ∧ activatedInLayer sparseState 4 1 1 = true
      ∧ (routeStep sparseNet 6 1 1 [0, 1 / 2, 1 / 2, 0, 0, 0, 0, 0, 0, 0, 0, 0, 0, 0, 0, 0] 16
            (clearedAcc 16)).currentLayer.getD 1 0 = 1 / 2
      ∧ (routeStep sparseNet 6 1 1 [0, 1 / 2, 1 / 2, 0, 0, 0, 0, 0, 0, 0, 0, 0, 0, 0, 0, 0] 16
            (clearedAcc 16)).paths = [⟨5, 1, 2, 1 / 2, 1, .central, false⟩] := by
  decide!

/-! ### The factors of the backward accumulation -/

/-- C26, as amended: on a network of the diamond shape, the summand that a recorded path from
node `i` of layer `l` to node `t` adds to the delta of node `i` is `errors[t] * w` into the
output layer, `delta[t] * w / (number of recorded paths of layer l into t)` into the
contraction layers 7 and 8, `delta[t] * w * 0.3` for a non-primary path into a central layer
(3 to 6), and `delta[t] * w` otherwise, where `w = weights[l][i][t]`. -/
theorem C26_backward_factors (s : DPNN) (hty : s.layerTypes = diamondTypes)
    (errors : List Num) (g : Grads) (l i : Nat) (nextLayerPaths : List Path) (nodeDelta : Num)
    (path : Path) :
    (l = 8 → nodeDeltaStep s errors g l i nextLayerPaths nodeDelta path
        = nodeDelta + errors.getD path.to_ 0 * get3 s.weights l i path.to_)
      ∧ (l = 6 ∨ l = 7 → nodeDeltaStep s errors g l i nextLayerPaths nodeDelta path
        = nodeDelta + get2 g.biasGradients l path.to_ * get3 s.weights l i path.to_
            * (if 0 < (nextLayerPaths.filter (fun p => p.to_ = path.to_)).length
                then 1 / ((nextLayerPaths.filter (fun p => p.to_ = path.to_)).length : Num)
                else 1))
      ∧ (l = 2 ∨ l = 3 ∨ l = 4 ∨ l = 5 →
          nodeDeltaStep s errors g l i nextLayerPaths nodeDelta path
            = nodeDelta + get2 g.biasGradients l path.to_ * get3 s.weights l i path.to_
                * (if path.isPrimary = false then 3 / 10 else 1))
      ∧ (l = 0 ∨ l = 1 → nodeDeltaStep s errors g l i nextLayerPaths nodeDelta path
        = nodeDelta + get2 g.biasGradients l path.to_ * get3 s.weights l i path.to_) := by
  refine ⟨?_, ?_, ?_, ?_⟩
  · rintro rfl
    simp [nodeDeltaStep, hty, diamondTypes]
  · rintro (rfl | rfl) <;> simp [nodeDeltaStep, hty, diamondTypes]
  · rintro (rfl | rfl | rfl | rfl) <;>
      · simp only [nodeDeltaStep, hty, diamondTypes]
        cases path.isPrimary
        · simp
          norm_num
        · simp
  · rintro (rfl | rfl) <;> simp [nodeDeltaStep, hty, diamondTypes]

/-- The hypothesis of C26 holds of `sparseNet`: for a secondary path into layer 6 the factor
is `0.3`. -/
theorem C26_witness :
    sparseNet.layerTypes = diamondTypes
      ∧ nodeDeltaStep sparseNet [] (zeroGrads sparseNet) 5 1 [] 0
            ⟨5, 1, 2, 1 / 2, 1, .central, false⟩
          = 0 + get2 (zeroGrads sparseNet).biasGradients 5
                (⟨5, 1, 2, 1 / 2, 1, .central, false⟩ : Path).to_
              * get3 sparseNet.weights 5 1 (⟨5, 1, 2, 1 / 2, 1, .central, false⟩ : Path).to_
              * (if (⟨5, 1, 2, 1 / 2, 1, .central, false⟩ : Path).isPrimary = false
                  then 3 / 10 else 1) :=
  ⟨by decide!,
    (C26_backward_factors sparseNet (by decide!) [] (zeroGrads sparseNet) 5 1 [] 0
      ⟨5, 1, 2, 1 / 2, 1, .central, false⟩).2.2.1 (Or.inr (Or.inr (Or.inr rfl)))⟩

/-- C26 fails as stated: in `sparseNet`, source `1` of layer 5, of value `1`, reaches node 2 of
layer 6 through the weight `0.5` with the forward factor `1/2` (it adds `0.25`), but with the
delta `1` at node 2 the backward summand of the recorded path `(5, 1, 2)` is
`1 * 0.5 * 0.3 = 0.15`, not `1 * 0.5 * 0.5`. -/
theorem C26_counterexample :
    sparseNet.layerTypes = diamondTypes
      ∧ get3 sparseNet.weights 5 1 2 = 1 / 2
      ∧ (routeStep sparseNet 6 1 1 [0, 1 / 2, 1 / 2, 0, 0, 0, 0, 0, 0, 0, 0, 0, 0, 0, 0, 0] 16
            (clearedAcc 16)).currentLayer.getD 2 0 = 1 * (1 / 2) * (1 / 2)
      ∧ (routeStep sparseNet 6 1 1 [0, 1 / 2, 1 / 2, 0, 0, 0, 0, 0, 0, 0, 0, 0, 0, 0, 0, 0] 16
            (clearedAcc 16)).paths = [⟨5, 1, 2, 1 / 2, 1, .central, false⟩]
      ∧ nodeDeltaStep sparseNet []
            { zeroGrads sparseNet with
              biasGradients := set2 (zeroGrads sparseNet).biasGradients 5 2 1 }
            5 1 [] 0 ⟨5, 1, 2, 1 / 2, 1, .central, false⟩ = 1 * (1 / 2) * (3 / 10)
      ∧ (1 : Num) * (1 / 2) * (3 / 10) ≠ 1 * (1 / 2) * (1 / 2) := by
  decide!

/-! ### Flags and values -/

theorem activationLoop_flagIff (fns : MathFns) (funcs : Option (List (List String)))
    (l L n : Nat) (biases : List Num) (st : LayerAcc) (hl : l < L - 1)
    (hcur : st.currentLayer.length = n) (hacts : st.acts.length = n)
    (hz : ∀ j, st.acts.getD j false = true ∨ st.currentLayer.getD j 0 = 0) :
    FlagIff (activationLoop fns funcs l L biases st) := by
  have h := foldl_range'_inv
    (fun k (st2 : LayerAcc) => st2.currentLayer.length = n ∧ st2.acts.length = n
      ∧ (∀ j, st2.acts.getD j false = true ∨ st2.currentLayer.getD j 0 = 0)
      ∧ ∀ j, j < k → st2.acts.getD j false = true → st2.currentLayer.getD j 0 ≠ 0)
    (fun st j =>
      if !(st.acts.getD j false) then st else
      let v := match biases[j]? with
        | some b => st.currentLayer.getD j 0 + b
        | none => st.currentLayer.getD j 0
      if l < L - 1 then
        let v2 := applyActivation fns (activationFuncName funcs l j) v
        { st with currentLayer := st.currentLayer.set j v2, acts := st.acts.set j (decide (v2 ≠ 0)) }
      else
        { st with currentLayer := st.currentLayer.set j v })
    0 st.currentLayer.length st ⟨hcur, hacts, hz, fun j hj => absurd hj (Nat.not_lt_zero j)⟩
    (by
      intro k b _ hk hb
      obtain ⟨hb1, hb2, hb3, hb4⟩ := hb
      simp only
      by_cases hflag : b.acts.getD k false = true
      · rw [hflag]
        simp only [Bool.not_true, Bool.false_eq_true, if_false]
        rw [if_pos hl]
        have hkn : k < n := by rw [← hcur]; omega
        refine ⟨by simpa using hb1, by simpa using hb2, ?_, ?_⟩
        · intro j
          simp only [getD_set]
          by_cases hjk : k = j
          · subst hjk
            rw [if_pos ⟨by trivial, by rw [hb2]; exact hkn⟩,
              if_pos ⟨by trivial, by rw [hb1]; exact hkn⟩]
            by_cases hv : applyActivation fns (activationFuncName funcs l k)
                (match biases[k]? with
                  | some b_1 => b.currentLayer.getD k 0 + b_1
                  | none => b.currentLayer.getD k 0) = 0
            · right; exact hv
            · left; simpa using hv
          · rw [if_neg (fun hh => hjk hh.1), if_neg (fun hh => hjk hh.1)]
            exact hb3 j
        · intro j hj
          simp only [getD_set]
          by_cases hjk : k = j
          · subst hjk
            rw [if_pos ⟨by trivial, by rw [hb2]; exact hkn⟩,
              if_pos ⟨by trivial, by rw [hb1]; exact hkn⟩]
            intro hd
            simpa using hd
          · rw [if_neg (fun hh => hjk hh.1), if_neg (fun hh => hjk hh.1)]
            exact hb4 j (by omega)
      · have hf : b.acts.getD k false = false := by simpa using hflag
        rw [hf]
        simp only [Bool.not_false, if_true]
        refine ⟨hb1, hb2, hb3, ?_⟩
        intro j hj
        by_cases hjk : j = k
        · subst hjk
          intro hh
          rw [hf] at hh
          exact absurd hh Bool.false_ne_true
        · exact hb4 j (by omega))
  have key : ∀ r : LayerAcc,
      (r.currentLayer.length = n ∧ r.acts.length = n
        ∧ (∀ j, r.acts.getD j false = true ∨ r.currentLayer.getD j 0 = 0)
        ∧ ∀ j, j < 0 + st.currentLayer.length →
            r.acts.getD j false = true → r.currentLayer.getD j 0 ≠ 0) → FlagIff r := by
    rintro r ⟨h1, h2, h3, h4⟩ j
    constructor
    · intro hj
      apply h4 j _ hj
      by_contra hc
      have hle : r.acts.length ≤ j := by
        rw [h2, ← hcur]
        omega
      rw [getD_of_le _ _ _ hle] at hj
      exact Bool.false_ne_true hj
    · intro hj
      rcases h3 j with h | h
      · exact h
      · exact absurd h hj
  unfold activationLoop
  rw [List.range_eq_range']
  exact key _ h

theorem sourceStep_flagIff {l L prevLen n : Nat} {old : List Path} {st : LayerAcc}
    (fns : MathFns) (s : DPNN) (prevLayer : List Num) (prevActs : List Bool)
    (weights : List (List Num)) (biases : List Num) (i : Nat) (hi : i < prevLen)
    (hL : L = s.layers.length) (hl : l < L - 1)
    (h : AccInv l L prevLen n old st) (hf : FlagIff st) :
    FlagIff (sourceStep fns s l prevLayer prevActs weights biases st i) := by
  unfold sourceStep
  split_ifs
  · exact hf
  · simp only
    split
    · exact hf
    · rename_i row _
      have h2 := h.contribs hi (routeStep_contribs s l i (prevLayer.getD i 0) row
        prevLayer.length st)
      rw [← hL]
      exact activationLoop_flagIff fns _ l L n biases _ hl h2.curLen h2.actsLen h2.flagOrZero

theorem sourceLoop_flagIff {k : Nat} {s : DPNN} (fns : MathFns) (currentLayer : List Num)
    (weights : List (List Num)) (biases : List Num)
    (hacts : (s.activations.getD k []).length = currentLayer.length)
    (hk : k < s.layers.length - 1)
    (hfalse : ∀ j, (s.activations.getD k []).getD j false = false) :
    FlagIff (sourceLoop fns s k currentLayer weights biases) := by
  unfold sourceLoop
  have h := foldl_inv
    (fun st2 : LayerAcc => AccInv k s.layers.length (s.layers.getD (k - 1) []).length
      currentLayer.length s.activePaths st2 ∧ FlagIff st2)
    (sourceStep fns s k (s.layers.getD (k - 1) []) (s.activations.getD (k - 1) [])
      weights biases)
    (List.range (s.layers.getD (k - 1) []).length)
    { currentLayer := List.replicate currentLayer.length 0
      acts := s.activations.getD k []
      paths := s.activePaths
      layerHasActivation := false }
    ⟨⟨by simp, hacts, fun p hp => Or.inl hp, fun j => Or.inr (getD_replicate_zero _ _)⟩,
      fun j => by
        simp only [hfalse j, getD_replicate_zero]
        simp⟩
    (by
      intro b i hi hb
      exact ⟨hb.1.sourceStep fns s _ _ _ _ i (List.mem_range.mp hi) rfl,
        sourceStep_flagIff fns s _ _ _ _ i (List.mem_range.mp hi) rfl hk hb.1 hb.2⟩)
  exact h.2

theorem forceActivation_flagIff (l L : Nat) (st : LayerAcc)
    (hlen : st.acts.length = st.currentLayer.length) (h : FlagIff st) :
    FlagIff (forceActivation l L st) := by
  unfold forceActivation
  split_ifs
  · intro j
    simp only [getD_set]
    by_cases hj : 0 = j
    · subst hj
      by_cases hn : 0 < st.acts.length
      · rw [if_pos ⟨rfl, hn⟩, if_pos ⟨rfl, by rw [← hlen]; exact hn⟩]
        norm_num
      · rw [if_neg (fun hh => hn hh.2), if_neg (fun hh => hn (by rw [hlen]; exact hh.2))]
        exact h 0
    · rw [if_neg (fun hh => hj hh.1), if_neg (fun hh => hj hh.1)]
      exact h j
  · exact h

theorem FlagInv.init (s : DPNN) (input : Input) : FlagInv 1 (forwardInit s input) := by
  have h := forwardInit_inv s input
  refine ⟨h.actsLength, h.actsLen, ?_, ?_⟩
  · intro m j hm hL
    have hm0 : m = 0 := by omega
    subst hm0
    have hL0 : 0 < s.layers.length := by
      have : (forwardInit s input).layers.length = s.layers.length := by simp [forwardInit]
      omega
    simp only [forwardInit, get2, getD_set, List.length_map]
    rw [if_pos ⟨trivial, hL0⟩, if_pos ⟨trivial, hL0⟩]
    simp only [List.getD_eq_getElem?_getD, List.getElem?_map]
    cases (safeInput s.inputSize input)[j]? <;> simp
  · intro m j hm
    simp only [forwardInit, getD_set, List.length_map]
    rw [if_neg (fun hh => by omega)]
    simp only [List.getD_eq_getElem?_getD, List.getElem?_map]
    cases s.layers[m]? with
    | none => simp
    | some layer =>
        simp only [Option.map_some', Option.getD_some]
        cases hj : (List.replicate layer.length false)[j]? with
        | none => rfl
        | some b =>
            simp only [Option.getD_some]
            have := List.getElem?_mem hj
            exact (List.mem_replicate.mp this).2

/-- One iteration of the layer loop of `forward` keeps the relation of flags and values. -/
theorem FlagInv.next {k : Nat} {s : DPNN} (fns : MathFns) (hk : 1 ≤ k)
    (hw : s.layers.length ≤ s.weights.length + 1) (hb : s.layers.length ≤ s.biases.length + 1)
    (h : FlagInv k s) : FlagInv (k + 1) (layerStep fns s k) := by
  unfold layerStep
  split
  · rename_i currentLayer weights biases hcur _ _
    have hkL : k < s.layers.length := by
      by_contra hc
      rw [List.getElem?_eq_none (Nat.le_of_not_lt hc)] at hcur
      cases hcur
    have hgetk : s.layers.getD k [] = currentLayer := by
      simp [List.getD_eq_getElem?_getD, hcur]
    have hal : (s.activations.getD k []).length = currentLayer.length := by
      rw [h.actsLen k, hgetk]
    have h2 : AccInv k s.layers.length (s.layers.getD (k - 1) []).length currentLayer.length
        s.activePaths
        (forceActivation k s.layers.length (sourceLoop fns s k currentLayer weights biases)) :=
      (AccInv.sourceLoop fns currentLayer weights biases hal).forceActivation
    have h3 : k < s.layers.length - 1 →
        FlagIff (forceActivation k s.layers.length
          (sourceLoop fns s k currentLayer weights biases)) := by
      intro hk1
      have ha := AccInv.sourceLoop fns currentLayer weights biases hal
      exact forceActivation_flagIff _ _ _ (by rw [ha.actsLen, ha.curLen])
        (sourceLoop_flagIff fns currentLayer weights biases hal hk1
          (fun j => h.todo k j (le_refl k)))
    simp only
    generalize forceActivation k s.layers.length
      (sourceLoop fns s k currentLayer weights biases) = st2 at h2 h3 ⊢
    have hkA : k < s.activations.length := by rw [h.actsLength]; exact hkL
    refine ⟨by simpa using h.actsLength, ?_, ?_, ?_⟩
    · intro m
      simp only [getD_set]
      by_cases hm : k = m
      · subst hm
        rw [if_pos ⟨rfl, hkA⟩, if_pos ⟨rfl, hkL⟩, h2.curLen, h2.actsLen]
      · rw [if_neg (fun hh => hm hh.1), if_neg (fun hh => hm hh.1)]
        exact h.actsLen m
    · intro m j hm hL
      simp only [List.length_set] at hL
      simp only [get2, getD_set]
      by_cases hmk : k = m
      · subst hmk
        rw [if_pos ⟨rfl, hkA⟩, if_pos ⟨rfl, hkL⟩]
        exact h3 (by omega) j
      · rw [if_neg (fun hh => hmk hh.1), if_neg (fun hh => hmk hh.1)]
        exact h.done m j (by omega) hL
    · intro m j hm
      simp only [getD_set]
      rw [if_neg (fun hh => by omega)]
      exact h.todo m j (by omega)
  · rename_i hnone
    refine ⟨h.actsLength, h.actsLen, ?_, fun m j hm => h.todo m j (by omega)⟩
    intro m j hm hL
    by_cases hmk : m = k
    · subst hmk
      exfalso
      have h1 : m < s.layers.length := by omega
      have h2 : m - 1 < s.weights.length := by omega
      have h3 : m - 1 < s.biases.length := by omega
      exact hnone _ _ _ (List.getElem?_eq_getElem h1) (List.getElem?_eq_getElem h2)
        (List.getElem?_eq_getElem h3)
    · exact h.done m j (by omega) hL

theorem forwardState_flagInv (fns : MathFns) (s : DPNN) (input : Input)
    (hw : s.layers.length ≤ s.weights.length + 1) (hb : s.layers.length ≤ s.biases.length + 1) :
    FlagInv (1 + (s.layers.length - 1)) (forwardState fns s input) := by
  unfold forwardState
  have h := foldl_range'_inv
    (fun k (s2 : DPNN) => FlagInv k s2 ∧ SameParams s s2 ∧ s2.layers.length = s.layers.length)
    (layerStep fns) 1 (s.layers.length - 1) (forwardInit s input)
    ⟨FlagInv.init s input, forwardInit_sameParams s input, by simp [forwardInit]⟩
    (by
      intro k b hk _ hb2
      obtain ⟨h1, h2, h3⟩ := hb2
      have hbw : b.weights = s.weights := h2.2.2.2.2.2.2.2.1
      have hbb : b.biases = s.biases := h2.2.2.2.2.2.2.2.2.1
      exact ⟨h1.next fns hk (by rw [h3, hbw]; exact hw) (by rw [h3, hbb]; exact hb),
        h2.chain (layerStep_sameParams fns b k),
        (layerStep_layers fns b k).1.trans h3⟩)
  exact h.1

/-- C25: after `forward` on a state whose `weights` and `biases` hold an entry for every layer
after the first, a node of the input layer or of a hidden layer is flagged active in
`activations` exactly when its stored value is nonzero. -/
theorem C25_flag_iff_value_nonzero (fns : MathFns) (s : DPNN) (input : Input)
    (hw : s.layers.length ≤ s.weights.length + 1) (hb : s.layers.length ≤ s.biases.length + 1)
    (l j : Nat) (hl : l + 1 < s.layers.length) :
    ((forwardState fns s input).activations.getD l []).getD j false = true
      ↔ get2 (forwardState fns s input).layers l j ≠ 0 := by
  have h := forwardState_flagInv fns s input hw hb
  exact h.done l j (by omega) (by rw [(forwardState_layers fns s input).1]; exact hl)

/-- The hypotheses of C25 hold of `sparseNet` and the input `[1, 1, 1, 1]`: node 1 of layer 5
is flagged and holds a nonzero value. -/
theorem C25_witness :
    sparseNet.layers.length ≤ sparseNet.weights.length + 1
      ∧ sparseNet.layers.length ≤ sparseNet.biases.length + 1
      ∧ 5 + 1 < sparseNet.layers.length
      ∧ (((forwardState sampleFns sparseNet
            (.array [.num 1, .num 1, .num 1, .num 1])).activations.getD 5 []).getD 1 false = true
          ↔ get2 (forwardState sampleFns sparseNet
            (.array [.num 1, .num 1, .num 1, .num 1])).layers 5 1 ≠ 0) :=
  ⟨by decide!, by decide!, by decide!,
    C25_flag_iff_value_nonzero sampleFns sparseNet (.array [.num 1, .num 1, .num 1, .num 1])
      (by decide!) (by decide!) 5 1 (by decide!)⟩

/-! ### Confidence update from a reward that is not positive -/

theorem foldl_prefix_inv {α β : Type} (P : List α → β → Prop) (f : β → α → β) (xs : List α)
    (b : β) (h0 : P [] b) (hstep : ∀ pre x b, P pre b → P (pre ++ [x]) (f b x)) :
    P xs (xs.foldl f b) := by
  have key : ∀ (ys pre : List α) (b : β), P pre b → P (pre ++ ys) (ys.foldl f b) := by
    intro ys
    induction ys with
    | nil => intro pre b h; simpa using h
    | cons y rest ih =>
        intro pre b h
        have h2 := ih (pre ++ [y]) (f b y) (hstep pre y b h)
        simpa using h2
  simpa using key xs [] b h0

theorem get3_of_not_inRange (m : List (List (List Num))) (l i j : Nat)
    (h : ¬ InRange m l i j) : get3 m l i j = 0 := by
  by_contra hc
  exact h (get3_ne_zero_bounds m l i j hc)

theorem get3_set3_zero (m : List (List (List Num))) (l i j : Nat) :
    get3 (set3 m l i j 0) l i j = 0 := by
  rw [get3_set3]
  split_ifs with h
  · rfl
  · apply get3_of_not_inRange
    intro hin
    exact h ⟨rfl, rfl, rfl, hin.1, hin.2.1, hin.2.2⟩

theorem inRange_set3 (m : List (List (List Num))) (l i j l2 i2 j2 : Nat) (v : Num) :
    InRange (set3 m l i j v) l2 i2 j2 ↔ InRange m l2 i2 j2 := by
  have h1 : (set3 m l i j v).length = m.length := by simp [set3]
  have h2 : ((set3 m l i j v).getD l2 []).length = (m.getD l2 []).length := by
    rw [getD_set3]
    split_ifs with h
    · obtain ⟨rfl, _⟩ := h
      simp [set2]
    · rfl
  have h3 : (((set3 m l i j v).getD l2 []).getD i2 []).length
      = ((m.getD l2 []).getD i2 []).length := by
    rw [getD_set3]
    split_ifs with h
    · obtain ⟨rfl, _⟩ := h
      unfold set2
      rw [getD_set]
      split_ifs with h4
      · obtain ⟨rfl, _⟩ := h4
        simp
      · rfl
    · rfl
  unfold InRange
  rw [h1, h2, h3]

theorem getD_of_lookup {α : Type} (xs : List α) (i : Nat) (d x : α) (h : xs[i]? = some x) :
    xs.getD i d = x := by
  rw [List.getD_eq_getElem?_getD, h]
  rfl

theorem lookup_lt {α : Type} (xs : List α) (i : Nat) (x : α) (h : xs[i]? = some x) :
    i < xs.length := by
  by_contra hc
  rw [List.getElem?_eq_none (Nat.le_of_not_lt hc)] at h
  cases h

theorem inRange_iff_lookup (m : List (List (List Num))) (l i j : Nat) :
    InRange m l i j ↔ ∃ row w, (m.getD l [])[i]? = some row ∧ row[j]? = some w := by
  constructor
  · rintro ⟨_, h2, h3⟩
    rcases h1 : (m.getD l [])[i]? with _ | row
    · rw [List.getElem?_eq_none_iff] at h1
      omega
    · rw [getD_of_lookup _ _ _ _ h1] at h3
      rcases h4 : row[j]? with _ | w
      · rw [List.getElem?_eq_none_iff] at h4
        omega
      · exact ⟨row, w, rfl, h4⟩
  · rintro ⟨row, w, h1, h2⟩
    have hi := lookup_lt _ _ _ h1
    have hj := lookup_lt _ _ _ h2
    refine ⟨?_, hi, by rw [getD_of_lookup _ _ _ _ h1]; exact hj⟩
    by_contra hc
    rw [getD_of_le m l [] (Nat.le_of_not_lt hc)] at hi
    simp at hi
theorem pathKey_eq_iff (p q : Path) :
    pathKey p = pathKey q ↔ (p.layer = q.layer ∧ p.from_ = q.from_ ∧ p.to_ = q.to_) := by
  simp [pathKey, Prod.ext_iff]

theorem NegInv.skip {s : DPNN} {d : Num} {pre : List Path} {a : RewardAcc}
    (h : NegInv s d pre a) (path : Path) (fired : List (Nat × Nat))
    (hnot : ¬ InRange a.s.connectionConfidence path.layer path.from_ path.to_) :
    NegInv s d (pre ++ [path]) { a with firedNodes := fired } := by
  have hnot2 : ¬ InRange s.connectionConfidence path.layer path.from_ path.to_ :=
    fun hh => hnot ((h.shape _ _ _).mpr hh)
  have hsame : ∀ p, p ∈ pre ++ [path] →
      InRange s.connectionConfidence p.layer p.from_ p.to_ → p ∈ pre := by
    intro p hp hin
    rcases List.mem_append.mp hp with hp | hp
    · exact hp
    · rw [List.mem_singleton.mp hp] at hin
      exact absurd hin hnot2
  refine ⟨h.frame, h.shape, h.le, ?_, ?_, ?_, ?_, ?_, ?_⟩
  · intro l i j hun
    exact h.untouched l i j (fun p hp => hun p (List.mem_append_left _ hp))
  · intro p hp hin
    exact h.lowered p (hsame p hp hin) hin
  · intro p hp hin
    exact h.neg p (hsame p hp hin) hin
  · intro p hp hdoom
    have hin : InRange s.connectionConfidence p.layer p.from_ p.to_ := by
      simp only [Doomed, Bool.and_eq_true, decide_eq_true_eq] at hdoom
      exact hdoom.1
    exact h.first p (hsame p hp hin) hdoom
  · intro k hk
    obtain ⟨p, hp, hpk⟩ := h.sub k hk
    exact ⟨p, List.mem_append_left _ hp, hpk⟩
  · intro hnd
    rw [List.map_append, List.nodup_append] at hnd
    have hd : Doomed s d path = false := by
      simp [Doomed, hnot2]
    rw [h.exact hnd.1]
    simp [List.filter_append, hd]

theorem NegInv.lower {s : DPNN} {d : Num} {pre : List Path} {a : RewardAcc}
    (h : NegInv s d pre a) (path : Path) (fired : List (Nat × Nat)) (hd : d < 0)
    (hin : InRange a.s.connectionConfidence path.layer path.from_ path.to_) :
    NegInv s d (pre ++ [path])
      { firedNodes := fired
        s := { a.s with
          connectionConfidence := set3 a.s.connectionConfidence path.layer path.from_ path.to_
            (get3 a.s.connectionConfidence path.layer path.from_ path.to_ + d) }
        pathsToDelete :=
          if get3 a.s.connectionConfidence path.layer path.from_ path.to_ + d < 0
          then a.pathsToDelete ++ [(path.layer, path.from_, path.to_)]
          else a.pathsToDelete } := by
  have hin2 : InRange s.connectionConfidence path.layer path.from_ path.to_ :=
    (h.shape _ _ _).mp hin
  have hsubset : ∀ k, k ∈ a.pathsToDelete →
      k ∈ (if get3 a.s.connectionConfidence path.layer path.from_ path.to_ + d < 0
          then a.pathsToDelete ++ [(path.layer, path.from_, path.to_)]
          else a.pathsToDelete) := by
    intro k hk
    split_ifs
    · exact List.mem_append_left _ hk
    · exact hk
  have hle := h.le path.layer path.from_ path.to_
  refine ⟨?_, ?_, ?_, ?_, ?_, ?_, ?_, ?_, ?_⟩
  · have hf := h.frame
    simp only
    rw [hf]
  · intro l i j
    simp only
    rw [inRange_set3]
    exact h.shape l i j
  · intro l i j
    simp only
    rw [get3_set3]
    split_ifs with heq
    · obtain ⟨rfl, rfl, rfl, _⟩ := heq
      linarith
    · exact h.le l i j
  · intro l i j hun
    simp only
    rw [get3_set3_of_ne]
    · exact h.untouched l i j (fun p hp => hun p (List.mem_append_left _ hp))
    · intro heq
      exact hun path (List.mem_append_right _ (List.mem_singleton_self _)) heq
  · intro p hp hinp
    simp only
    rw [get3_set3]
    split_ifs with heq
    · obtain ⟨h1, h2, h3, _⟩ := heq
      rw [← h1, ← h2, ← h3]
      linarith
    · rcases List.mem_append.mp hp with hp | hp
      · exact h.lowered p hp hinp
      · rw [List.mem_singleton.mp hp] at heq
        exact absurd ⟨rfl, rfl, rfl, hin.1, hin.2.1, hin.2.2⟩ heq
  · intro p hp hinp
    simp only
    rw [get3_set3]
    by_cases heq : path.layer = p.layer ∧ path.from_ = p.from_ ∧ path.to_ = p.to_
        ∧ path.layer < a.s.connectionConfidence.length
        ∧ path.from_ < (a.s.connectionConfidence.getD path.layer []).length
        ∧ path.to_ < ((a.s.connectionConfidence.getD path.layer []).getD path.from_ []).length
    · rw [if_pos heq]
      intro hlt
      rw [if_pos hlt]
      obtain ⟨h1, h2, h3, _⟩ := heq
      simp [pathKey, h1, h2, h3]
    · rw [if_neg heq]
      intro hlt
      rcases List.mem_append.mp hp with hp | hp
      · exact hsubset _ (h.neg p hp hinp hlt)
      · rw [List.mem_singleton.mp hp] at heq
        exact absurd ⟨rfl, rfl, rfl, hin.1, hin.2.1, hin.2.2⟩ heq
  · intro p hp hdoom
    rcases List.mem_append.mp hp with hp | hp
    · exact hsubset _ (h.first p hp hdoom)
    · rw [List.mem_singleton.mp hp] at hdoom ⊢
      simp only [Doomed, Bool.and_eq_true, decide_eq_true_eq] at hdoom
      rw [if_pos (by linarith [hdoom.2])]
      simp [pathKey]
  · intro k hk
    simp only at hk
    split_ifs at hk
    · rcases List.mem_append.mp hk with hk | hk
      · obtain ⟨p, hp, hpk⟩ := h.sub k hk
        exact ⟨p, List.mem_append_left _ hp, hpk⟩
      · exact ⟨path, List.mem_append_right _ (List.mem_singleton_self _),
          (List.mem_singleton.mp hk).symm⟩
    · obtain ⟨p, hp, hpk⟩ := h.sub k hk
      exact ⟨p, List.mem_append_left _ hp, hpk⟩
  · intro hnd
    rw [List.map_append, List.nodup_append] at hnd
    obtain ⟨hnd1, _, hdisj⟩ := hnd
    have hun : Unrecorded pre path.layer path.from_ path.to_ := by
      intro p hp heq
      have hk : pathKey p = pathKey path := (pathKey_eq_iff p path).mpr heq
      exact hdisj (List.mem_map_of_mem pathKey hp) (by rw [hk]; simp)
    have hcur := h.untouched _ _ _ hun
    simp only [List.filter_append, List.filter_cons, List.filter_nil, List.map_append]
    rw [← h.exact hnd1, hcur]
    by_cases hlt : get3 s.connectionConfidence path.layer path.from_ path.to_ + d < 0
    · have hdm : Doomed s d path = true := by simp [Doomed, hin2, hlt]
      rw [if_pos hlt, hdm]
      simp [pathKey]
    · have hdm : Doomed s d path = false := by simp [Doomed, hlt]
      rw [if_neg hlt, hdm]
      simp

theorem rewardPathStep_neg (reward : Num) (hr : ¬ reward > 0) (s : DPNN) (pre : List Path)
    (a : RewardAcc) (path : Path) (h : NegInv s (min (reward * 0.1) (-0.001)) pre a) :
    NegInv s (min (reward * 0.1) (-0.001)) (pre ++ [path]) (rewardPathStep reward a path) := by
  unfold rewardPathStep
  simp only
  rcases hrow : (a.s.connectionConfidence.getD path.layer [])[path.from_]? with _ | row
  · apply h.skip
    rw [inRange_iff_lookup]
    rintro ⟨row, w, h1, _⟩
    rw [hrow] at h1
    cases h1
  · simp only
    rcases hc : row[path.to_]? with _ | cur
    · apply h.skip
      rw [inRange_iff_lookup]
      rintro ⟨row2, w, h1, h2⟩
      rw [hrow] at h1
      cases h1
      rw [hc] at h2
      cases h2
    · simp only [if_neg hr]
      have hin : InRange a.s.connectionConfidence path.layer path.from_ path.to_ :=
        (inRange_iff_lookup _ _ _ _).mpr ⟨row, cur, hrow, hc⟩
      have hcur := get3_of_lookup _ _ _ _ _ _ hrow hc
      have hd : min (reward * 0.1) (-0.001 : Num) < 0 :=
        lt_of_le_of_lt (min_le_right _ _) (by norm_num)
      have := h.lower path
        (setAdd (setAdd a.firedNodes (path.layer, path.from_)) (path.layer + 1, path.to_))
        hd hin
      rw [hcur] at this
      exact this

/-- The loop over the fired paths under a reward that is not positive. -/
theorem rewardPaths_neg (reward : Num) (hr : ¬ reward > 0) (s : DPNN) :
    NegInv s (min (reward * 0.1) (-0.001)) s.activePaths
      (s.activePaths.foldl (rewardPathStep reward)
        { s := s, firedNodes := [], pathsToDelete := [] }) := by
  apply foldl_prefix_inv
    (fun pre a => NegInv s (min (reward * 0.1) (-0.001)) pre a)
  · refine ⟨rfl, fun _ _ _ => Iff.rfl, fun _ _ _ => le_refl _, fun _ _ _ _ => rfl, ?_, ?_, ?_,
      ?_, ?_⟩
    · intro p hp
      cases hp
    · intro p hp
      cases hp
    · intro p hp
      cases hp
    · intro k hk
      cases hk
    · intro _
      rfl
  · intro pre x b hb
    exact rewardPathStep_neg reward hr s pre b x hb
theorem Penalised.andThen {c c2 c3 : Num} (h1 : Penalised c c2) (h2 : Penalised c2 c3) :
    Penalised c c3 := by
  unfold Penalised at *
  rcases h2 with h2 | h2 | ⟨h2, h3⟩
  · rw [h2]; exact h1
  · exact Or.inr (Or.inl h2)
  · rcases h1 with h1 | h1 | ⟨h1, h4⟩
    · rw [← h1]; exact Or.inr (Or.inr ⟨h2, h3⟩)
    · rw [h1] at h3
      exact Or.inr (Or.inl (le_antisymm h3 h2))
    · exact Or.inr (Or.inr ⟨h2, h3.trans h4⟩)

theorem PenRel.same (s : DPNN) : PenRel s s :=
  ⟨rfl, fun _ _ _ h => ⟨h, rfl⟩, fun _ _ _ => Or.inl rfl⟩

theorem PenRel.comp {s s2 s3 : DPNN} (h1 : PenRel s s2) (h2 : PenRel s2 s3) : PenRel s s3 := by
  refine ⟨h2.1.trans h1.1, ?_, fun l i j => (h1.2.2 l i j).andThen (h2.2.2 l i j)⟩
  intro l i j hw
  obtain ⟨a, b⟩ := h1.2.1 l i j hw
  obtain ⟨c, d⟩ := h2.2.1 l i j a
  exact ⟨c, d.trans b⟩

theorem penaltyStep_rel (reward : Num) (oL oI : Nat) (s : DPNN) (i : Nat) :
    PenRel s (penaltyStep reward oL oI s i) := by
  unfold penaltyStep
  by_cases hw : |get3 s.weights oL i oI| > 0.1
  · rw [if_pos hw]
    simp only
    have hpc : min (-0.001 * 2) (-|reward| * 0.2) < (0 : Num) :=
      lt_of_le_of_lt (min_le_left _ _) (by norm_num)
    have hne : ∀ l i2 j, get3 s.weights l i2 j = 0 → ¬ (oL = l ∧ i = i2 ∧ oI = j) := by
      rintro l i2 j h0 ⟨rfl, rfl, rfl⟩
      rw [h0] at hw
      norm_num at hw
    by_cases hc : get3 s.connectionConfidence oL i oI + min (-0.001 * 2) (-|reward| * 0.2) < 0
    · rw [if_pos hc]
      refine ⟨rfl, ?_, ?_⟩
      · intro l i2 j h0
        simp only
        rw [get3_set3_of_ne _ _ _ _ _ _ _ _ (hne l i2 j h0),
          get3_set3_of_ne _ _ _ _ _ _ _ _ (hne l i2 j h0)]
        exact ⟨h0, rfl⟩
      · intro l i2 j
        simp only
        rw [get3_set3]
        split_ifs
        · exact Or.inr (Or.inl rfl)
        · exact Or.inl rfl
    · rw [if_neg hc]
      refine ⟨rfl, ?_, ?_⟩
      · intro l i2 j h0
        simp only
        rw [get3_set3_of_ne _ _ _ _ _ _ _ _ (hne l i2 j h0)]
        exact ⟨h0, rfl⟩
      · intro l i2 j
        simp only
        rw [get3_set3]
        split_ifs with heq
        · obtain ⟨rfl, rfl, rfl, _⟩ := heq
          exact Or.inr (Or.inr ⟨le_of_not_lt hc, by linarith⟩)
        · exact Or.inl rfl
  · rw [if_neg hw]
    exact PenRel.same s

theorem rewardNodeStep_rel (reward : Num) (sn : DPNN × List (Nat × Nat)) (node : Nat × Nat) :
    (rewardNodeStep reward sn node).1.weights = sn.1.weights
      ∧ (rewardNodeStep reward sn node).1.connectionConfidence = sn.1.connectionConfidence
      ∧ (rewardNodeStep reward sn node).1.stats = sn.1.stats := by
  unfold rewardNodeStep
  simp only
  split
  · exact ⟨rfl, rfl, rfl⟩
  · split_ifs <;> exact ⟨rfl, rfl, rfl⟩

theorem mutateNodes_rel (rnd : Nat → Num) (fuel : Nat) (nodes : List (Nat × Nat))
    (sc sc2 : DPNN × Nat) (h : mutateNodes rnd fuel nodes sc = .ok sc2) :
    sc2.1.weights = sc.1.weights ∧ sc2.1.connectionConfidence = sc.1.connectionConfidence
      ∧ sc2.1.stats = sc.1.stats := by
  induction nodes generalizing sc with
  | nil =>
      simp only [mutateNodes] at h
      cases h
      exact ⟨rfl, rfl, rfl⟩
  | cons node rest ih =>
      simp only [mutateNodes] at h
      cases hm : mutateNode rnd fuel sc node with
      | error e =>
          rw [hm] at h
          cases h
      | ok sc3 =>
          rw [hm] at h
          obtain ⟨a, b, c⟩ := ih sc3 h
          have hstep : sc3.1.weights = sc.1.weights
              ∧ sc3.1.connectionConfidence = sc.1.connectionConfidence
              ∧ sc3.1.stats = sc.1.stats := by
            unfold mutateNode at hm
            simp only at hm
            split at hm
            · cases hm
            · split at hm
              · cases hm
              · split at hm
                · cases hm
                · cases hm
                  exact ⟨rfl, rfl, rfl⟩
          exact ⟨a.trans hstep.1, b.trans hstep.2.1, c.trans hstep.2.2⟩

theorem deletePaths_spec (ks : List (Nat × Nat × Nat)) (s : DPNN) :
    (ks.foldl deletePath s).stats = s.stats
      ∧ ∀ l i j,
        get3 (ks.foldl deletePath s).weights l i j
            = (if (l, i, j) ∈ ks then 0 else get3 s.weights l i j)
          ∧ get3 (ks.foldl deletePath s).connectionConfidence l i j
            = (if (l, i, j) ∈ ks then 0 else get3 s.connectionConfidence l i j) := by
  apply foldl_prefix_inv
    (fun pre (s2 : DPNN) => s2.stats = s.stats ∧ ∀ l i j,
      get3 s2.weights l i j = (if (l, i, j) ∈ pre then 0 else get3 s.weights l i j)
        ∧ get3 s2.connectionConfidence l i j
          = (if (l, i, j) ∈ pre then 0 else get3 s.connectionConfidence l i j))
  · exact ⟨rfl, fun l i j => by simp⟩
  · rintro pre ⟨kl, ki, kj⟩ b ⟨hb0, hb⟩
    refine ⟨hb0, ?_⟩
    intro l i j
    simp only [deletePath]
    by_cases hk : kl = l ∧ ki = i ∧ kj = j
    · obtain ⟨rfl, rfl, rfl⟩ := hk
      rw [get3_set3_zero, get3_set3_zero]
      simp
    · rw [get3_set3_of_ne _ _ _ _ _ _ _ _ hk, get3_set3_of_ne _ _ _ _ _ _ _ _ hk]
      have hmem : (l, i, j) ∈ pre ++ [(kl, ki, kj)] ↔ (l, i, j) ∈ pre := by
        simp only [List.mem_append, List.mem_singleton, Prod.mk.injEq]
        constructor
        · rintro (h | ⟨h1, h2, h3⟩)
          · exact h
          · exact absurd ⟨h1.symm, h2.symm, h3.symm⟩ hk
        · exact Or.inl
      simp only [hmem]
      exact hb l i j
theorem penalty_rel (reward : Num) (direction : Option String) (s2 : DPNN) :
    PenRel s2
      (match direction with
        | none => s2
        | some d =>
            if reward < 0 then
              match directionToOutputIdx d with
              | none => s2
              | some outputIdx =>
                  (List.range (s2.weights.getD (s2.layers.length - 2) []).length).foldl
                    (penaltyStep reward (s2.layers.length - 2) outputIdx) s2
            else s2) := by
  cases direction with
  | none => exact PenRel.same s2
  | some d =>
      simp only
      split_ifs
      · cases directionToOutputIdx d with
        | none => exact PenRel.same s2
        | some outputIdx =>
            simp only
            apply foldl_inv (fun s3 : DPNN => PenRel s2 s3)
            · exact PenRel.same s2
            · intro b i _ hb
              exact hb.comp (penaltyStep_rel reward _ _ b i)
      · exact PenRel.same s2

/-- A completed call of `updateConfidenceFromReward` with a reward that is not positive, in
terms of the accumulator `a` left by the loop over the fired paths. -/
theorem updateConfidenceFromReward_neg (rnd : Nat → Num) (fuel c : Nat) (s : DPNN)
    (reward : Num) (direction : Option String) (s2 : DPNN) (c2 : Nat) (hr : ¬ reward > 0)
    (hok : updateConfidenceFromReward rnd fuel c s reward direction = .ok (s2, c2)) :
    ∃ a : RewardAcc, NegInv s (min (reward * 0.1) (-0.001)) s.activePaths a
      ∧ s2.stats.pathDeletions = s.stats.pathDeletions + a.pathsToDelete.length
      ∧ (∀ l i j, (l, i, j) ∈ a.pathsToDelete →
          get3 s2.weights l i j = 0 ∧ get3 s2.connectionConfidence l i j = 0)
      ∧ ∀ l i j, Penalised
          (if (l, i, j) ∈ a.pathsToDelete then 0 else get3 a.s.connectionConfidence l i j)
          (get3 s2.connectionConfidence l i j) := by
  have ha := rewardPaths_neg reward hr s
  unfold updateConfidenceFromReward at hok
  simp only at hok
  generalize s.activePaths.foldl (rewardPathStep reward)
    { s := s, firedNodes := [], pathsToDelete := [] } = a at ha hok
  have hdel := deletePaths_spec a.pathsToDelete a.s
  generalize a.pathsToDelete.foldl deletePath a.s = s1 at hdel hok
  have hn := foldl_inv
    (fun sn : DPNN × List (Nat × Nat) =>
      sn.1.weights = s1.weights ∧ sn.1.connectionConfidence = s1.connectionConfidence
        ∧ sn.1.stats = s1.stats)
    (rewardNodeStep reward) a.firedNodes (s1, []) ⟨rfl, rfl, rfl⟩
    (fun sn node _ h => by
      obtain ⟨h1, h2, h3⟩ := rewardNodeStep_rel reward sn node
      exact ⟨h1.trans h.1, h2.trans h.2.1, h3.trans h.2.2⟩)
  simp only at hn
  generalize a.firedNodes.foldl (rewardNodeStep reward) (s1, []) = sn at hn hok
  cases hm : mutateNodes rnd fuel sn.2 (sn.1, c) with
  | error e =>
      rw [hm] at hok
      cases hok
  | ok sc =>
      rw [hm] at hok
      simp only [Except.ok.injEq, Prod.mk.injEq] at hok
      obtain ⟨hs2, _⟩ := hok
      obtain ⟨hm1, hm2, hm3⟩ := mutateNodes_rel rnd fuel sn.2 (sn.1, c) sc hm
      simp only at hm1 hm2 hm3
      have hw : sc.1.weights = s1.weights := hm1.trans hn.1
      have hc : sc.1.connectionConfidence = s1.connectionConfidence := hm2.trans hn.2.1
      have hst : sc.1.stats = s.stats := by
        rw [hm3, hn.2.2, hdel.1, ha.frame]
      obtain ⟨hp1, hp2, hp3⟩ := penalty_rel reward direction sc.1
      subst hs2
      refine ⟨a, ha, ?_, ?_, ?_⟩
      · exact congrArg (fun st : Stats => st.pathDeletions + a.pathsToDelete.length)
          (hp1.trans hst)
      · intro l i j hmem
        have h0 := hdel.2 l i j
        rw [if_pos hmem, if_pos hmem, ← hw, ← hc] at h0
        obtain ⟨k1, k2⟩ := hp2 l i j h0.1
        exact ⟨k1, k2.trans h0.2⟩
      · intro l i j
        have h0 := (hdel.2 l i j).2
        rw [← hc] at h0
        rw [← h0]
        exact hp3 l i j

theorem ok_resultOf {α : Type} (d : α) (x : Except Err α) (h : failureOf x = none) :
    x = .ok (resultOf d x) := by
  cases x with
  | error e => cases h
  | ok v => rfl

/-- C11: for a reward `r < 0`, a completed call of `updateConfidenceFromReward` leaves the weight and the confidence of every recorded connection whose
confidence `c` satisfies `c + min(0.1 * r, -0.001) < 0` at `0`; and when no connection is
recorded twice in `activePaths`, `stats.pathDeletions` grows by the number of these
connections. -/
theorem C11_negative_reward_deletes_exhausted_connections (rnd : Nat → Num) (fuel c : Nat)
    (s : DPNN) (reward : Num) (direction : Option String) (s2 : DPNN) (c2 : Nat)
    (hr : reward < 0)
    (hok : updateConfidenceFromReward rnd fuel c s reward direction = .ok (s2, c2)) :
    (∀ p ∈ s.activePaths, InRange s.connectionConfidence p.layer p.from_ p.to_ →
        get3 s.connectionConfidence p.layer p.from_ p.to_ + min (0.1 * reward) (-0.001) < 0 →
        get3 s2.weights p.layer p.from_ p.to_ = 0
          ∧ get3 s2.connectionConfidence p.layer p.from_ p.to_ = 0)
      ∧ ((s.activePaths.map pathKey).Nodup →
          s2.stats.pathDeletions = s.stats.pathDeletions
            + (s.activePaths.filter (Doomed s (min (0.1 * reward) (-0.001)))).length) := by
  obtain ⟨a, ha, hstat, hdel, _⟩ :=
    updateConfidenceFromReward_neg rnd fuel c s reward direction s2 c2 (not_lt.mpr hr.le) hok
  rw [mul_comm (0.1 : Num) reward]
  refine ⟨?_, ?_⟩
  · intro p hp hin hlt
    have hd : Doomed s (min (reward * 0.1) (-0.001)) p = true := by
      simp only [Doomed, Bool.and_eq_true, decide_eq_true_eq]
      exact ⟨hin, hlt⟩
    exact hdel _ _ _ (ha.first p hp hd)
  · intro hnd
    rw [hstat, ha.exact hnd, List.length_map]

/-- The hypotheses of C11 hold of `fragileState` and the reward `-1`: the call completes and
the recorded connection `(0, 0, 0)`, of confidence `0.05`, is left with weight and confidence
`0`. -/
theorem C11_witness :
    (-1 : Num) < 0
      ∧ failureOf (updateConfidenceFromReward (fun _ => 0) 1 0 fragileState (-1) none) = none
      ∧ (⟨0, 0, 0, 1, 1, .expansion, true⟩ : Path) ∈ fragileState.activePaths
      ∧ InRange fragileState.connectionConfidence 0 0 0
      ∧ get3 fragileState.connectionConfidence 0 0 0 + min (0.1 * (-1)) (-0.001) < 0
      ∧ get3 (resultOf (fragileState, 0)
            (updateConfidenceFromReward (fun _ => 0) 1 0 fragileState (-1) none)).1.weights
          0 0 0 = 0
      ∧ get3 (resultOf (fragileState, 0)
            (updateConfidenceFromReward (fun _ => 0) 1 0 fragileState (-1)
              none)).1.connectionConfidence 0 0 0 = 0 :=
  ⟨by norm_num, by decide!, by decide!, by decide!, by decide!,
    (C11_negative_reward_deletes_exhausted_connections (fun _ => 0) 1 0 fragileState (-1) none
      (resultOf (fragileState, 0)
        (updateConfidenceFromReward (fun _ => 0) 1 0 fragileState (-1) none)).1
      (resultOf (fragileState, 0)
        (updateConfidenceFromReward (fun _ => 0) 1 0 fragileState (-1) none)).2
      (by norm_num) (ok_resultOf _ _ (by decide!))).1
      ⟨0, 0, 0, 1, 1, .expansion, true⟩ (by decide!) (by decide!) (by decide!)⟩
/-! ### The size of one confidence step -/

theorem raisedConfidence_mono (reward x y : Num) (hxy : x ≤ y) (hy : y ≤ 1) :
    raisedConfidence reward x ≤ raisedConfidence reward y := by
  unfold raisedConfidence
  simp only
  have hm : (0 : Num) < max (reward * 0.1) 0.001 := lt_max_of_lt_right (by norm_num)
  generalize max (reward * 0.1) (0.001 : Num) = m at hm
  apply le_min (min_le_left _ _)
  by_cases h1 : m ≤ 1
  · apply (min_le_right _ _).trans
    nlinarith
  · apply (min_le_left _ _).trans
    nlinarith

theorem rewardPathStep_pos_lower (reward : Num) (hr : 0 < reward) (s : DPNN)
    (pre : List Path) (a : RewardAcc) (path : Path)
    (h : Raised s a.s
      ∧ (∀ l i j, InRange a.s.connectionConfidence l i j ↔ InRange s.connectionConfidence l i j)
      ∧ ∀ p ∈ pre, InRange s.connectionConfidence p.layer p.from_ p.to_ →
          get3 s.connectionConfidence p.layer p.from_ p.to_ ≤ 1 →
          raisedConfidence reward (get3 s.connectionConfidence p.layer p.from_ p.to_)
            ≤ get3 a.s.connectionConfidence p.layer p.from_ p.to_) :
    Raised s (rewardPathStep reward a path).s
      ∧ (∀ l i j, InRange (rewardPathStep reward a path).s.connectionConfidence l i j
          ↔ InRange s.connectionConfidence l i j)
      ∧ ∀ p ∈ pre ++ [path], InRange s.connectionConfidence p.layer p.from_ p.to_ →
          get3 s.connectionConfidence p.layer p.from_ p.to_ ≤ 1 →
          raisedConfidence reward (get3 s.connectionConfidence p.layer p.from_ p.to_)
            ≤ get3 (rewardPathStep reward a path).s.connectionConfidence
                p.layer p.from_ p.to_ := by
  obtain ⟨h1, h2, h3⟩ := h
  have hskip : ¬ InRange a.s.connectionConfidence path.layer path.from_ path.to_ →
      ∀ p ∈ pre ++ [path], InRange s.connectionConfidence p.layer p.from_ p.to_ →
          get3 s.connectionConfidence p.layer p.from_ p.to_ ≤ 1 →
          raisedConfidence reward (get3 s.connectionConfidence p.layer p.from_ p.to_)
            ≤ get3 a.s.connectionConfidence p.layer p.from_ p.to_ := by
    intro hnot p hp hin hle
    rcases List.mem_append.mp hp with hp | hp
    · exact h3 p hp hin hle
    · rw [List.mem_singleton.mp hp] at hin
      exact absurd ((h2 _ _ _).mpr hin) hnot
  unfold rewardPathStep
  simp only
  rcases hrow : (a.s.connectionConfidence.getD path.layer [])[path.from_]? with _ | row
  · refine ⟨h1, h2, hskip ?_⟩
    rw [inRange_iff_lookup]
    rintro ⟨row, w, k1, _⟩
    rw [hrow] at k1
    cases k1
  · simp only
    rcases hc : row[path.to_]? with _ | cur
    · refine ⟨h1, h2, hskip ?_⟩
      rw [inRange_iff_lookup]
      rintro ⟨row2, w, k1, k2⟩
      rw [hrow] at k1
      cases k1
      rw [hc] at k2
      cases k2
    · simp only [hr, if_true]
      have hin : InRange a.s.connectionConfidence path.layer path.from_ path.to_ :=
        (inRange_iff_lookup _ _ _ _).mpr ⟨row, cur, hrow, hc⟩
      have hcur : get3 a.s.connectionConfidence path.layer path.from_ path.to_ = cur :=
        get3_of_lookup _ _ _ _ _ _ hrow hc
      refine ⟨?_, ?_, ?_⟩
      · intro l i j hle
        obtain ⟨k1, k2⟩ := h1 l i j hle
        rw [get3_set3]
        split_ifs with heq
        · obtain ⟨rfl, rfl, rfl, _⟩ := heq
          rw [hcur] at k1 k2
          have hb := raisedConfidence_bounds reward cur k2
          exact ⟨k1.trans hb.1, hb.2⟩
        · exact ⟨k1, k2⟩
      · intro l i j
        rw [inRange_set3]
        exact h2 l i j
      · intro p hp hinp hle
        obtain ⟨k1, k2⟩ := h1 _ _ _ hle
        rw [get3_set3]
        split_ifs with heq
        · obtain ⟨e1, e2, e3, _⟩ := heq
          rw [← e1, ← e2, ← e3] at k1 k2 ⊢
          rw [hcur] at k1 k2
          exact raisedConfidence_mono reward _ _ k1 k2
        · rcases List.mem_append.mp hp with hp | hp
          · exact h3 p hp hinp hle
          · rw [List.mem_singleton.mp hp] at heq
            exact absurd ⟨rfl, rfl, rfl, hin.1, hin.2.1, hin.2.2⟩ heq

/-- A call of `updateConfidenceFromReward` with a positive reward completes and raises the
confidence `c ≤ 1` of every recorded connection to `raisedConfidence reward c` at least. -/
theorem updateConfidenceFromReward_pos_lower (rnd : Nat → Num) (fuel c : Nat) (s : DPNN)
    (reward : Num) (direction : Option String) (hr : 0 < reward) :
    ∃ s2 : DPNN, updateConfidenceFromReward rnd fuel c s reward direction = .ok (s2, c)
      ∧ ∀ p ∈ s.activePaths, InRange s.connectionConfidence p.layer p.from_ p.to_ →
          get3 s.connectionConfidence p.layer p.from_ p.to_ ≤ 1 →
          raisedConfidence reward (get3 s.connectionConfidence p.layer p.from_ p.to_)
              ≤ get3 s2.connectionConfidence p.layer p.from_ p.to_
            ∧ get3 s2.connectionConfidence p.layer p.from_ p.to_ ≤ 1 := by
  have ha := foldl_inv
    (fun a : RewardAcc => Raised s a.s ∧ a.pathsToDelete = [] ∧ a.s.activePaths = s.activePaths)
    (rewardPathStep reward) s.activePaths { s := s, firedNodes := [], pathsToDelete := [] }
    ⟨fun l i j _ => ⟨le_refl _, by assumption⟩, rfl, rfl⟩
    (fun a path _ h => rewardPathStep_raised reward hr s a path h)
  have hb := foldl_prefix_inv
    (fun pre (a : RewardAcc) => Raised s a.s
      ∧ (∀ l i j, InRange a.s.connectionConfidence l i j ↔ InRange s.connectionConfidence l i j)
      ∧ ∀ p ∈ pre, InRange s.connectionConfidence p.layer p.from_ p.to_ →
          get3 s.connectionConfidence p.layer p.from_ p.to_ ≤ 1 →
          raisedConfidence reward (get3 s.connectionConfidence p.layer p.from_ p.to_)
            ≤ get3 a.s.connectionConfidence p.layer p.from_ p.to_)
    (rewardPathStep reward) s.activePaths { s := s, firedNodes := [], pathsToDelete := [] }
    ⟨fun l i j _ => ⟨le_refl _, by assumption⟩, fun _ _ _ => Iff.rfl,
      fun p hp => by cases hp⟩
    (fun pre x b h => rewardPathStep_pos_lower reward hr s pre b x h)
  simp only at ha hb
  unfold updateConfidenceFromReward
  simp only
  generalize s.activePaths.foldl (rewardPathStep reward)
    { s := s, firedNodes := [], pathsToDelete := [] } = a at ha hb ⊢
  obtain ⟨ha1, ha2, ha3⟩ := ha
  rw [ha2]
  simp only [List.foldl_nil, List.length_nil, Nat.add_zero]
  have hn := foldl_inv
    (fun sn : DPNN × List (Nat × Nat) =>
      sn.1.connectionConfidence = a.s.connectionConfidence
        ∧ sn.1.activePaths = a.s.activePaths ∧ sn.2 = [])
    (rewardNodeStep reward) a.firedNodes (a.s, []) ⟨rfl, rfl, rfl⟩
    (fun sn node _ h => by
      obtain ⟨h1, h2, h3⟩ := rewardNodeStep_pos reward hr sn node
      exact ⟨h1.trans h.1, h2.trans h.2.1, h3.trans h.2.2⟩)
  simp only at hn
  generalize a.firedNodes.foldl (rewardNodeStep reward) (a.s, []) = sn at hn ⊢
  obtain ⟨hn1, hn2, hn3⟩ := hn
  rw [hn3]
  have hneg : ¬ reward < 0 := not_lt.mpr hr.le
  simp only [mutateNodes, hneg, if_false, List.length_nil, Nat.add_zero]
  cases direction with
  | none =>
      refine ⟨_, rfl, ?_⟩
      intro p hp hin hle
      simp only [hn1]
      exact ⟨hb.2.2 p hp hin hle, (ha1 _ _ _ hle).2⟩
  | some d =>
      refine ⟨_, rfl, ?_⟩
      intro p hp hin hle
      simp only [hn1]
      exact ⟨hb.2.2 p hp hin hle, (ha1 _ _ _ hle).2⟩

/-- C28, the code at a failing input: after a forward pass on the network of the constructor
the connection `(0, 0, 0)` is recorded with the confidence `0.5`; one call with the reward
`0.005` completes and leaves the confidence `0.5005`, a change of `0.0005`, below the minimum
change `0.001` that the source announces. -/
theorem C28_positive_step_below_minimum :
    activatedInLayer zeroState 0 0 0 = true
      ∧ get3 zeroState.connectionConfidence 0 0 0 = 1 / 2
      ∧ (1 / 200 : Num) ≠ 0
      ∧ failureOf (updateConfidenceFromReward (fun _ => 0) 1 0 zeroState (1 / 200) none) = none
      ∧ get3 (resultOf (zeroState, 0)
            (updateConfidenceFromReward (fun _ => 0) 1 0 zeroState (1 / 200)
              none)).1.connectionConfidence 0 0 0 = 1001 / 2000
      ∧ |(1001 / 2000 : Num) - 1 / 2| < 1 / 1000 := by
  refine ⟨by decide!, by decide!, by norm_num, by decide!, by decide!, ?_⟩
  rw [abs_lt]
  constructor <;> norm_num

/-! ### The confidences stay in the unit interval -/

theorem get3_entries (m : List (List (List Num))) (P : Num → Prop) (h0 : P 0)
    (h : ∀ mat ∈ m, ∀ row ∈ mat, ∀ x ∈ row, P x) (l i j : Nat) : P (get3 m l i j) := by
  unfold get3 get2
  simp only [List.getD_eq_getElem?_getD]
  rcases hl : m[l]? with _ | mat
  · simpa using h0
  · simp only [Option.getD_some]
    rcases hi : mat[i]? with _ | row
    · simpa using h0
    · simp only [Option.getD_some]
      rcases hj : row[j]? with _ | x
      · simpa using h0
      · simp only [Option.getD_some]
        exact h mat (List.getElem?_mem hl) row (List.getElem?_mem hi) x (List.getElem?_mem hj)

theorem ConfIn.set3 {m : List (List (List Num))} (h : ConfIn m) (l i j : Nat) (v : Num)
    (h0 : 0 ≤ v) (h1 : v ≤ 1) : ConfIn (set3 m l i j v) := by
  intro l2 i2 j2
  rw [get3_set3]
  split_ifs
  · exact ⟨h0, h1⟩
  · exact h l2 i2 j2

theorem new_connectionConfidence (rnd : Nat → Num) (inputSize : Nat)
    (hiddenLayers : List Nat) (outputSize : Nat) :
    (DPNN.new rnd inputSize hiddenLayers outputSize).connectionConfidence
      = (diamondShape inputSize outputSize).map (fun rows =>
          rows.map (fun cols => List.replicate cols (0.5 : Num))) := by
  simp [DPNN.new, pushLayer, verifyDims, randomMatrix_length, randomRow_length,
    fixRows_randomMatrix, randomMatrix_rows, diamondSizes, diamondShape, diamondTypes,
    layerTypeOf, List.range_succ]

theorem new_confIn (rnd : Nat → Num) (inputSize : Nat) (hiddenLayers : List Nat)
    (outputSize : Nat) :
    ConfIn (DPNN.new rnd inputSize hiddenLayers outputSize).connectionConfidence := by
  rw [new_connectionConfidence]
  intro l i j
  apply get3_entries _ (fun x => 0 ≤ x ∧ x ≤ 1) ⟨le_refl _, by norm_num⟩
  intro mat hmat row hrow x hx
  simp only [List.mem_map] at hmat
  obtain ⟨rows, _, rfl⟩ := hmat
  simp only [List.mem_map] at hrow
  obtain ⟨cols, _, rfl⟩ := hrow
  rw [(List.mem_replicate.mp hx).2]
  norm_num

theorem boost_confIn (m : List (List (List Num))) (h : ConfIn m) (l i j : Nat) (v : Num)
    (h0 : 0 ≤ v) (h1 : v ≤ 1) :
    ConfIn (match m[l]? with
      | none => m
      | some cl =>
          match cl[i]? with
          | none => m
          | some _ => set3 m l i j v) := by
  split
  · exact h
  · split
    · exact h
    · exact h.set3 _ _ _ _ h0 h1

theorem confidenceStep_confIn (g : Grads) (l : Nat) (s : DPNN) (path : Path)
    (h : ConfIn s.connectionConfidence) :
    ConfIn (confidenceStep g l s path).connectionConfidence := by
  unfold confidenceStep
  simp only
  have hc := h l path.from_ path.to_
  split_ifs
  · apply h.set3
    · exact le_min (by linarith [hc.1]) (by norm_num)
    · have := min_le_right (get3 s.connectionConfidence l path.from_ path.to_ + 0.01)
        (1.0 : Num)
      norm_num at this ⊢
  · apply h.set3
    · exact le_trans (by norm_num) (le_max_right _ _)
    · apply max_le
      · have := abs_nonneg (get3 g.weightGradients l path.from_ path.to_)
        linarith [hc.2]
      · norm_num
  · exact h

theorem weightStep_conf (rnd : Nat → Num) (g : Grads) (learningRate : Num) (l : Nat)
    (sc : DPNN × Nat) (path : Path) :
    (weightStep rnd g learningRate l sc path).1.connectionConfidence
      = sc.1.connectionConfidence := by
  unfold weightStep
  simp only
  split_ifs <;> rfl

theorem applyConfidenceGradients_confIn (rnd : Nat → Num) (g : Grads) (learningRate : Num)
    (sc : DPNN × Nat) (l : Nat) (h : ConfIn sc.1.connectionConfidence) :
    ConfIn (applyConfidenceGradients rnd g learningRate sc l).1.connectionConfidence := by
  unfold applyConfidenceGradients
  simp only
  rw [(updateBiases_frame _ _ _ _).2.1]
  have h1 : ConfIn (sc.1.activePaths.foldl (confidenceStep g l) sc.1).connectionConfidence :=
    foldl_inv (fun s2 : DPNN => ConfIn s2.connectionConfidence) _ _ _ h
      (fun b p _ hb => confidenceStep_confIn g l b p hb)
  exact foldl_inv (fun sc2 : DPNN × Nat => ConfIn sc2.1.connectionConfidence) _ _ _ h1
    (fun b p _ hb => by
      show ConfIn (weightStep rnd g learningRate l b p).1.connectionConfidence
      rw [weightStep_conf]
      exact hb)

theorem confidenceBasedBackpropagation_confIn (fns : MathFns) (rnd : Nat → Num) (cursor : Nat)
    (s : DPNN) (target : Option (List Num)) (learningRate : Num)
    (h : ConfIn s.connectionConfidence) :
    ConfIn (confidenceBasedBackpropagation fns rnd cursor s target
      learningRate).1.connectionConfidence := by
  unfold confidenceBasedBackpropagation
  simp only [verifyNetworkIntegrity]
  exact foldl_inv (fun sc : DPNN × Nat => ConfIn sc.1.connectionConfidence) _ _ _ h
    (fun b l _ hb => applyConfidenceGradients_confIn rnd _ learningRate b l hb)

theorem trainReward_confIn (fns : MathFns) (rnd : Nat → Num) (c : Nat) (s : DPNN)
    (reward : Num) (h : ConfIn s.connectionConfidence) :
    ConfIn (trainReward fns rnd c s reward).1.connectionConfidence := by
  unfold trainReward
  exact confidenceBasedBackpropagation_confIn fns rnd c _ _ _ h

theorem forwardState_confIn (fns : MathFns) (s : DPNN) (input : Input)
    (h : ConfIn s.connectionConfidence) :
    ConfIn (forwardState fns s input).connectionConfidence := by
  have hs := forwardState_sameParams fns s input
  rw [hs.2.2.2.2.2.2.2.2.2.2.1]
  exact h

theorem train_confIn (fns : MathFns) (rnd : Nat → Num) (c : Nat) (s : DPNN) (args : TrainArgs)
    (h : ConfIn s.connectionConfidence) :
    ConfIn (train fns rnd c s args).1.connectionConfidence := by
  cases args with
  | rewardOnly reward => exact trainReward_confIn fns rnd c s reward h
  | sample input target =>
      cases target with
      | reward r =>
          exact trainReward_confIn fns rnd c _ r (forwardState_confIn fns s input h)
      | vector t =>
          exact confidenceBasedBackpropagation_confIn fns rnd c _ t _
            (forwardState_confIn fns s input h)

theorem addRandomConnection_confIn (rnd : Nat → Num) (c : Nat) (s : DPNN) (layerIdx : Nat)
    (h : ConfIn s.connectionConfidence) :
    ConfIn (addRandomConnection rnd c s layerIdx).1.connectionConfidence := by
  unfold addRandomConnection
  split
  · exact h
  · simp only
    split
    · apply boost_confIn _ h
      · apply le_min
        · exact add_nonneg (h _ _ _).1 (by norm_num)
        · norm_num
      · exact le_trans (min_le_right _ _) (by norm_num)
    · exact boost_confIn _ h _ _ _ _ (by norm_num) (by norm_num)

theorem pruneLayerStep_confIn (sp : DPNN × Bool) (l : Nat)
    (h : ConfIn sp.1.connectionConfidence) :
    ConfIn (pruneLayerStep sp l).1.connectionConfidence := by
  have hp : ConfIn (pruneLeastConfidentConnection sp.1 l).1.connectionConfidence := by
    unfold pruneLeastConfidentConnection
    split
    · exact h
    · simp only
      split
      · exact h.set3 _ _ _ _ (by norm_num) (by norm_num)
      · exact h
  unfold pruneLayerStep
  simp only
  split_ifs
  · split
    · exact hp
    · exact hp
  · exact h

theorem growLoop_confIn (rnd : Nat → Num) (ls : List Nat) (s : DPNN) (c : Nat)
    (h : ConfIn s.connectionConfidence) :
    ConfIn (growLoop rnd ls s c).1.connectionConfidence := by
  induction ls generalizing s c with
  | nil => exact h
  | cons l rest ih =>
      simp only [growLoop]
      have ha := addRandomConnection_confIn rnd c s l h
      split_ifs
      · split
        · exact ha
        · exact ih _ _ ha
      · exact ih _ _ h

theorem pruneConnections_confIn (rnd : Nat → Num) (c : Nat) (s : DPNN)
    (h : ConfIn s.connectionConfidence) :
    ConfIn (pruneConnections rnd c s).1.connectionConfidence := by
  unfold pruneConnections
  simp only
  cases s.pruningHistory with
  | none =>
      simp only
      split_ifs
      · exact foldl_inv (fun sp : DPNN × Bool => ConfIn sp.1.connectionConfidence) _ _ _ h
          (fun b l _ hb => pruneLayerStep_confIn b l hb)
      · exact foldl_inv (fun sp : DPNN × Bool => ConfIn sp.1.connectionConfidence) _ _ _ h
          (fun b l _ hb => pruneLayerStep_confIn b l hb)
      · exact growLoop_confIn rnd _ _ c h
      · exact h
  | some v =>
      simp only
      split_ifs
      · exact foldl_inv (fun sp : DPNN × Bool => ConfIn sp.1.connectionConfidence) _ _ _ h
          (fun b l _ hb => pruneLayerStep_confIn b l hb)
      · exact foldl_inv (fun sp : DPNN × Bool => ConfIn sp.1.connectionConfidence) _ _ _ h
          (fun b l _ hb => pruneLayerStep_confIn b l hb)
      · exact growLoop_confIn rnd _ _ c h
      · exact h

theorem updateConfidenceFromReward_confIn (rnd : Nat → Num) (fuel c : Nat) (s : DPNN)
    (reward : Num) (direction : Option String) (s2 : DPNN) (c2 : Nat)
    (hok : updateConfidenceFromReward rnd fuel c s reward direction = .ok (s2, c2))
    (h : ConfIn s.connectionConfidence) : ConfIn s2.connectionConfidence := by
  by_cases hr : reward > 0
  · obtain ⟨s3, hok3, _, hraised⟩ :=
      updateConfidenceFromReward_pos rnd fuel c s reward direction hr
    rw [hok] at hok3
    simp only [Except.ok.injEq, Prod.mk.injEq] at hok3
    obtain ⟨rfl, _⟩ := hok3
    intro l i j
    obtain ⟨a, b⟩ := hraised l i j (h l i j).2
    exact ⟨(h l i j).1.trans a, b⟩
  · obtain ⟨a, ha, _, _, hpen⟩ :=
      updateConfidenceFromReward_neg rnd fuel c s reward direction s2 c2 hr hok
    intro l i j
    have hbase : 0 ≤ (if (l, i, j) ∈ a.pathsToDelete then (0 : Num)
          else get3 a.s.connectionConfidence l i j)
        ∧ (if (l, i, j) ∈ a.pathsToDelete then (0 : Num)
          else get3 a.s.connectionConfidence l i j) ≤ 1 := by
      split_ifs with hmem
      · exact ⟨le_refl _, by norm_num⟩
      · refine ⟨?_, (ha.le l i j).trans (h l i j).2⟩
        by_cases hun : Unrecorded s.activePaths l i j
        · rw [ha.untouched l i j hun]
          exact (h l i j).1
        · unfold Unrecorded at hun
          push_neg at hun
          obtain ⟨p, hp, rfl, rfl, rfl⟩ := hun
          by_cases hin : InRange s.connectionConfidence p.layer p.from_ p.to_
          · by_contra hneg
            exact hmem (ha.neg p hp hin (not_le.mp hneg))
          · rw [get3_of_not_inRange _ _ _ _ (fun hh => hin ((ha.shape _ _ _).mp hh))]
    rcases hpen l i j with hp | hp | ⟨hp1, hp2⟩
    · rw [hp]
      exact hbase
    · rw [hp]
      exact ⟨le_refl _, by norm_num⟩
    · exact ⟨hp1, hp2.trans hbase.2⟩

/-- C14: every connection confidence lies in `[0, 1]` after the constructor; and when every
connection confidence of a state lies in `[0, 1]`, so does every one after `forward`,
`confidenceBasedBackpropagation`, `train`, a completed `updateConfidenceFromReward`,
`pruneConnections`, `addRandomConnection` and `verifyNetworkIntegrity`: no negative value is
left at the end of an operation. -/
theorem C14_confidence_stays_in_unit_interval (fns : MathFns) (rnd : Nat → Num) (s : DPNN)
    (h : ConfIn s.connectionConfidence) :
    (∀ inputSize hiddenLayers outputSize,
        ConfIn (DPNN.new rnd inputSize hiddenLayers outputSize).connectionConfidence)
      ∧ (∀ input, ConfIn (forwardState fns s input).connectionConfidence)
      ∧ (∀ c target learningRate, ConfIn (confidenceBasedBackpropagation fns rnd c s target
          learningRate).1.connectionConfidence)
      ∧ (∀ c args, ConfIn (train fns rnd c s args).1.connectionConfidence)
      ∧ (∀ fuel c reward direction s2 c2,
          updateConfidenceFromReward rnd fuel c s reward direction = .ok (s2, c2) →
          ConfIn s2.connectionConfidence)
      ∧ (∀ c, ConfIn (pruneConnections rnd c s).1.connectionConfidence)
      ∧ (∀ c layerIdx, ConfIn (addRandomConnection rnd c s layerIdx).1.connectionConfidence)
      ∧ ConfIn (verifyNetworkIntegrity s).1.connectionConfidence :=
  ⟨fun _ _ _ => new_confIn rnd _ _ _,
    fun input => forwardState_confIn fns s input h,
    fun c target learningRate =>
      confidenceBasedBackpropagation_confIn fns rnd c s target learningRate h,
    fun c args => train_confIn fns rnd c s args h,
    fun fuel c reward direction s2 c2 hok =>
      updateConfidenceFromReward_confIn rnd fuel c s reward direction s2 c2 hok h,
    fun c => pruneConnections_confIn rnd c s h,
    fun c layerIdx => addRandomConnection_confIn rnd c s layerIdx h,
    h⟩

/-- The hypothesis of C14 holds of the network of the constructor: after
`confidenceBasedBackpropagation` every connection confidence lies in `[0, 1]`. -/
theorem C14_witness :
    ConfIn zeroNet.connectionConfidence
      ∧ ∀ c target learningRate, ConfIn (confidenceBasedBackpropagation sampleFns
          (fun _ => 1 / 2) c zeroNet target learningRate).1.connectionConfidence :=
  ⟨new_confIn _ _ _ _,
    (C14_confidence_stays_in_unit_interval sampleFns (fun _ => 1 / 2) zeroNet
      (new_confIn _ _ _ _)).2.2.1⟩

/-! ### The confidence update of `confidenceBasedBackpropagation` -/

theorem confidenceStep_frame (g : Grads) (l : Nat) (s : DPNN) (path : Path) :
    (confidenceStep g l s path).activePaths = s.activePaths
      ∧ (∀ l2 i j, InRange (confidenceStep g l s path).connectionConfidence l2 i j
          ↔ InRange s.connectionConfidence l2 i j)
      ∧ ∀ l2 i j, ¬ (path.layer = l ∧ pathKey path = (l2, i, j)) →
          get3 (confidenceStep g l s path).connectionConfidence l2 i j
            = get3 s.connectionConfidence l2 i j := by
  unfold confidenceStep
  simp only
  by_cases hl : path.layer = l
  · rw [if_pos hl]
    have hne : ∀ l2 i j, ¬ (path.layer = l ∧ pathKey path = (l2, i, j)) →
        ¬ (l = l2 ∧ path.from_ = i ∧ path.to_ = j) := by
      rintro l2 i j hk ⟨rfl, rfl, rfl⟩
      exact hk ⟨hl, by simp [pathKey, hl]⟩
    split_ifs
    · exact ⟨rfl, fun _ _ _ => inRange_set3 _ _ _ _ _ _ _ _,
        fun l2 i j hk => get3_set3_of_ne _ _ _ _ _ _ _ _ (hne l2 i j hk)⟩
    · exact ⟨rfl, fun _ _ _ => inRange_set3 _ _ _ _ _ _ _ _,
        fun l2 i j hk => get3_set3_of_ne _ _ _ _ _ _ _ _ (hne l2 i j hk)⟩
  · rw [if_neg hl]
    exact ⟨rfl, fun _ _ _ => Iff.rfl, fun _ _ _ _ => rfl⟩

theorem confidenceStep_self (g : Grads) (s : DPNN) (path : Path)
    (hin : InRange s.connectionConfidence path.layer path.from_ path.to_) :
    get3 (confidenceStep g path.layer s path).connectionConfidence
        path.layer path.from_ path.to_
      = (if |get3 g.weightGradients path.layer path.from_ path.to_| < 0.1
          then min (get3 s.connectionConfidence path.layer path.from_ path.to_ + 0.01) 1.0
          else max (get3 s.connectionConfidence path.layer path.from_ path.to_
            - 0.02 * |get3 g.weightGradients path.layer path.from_ path.to_|) 0.05) := by
  unfold confidenceStep
  simp only [if_true]
  split_ifs
  · exact get3_set3_inRange _ _ _ _ _ hin
  · exact get3_set3_inRange _ _ _ _ _ hin

/-- The loop over the recorded paths that updates the confidences of layer `l`, when no
connection is recorded twice. -/
theorem confidenceFold_spec (g : Grads) (l : Nat) (s : DPNN) (ps : List Path)
    (hnd : (ps.map pathKey).Nodup) :
    (ps.foldl (confidenceStep g l) s).activePaths = s.activePaths
      ∧ (∀ l2 i j, InRange (ps.foldl (confidenceStep g l) s).connectionConfidence l2 i j
          ↔ InRange s.connectionConfidence l2 i j)
      ∧ (∀ l2 i j, (∀ p ∈ ps, ¬ (p.layer = l ∧ pathKey p = (l2, i, j))) →
          get3 (ps.foldl (confidenceStep g l) s).connectionConfidence l2 i j
            = get3 s.connectionConfidence l2 i j)
      ∧ ∀ p ∈ ps, p.layer = l → InRange s.connectionConfidence p.layer p.from_ p.to_ →
          get3 (ps.foldl (confidenceStep g l) s).connectionConfidence p.layer p.from_ p.to_
            = (if |get3 g.weightGradients p.layer p.from_ p.to_| < 0.1
                then min (get3 s.connectionConfidence p.layer p.from_ p.to_ + 0.01) 1.0
                else max (get3 s.connectionConfidence p.layer p.from_ p.to_
                  - 0.02 * |get3 g.weightGradients p.layer p.from_ p.to_|) 0.05) := by
  have h := foldl_prefix_inv
    (fun pre (s2 : DPNN) => (pre.map pathKey).Nodup →
      s2.activePaths = s.activePaths
      ∧ (∀ l2 i j, InRange s2.connectionConfidence l2 i j
          ↔ InRange s.connectionConfidence l2 i j)
      ∧ (∀ l2 i j, (∀ p ∈ pre, ¬ (p.layer = l ∧ pathKey p = (l2, i, j))) →
          get3 s2.connectionConfidence l2 i j = get3 s.connectionConfidence l2 i j)
      ∧ ∀ p ∈ pre, p.layer = l → InRange s.connectionConfidence p.layer p.from_ p.to_ →
          get3 s2.connectionConfidence p.layer p.from_ p.to_
            = (if |get3 g.weightGradients p.layer p.from_ p.to_| < 0.1
                then min (get3 s.connectionConfidence p.layer p.from_ p.to_ + 0.01) 1.0
                else max (get3 s.connectionConfidence p.layer p.from_ p.to_
                  - 0.02 * |get3 g.weightGradients p.layer p.from_ p.to_|) 0.05))
    (confidenceStep g l) ps s
    (fun _ => ⟨rfl, fun _ _ _ => Iff.rfl, fun _ _ _ _ => rfl, fun p hp => by cases hp⟩)
    (by
      intro pre x b hb hnd2
      rw [List.map_append, List.nodup_append] at hnd2
      obtain ⟨hnd1, _, hdisj⟩ := hnd2
      obtain ⟨h1, h2, h3, h4⟩ := hb hnd1
      obtain ⟨f1, f2, f3⟩ := confidenceStep_frame g l b x
      have hfresh : ∀ p ∈ pre, pathKey p ≠ pathKey x := by
        intro p hp heq
        exact hdisj (List.mem_map_of_mem pathKey hp) (by rw [heq]; simp)
      refine ⟨f1.trans h1, fun l2 i j => (f2 l2 i j).trans (h2 l2 i j), ?_, ?_⟩
      · intro l2 i j hun
        rw [f3 l2 i j (hun x (List.mem_append_right _ (List.mem_singleton_self _)))]
        exact h3 l2 i j (fun p hp => hun p (List.mem_append_left _ hp))
      · intro p hp hpl hin
        rcases List.mem_append.mp hp with hp | hp
        · rw [f3 _ _ _ (fun hh => hfresh p hp hh.2.symm)]
          exact h4 p hp hpl hin
        · rw [List.mem_singleton.mp hp] at hpl hin ⊢
          have hb0 : get3 b.connectionConfidence x.layer x.from_ x.to_
              = get3 s.connectionConfidence x.layer x.from_ x.to_ :=
            h3 _ _ _ (fun q hq hh => hfresh q hq hh.2)
          subst hpl
          rw [confidenceStep_self g b x ((h2 _ _ _).mpr hin), hb0])
  exact h hnd
theorem weightStep_paths (rnd : Nat → Num) (g : Grads) (learningRate : Num) (l : Nat)
    (sc : DPNN × Nat) (path : Path) :
    (weightStep rnd g learningRate l sc path).1.activePaths = sc.1.activePaths := by
  unfold weightStep
  simp only
  split_ifs <;> rfl

/-- One iteration of the loop "Apply gradients" of `confidenceBasedBackpropagation`, when no
connection is recorded twice: the confidences of the recorded connections of layer `l` are
updated once, the others kept. -/
theorem applyConfidenceGradients_spec (rnd : Nat → Num) (g : Grads) (learningRate : Num)
    (sc : DPNN × Nat) (l : Nat) (hnd : (sc.1.activePaths.map pathKey).Nodup) :
    (applyConfidenceGradients rnd g learningRate sc l).1.activePaths = sc.1.activePaths
      ∧ (∀ l2 i j,
          InRange (applyConfidenceGradients rnd g learningRate sc l).1.connectionConfidence
            l2 i j ↔ InRange sc.1.connectionConfidence l2 i j)
      ∧ (∀ p ∈ sc.1.activePaths, p.layer ≠ l →
          get3 (applyConfidenceGradients rnd g learningRate sc l).1.connectionConfidence
              p.layer p.from_ p.to_
            = get3 sc.1.connectionConfidence p.layer p.from_ p.to_)
      ∧ ∀ p ∈ sc.1.activePaths, p.layer = l →
          InRange sc.1.connectionConfidence p.layer p.from_ p.to_ →
          get3 (applyConfidenceGradients rnd g learningRate sc l).1.connectionConfidence
              p.layer p.from_ p.to_
            = (if |get3 g.weightGradients p.layer p.from_ p.to_| < 0.1
                then min (get3 sc.1.connectionConfidence p.layer p.from_ p.to_ + 0.01) 1.0
                else max (get3 sc.1.connectionConfidence p.layer p.from_ p.to_
                  - 0.02 * |get3 g.weightGradients p.layer p.from_ p.to_|) 0.05) := by
  obtain ⟨k1, k2, k3, k4⟩ := confidenceFold_spec g l sc.1 sc.1.activePaths hnd
  have hw := foldl_inv
    (fun sc2 : DPNN × Nat =>
      sc2.1.connectionConfidence
          = (sc.1.activePaths.foldl (confidenceStep g l) sc.1).connectionConfidence
        ∧ sc2.1.activePaths = (sc.1.activePaths.foldl (confidenceStep g l) sc.1).activePaths)
    (weightStep rnd g learningRate l)
    (pathsByLayer (sc.1.activePaths.foldl (confidenceStep g l) sc.1) l)
    (sc.1.activePaths.foldl (confidenceStep g l) sc.1, sc.2) ⟨rfl, rfl⟩
    (fun b p _ hb => ⟨(weightStep_conf rnd g learningRate l b p).trans hb.1,
      (weightStep_paths rnd g learningRate l b p).trans hb.2⟩)
  simp only at hw
  have hconf : (applyConfidenceGradients rnd g learningRate sc l).1.connectionConfidence
      = (sc.1.activePaths.foldl (confidenceStep g l) sc.1).connectionConfidence := by
    unfold applyConfidenceGradients
    simp only
    rw [(updateBiases_frame _ _ _ _).2.1]
    exact hw.1
  have hpaths : (applyConfidenceGradients rnd g learningRate sc l).1.activePaths
      = (sc.1.activePaths.foldl (confidenceStep g l) sc.1).activePaths := by
    unfold applyConfidenceGradients
    simp only
    rw [(updateBiases_frame _ _ _ _).2.2.1]
    exact hw.2
  rw [hconf, hpaths]
  refine ⟨k1, k2, ?_, k4⟩
  intro p _ hpl
  apply k3
  intro q _ hq
  have : q.layer = p.layer := by
    have := hq.2
    simp only [pathKey, Prod.mk.injEq] at this
    exact this.1
  exact hpl (this ▸ hq.1)

/-- C27: when no connection is recorded twice in `activePaths`,
`confidenceBasedBackpropagation` updates the confidence `c` of every recorded connection
`(l, i, j)` that exists, with `g` the absolute value of its weight gradient, to
`min(c + 0.01, 1.0)` when `g < 0.1` and to `max(c - 0.02 * g, 0.05)` otherwise; the new
confidence is at most `1` when `c` was, and at least `0.05` when `g ≥ 0.1`. -/
theorem C27_confidence_update_of_fired_connections (fns : MathFns) (rnd : Nat → Num)
    (cursor : Nat) (s : DPNN) (target : Option (List Num)) (learningRate : Num)
    (hnd : (s.activePaths.map pathKey).Nodup) (p : Path) (hp : p ∈ s.activePaths)
    (hl : p.layer + 1 < s.layers.length)
    (hin : InRange s.connectionConfidence p.layer p.from_ p.to_) :
    get3 (confidenceBasedBackpropagation fns rnd cursor s target
          learningRate).1.connectionConfidence p.layer p.from_ p.to_
        = (if |get3 (gradients fns s target).2.weightGradients p.layer p.from_ p.to_| < 0.1
            then min (get3 s.connectionConfidence p.layer p.from_ p.to_ + 0.01) 1.0
            else max (get3 s.connectionConfidence p.layer p.from_ p.to_
              - 0.02 * |get3 (gradients fns s target).2.weightGradients
                  p.layer p.from_ p.to_|) 0.05)
      ∧ (get3 s.connectionConfidence p.layer p.from_ p.to_ ≤ 1 →
          get3 (confidenceBasedBackpropagation fns rnd cursor s target
            learningRate).1.connectionConfidence p.layer p.from_ p.to_ ≤ 1)
      ∧ (¬ |get3 (gradients fns s target).2.weightGradients p.layer p.from_ p.to_| < 0.1 →
          0.05 ≤ get3 (confidenceBasedBackpropagation fns rnd cursor s target
            learningRate).1.connectionConfidence p.layer p.from_ p.to_) := by
  have hfold := foldl_range'_inv
    (fun k (sc : DPNN × Nat) => sc.1.activePaths = s.activePaths
      ∧ (∀ l2 i j, InRange sc.1.connectionConfidence l2 i j
          ↔ InRange s.connectionConfidence l2 i j)
      ∧ ∀ q ∈ s.activePaths, InRange s.connectionConfidence q.layer q.from_ q.to_ →
          get3 sc.1.connectionConfidence q.layer q.from_ q.to_
            = (if q.layer < k then
                (if |get3 (gradients fns s target).2.weightGradients q.layer q.from_ q.to_|
                    < 0.1
                  then min (get3 s.connectionConfidence q.layer q.from_ q.to_ + 0.01) 1.0
                  else max (get3 s.connectionConfidence q.layer q.from_ q.to_
                    - 0.02 * |get3 (gradients fns s target).2.weightGradients
                        q.layer q.from_ q.to_|) 0.05)
              else get3 s.connectionConfidence q.layer q.from_ q.to_))
    (applyConfidenceGradients rnd (gradients fns s target).2 learningRate)
    0 (s.layers.length - 1) (s, cursor)
    ⟨rfl, fun _ _ _ => Iff.rfl, fun q _ _ => by simp⟩
    (by
      intro k b _ _ hb
      obtain ⟨h1, h2, h3⟩ := hb
      obtain ⟨a1, a2, a3, a4⟩ := applyConfidenceGradients_spec rnd
        (gradients fns s target).2 learningRate b k (by rw [h1]; exact hnd)
      refine ⟨a1.trans h1, fun l2 i j => (a2 l2 i j).trans (h2 l2 i j), ?_⟩
      intro q hq hqin
      have hqb : q ∈ b.1.activePaths := by rw [h1]; exact hq
      by_cases hqk : q.layer = k
      · rw [a4 q hqb hqk ((h2 _ _ _).mpr hqin), h3 q hq hqin,
          if_neg (show ¬ q.layer < k by omega), if_pos (show q.layer < k + 1 by omega)]
      · rw [a3 q hqb hqk, h3 q hq hqin]
        by_cases hlt : q.layer < k
        · rw [if_pos hlt, if_pos (show q.layer < k + 1 by omega)]
        · rw [if_neg hlt, if_neg (show ¬ q.layer < k + 1 by omega)])
  have hval : get3 (confidenceBasedBackpropagation fns rnd cursor s target
          learningRate).1.connectionConfidence p.layer p.from_ p.to_
        = (if |get3 (gradients fns s target).2.weightGradients p.layer p.from_ p.to_| < 0.1
            then min (get3 s.connectionConfidence p.layer p.from_ p.to_ + 0.01) 1.0
            else max (get3 s.connectionConfidence p.layer p.from_ p.to_
              - 0.02 * |get3 (gradients fns s target).2.weightGradients
                  p.layer p.from_ p.to_|) 0.05) := by
    have h3 := hfold.2.2 p hp hin
    rw [if_pos (show p.layer < 0 + (s.layers.length - 1) by omega)] at h3
    rw [← h3]
    unfold confidenceBasedBackpropagation
    simp only [verifyNetworkIntegrity]
    rw [List.range_eq_range']
  refine ⟨hval, ?_, ?_⟩
  · intro hle
    rw [hval]
    split_ifs
    · have := min_le_right (get3 s.connectionConfidence p.layer p.from_ p.to_ + 0.01)
        (1.0 : Num)
      norm_num at this ⊢
    · apply max_le
      · have := abs_nonneg (get3 (gradients fns s target).2.weightGradients
          p.layer p.from_ p.to_)
        linarith
      · norm_num
  · intro hbig
    rw [hval, if_neg hbig]
    exact le_max_right _ _

/-- The hypotheses of C27 hold after a forward pass on the network of the constructor, for the
recorded connection `(0, 0, 0)`. -/
theorem C27_witness :
    (zeroState.activePaths.map pathKey).Nodup
      ∧ (⟨0, 0, 0, 1, 1, .expansion, true⟩ : Path) ∈ zeroState.activePaths
      ∧ 0 + 1 < zeroState.layers.length
      ∧ InRange zeroState.connectionConfidence 0 0 0
      ∧ (get3 zeroState.connectionConfidence 0 0 0 ≤ 1 →
          get3 (confidenceBasedBackpropagation sampleFns (fun _ => 0) 0 zeroState
            (some [1, 0, 0, 0]) (1 / 10)).1.connectionConfidence 0 0 0 ≤ 1) :=
  ⟨by decide!, by decide!, by decide!, by decide!,
    (C27_confidence_update_of_fired_connections sampleFns (fun _ => 0) 0 zeroState
      (some [1, 0, 0, 0]) (1 / 10) (by decide!) ⟨0, 0, 0, 1, 1, .expansion, true⟩
      (by decide!) (by decide!) (by decide!)).2.1⟩

/-! ### Training from a reward -/

theorem rewardTarget_eq_spec (output : List Num) (reward : Num) :
    rewardTarget output reward = specRewardTarget output reward := by
  unfold rewardTarget specRewardTarget
  apply List.ext_getElem?
  intro i
  simp only [List.getElem?_map, List.getElem?_range, List.getD_eq_getElem?_getD]
  by_cases hi : i < output.length
  · rw [List.getElem?_range hi]
    simp [List.getElem?_eq_getElem hi]
  · rw [List.getElem?_eq_none (by simpa using hi), List.getElem?_eq_none (by simpa using hi)]
    rfl

theorem gradients_withStats (fns : MathFns) (s : DPNN) (x : Stats)
    (target : Option (List Num)) :
    gradients fns (withStats s x) target = gradients fns s target := by
  rfl

theorem confidenceStep_withStats (g : Grads) (l : Nat) (s : DPNN) (x : Stats) (path : Path) :
    confidenceStep g l (withStats s x) path = withStats (confidenceStep g l s path) x := by
  unfold confidenceStep withStats
  simp only
  split_ifs <;> rfl

theorem weightStep_withStats (rnd : Nat → Num) (g : Grads) (learningRate : Num) (l : Nat)
    (s : DPNN) (c : Nat) (x : Stats) (path : Path) :
    weightStep rnd g learningRate l (withStats s x, c) path
      = (withStats (weightStep rnd g learningRate l (s, c) path).1 x,
          (weightStep rnd g learningRate l (s, c) path).2) := by
  unfold weightStep withStats
  simp only
  split_ifs <;> rfl

theorem foldl_withStats {α : Type} (f : DPNN → α → DPNN) (x : Stats)
    (hf : ∀ s a, f (withStats s x) a = withStats (f s a) x) (xs : List α) (s : DPNN) :
    xs.foldl f (withStats s x) = withStats (xs.foldl f s) x := by
  induction xs generalizing s with
  | nil => rfl
  | cons a rest ih => simp only [List.foldl_cons, hf, ih]

theorem foldl_withStats_cursor {α : Type} (f : DPNN × Nat → α → DPNN × Nat) (x : Stats)
    (hf : ∀ s c a, f (withStats s x, c) a = (withStats (f (s, c) a).1 x, (f (s, c) a).2))
    (xs : List α) (s : DPNN) (c : Nat) :
    xs.foldl f (withStats s x, c)
      = (withStats (xs.foldl f (s, c)).1 x, (xs.foldl f (s, c)).2) := by
  induction xs generalizing s c with
  | nil => rfl
  | cons a rest ih =>
      simp only [List.foldl_cons]
      rw [hf, ih]

theorem updateBiases_withStats (s : DPNN) (x : Stats) (learningRate : Num) (g : Grads)
    (l : Nat) :
    updateBiases (withStats s x) learningRate g l = withStats (updateBiases s learningRate g l) x := by
  unfold updateBiases
  exact foldl_withStats _ x (fun s2 j => by
    unfold withStats
    simp only
    split_ifs <;> rfl) _ s

theorem applyConfidenceGradients_withStats (rnd : Nat → Num) (g : Grads) (learningRate : Num)
    (s : DPNN) (c : Nat) (x : Stats) (l : Nat) :
    applyConfidenceGradients rnd g learningRate (withStats s x, c) l
      = (withStats (applyConfidenceGradients rnd g learningRate (s, c) l).1 x,
          (applyConfidenceGradients rnd g learningRate (s, c) l).2) := by
  unfold applyConfidenceGradients
  simp only
  have h1 : (withStats s x).activePaths = s.activePaths := rfl
  rw [h1, foldl_withStats _ x (fun s2 p => confidenceStep_withStats g l s2 x p)]
  have h2 : ∀ s2 : DPNN, pathsByLayer (withStats s2 x) l = pathsByLayer s2 l := fun _ => rfl
  rw [h2, foldl_withStats_cursor _ x
      (fun s2 c2 p => weightStep_withStats rnd g learningRate l s2 c2 x p),
    updateBiases_withStats]

theorem confidenceGradients_stats (rnd : Nat → Num) (g : Grads) (learningRate : Num)
    (sc : DPNN × Nat) (l : Nat) :
    (applyConfidenceGradients rnd g learningRate sc l).1.stats = sc.1.stats := by
  unfold applyConfidenceGradients
  simp only
  have hu : ∀ s2 : DPNN, (updateBiases s2 learningRate g l).stats = s2.stats := by
    intro s2
    unfold updateBiases
    apply foldl_inv (fun s3 : DPNN => s3.stats = s2.stats)
    · rfl
    · intro b j _ hb
      beta_reduce
      split_ifs
      · exact hb
      · exact hb
  rw [hu]
  have h1 : (sc.1.activePaths.foldl (confidenceStep g l) sc.1).stats = sc.1.stats := by
    apply foldl_inv (fun s3 : DPNN => s3.stats = sc.1.stats)
    · rfl
    · intro b p _ hb
      unfold confidenceStep
      simp only
      split_ifs <;> exact hb
  apply foldl_inv (fun sc3 : DPNN × Nat => sc3.1.stats = sc.1.stats)
  · exact h1
  · intro b p _ hb
    unfold weightStep
    simp only
    split_ifs <;> exact hb

/-- The statistics commute with `confidenceBasedBackpropagation`, which only counts the
iteration and stores the error in them. -/
theorem confidenceBasedBackpropagation_withStats (fns : MathFns) (rnd : Nat → Num) (c : Nat)
    (s : DPNN) (x : Stats) (target : Option (List Num)) (learningRate : Num) :
    confidenceBasedBackpropagation fns rnd c (withStats s x) target learningRate
      = (withStats (confidenceBasedBackpropagation fns rnd c s target learningRate).1
          { x with
            trainingIterations := x.trainingIterations + 1
            lastError :=
              (confidenceBasedBackpropagation fns rnd c s target learningRate).2.2 },
          (confidenceBasedBackpropagation fns rnd c s target learningRate).2.1,
          (confidenceBasedBackpropagation fns rnd c s target learningRate).2.2) := by
  unfold confidenceBasedBackpropagation
  simp only [gradients_withStats]
  have hL : (withStats s x).layers = s.layers := rfl
  rw [hL, foldl_withStats_cursor _ x
    (fun s2 c2 l => applyConfidenceGradients_withStats rnd _ learningRate s2 c2 x l)]
  rfl

/-- C15: for every reward `r`, `train(r)` has the effect and the result of
`confidenceBasedBackpropagation(target, |r| * baseLearningRate * rewardScaling)`, where the
target is the one of the specification (`max(output[i], 0.7)` when `r > 0`, otherwise `0` when
`output[i] > 0.4` and `1` when not), and in addition `r` is added to `stats.totalReward` and
`1` to `stats.rewardCount`. -/
theorem C15_train_reward_is_confidence_backpropagation (fns : MathFns) (rnd : Nat → Num)
    (c : Nat) (s : DPNN) (reward : Num) :
    train fns rnd c s (.rewardOnly reward)
        = ({ (confidenceBasedBackpropagation fns rnd c s
                (some (specRewardTarget (s.layers.getD (s.layers.length - 1) []) reward))
                (|reward| * s.learningParams.baseLearningRate
                  * s.learningParams.rewardScaling)).1 with
              stats :=
                { (confidenceBasedBackpropagation fns rnd c s
                    (some (specRewardTarget (s.layers.getD (s.layers.length - 1) []) reward))
                    (|reward| * s.learningParams.baseLearningRate
                      * s.learningParams.rewardScaling)).1.stats with
                  totalReward := s.stats.totalReward + reward
                  rewardCount := s.stats.rewardCount + 1 } },
            (confidenceBasedBackpropagation fns rnd c s
              (some (specRewardTarget (s.layers.getD (s.layers.length - 1) []) reward))
              (|reward| * s.learningParams.baseLearningRate
                * s.learningParams.rewardScaling)).2)
      ∧ (confidenceBasedBackpropagation fns rnd c s
            (some (specRewardTarget (s.layers.getD (s.layers.length - 1) []) reward))
            (|reward| * s.learningParams.baseLearningRate
              * s.learningParams.rewardScaling)).1.stats.totalReward = s.stats.totalReward
      ∧ (confidenceBasedBackpropagation fns rnd c s
            (some (specRewardTarget (s.layers.getD (s.layers.length - 1) []) reward))
            (|reward| * s.learningParams.baseLearningRate
              * s.learningParams.rewardScaling)).1.stats.rewardCount = s.stats.rewardCount := by
  have hstats : ∀ t lr, (confidenceBasedBackpropagation fns rnd c s t lr).1.stats
      = { s.stats with
          trainingIterations := s.stats.trainingIterations + 1
          lastError := (confidenceBasedBackpropagation fns rnd c s t lr).2.2 } := by
    intro t lr
    unfold confidenceBasedBackpropagation
    simp only [verifyNetworkIntegrity]
    have h := foldl_inv (fun sc : DPNN × Nat => sc.1.stats = s.stats)
      (applyConfidenceGradients rnd (gradients fns s t).2 lr)
      (List.range (s.layers.length - 1)) (s, c) rfl
      (fun b l _ hb => (confidenceGradients_stats rnd _ lr b l).trans hb)
    simp only at h
    rw [h]
  refine ⟨?_, ?_, ?_⟩
  · show trainReward fns rnd c s reward = _
    unfold trainReward
    simp only
    rw [rewardTarget_eq_spec]
    have e := confidenceBasedBackpropagation_withStats fns rnd c s
      { s.stats with
        totalReward := s.stats.totalReward + reward
        rewardCount := s.stats.rewardCount + 1 }
      (some (specRewardTarget (s.layers.getD (s.layers.length - 1) []) reward))
      (|reward| * s.learningParams.baseLearningRate * s.learningParams.rewardScaling)
    unfold withStats at e
    rw [e, hstats]
  · rw [hstats]
  · rw [hstats]

/-! ### `forward` reads the weights through the routing only -/

theorem sourceStep_topoEq (fns : MathFns) (s s2 : DPNN) (h : TopoEq s s2) (l : Nat)
    (prevLayer : List Num) (prevActs : List Bool) (weights : List (List Num))
    (biases : List Num) (st : LayerAcc) (i : Nat) :
    sourceStep fns s2 l prevLayer prevActs weights biases st i
      = sourceStep fns s l prevLayer prevActs weights biases st i := by
  obtain ⟨h1, h2, h3, h4, h5, h6⟩ := h
  unfold sourceStep routeStep
  simp only [h1, h2, h3, h4, h5, h6]

theorem foldl_congr_inv {α β : Type} (P : β → Prop) (f g : β → α → β) (xs : List α) (b : β)
    (h0 : P b) (hstep : ∀ b a, P b → f b a = g b a ∧ P (f b a)) :
    xs.foldl f b = xs.foldl g b := by
  induction xs generalizing b with
  | nil => rfl
  | cons x rest ih =>
      simp only [List.foldl_cons]
      rw [← (hstep b x h0).1]
      exact ih _ (hstep b x h0).2

theorem foldl_range'_rel {β : Type} (R : Nat → β → β → Prop) (f g : β → Nat → β) (a n : Nat)
    (b1 b2 : β) (h0 : R a b1 b2)
    (hstep : ∀ k b1 b2, a ≤ k → k < a + n → R k b1 b2 → R (k + 1) (f b1 k) (g b2 k)) :
    R (a + n) ((List.range' a n).foldl f b1) ((List.range' a n).foldl g b2) := by
  induction n generalizing a b1 b2 with
  | zero => simpa using h0
  | succ n ih =>
      rw [List.range'_succ, List.foldl_cons, List.foldl_cons]
      have h1 := hstep a b1 b2 (le_refl _) (by omega) h0
      have h2 := ih (a + 1) (f b1 a) (g b2 a) h1 (fun k c1 c2 hk1 hk2 hr =>
        hstep k c1 c2 (by omega) (by omega) hr)
      have e : a + 1 + n = a + (n + 1) := by omega
      rw [e] at h2
      exact h2

/-- One iteration of the layer loop on two related states whose matrices `k - 1` exist and
route every source alike. -/
theorem FwdRel.advance {base s1 s2 : DPNN} {k : Nat} (fns : MathFns) (h : FwdRel base k s1 s2)
    (hk : 1 ≤ k) (hkL : k < s1.layers.length)
    (w1 w2 : List (List Num)) (bs : List Num)
    (hw1 : s1.weights[k - 1]? = some w1) (hw2 : s2.weights[k - 1]? = some w2)
    (hbs : s1.biases[k - 1]? = some bs)
    (hroute : ∀ prevLayer prevActs biases st i,
      st.currentLayer.length = (s1.layers.getD k []).length →
      sourceStep fns base k prevLayer prevActs w1 biases st i
        = sourceStep fns base k prevLayer prevActs w2 biases st i) :
    FwdRel base (k + 1) (layerStep fns s1 k) (layerStep fns s2 k) := by
  have hlen : s2.layers.length = s1.layers.length := h.t2.2.2.2.2.1.trans h.t1.2.2.2.2.1.symm
  have hkL2 : k < s2.layers.length := by rw [hlen]; exact hkL
  have hc1 : s1.layers[k]? = some (s1.layers.getD k []) := by
    rw [List.getD_eq_getElem?_getD, List.getElem?_eq_getElem hkL]
    rfl
  have hc2 : s2.layers[k]? = some (s2.layers.getD k []) := by
    rw [List.getD_eq_getElem?_getD, List.getElem?_eq_getElem hkL2]
    rfl
  have hbs2 : s2.biases[k - 1]? = some bs := by rw [h.biases]; exact hbs
  have hloop : sourceLoop fns s2 k (s2.layers.getD k []) w2 bs
      = sourceLoop fns s1 k (s1.layers.getD k []) w1 bs := by
    unfold sourceLoop
    simp only
    rw [h.low (k - 1) (by omega), h.acts, h.paths, h.shape k]
    have e2 : sourceStep fns s2 k (s1.layers.getD (k - 1) []) (s1.activations.getD (k - 1) [])
        w2 bs = sourceStep fns base k (s1.layers.getD (k - 1) [])
          (s1.activations.getD (k - 1) []) w2 bs := by
      funext st i
      exact sourceStep_topoEq fns base s2 h.t2 k _ _ _ _ st i
    have e1 : sourceStep fns s1 k (s1.layers.getD (k - 1) []) (s1.activations.getD (k - 1) [])
        w1 bs = sourceStep fns base k (s1.layers.getD (k - 1) [])
          (s1.activations.getD (k - 1) []) w1 bs := by
      funext st i
      exact sourceStep_topoEq fns base s1 h.t1 k _ _ _ _ st i
    rw [e1, e2]
    symm
    apply foldl_congr_inv (fun st : LayerAcc =>
      st.currentLayer.length = (s1.layers.getD k []).length)
    · simp
    · intro b a hb
      exact ⟨hroute _ _ _ b a hb, by rw [(sourceStep_lengths _ _ _ _ _ _ _ _ _).1, hb]⟩
  have hs1 : layerStep fns s1 k =
      { s1 with
        layers := s1.layers.set k (forceActivation k s1.layers.length
          (sourceLoop fns s1 k (s1.layers.getD k []) w1 bs)).currentLayer
        activations := s1.activations.set k (forceActivation k s1.layers.length
          (sourceLoop fns s1 k (s1.layers.getD k []) w1 bs)).acts
        activePaths := (forceActivation k s1.layers.length
          (sourceLoop fns s1 k (s1.layers.getD k []) w1 bs)).paths } := by
    unfold layerStep
    rw [hc1, hw1, hbs]
  have hs2 : layerStep fns s2 k =
      { s2 with
        layers := s2.layers.set k (forceActivation k s1.layers.length
          (sourceLoop fns s1 k (s1.layers.getD k []) w1 bs)).currentLayer
        activations := s2.activations.set k (forceActivation k s1.layers.length
          (sourceLoop fns s1 k (s1.layers.getD k []) w1 bs)).acts
        activePaths := (forceActivation k s1.layers.length
          (sourceLoop fns s1 k (s1.layers.getD k []) w1 bs)).paths } := by
    unfold layerStep
    rw [hc2, hw2, hbs2]
    simp only
    rw [hloop, hlen]
  rw [hs1, hs2]
  generalize (forceActivation k s1.layers.length
    (sourceLoop fns s1 k (s1.layers.getD k []) w1 bs)) = st
  refine ⟨?_, ?_, h.biases, ?_, ?_, ?_, rfl⟩
  · obtain ⟨a1, a2, a3, a4, a5, a6⟩ := h.t1
    exact ⟨a1, a2, a3, a4, by simpa using a5, a6⟩
  · obtain ⟨a1, a2, a3, a4, a5, a6⟩ := h.t2
    exact ⟨a1, a2, a3, a4, by simpa using a5, a6⟩
  · intro m
    simp only [getD_set]
    by_cases hm : k = m
    · rw [if_pos ⟨hm, hkL2⟩, if_pos ⟨hm, hkL⟩]
    · rw [if_neg (fun hh => hm hh.1), if_neg (fun hh => hm hh.1)]
      exact h.shape m
  · intro m hm
    simp only [getD_set]
    by_cases hmk : k = m
    · rw [if_pos ⟨hmk, hkL2⟩, if_pos ⟨hmk, hkL⟩]
    · rw [if_neg (fun hh => hmk hh.1), if_neg (fun hh => hmk hh.1)]
      exact h.low m (by omega)
  · simp only
    rw [h.acts]
/-- Two states of the same topology, input size, biases and layer lengths whose matrices route
every source alike give the same output. -/
theorem forward_congr (fns : MathFns) (s1 s2 : DPNN) (input : Input) (htopo : TopoEq s1 s2)
    (hin : s2.inputSize = s1.inputSize) (hb : s2.biases = s1.biases)
    (hshape : s2.layers.map List.length = s1.layers.map List.length)
    (H : ∀ k, 1 ≤ k → k < s1.layers.length →
      ∃ w1 w2 bs, s1.weights[k - 1]? = some w1 ∧ s2.weights[k - 1]? = some w2
        ∧ s1.biases[k - 1]? = some bs
        ∧ ∀ prevLayer prevActs biases st i,
            st.currentLayer.length = (s1.layers.getD k []).length →
            sourceStep fns s1 k prevLayer prevActs w1 biases st i
              = sourceStep fns s1 k prevLayer prevActs w2 biases st i) :
    forward fns s2 input = forward fns s1 input := by
  have hlen : s2.layers.length = s1.layers.length := htopo.2.2.2.2.1
  have hshape2 : ∀ m, (s2.layers.getD m []).length = (s1.layers.getD m []).length := by
    intro m
    rw [getD_map_length, getD_map_length, hshape]
  have hinit : FwdRel s1 1 (forwardInit s1 input) (forwardInit s2 input) := by
    refine ⟨?_, ?_, hb, ?_, ?_, ?_, rfl⟩
    · exact ⟨rfl, rfl, rfl, rfl, by simp [forwardInit], rfl⟩
    · obtain ⟨a1, a2, a3, a4, a5, a6⟩ := htopo
      exact ⟨a1, a2, a3, a4, by simpa [forwardInit] using a5, a6⟩
    · intro m
      simp only [forwardInit, getD_set, hin, hlen]
      split_ifs
      · rfl
      · exact hshape2 m
    · intro m hm
      have hm0 : m = 0 := by omega
      subst hm0
      simp only [forwardInit, getD_set, hin, hlen]
      split_ifs with hc
      · rfl
      · have h0 : s1.layers.length ≤ 0 := by
          by_contra hh
          exact hc ⟨trivial, by omega⟩
        rw [getD_of_le _ _ _ (by rw [hlen]; exact h0), getD_of_le _ _ _ h0]
    · simp only [forwardInit, hin]
      have e : s2.layers.map (fun layer => List.replicate layer.length false)
          = s1.layers.map (fun layer => List.replicate layer.length false) := by
        have := congrArg (List.map (fun n => List.replicate n false)) hshape
        simpa [List.map_map, Function.comp] using this
      rw [e]
  have hfold := foldl_range'_rel
    (fun k (a b : DPNN) => FwdRel s1 k a b ∧ SameParams s1 a ∧ SameParams s2 b
      ∧ a.layers.length = s1.layers.length
      ∧ ∀ m, 1 ≤ m → (a.layers.getD m []).length = (s1.layers.getD m []).length)
    (layerStep fns) (layerStep fns) 1 (s1.layers.length - 1)
    (forwardInit s1 input) (forwardInit s2 input)
    ⟨hinit, forwardInit_sameParams s1 input, forwardInit_sameParams s2 input,
      (forwardInit_layers s1 input).1, (forwardInit_layers s1 input).2⟩
    (by
      intro k a b hk1 hk2 hr
      obtain ⟨r1, r2, r3, r4, r5⟩ := hr
      obtain ⟨w1, w2, bs, hw1, hw2, hbs, hroute⟩ := H k hk1 (by omega)
      have haw : a.weights = s1.weights := r2.2.2.2.2.2.2.2.1
      have hab : a.biases = s1.biases := r2.2.2.2.2.2.2.2.2.1
      have hbw : b.weights = s2.weights := r3.2.2.2.2.2.2.2.1
      refine ⟨r1.advance fns hk1 (by rw [r4]; omega) w1 w2 bs (by rw [haw]; exact hw1)
        (by rw [hbw]; exact hw2) (by rw [hab]; exact hbs) ?_,
        r2.chain (layerStep_sameParams fns a k), r3.chain (layerStep_sameParams fns b k),
        (layerStep_layers fns a k).1.trans r4,
        fun m hm => ((layerStep_layers fns a k).2 m).trans (r5 m hm)⟩
      intro prevLayer prevActs biases st i hst
      exact hroute prevLayer prevActs biases st i (by rw [hst, r5 k hk1]))
  obtain ⟨hrel, _, _, _, _⟩ := hfold
  have hS2 : forwardState fns s2 input
      = (List.range' 1 (s1.layers.length - 1)).foldl (layerStep fns) (forwardInit s2 input) := by
    unfold forwardState
    rw [hlen]
  have hrel2 : FwdRel s1 (1 + (s1.layers.length - 1)) (forwardState fns s1 input)
      (forwardState fns s2 input) := by
    rw [hS2]
    exact hrel
  have hl2 : (forwardState fns s2 input).layers.length
      = (forwardState fns s1 input).layers.length := by
    rw [(forwardState_layers fns s2 input).1, (forwardState_layers fns s1 input).1, hlen]
  unfold forward
  simp only
  rw [hl2]
  exact hrel2.low _ (by
    rw [(forwardState_layers fns s1 input).1]
    omega)

/-! ### Save and load; the weights a bridge reads -/

theorem new_topology (rnd : Nat → Num) (inputSize : Nat) (hiddenLayers : List Nat)
    (outputSize : Nat) :
    (DPNN.new rnd inputSize hiddenLayers outputSize).expansionLayers = [8, 16]
      ∧ (DPNN.new rnd inputSize hiddenLayers outputSize).centralLayers = [16, 16, 16, 16]
      ∧ (DPNN.new rnd inputSize hiddenLayers outputSize).contractionLayers = [16, 8]
      ∧ (DPNN.new rnd inputSize hiddenLayers outputSize).layerTypes = diamondTypes
      ∧ (DPNN.new rnd inputSize hiddenLayers outputSize).layers.map List.length
          = diamondSizes inputSize outputSize
      ∧ (DPNN.new rnd inputSize hiddenLayers outputSize).nodeActivationFuncs = none
      ∧ (DPNN.new rnd inputSize hiddenLayers outputSize).inputSize = inputSize := by
  refine ⟨?_, ?_, ?_, ?_, ?_, ?_, ?_⟩
  all_goals
    simp [DPNN.new, pushLayer, verifyDims, randomMatrix_length, randomRow_length,
      fixRows_randomMatrix, randomMatrix_rows, diamondSizes, diamondShape, diamondTypes,
      layerTypeOf, List.range_succ]

theorem lookup_of_lt {α : Type} (xs : List α) (i : Nat) (h : i < xs.length) :
    ∃ x, xs[i]? = some x :=
  ⟨xs[i], List.getElem?_eq_getElem h⟩

/-- C16: for every network `nn` of the diamond shape with 4 inputs and 4 outputs (and, as in
every network the code builds, no per-node activation functions), every input and whatever the
fresh network's random weights, the network that `loadModel` installs from the snapshot that
`saveModel` stores returns from `forward` the output that `nn.forward` returns. -/
theorem C16_save_load_round_trip (fns : MathFns) (rnd : Nat → Num) (nn current : DPNN)
    (input : Input) (hwf : WF nn) (h4i : nn.inputSize = 4) (h4o : nn.outputSize = 4)
    (hf : nn.nodeActivationFuncs = none) :
    (loadModel rnd (some (saveModel nn)) current).2 = true
      ∧ forward fns (loadModel rnd (some (saveModel nn)) current).1 input
          = forward fns nn input := by
  refine ⟨by simp only [loadModel], ?_⟩
  obtain ⟨n1, n2, n3, n4, n5, n6, n7⟩ := new_topology rnd 4 [] 4
  obtain ⟨w1, w2, w3, w4, w5, _, _, w8, _, w10⟩ := hwf
  have hL : nn.layers.length = 10 := by
    have := congrArg List.length w5
    simpa [diamondSizes] using this
  have hW : nn.weights.length = 9 := by
    have := congrArg List.length w8
    simpa [diamondShape] using this
  have hB : nn.biases.length = 9 := by
    have := congrArg List.length w10
    simpa [diamondSizes] using this
  apply forward_congr
  · refine ⟨?_, ?_, ?_, ?_, ?_, ?_⟩
    · simp only [loadModel, saveModel, n1, w1]
    · simp only [loadModel, saveModel, n2, w2]
    · simp only [loadModel, saveModel, n3, w3]
    · simp only [loadModel, saveModel, n4, w4]
    · have := congrArg List.length n5
      simp only [List.length_map] at this
      simp only [loadModel, saveModel, this, hL, diamondSizes, List.length_cons,
        List.length_nil]
    · simp only [loadModel, saveModel, n6, hf]
  · simp only [loadModel, saveModel, n7, h4i]
  · simp only [loadModel, saveModel]
  · simp only [loadModel, saveModel, n5, w5, h4i, h4o]
  · intro k hk1 hk2
    obtain ⟨w, hw⟩ := lookup_of_lt nn.weights (k - 1) (by omega)
    obtain ⟨bs, hbs⟩ := lookup_of_lt nn.biases (k - 1) (by omega)
    exact ⟨w, w, bs, hw, by simpa only [loadModel, saveModel] using hw, hbs,
      fun _ _ _ _ _ _ => rfl⟩

/-- The hypotheses of C16 hold of `sparseNet`: the network loaded from its snapshot onto a
fresh network of random weights `0.8` returns the same output on `[1, 1, 1, 1]`. -/
theorem C16_witness :
    WF sparseNet ∧ sparseNet.inputSize = 4 ∧ sparseNet.outputSize = 4
      ∧ sparseNet.nodeActivationFuncs = none
      ∧ (loadModel (fun _ => 9 / 10) (some (saveModel sparseNet)) zeroNet).2 = true
      ∧ forward sampleFns (loadModel (fun _ => 9 / 10) (some (saveModel sparseNet)) zeroNet).1
            (.array [.num 1, .num 1, .num 1, .num 1])
          = forward sampleFns sparseNet (.array [.num 1, .num 1, .num 1, .num 1]) :=
  ⟨by decide!, by decide!, by decide!, by decide!,
    C16_save_load_round_trip sampleFns (fun _ => 9 / 10) sparseNet zeroNet
      (.array [.num 1, .num 1, .num 1, .num 1]) (by decide!) (by decide!) (by decide!)
      (by decide!)⟩

theorem directStep_set (l i : Nat) (a : Num) (row : List Num) (st : LayerAcc) (j : Nat)
    (v : Num) (hj : j ≠ i % st.currentLayer.length) :
    directStep l i a (row.set j v) st = directStep l i a row st := by
  unfold directStep
  simp only
  by_cases hn : st.currentLayer.length = 0
  · rw [if_pos hn, if_pos hn]
  · rw [if_neg hn, if_neg hn]
    have ht : (if i < st.currentLayer.length then i else i % st.currentLayer.length)
        = i % st.currentLayer.length := by
      split_ifs with h
      · exact (Nat.mod_eq_of_lt h).symm
      · rfl
    rw [ht, List.getElem?_set_ne hj]
theorem sourceStep_bridge_set (fns : MathFns) (s : DPNN) (hwf : WF s) (l : Nat)
    (hl : l = 3 ∨ l = 7 ∨ l = 9) (w1 : List (List Num)) (i j : Nat) (v : Num)
    (prevLayer : List Num) (prevActs : List Bool) (biases : List Num) (st : LayerAcc)
    (i2 : Nat) (hj : j ≠ i % st.currentLayer.length) :
    sourceStep fns s l prevLayer prevActs w1 biases st i2
      = sourceStep fns s l prevLayer prevActs (set2 w1 i j v) biases st i2 := by
  unfold sourceStep
  by_cases hact : prevActs.getD i2 false = true
  · rw [hact]
    simp only [Bool.not_true, Bool.false_eq_true, if_false]
    unfold set2
    by_cases hi : i = i2
    · subst hi
      by_cases hlt : i < w1.length
      · have e1 : w1[i]? = some (w1.getD i []) := by
          rw [List.getD_eq_getElem?_getD, List.getElem?_eq_getElem hlt]
          rfl
        have e2 : (w1.set i ((w1.getD i []).set j v))[i]? = some ((w1.getD i []).set j v) := by
          simp [List.getElem?_set, hlt]
        rw [e1, e2]
        simp only
        rw [(routeStep_of_WF s hwf i _ _ _ st).2.1 l hl,
          (routeStep_of_WF s hwf i _ _ _ st).2.1 l hl, directStep_set _ _ _ _ _ _ _ hj]
      · have e1 : w1[i]? = none := List.getElem?_eq_none (Nat.le_of_not_lt hlt)
        have e2 : (w1.set i ((w1.getD i []).set j v))[i]? = none :=
          List.getElem?_eq_none (by simpa using Nat.le_of_not_lt hlt)
        rw [e1, e2]
    · rw [List.getElem?_set_ne hi]
  · have hf : prevActs.getD i2 false = false := by simpa using hact
    rw [hf]
    rfl

/-- C20: on a network of the diamond shape, in the bridge transitions into layers 3, 7 and 9
an active source `i` of value `a` adds `a * row[t]` to the node `t = i mod size` and to no
other node, and records the one path `(l - 1, i, t)`; and for every input the output of
`forward` is the same after any entry `weights[l-1][i][j]` with `j ≠ i mod size(l)` is
replaced by any value. -/
theorem C20_bridge_reads_one_weight (fns : MathFns) (s : DPNN) (hwf : WF s) (l : Nat)
    (hl : l = 3 ∨ l = 7 ∨ l = 9) :
    (∀ (prevLayer : List Num) (prevActs : List Bool) (weights : List (List Num))
        (biases : List Num) (st : LayerAcc) (i : Nat) (row : List Num) (w : Num),
        prevActs.getD i false = true → weights[i]? = some row →
        0 < st.currentLayer.length → row[i % st.currentLayer.length]? = some w →
        sourceStep fns s l prevLayer prevActs weights biases st i
            = activationLoop fns s.nodeActivationFuncs l s.layers.length biases
                (routeStep s l i (prevLayer.getD i 0) row prevLayer.length st)
          ∧ (∀ j, (routeStep s l i (prevLayer.getD i 0) row
                prevLayer.length st).currentLayer.getD j 0
              = st.currentLayer.getD j 0
                + (if i % st.currentLayer.length = j then prevLayer.getD i 0 * w else 0))
          ∧ (routeStep s l i (prevLayer.getD i 0) row prevLayer.length st).paths
              = st.paths ++ [⟨l - 1, i, i % st.currentLayer.length, |prevLayer.getD i 0|,
                  jsSign (prevLayer.getD i 0), .direct, true⟩])
      ∧ ∀ (input : Input) (i j : Nat) (v : Num), j ≠ i % (s.layers.getD l []).length →
          forward fns { s with weights := set3 s.weights (l - 1) i j v } input
            = forward fns s input := by
  constructor
  · intro prevLayer prevActs weights biases st i row w hact hrow hn hw
    have htn : i % st.currentLayer.length < st.currentLayer.length := Nat.mod_lt _ hn
    have hr : routeStep s l i (prevLayer.getD i 0) row prevLayer.length st
        = contribute st (i % st.currentLayer.length) (prevLayer.getD i 0 * w)
            (some ⟨l - 1, i, i % st.currentLayer.length, |prevLayer.getD i 0|,
              jsSign (prevLayer.getD i 0), .direct, true⟩) := by
      rw [(routeStep_of_WF s hwf i _ row _ st).2.1 l hl]
      unfold directStep
      simp only
      have ht : (if i < st.currentLayer.length then i else i % st.currentLayer.length)
          = i % st.currentLayer.length := by
        split_ifs with h
        · exact (Nat.mod_eq_of_lt h).symm
        · rfl
      rw [if_neg (by omega), ht, hw]
    refine ⟨sourceStep_active fns s l prevLayer prevActs weights biases st i row hact hrow,
      ?_, ?_⟩
    · intro j
      rw [hr]
      exact addAt_getD _ _ _ _ htn
    · rw [hr]
      rfl
  · intro input i j v hj
    have hwf2 := hwf
    obtain ⟨_, _, _, _, w5, _, _, w8, _, w10⟩ := hwf2
    have hL : s.layers.length = 10 := by
      have := congrArg List.length w5
      simpa [diamondSizes] using this
    have hW : s.weights.length = 9 := by
      have := congrArg List.length w8
      simpa [diamondShape] using this
    have hB : s.biases.length = 9 := by
      have := congrArg List.length w10
      simpa [diamondSizes] using this
    apply forward_congr fns s { s with weights := set3 s.weights (l - 1) i j v } input
      ⟨rfl, rfl, rfl, rfl, rfl, rfl⟩ rfl rfl rfl
    intro k hk1 hk2
    obtain ⟨w, hw⟩ := lookup_of_lt s.weights (k - 1) (by omega)
    obtain ⟨bs, hbs⟩ := lookup_of_lt s.biases (k - 1) (by omega)
    by_cases hkl : l = k
    · subst hkl
      have hget : s.weights.getD (l - 1) [] = w := getD_of_lookup _ _ _ _ hw
      refine ⟨w, set2 w i j v, bs, hw, ?_, hbs, ?_⟩
      · simp only [set3, hget]
        simp [List.getElem?_set, show l - 1 < s.weights.length by omega]
      · intro prevLayer prevActs biases st i2 hst
        exact sourceStep_bridge_set fns s hwf l hl w i j v prevLayer prevActs biases st i2
          (by rw [hst]; exact hj)
    · refine ⟨w, w, bs, hw, ?_, hbs, fun _ _ _ _ _ _ => rfl⟩
      simp only [set3]
      rw [List.getElem?_set_ne (by omega)]
      exact hw

/-- The hypotheses of C20 hold of `sparseNet` and the bridge into layer 7: replacing the
entry `weights[6][1][2]`, which is `0.5`, by `3` leaves the output on `[1, 1, 1, 1]` as it
was. -/
theorem C20_witness :
    WF sparseNet ∧ get3 sparseNet.weights 6 1 2 = 1 / 2
      ∧ 2 ≠ 1 % (sparseNet.layers.getD 7 []).length
      ∧ forward sampleFns { sparseNet with weights := set3 sparseNet.weights (7 - 1) 1 2 3 }
            (.array [.num 1, .num 1, .num 1, .num 1])
          = forward sampleFns sparseNet (.array [.num 1, .num 1, .num 1, .num 1]) :=
  ⟨by decide!, by decide!, by decide!,
    (C20_bridge_reads_one_weight sampleFns sparseNet (by decide!) 7
      (Or.inr (Or.inl rfl))).2 (.array [.num 1, .num 1, .num 1, .num 1]) 1 2 3 (by decide!)⟩

/-! ### The integrity guard -/

theorem mapAcc_flag_mono {α β : Type} (f : GuardAcc → α → β × GuardAcc)
    (hf : ∀ a x, a.issuesFound = true → (f a x).2.issuesFound = true) (xs : List α)
    (a : GuardAcc) (ha : a.issuesFound = true) : (mapAcc f a xs).2.issuesFound = true := by
  induction xs generalizing a with
  | nil => exact ha
  | cons x rest ih =>
      simp only [mapAcc]
      exact ih _ (hf a x ha)

theorem mapAcc_flag_of_bad {α β : Type} (f : GuardAcc → α → β × GuardAcc) (bad : α → Prop)
    (hf : ∀ a x, a.issuesFound = true → (f a x).2.issuesFound = true)
    (hbad : ∀ a x, bad x → (f a x).2.issuesFound = true) (xs : List α) (a : GuardAcc)
    (h : ∃ x ∈ xs, bad x) : (mapAcc f a xs).2.issuesFound = true := by
  induction xs generalizing a with
  | nil =>
      obtain ⟨x, hx, _⟩ := h
      cases hx
  | cons y rest ih =>
      simp only [mapAcc]
      obtain ⟨x, hx, hb⟩ := h
      rcases List.mem_cons.mp hx with rfl | hx
      · exact mapAcc_flag_mono f hf rest _ (hbad a x hb)
      · exact ih _ ⟨x, hx, hb⟩

theorem mapAcc_all {α β σ : Type} (f : σ → α → β × σ) (P : β → Prop)
    (hP : ∀ a x, P (f a x).1) (xs : List α) (a : σ) : ∀ y ∈ (mapAcc f a xs).1, P y := by
  induction xs generalizing a with
  | nil =>
      intro y hy
      cases hy
  | cons x rest ih =>
      intro y hy
      simp only [mapAcc, List.mem_cons] at hy
      rcases hy with rfl | hy
      · exact hP a x
      · exact ih _ y hy

theorem mapAcc_id {α β σ : Type} (f : σ → α → β × σ) (g : α → β) (xs : List α) (a : σ)
    (h : ∀ a x, x ∈ xs → f a x = (g x, a)) : mapAcc f a xs = (xs.map g, a) := by
  induction xs generalizing a with
  | nil => rfl
  | cons x rest ih =>
      simp only [mapAcc, List.map_cons]
      rw [h a x (List.mem_cons_self _ _)]
      simp only
      rw [ih a (fun a2 y hy => h a2 y (List.mem_cons_of_mem _ hy))]

theorem guardWeight_finite (rnd : Nat → Num) (a : GuardAcc) (w : JSNumber) :
    (guardWeight rnd a w).1.1.finite = true := by
  unfold guardWeight
  cases w <;> simp only [JSNumber.finite, Bool.not_true, Bool.not_false, if_true,
    Bool.false_eq_true, if_false] <;> split_ifs <;> rfl

theorem guardWeight_flag (rnd : Nat → Num) (a : GuardAcc) (w : JSNumber) :
    (a.issuesFound = true → (guardWeight rnd a w).2.issuesFound = true)
      ∧ (w.finite = false → (guardWeight rnd a w).2.issuesFound = true) := by
  unfold guardWeight
  constructor
  · intro ha
    simp only
    split_ifs <;> first | rfl | exact ha
  · intro hw
    simp only [hw, Bool.not_false, if_true]
    split_ifs <;> rfl

theorem guardBias_flag (rnd : Nat → Num) (a : GuardAcc) (b : JSNumber)
    (ha : a.issuesFound = true) : (guardBias rnd a b).2.issuesFound = true := by
  unfold guardBias
  simp only
  split_ifs <;> first | rfl | exact ha

theorem guardConfidence_flag (a : GuardAcc) (x : JSNumber) (ha : a.issuesFound = true) :
    (guardConfidence a x).2.issuesFound = true := by
  unfold guardConfidence
  split_ifs <;> first | rfl | exact ha

theorem resetRow_none (fs : List Bool) (row : List JSNumber) (h : ∀ f ∈ fs, f = false) :
    resetRow fs row = row := by
  induction fs generalizing row with
  | nil => cases row <;> rfl
  | cons f rest ih =>
      cases row with
      | nil => rfl
      | cons x xs =>
          simp only [resetRow]
          rw [h f (List.mem_cons_self _ _), ih xs (fun g hg => h g (List.mem_cons_of_mem _ hg))]
          rfl

theorem resetMatrix_none (fss : List (List Bool)) (rows : List (List JSNumber))
    (h : ∀ fs ∈ fss, ∀ f ∈ fs, f = false) : resetMatrix fss rows = rows := by
  induction fss generalizing rows with
  | nil => cases rows <;> rfl
  | cons fs rest ih =>
      cases rows with
      | nil => rfl
      | cons row others =>
          simp only [resetMatrix]
          rw [resetRow_none fs row (h fs (List.mem_cons_self _ _)),
            ih others (fun g hg => h g (List.mem_cons_of_mem _ hg))]

theorem resetAll_none (fsss : List (List (List Bool))) (ms : List (List (List JSNumber)))
    (h : ∀ fss ∈ fsss, ∀ fs ∈ fss, ∀ f ∈ fs, f = false) : resetAll fsss ms = ms := by
  induction fsss generalizing ms with
  | nil => cases ms <;> rfl
  | cons fss rest ih =>
      cases ms with
      | nil => rfl
      | cons m others =>
          simp only [resetAll]
          rw [resetMatrix_none fss m (h fss (List.mem_cons_self _ _)),
            ih others (fun g hg => h g (List.mem_cons_of_mem _ hg))]
theorem mapAcc_id2 {α β σ : Type} (f : σ → α → β × σ) (g : α → β) (m : List (List α)) (a : σ)
    (h : ∀ a, ∀ row ∈ m, ∀ x ∈ row, f a x = (g x, a)) :
    mapAcc (mapAcc f) a m = (m.map (List.map g), a) :=
  mapAcc_id (mapAcc f) (List.map g) m a
    (fun a2 row hrow => mapAcc_id f g row a2 (fun a3 x hx => h a3 row hrow x hx))

theorem mapAcc_id3 {α β σ : Type} (f : σ → α → β × σ) (g : α → β) (m : List (List (List α)))
    (a : σ) (h : ∀ a, ∀ mat ∈ m, ∀ row ∈ mat, ∀ x ∈ row, f a x = (g x, a)) :
    mapAcc (mapAcc (mapAcc f)) a m = (m.map (List.map (List.map g)), a) :=
  mapAcc_id (mapAcc (mapAcc f)) (List.map (List.map g)) m a
    (fun a2 mat hmat => mapAcc_id2 f g mat a2 (fun a3 row hrow x hx => h a3 mat hmat row hrow x hx))

theorem guardValue_id (a : GuardAcc) (x : JSNumber) (h : x.finite = true) :
    guardValue a x = (x, a) := by
  simp [guardValue, h]

theorem guardConfidence_id (a : GuardAcc) (x : JSNumber) (h : x.finite = true) :
    guardConfidence a x = (x, a) := by
  simp [guardConfidence, h]

theorem guardWeight_id (rnd : Nat → Num) (a : GuardAcc) (w : JSNumber) (h : w.finite = true)
    (h10 : w.absGt 10 = false) : guardWeight rnd a w = ((w, false), a) := by
  simp [guardWeight, h, h10]

theorem guardBias_id (rnd : Nat → Num) (a : GuardAcc) (b : JSNumber) (h : b.finite = true)
    (h5 : b.absGt 5 = false) : guardBias rnd a b = ((b, false), a) := by
  simp [guardBias, h, h5]

theorem map_map_id2 {α : Type} (m : List (List α)) : m.map (List.map (fun x => x)) = m := by
  simp

theorem map_map_id3 {α : Type} (m : List (List (List α))) :
    m.map (List.map (List.map (fun x => x))) = m := by
  simp

theorem guardWeight_value (rnd : Nat → Num) (a : GuardAcc) (w : JSNumber)
    (h : w.finite = true) :
    (guardWeight rnd a w).1 = (if w.absGt 10 = true then w.signTimes 5 else w, false) := by
  unfold guardWeight
  simp only [h, Bool.not_true, Bool.false_eq_true, if_false]
  split_ifs <;> rfl

theorem guardBias_value (rnd : Nat → Num) (a : GuardAcc) (b : JSNumber)
    (h : b.finite = true) :
    (guardBias rnd a b).1 = (if b.absGt 5 = true then b.signTimes 2 else b, false) := by
  unfold guardBias
  simp only [h, Bool.not_true, Bool.false_eq_true, if_false]
  split_ifs <;> rfl

theorem guardWeight_flag_of_large (rnd : Nat → Num) (a : GuardAcc) (w : JSNumber)
    (h : w.absGt 10 = true) : (guardWeight rnd a w).2.issuesFound = true := by
  cases hf : w.finite
  · exact (guardWeight_flag rnd a w).2 hf
  · unfold guardWeight
    simp [hf, h]

theorem guardBias_flag_of_large (rnd : Nat → Num) (a : GuardAcc) (b : JSNumber)
    (h : b.absGt 5 = true) : (guardBias rnd a b).2.issuesFound = true := by
  cases hf : b.finite
  · unfold guardBias
    simp only [hf, Bool.not_false, if_true]
    split_ifs <;> rfl
  · unfold guardBias
    simp [hf, h]

/-- The guard returns `false` when the check of some weight raises `issuesFound`. -/
theorem guard_flag_of_weights (rnd : Nat → Num) (c : Nat) (gs : GuardState)
    (bad : JSNumber → Prop)
    (hbad : ∀ a w, bad w → (guardWeight rnd a w).2.issuesFound = true)
    (h : ∃ mat ∈ gs.weights, ∃ row ∈ mat, ∃ w ∈ row, bad w) :
    (verifyNetworkIntegrityJS rnd c gs).2.2 = false := by
  have hw1 := fun a x => (guardWeight_flag rnd a x).1
  have hw2 : ∀ a row, a.issuesFound = true →
      (mapAcc (guardWeight rnd) a row).2.issuesFound = true :=
    fun a row ha => mapAcc_flag_mono _ hw1 row a ha
  have hw3 : ∀ a mat, a.issuesFound = true →
      (mapAcc (mapAcc (guardWeight rnd)) a mat).2.issuesFound = true :=
    fun a mat ha => mapAcc_flag_mono _ hw2 mat a ha
  have hb2 : ∀ a row, a.issuesFound = true →
      (mapAcc (guardBias rnd) a row).2.issuesFound = true :=
    fun a row ha => mapAcc_flag_mono _ (guardBias_flag rnd) row a ha
  have hc2 : ∀ a row, a.issuesFound = true →
      (mapAcc guardConfidence a row).2.issuesFound = true :=
    fun a row ha => mapAcc_flag_mono _ guardConfidence_flag row a ha
  have hc3 : ∀ a mat, a.issuesFound = true →
      (mapAcc (mapAcc guardConfidence) a mat).2.issuesFound = true :=
    fun a mat ha => mapAcc_flag_mono _ hc2 mat a ha
  have hws : ∀ a, (mapAcc (mapAcc (mapAcc (guardWeight rnd))) a gs.weights).2.issuesFound
      = true := by
    intro a
    apply mapAcc_flag_of_bad _ (fun mat => ∃ row ∈ mat, ∃ w ∈ row, bad w) hw3 _ _ _ h
    intro a2 mat hmat
    apply mapAcc_flag_of_bad _ (fun row => ∃ w ∈ row, bad w) hw2 _ _ _ hmat
    intro a3 row hrow
    exact mapAcc_flag_of_bad _ bad hw1 hbad _ _ hrow
  unfold verifyNetworkIntegrityJS
  simp only
  rw [Bool.not_eq_false']
  apply mapAcc_flag_mono _ hc3
  apply mapAcc_flag_mono _ hc2
  apply mapAcc_flag_mono _ hb2
  exact hws _

/-- The guard returns `false` when the check of some bias raises `issuesFound`. -/
theorem guard_flag_of_biases (rnd : Nat → Num) (c : Nat) (gs : GuardState)
    (bad : JSNumber → Prop)
    (hbad : ∀ a b, bad b → (guardBias rnd a b).2.issuesFound = true)
    (h : ∃ row ∈ gs.biases, ∃ b ∈ row, bad b) :
    (verifyNetworkIntegrityJS rnd c gs).2.2 = false := by
  have hb2 : ∀ a row, a.issuesFound = true →
      (mapAcc (guardBias rnd) a row).2.issuesFound = true :=
    fun a row ha => mapAcc_flag_mono _ (guardBias_flag rnd) row a ha
  have hc2 : ∀ a row, a.issuesFound = true →
      (mapAcc guardConfidence a row).2.issuesFound = true :=
    fun a row ha => mapAcc_flag_mono _ guardConfidence_flag row a ha
  have hc3 : ∀ a mat, a.issuesFound = true →
      (mapAcc (mapAcc guardConfidence) a mat).2.issuesFound = true :=
    fun a mat ha => mapAcc_flag_mono _ hc2 mat a ha
  have hbs : ∀ a, (mapAcc (mapAcc (guardBias rnd)) a gs.biases).2.issuesFound = true := by
    intro a
    apply mapAcc_flag_of_bad _ (fun row => ∃ b ∈ row, bad b) hb2 _ _ _ h
    intro a3 row hrow
    exact mapAcc_flag_of_bad _ bad (guardBias_flag rnd) hbad _ _ hrow
  unfold verifyNetworkIntegrityJS
  simp only
  rw [Bool.not_eq_false']
  apply mapAcc_flag_mono _ hc3
  apply mapAcc_flag_mono _ hc2
  exact hbs _

theorem mapAcc_forall₂ {α β σ : Type} (f : σ → α → β × σ) (R : α → β → Prop)
    (h : ∀ a x, R x (f a x).1) (xs : List α) (a : σ) :
    List.Forall₂ R xs (mapAcc f a xs).1 := by
  induction xs generalizing a with
  | nil => exact List.Forall₂.nil
  | cons x rest ih =>
      simp only [mapAcc]
      exact List.Forall₂.cons (h a x) (ih _)

/-- Position by position, the guard leaves a finite weight in the place of every weight: the
value `sign * 5` for a finite weight of magnitude above 10, and a finite weight of another
magnitude as it was. -/
theorem guard_weights_pointwise (rnd : Nat → Num) (c : Nat) (gs : GuardState) :
    List.Forall₂ (List.Forall₂ (List.Forall₂ (fun w w2 : JSNumber =>
        w.finite = true → w2 = if w.absGt 10 = true then w.signTimes 5 else w)))
      gs.weights (verifyNetworkIntegrityJS rnd c gs).1.weights := by
  unfold verifyNetworkIntegrityJS
  simp only
  rw [List.forall₂_map_right_iff]
  apply mapAcc_forall₂
  intro a mat
  rw [List.forall₂_map_right_iff]
  apply mapAcc_forall₂
  intro a2 row
  rw [List.forall₂_map_right_iff]
  apply mapAcc_forall₂
  intro a3 w hw
  rw [guardWeight_value rnd a3 w hw]

/-- Position by position, the guard leaves the value `sign * 2` for a finite bias of magnitude
above 5, and a finite bias of another magnitude as it was. -/
theorem guard_biases_pointwise (rnd : Nat → Num) (c : Nat) (gs : GuardState) :
    List.Forall₂ (List.Forall₂ (fun b b2 : JSNumber =>
        b.finite = true → b2 = if b.absGt 5 = true then b.signTimes 2 else b))
      gs.biases (verifyNetworkIntegrityJS rnd c gs).1.biases := by
  unfold verifyNetworkIntegrityJS
  simp only
  rw [List.forall₂_map_right_iff]
  apply mapAcc_forall₂
  intro a2 row
  rw [List.forall₂_map_right_iff]
  apply mapAcc_forall₂
  intro a3 b hb
  rw [guardBias_value rnd a3 b hb]

/-- C13, as amended: on JavaScript numbers, `verifyNetworkIntegrity` returns `false` and leaves
only finite weights whenever some weight is not finite; it returns `true`, with every array as
it was, for every state in which all node values, weights, biases and confidences are finite
and, in addition, no weight has a magnitude above 10 and no bias a magnitude above 5; it
returns `false` whenever some weight has a magnitude above 10 or some bias a magnitude above
5; and in every state, position by position, a finite weight of magnitude above 10 is replaced
by `sign * 5` (a finite bias of magnitude above 5 by `sign * 2`) and a finite weight (bias) of
another magnitude is left as it was. -/
theorem C13_guard_repairs_and_reports (rnd : Nat → Num) (c : Nat) (gs : GuardState) :
    ((∃ mat ∈ gs.weights, ∃ row ∈ mat, ∃ w ∈ row, w.finite = false) →
        (verifyNetworkIntegrityJS rnd c gs).2.2 = false
          ∧ Finite3 (verifyNetworkIntegrityJS rnd c gs).1.weights)
      ∧ (Finite2 gs.layers → Finite3 gs.weights → Finite2 gs.biases →
          Finite2 gs.nodeConfidence → Finite3 gs.connectionConfidence →
          (∀ mat ∈ gs.weights, ∀ row ∈ mat, ∀ w ∈ row, w.absGt 10 = false) →
          (∀ row ∈ gs.biases, ∀ b ∈ row, b.absGt 5 = false) →
          verifyNetworkIntegrityJS rnd c gs = (gs, c, true))
      ∧ ((∃ mat ∈ gs.weights, ∃ row ∈ mat, ∃ w ∈ row, w.absGt 10 = true) →
          (verifyNetworkIntegrityJS rnd c gs).2.2 = false)
      ∧ ((∃ row ∈ gs.biases, ∃ b ∈ row, b.absGt 5 = true) →
          (verifyNetworkIntegrityJS rnd c gs).2.2 = false)
      ∧ List.Forall₂ (List.Forall₂ (List.Forall₂ (fun w w2 : JSNumber =>
            w.finite = true → w2 = if w.absGt 10 = true then w.signTimes 5 else w)))
          gs.weights (verifyNetworkIntegrityJS rnd c gs).1.weights
      ∧ List.Forall₂ (List.Forall₂ (fun b b2 : JSNumber =>
            b.finite = true → b2 = if b.absGt 5 = true then b.signTimes 2 else b))
          gs.biases (verifyNetworkIntegrityJS rnd c gs).1.biases := by
  refine ⟨?_, ?_, guard_flag_of_weights rnd c gs (fun w => w.absGt 10 = true)
      (fun a w hw => guardWeight_flag_of_large rnd a w hw),
    guard_flag_of_biases rnd c gs (fun b => b.absGt 5 = true)
      (fun a b hb => guardBias_flag_of_large rnd a b hb),
    guard_weights_pointwise rnd c gs, guard_biases_pointwise rnd c gs⟩
  · intro hbad
    have hw1 := fun a x => (guardWeight_flag rnd a x).1
    have hw2 : ∀ a row, a.issuesFound = true →
        (mapAcc (guardWeight rnd) a row).2.issuesFound = true :=
      fun a row ha => mapAcc_flag_mono _ hw1 row a ha
    have hw3 : ∀ a mat, a.issuesFound = true →
        (mapAcc (mapAcc (guardWeight rnd)) a mat).2.issuesFound = true :=
      fun a mat ha => mapAcc_flag_mono _ hw2 mat a ha
    have hb2 : ∀ a row, a.issuesFound = true →
        (mapAcc (guardBias rnd) a row).2.issuesFound = true :=
      fun a row ha => mapAcc_flag_mono _ (guardBias_flag rnd) row a ha
    have hc2 : ∀ a row, a.issuesFound = true →
        (mapAcc guardConfidence a row).2.issuesFound = true :=
      fun a row ha => mapAcc_flag_mono _ guardConfidence_flag row a ha
    have hc3 : ∀ a mat, a.issuesFound = true →
        (mapAcc (mapAcc guardConfidence) a mat).2.issuesFound = true :=
      fun a mat ha => mapAcc_flag_mono _ hc2 mat a ha
    have hws : ∀ a, (mapAcc (mapAcc (mapAcc (guardWeight rnd))) a gs.weights).2.issuesFound
        = true := by
      intro a
      apply mapAcc_flag_of_bad _ (fun mat => ∃ row ∈ mat, ∃ w ∈ row, w.finite = false) hw3 _ _ _
        hbad
      intro a2 mat hmat
      apply mapAcc_flag_of_bad _ (fun row => ∃ w ∈ row, w.finite = false) hw2 _ _ _ hmat
      intro a3 row hrow
      exact mapAcc_flag_of_bad _ (fun w => w.finite = false) hw1
        (fun a4 w hw => (guardWeight_flag rnd a4 w).2 hw) _ _ hrow
    refine ⟨?_, ?_⟩
    · unfold verifyNetworkIntegrityJS
      simp only
      rw [Bool.not_eq_false']
      apply mapAcc_flag_mono _ hc3
      apply mapAcc_flag_mono _ hc2
      apply mapAcc_flag_mono _ hb2
      exact hws _
    · unfold verifyNetworkIntegrityJS
      simp only
      intro mat hmat row hrow x hx
      simp only [List.mem_map] at hmat
      obtain ⟨mat0, hmat0, rfl⟩ := hmat
      simp only [List.mem_map] at hrow
      obtain ⟨row0, hrow0, rfl⟩ := hrow
      simp only [List.mem_map] at hx
      obtain ⟨p, hp, rfl⟩ := hx
      have h3 := mapAcc_all (mapAcc (mapAcc (guardWeight rnd)))
        (fun m : List (List (JSNumber × Bool)) => ∀ r ∈ m, ∀ q ∈ r, q.1.finite = true)
        (fun a m => mapAcc_all (mapAcc (guardWeight rnd))
          (fun r : List (JSNumber × Bool) => ∀ q ∈ r, q.1.finite = true)
          (fun a2 r => mapAcc_all (guardWeight rnd) (fun q => q.1.finite = true)
            (fun a3 w => guardWeight_finite rnd a3 w) r a2) m a)
        gs.weights _ mat0 hmat0
      exact h3 row0 hrow0 p hp
  · intro hl hw hb hn hcc h10 h5
    unfold verifyNetworkIntegrityJS
    simp only
    rw [mapAcc_id2 guardValue (fun x => x) gs.layers _
      (fun a row hrow x hx => guardValue_id a x (hl row hrow x hx))]
    simp only
    rw [mapAcc_id3 (guardWeight rnd) (fun w => (w, false)) gs.weights _
      (fun a mat hmat row hrow x hx =>
        guardWeight_id rnd a x (hw mat hmat row hrow x hx) (h10 mat hmat row hrow x hx))]
    simp only
    rw [mapAcc_id2 (guardBias rnd) (fun b => (b, false)) gs.biases _
      (fun a row hrow x hx => guardBias_id rnd a x (hb row hrow x hx) (h5 row hrow x hx))]
    simp only
    have hr1 : resetAll
        (List.map (fun m => List.map (fun row => List.map (fun p => p.2) row) m)
          (List.map (List.map (List.map fun w => (w, false))) gs.weights))
        gs.connectionConfidence = gs.connectionConfidence := by
      apply resetAll_none
      intro fss hfss fs hfs f hf
      simp only [List.mem_map] at hfss
      obtain ⟨m1, ⟨m0, _, rfl⟩, rfl⟩ := hfss
      simp only [List.mem_map] at hfs
      obtain ⟨r1, ⟨r0, _, rfl⟩, rfl⟩ := hfs
      simp only [List.mem_map] at hf
      obtain ⟨p, ⟨w, _, rfl⟩, rfl⟩ := hf
      rfl
    have hr2 : (match gs.nodeConfidence with
        | [] => []
        | first :: rest => first :: resetMatrix
            (List.map (fun row => List.map (fun p => p.2) row)
              (List.map (List.map fun b => (b, false)) gs.biases)) rest)
        = gs.nodeConfidence := by
      cases gs.nodeConfidence with
      | nil => rfl
      | cons first rest =>
          simp only
          rw [resetMatrix_none]
          intro fs hfs f hf
          simp only [List.mem_map] at hfs
          obtain ⟨r1, ⟨r0, _, rfl⟩, rfl⟩ := hfs
          simp only [List.mem_map] at hf
          obtain ⟨p, ⟨w, _, rfl⟩, rfl⟩ := hf
          rfl
    rw [hr1, hr2]
    rw [mapAcc_id2 guardConfidence (fun x => x) gs.nodeConfidence _
      (fun a row hrow x hx => guardConfidence_id a x (hn row hrow x hx))]
    simp only
    rw [mapAcc_id3 guardConfidence (fun x => x) gs.connectionConfidence _
      (fun a mat hmat row hrow x hx => guardConfidence_id a x (hcc mat hmat row hrow x hx))]
    simp only [map_map_id2, map_map_id3, List.map_map, Function.comp, Bool.not_false]
    have e : ((fun p : JSNumber × Bool => p.1) ∘ fun w => (w, false)) = fun x => x := rfl
    cases gs
    simp [e]

/-- C13 fails as stated: the state whose only value is the finite weight `11` is all finite,
yet the guard returns `false` and leaves the weight `5`. -/
theorem C13_counterexample :
    Finite3 [[[JSNumber.fin 11]]]
      ∧ verifyNetworkIntegrityJS (fun _ => 1 / 2) 0
          { layers := [], weights := [[[.fin 11]]], biases := [], nodeConfidence := [],
            connectionConfidence := [] }
        = ({ layers := [], weights := [[[.fin 5]]], biases := [], nodeConfidence := [],
             connectionConfidence := [] }, 0, false) := by
  refine ⟨?_, by decide!⟩
  intro mat hmat row hrow x hx
  simp only [List.mem_singleton] at hmat hrow hx
  subst hmat
  simp only [List.mem_singleton] at hrow
  subst hrow
  simp only [List.mem_singleton] at hx
  subst hx
  rfl

/-- An instance of C13: the state whose only value is the weight `NaN` makes the guard return
`false` and leaves finite weights only. -/
theorem C13_witness :
    (∃ mat ∈ [[[JSNumber.nan]]], ∃ row ∈ mat, ∃ w ∈ row, w.finite = false)
      ∧ (verifyNetworkIntegrityJS (fun _ => 1 / 2) 0
          { layers := [], weights := [[[.nan]]], biases := [], nodeConfidence := [],
            connectionConfidence := [] }).2.2 = false
      ∧ Finite3 (verifyNetworkIntegrityJS (fun _ => 1 / 2) 0
          { layers := [], weights := [[[.nan]]], biases := [], nodeConfidence := [],
            connectionConfidence := [] }).1.weights :=
  ⟨⟨_, List.mem_singleton_self _, _, List.mem_singleton_self _, _, List.mem_singleton_self _,
      rfl⟩,
    (C13_guard_repairs_and_reports (fun _ => 1 / 2) 0
      { layers := [], weights := [[[.nan]]], biases := [], nodeConfidence := [],
        connectionConfidence := [] }).1
      ⟨_, List.mem_singleton_self _, _, List.mem_singleton_self _, _,
        List.mem_singleton_self _, rfl⟩⟩

/-! ### No connection is recorded twice by `forward` -/

theorem mesh_added (c : Nat → Num → Num) (p : Nat → Num → Option Path) (L i : Nat)
    (hp : ∀ k w q, p k w = some q → q.layer = L ∧ q.from_ = i ∧ q.to_ = k)
    (row : List Num) (n : Nat) (st : LayerAcc) :
    ∃ added, ((List.range n).foldl (fun st j =>
        match row[j]? with
        | none => st
        | some w => if w = 0 then st else contribute st j (c j w) (p j w)) st).paths
          = st.paths ++ added
      ∧ (added.map pathKey).Nodup ∧ ∀ q ∈ added, q.layer = L ∧ q.from_ = i := by
  have h := foldl_range'_inv
    (fun k (st2 : LayerAcc) => ∃ added, st2.paths = st.paths ++ added
      ∧ (added.map pathKey).Nodup ∧ ∀ q ∈ added, q.layer = L ∧ q.from_ = i ∧ q.to_ < k)
    (fun st j =>
      match row[j]? with
      | none => st
      | some w => if w = 0 then st else contribute st j (c j w) (p j w))
    0 n st ⟨[], by simp, by simp, fun q hq => by cases hq⟩
    (by
      intro k b _ _ hb
      obtain ⟨added, h1, h2, h3⟩ := hb
      have hweak : ∃ added, b.paths = st.paths ++ added
          ∧ (added.map pathKey).Nodup
          ∧ ∀ q ∈ added, q.layer = L ∧ q.from_ = i ∧ q.to_ < k + 1 :=
        ⟨added, h1, h2, fun q hq => ⟨(h3 q hq).1, (h3 q hq).2.1, by have := (h3 q hq).2.2; omega⟩⟩
      rcases hr : row[k]? with _ | w
      · simpa only [hr] using hweak
      · simp only [hr]
        by_cases hw : w = 0
        · rw [if_pos hw]
          exact hweak
        · rw [if_neg hw]
          rcases hpk : p k w with _ | q
          · simpa only [contribute] using hweak
          · obtain ⟨q1, q2, q3⟩ := hp k w q hpk
            refine ⟨added ++ [q], by simp [contribute, h1], ?_, ?_⟩
            · rw [List.map_append, List.nodup_append]
              refine ⟨h2, by simp, ?_⟩
              intro key hk1 hk2
              simp only [List.map_cons, List.map_nil, List.mem_singleton] at hk2
              simp only [List.mem_map] at hk1
              obtain ⟨q0, hq0, rfl⟩ := hk1
              have hto := (h3 q0 hq0).2.2
              have : q0.to_ = q.to_ := by
                have := (pathKey_eq_iff q0 q).mp hk2
                exact this.2.2
              omega
            · intro q0 hq0
              rcases List.mem_append.mp hq0 with hq0 | hq0
              · exact ⟨(h3 q0 hq0).1, (h3 q0 hq0).2.1, by have := (h3 q0 hq0).2.2; omega⟩
              · rw [List.mem_singleton.mp hq0]
                exact ⟨q1, q2, by omega⟩)
  rw [List.range_eq_range']
  obtain ⟨added, h1, h2, h3⟩ := h
  exact ⟨added, h1, h2, fun q hq => ⟨(h3 q hq).1, (h3 q hq).2.1⟩⟩

/-- The paths that the routing step of source `i` into layer `l` records: they are appended,
they leave node `i` of layer `l - 1`, and no connection occurs twice among them. -/
theorem routeStep_added (s : DPNN) (l i : Nat) (a : Num) (row : List Num) (prevLen : Nat)
    (st : LayerAcc) :
    ∃ added, (routeStep s l i a row prevLen st).paths = st.paths ++ added
      ∧ (added.map pathKey).Nodup ∧ ∀ q ∈ added, q.layer = l - 1 ∧ q.from_ = i := by
  have hnone : ∃ added, st.paths = st.paths ++ added
      ∧ (added.map pathKey).Nodup ∧ ∀ q ∈ added, q.layer = l - 1 ∧ q.from_ = i :=
    ⟨[], by simp, by simp, fun q hq => by cases hq⟩
  have hsingle : ∀ r : LayerAcc,
      (r = st ∨ ∃ t c q, r = contribute st t c (some q)
        ∧ q.layer = l - 1 ∧ q.from_ = i ∧ q.to_ = t) →
      ∃ added, r.paths = st.paths ++ added
        ∧ (added.map pathKey).Nodup ∧ ∀ q ∈ added, q.layer = l - 1 ∧ q.from_ = i := by
    rintro r (rfl | ⟨t, c, q, rfl, hq1, hq2, _⟩)
    · exact hnone
    · exact ⟨[q], rfl, by simp, fun q0 hq0 => by
        rw [List.mem_singleton.mp hq0]
        exact ⟨hq1, hq2⟩⟩
  have hdirect : directStep l i a row st = st ∨ ∃ t c q,
      directStep l i a row st = contribute st t c (some q)
        ∧ q.layer = l - 1 ∧ q.from_ = i ∧ q.to_ = t := by
    unfold directStep
    simp only
    by_cases hn : st.currentLayer.length = 0
    · rw [if_pos hn]
      exact Or.inl rfl
    · rw [if_neg hn]
      generalize (if i < st.currentLayer.length then i else i % st.currentLayer.length) = t
      rcases hr : row[t]? with _ | w
      · exact Or.inl rfl
      · exact Or.inr ⟨_, _, _, rfl, rfl, rfl, rfl⟩
  have hexp : expansionStep l i a row st = st ∨ ∃ t c q,
      expansionStep l i a row st = contribute st t c (some q)
        ∧ q.layer = l - 1 ∧ q.from_ = i ∧ q.to_ = t := by
    unfold expansionStep
    simp only
    by_cases hn : st.currentLayer.length = 0
    · rw [if_pos hn]
      exact Or.inl rfl
    · rw [if_neg hn]
      generalize (if a ≥ 0 then (i * 2) % st.currentLayer.length
        else (i * 2 + 1) % st.currentLayer.length) = t
      rcases hr : row[t]? with _ | w
      · exact Or.inl rfl
      · simp only
        by_cases ht : t < st.currentLayer.length
        · rw [if_pos ht]
          exact Or.inr ⟨_, _, _, rfl, rfl, rfl, rfl⟩
        · rw [if_neg ht]
          exact Or.inl rfl
  have hcon : contractionStep l i a row prevLen st = st ∨ ∃ t c q,
      contractionStep l i a row prevLen st = contribute st t c (some q)
        ∧ q.layer = l - 1 ∧ q.from_ = i ∧ q.to_ = t := by
    unfold contractionStep
    simp only
    rcases hr : row[i / 2]? with _ | w
    · exact Or.inl rfl
    · simp only
      by_cases ht : i / 2 < st.currentLayer.length
      · rw [if_pos ht]
        exact Or.inr ⟨_, _, _, rfl, rfl, rfl, rfl⟩
      · rw [if_neg ht]
        exact Or.inl rfl
  have hhalf : ∀ ty, ∃ added, (halfMeshStep ty l i a row st).paths = st.paths ++ added
      ∧ (added.map pathKey).Nodup ∧ ∀ q ∈ added, q.layer = l - 1 ∧ q.from_ = i := by
    intro ty
    unfold halfMeshStep
    exact mesh_added (fun j w => a * w * (if decide (i = j) = true then 1 else 0.5))
      (fun j _ => if decide (i = j) = true then none
        else some ⟨l - 1, i, j, |a| * 0.5, jsSign a, ty, false⟩) (l - 1) i
      (by
        intro k w q hq
        by_cases hik : i = k
        · simp [hik] at hq
        · simp only [decide_eq_true_eq, if_neg hik, Option.some.injEq] at hq
          rw [← hq]
          exact ⟨rfl, rfl, rfl⟩) row _ st
  have hcentral : ∃ added, (centralStep l i a row st).paths = st.paths ++ added
      ∧ (added.map pathKey).Nodup ∧ ∀ q ∈ added, q.layer = l - 1 ∧ q.from_ = i := by
    unfold centralStep
    exact mesh_added (fun _ w => a * w)
      (fun j _ => some ⟨l - 1, i, j, |a|, jsSign a, .central, decide (i = j)⟩) (l - 1) i
      (by
        intro k w q hq
        simp only [Option.some.injEq] at hq
        rw [← hq]
        exact ⟨rfl, rfl, rfl⟩) row _ st
  unfold routeStep
  simp only
  split_ifs
  · exact hsingle _ hdirect
  · exact hsingle _ hdirect
  · exact hsingle _ hdirect
  · exact hsingle _ hexp
  · exact hhalf _
  · exact hcentral
  · exact hhalf _
  · exact hsingle _ hcon
  · exact hnone

theorem sourceLoop_added (fns : MathFns) (s : DPNN) (l : Nat) (currentLayer : List Num)
    (weights : List (List Num)) (biases : List Num) :
    ∃ added, (sourceLoop fns s l currentLayer weights biases).paths = s.activePaths ++ added
      ∧ (added.map pathKey).Nodup ∧ ∀ q ∈ added, q.layer = l - 1 := by
  have h := foldl_range'_inv
    (fun k (st2 : LayerAcc) => ∃ added, st2.paths = s.activePaths ++ added
      ∧ (added.map pathKey).Nodup ∧ ∀ q ∈ added, q.layer = l - 1 ∧ q.from_ < k)
    (sourceStep fns s l (s.layers.getD (l - 1) []) (s.activations.getD (l - 1) [])
      weights biases)
    0 (s.layers.getD (l - 1) []).length
    { currentLayer := List.replicate currentLayer.length 0
      acts := s.activations.getD l []
      paths := s.activePaths
      layerHasActivation := false }
    ⟨[], by simp, by simp, fun q hq => by cases hq⟩
    (by
      intro k b _ _ hb
      obtain ⟨added, h1, h2, h3⟩ := hb
      have hweak : ∃ added, b.paths = s.activePaths ++ added
          ∧ (added.map pathKey).Nodup
          ∧ ∀ q ∈ added, q.layer = l - 1 ∧ q.from_ < k + 1 :=
        ⟨added, h1, h2, fun q hq => ⟨(h3 q hq).1, by have := (h3 q hq).2; omega⟩⟩
      unfold sourceStep
      split_ifs
      · exact hweak
      · simp only
        split
        · exact hweak
        · rename_i row _
          rw [(activationLoop_paths _ _ _ _ _ _).1]
          obtain ⟨more, m1, m2, m3⟩ := routeStep_added s l k
            ((s.layers.getD (l - 1) []).getD k 0) row (s.layers.getD (l - 1) []).length b
          refine ⟨added ++ more, by rw [m1, h1, List.append_assoc], ?_, ?_⟩
          · rw [List.map_append, List.nodup_append]
            refine ⟨h2, m2, ?_⟩
            intro key hk1 hk2
            simp only [List.mem_map] at hk1 hk2
            obtain ⟨q1, hq1, rfl⟩ := hk1
            obtain ⟨q2, hq2, hkey⟩ := hk2
            have hf := ((pathKey_eq_iff q2 q1).mp hkey).2.1
            have := (h3 q1 hq1).2
            have := (m3 q2 hq2).2
            omega
          · intro q hq
            rcases List.mem_append.mp hq with hq | hq
            · exact ⟨(h3 q hq).1, by have := (h3 q hq).2; omega⟩
            · exact ⟨(m3 q hq).1, by have := (m3 q hq).2; omega⟩)
  unfold sourceLoop
  simp only
  rw [List.range_eq_range']
  obtain ⟨added, h1, h2, h3⟩ := h
  exact ⟨added, h1, h2, fun q hq => (h3 q hq).1⟩

/-- After `forward`, no connection is recorded twice in `activePaths`. -/
theorem forwardState_nodup (fns : MathFns) (s : DPNN) (input : Input) :
    ((forwardState fns s input).activePaths.map pathKey).Nodup := by
  unfold forwardState
  have h := foldl_range'_inv
    (fun k (s2 : DPNN) => (s2.activePaths.map pathKey).Nodup
      ∧ ∀ p ∈ s2.activePaths, p.layer + 1 < k)
    (layerStep fns) 1 (s.layers.length - 1) (forwardInit s input)
    ⟨by simp [forwardInit], fun p hp => by simp [forwardInit] at hp⟩
    (by
      intro k b hk _ hb
      obtain ⟨h1, h2⟩ := hb
      unfold layerStep
      split
      · rename_i currentLayer weights biases _ _ _
        simp only
        have hfp : (forceActivation k b.layers.length
            (sourceLoop fns b k currentLayer weights biases)).paths
            = (sourceLoop fns b k currentLayer weights biases).paths := by
          unfold forceActivation
          split_ifs <;> rfl
        rw [hfp]
        obtain ⟨added, a1, a2, a3⟩ := sourceLoop_added fns b k currentLayer weights biases
        rw [a1]
        refine ⟨?_, ?_⟩
        · rw [List.map_append, List.nodup_append]
          refine ⟨h1, a2, ?_⟩
          intro key hk1 hk2
          simp only [List.mem_map] at hk1 hk2
          obtain ⟨q1, hq1, rfl⟩ := hk1
          obtain ⟨q2, hq2, hkey⟩ := hk2
          have hf := ((pathKey_eq_iff q2 q1).mp hkey).1
          have := h2 q1 hq1
          have := a3 q2 hq2
          omega
        · intro p hp
          rcases List.mem_append.mp hp with hp | hp
          · have := h2 p hp
            omega
          · have := a3 p hp
            omega
      · exact ⟨h1, fun p hp => by have := h2 p hp; omega⟩)
  exact h.1

/-! ### The transitions of the diamond, as `forward` computes them -/

theorem foldl_rel_mem {α β γ : Type} (R : β → γ → Prop) (f : β → α → β) (g : γ → α → γ)
    (xs : List α) (b : β) (c : γ) (h0 : R b c)
    (hstep : ∀ b c a, a ∈ xs → R b c → R (f b a) (g c a)) :
    R (xs.foldl f b) (xs.foldl g c) := by
  induction xs generalizing b c with
  | nil => exact h0
  | cons x rest ih =>
      simp only [List.foldl_cons]
      apply ih
      · exact hstep b c x (List.mem_cons_self _ _) h0
      · intro b2 c2 a ha hr
        exact hstep b2 c2 a (List.mem_cons_of_mem _ ha) hr

theorem contribute_accRel (old : List Path) (st st2 : LayerAcc) (j : Nat) (c : Num)
    (p : Option Path) (h : AccRel old st st2) :
    AccRel old (contribute st j c p) (contribute st2 j c p) := by
  obtain ⟨h1, h2, _, h4⟩ := h
  refine ⟨by simp [contribute, h1], by simp [contribute, h2], rfl, ?_⟩
  cases p with
  | none => simpa [contribute] using h4
  | some q => simp [contribute, h4]

theorem addContributions_accRel (old : List Path) (cs : List (Nat × Num × Option Path))
    (st st2 : LayerAcc) (h : AccRel old st st2) :
    AccRel old (addContributions cs st) (addContributions cs st2) := by
  unfold addContributions
  exact foldl_rel_mem (AccRel old) _ _ cs st st2 h
    (fun b c a _ hr => contribute_accRel old b c a.1 a.2.1 a.2.2 hr)

theorem addContributions_length (cs : List (Nat × Num × Option Path)) (st : LayerAcc) :
    (addContributions cs st).currentLayer.length = st.currentLayer.length := by
  unfold addContributions
  apply foldl_inv (fun st2 : LayerAcc => st2.currentLayer.length = st.currentLayer.length)
  · rfl
  · intro b a _ hb
    simpa [contribute, addAt] using hb

theorem activationLoop_accRel (fns : MathFns) (funcs : Option (List (List String)))
    (l L : Nat) (biases : List Num) (old : List Path) (st st2 : LayerAcc)
    (h : AccRel old st st2) :
    AccRel old (activationLoop fns funcs l L biases st)
      (activationLoop fns funcs l L biases st2) := by
  unfold activationLoop
  rw [h.1]
  apply foldl_rel_mem (AccRel old) _ _ _ st st2 h
  intro b c j _ hr
  obtain ⟨h1, h2, h3, h4⟩ := hr
  simp only [h1, h2]
  split_ifs
  · exact ⟨h1, h2, h3, h4⟩
  · exact ⟨rfl, rfl, h3, h4⟩
  · exact ⟨rfl, rfl, h3, h4⟩

theorem forceActivation_accRel (l L : Nat) (old : List Path) (st st2 : LayerAcc)
    (h : AccRel old st st2) :
    AccRel old (forceActivation l L st) (forceActivation l L st2) := by
  obtain ⟨h1, h2, h3, h4⟩ := h
  unfold forceActivation
  rw [h3]
  split_ifs
  · exact ⟨by simp [h1], by simp [h2], rfl, h4⟩
  · exact ⟨h1, h2, h3, h4⟩

theorem forceActivation_paths (l L : Nat) (st : LayerAcc) :
    (forceActivation l L st).paths = st.paths := by
  unfold forceActivation
  split_ifs <;> rfl

/-- The loop over the sources of layer `l - 1`, run by `forward` in the state `t`, leaves the
accumulator of `layerFromContributions` behind the paths recorded so far, when the routing
rule of the transition makes the contributions `cs`. -/
theorem sourceLoop_accRel (fns : MathFns) (s t : DPNN) (l : Nat) (cur : List Num)
    (cs : Nat → Num → List (Nat × Num × Option Path))
    (htopo : TopoEq s t)
    (hcur : cur.length = (s.layers.getD l []).length)
    (hacts : t.activations.getD l [] = List.replicate (s.layers.getD l []).length false)
    (hrows : (t.layers.getD (l - 1) []).length ≤ (s.weights.getD (l - 1) []).length)
    (hroute : ∀ i a row prevLen st, (s.weights.getD (l - 1) [])[i]? = some row →
      st.currentLayer.length = (s.layers.getD l []).length →
      routeStep s l i a row prevLen st = addContributions (cs i a) st) :
    AccRel t.activePaths
      (forceActivation l t.layers.length
        (sourceLoop fns t l cur (s.weights.getD (l - 1) []) (s.biases.getD (l - 1) [])))
      (layerFromContributions fns s l (t.layers.getD (l - 1) [])
        (t.activations.getD (l - 1) []) cs) := by
  unfold layerFromContributions
  rw [htopo.2.2.2.2.1]
  apply forceActivation_accRel
  unfold sourceLoop
  simp only
  refine (foldl_rel_mem
    (fun st st2 : LayerAcc => AccRel t.activePaths st st2
      ∧ st2.currentLayer.length = (s.layers.getD l []).length) _ _ _ _ _ ?_ ?_).1
  · refine ⟨⟨?_, hacts, rfl, by simp [clearedAcc]⟩, by simp [clearedAcc]⟩
    rw [hcur]
    rfl
  · intro b c i hi hr
    obtain ⟨hr, hlen⟩ := hr
    have hi2 : i < (s.weights.getD (l - 1) []).length :=
      lt_of_lt_of_le (List.mem_range.mp hi) hrows
    obtain ⟨row, hrow⟩ := lookup_of_lt _ i hi2
    rw [sourceStep_topoEq fns s t htopo]
    unfold sourceStep
    by_cases hact : (t.activations.getD (l - 1) []).getD i false = true
    · rw [hact, if_pos rfl, hrow]
      simp only [Bool.not_true, Bool.false_eq_true, if_false]
      rw [hroute i _ row _ b hrow (by rw [hr.1]; exact hlen)]
      refine ⟨activationLoop_accRel _ _ _ _ _ _ _ _ (addContributions_accRel _ _ _ _ hr), ?_⟩
      rw [(activationLoop_lengths _ _ _ _ _ _).1, addContributions_length, hlen]
    · have hf : (t.activations.getD (l - 1) []).getD i false = false := by simpa using hact
      rw [hf]
      simp only [Bool.not_false, if_true, Bool.false_eq_true, if_false]
      exact ⟨hr, hlen⟩

theorem layerInv_init (fns : MathFns) (s : DPNN) (input : Input) (l : Nat) (hl : 1 ≤ l)
    (cs : Nat → Num → List (Nat × Num × Option Path)) :
    LayerInv fns s input l cs 1 (forwardInit s input) := by
  refine ⟨forwardInit_sameParams s input, (forwardInit_layers s input).1,
    by simp [forwardInit], fun _ => rfl, ?_, ?_, fun h => by omega⟩
  · intro p hp
    simp [forwardInit] at hp
  · intro m hm
    simp only [forwardInit, getD_set]
    rw [if_neg (fun hh => by omega)]
    simp only [List.getD_eq_getElem?_getD, List.getElem?_map]
    cases s.layers[m]? <;> simp

/-- One iteration of the layer loop of `forward` on a network of the diamond shape keeps the
invariant that tracks the transition into layer `l`. -/
theorem layerInv_next (fns : MathFns) (s : DPNN) (input : Input) (l : Nat) (hl : 1 ≤ l)
    (cs : Nat → Num → List (Nat × Num × Option Path)) (hwf : WF s) (k : Nat) (t : DPNN)
    (hk1 : 1 ≤ k) (hk : k < 10)
    (hrows : ((forwardInit s input).layers.getD (l - 1) []).length
      ≤ (s.weights.getD (l - 1) []).length)
    (hroute : ∀ i a row prevLen st, (s.weights.getD (l - 1) [])[i]? = some row →
      st.currentLayer.length = (s.layers.getD l []).length →
      routeStep s l i a row prevLen st = addContributions (cs i a) st)
    (h : LayerInv fns s input l cs k t) :
    LayerInv fns s input l cs (k + 1) (layerStep fns t k) := by
  have hwf2 := hwf
  obtain ⟨_, _, _, _, w5, _, _, w8, _, w10⟩ := hwf2
  have hL : s.layers.length = 10 := by
    have := congrArg List.length w5
    simpa [diamondSizes] using this
  have hW : s.weights.length = 9 := by
    have := congrArg List.length w8
    simpa [diamondShape] using this
  have hB : s.biases.length = 9 := by
    have := congrArg List.length w10
    simpa [diamondSizes] using this
  have hsw : t.weights = s.weights := h.same.2.2.2.2.2.2.2.1
  have hsb : t.biases = s.biases := h.same.2.2.2.2.2.2.2.2.1
  have htopo : TopoEq s t := by
    obtain ⟨_, _, _, e4, e5, e6, _, _, _, _, _, e12, _, _, e15, _⟩ := h.same
    exact ⟨by rw [e4], by rw [e5], by rw [e6], e12, h.length, e15⟩
  obtain ⟨cur, hcur⟩ := lookup_of_lt t.layers k (by rw [h.length, hL]; exact hk)
  obtain ⟨W, hWk⟩ := lookup_of_lt t.weights (k - 1) (by rw [hsw, hW]; omega)
  obtain ⟨bs, hbs⟩ := lookup_of_lt t.biases (k - 1) (by rw [hsb, hB]; omega)
  have hWs : s.weights.getD (k - 1) [] = W := by
    rw [← hsw]
    exact getD_of_lookup _ _ _ _ hWk
  have hbss : s.biases.getD (k - 1) [] = bs := by
    rw [← hsb]
    exact getD_of_lookup _ _ _ _ hbs
  have hcurk : t.layers.getD k [] = cur := getD_of_lookup _ _ _ _ hcur
  have e : layerStep fns t k
      = { t with
          layers := t.layers.set k
            (forceActivation k t.layers.length (sourceLoop fns t k cur W bs)).currentLayer
          activations := t.activations.set k
            (forceActivation k t.layers.length (sourceLoop fns t k cur W bs)).acts
          activePaths :=
            (forceActivation k t.layers.length (sourceLoop fns t k cur W bs)).paths } := by
    unfold layerStep
    simp only [hcur, hWk, hbs]
  obtain ⟨added, a1, _, a3⟩ := sourceLoop_added fns t k cur W bs
  have hpaths : (forceActivation k t.layers.length (sourceLoop fns t k cur W bs)).paths
      = t.activePaths ++ added := by
    rw [forceActivation_paths, a1]
  have hkL : k < t.layers.length := by rw [h.length, hL]; exact hk
  have hkA : k < t.activations.length := by rw [h.actsLength, hL]; exact hk
  have hlay : ∀ m, m ≠ k → (layerStep fns t k).layers.getD m [] = t.layers.getD m [] := by
    intro m hm
    rw [e]
    simp only [getD_set]
    rw [if_neg (fun hh => hm hh.1.symm)]
  have hact : ∀ m, m ≠ k →
      (layerStep fns t k).activations.getD m [] = t.activations.getD m [] := by
    intro m hm
    rw [e]
    simp only [getD_set]
    rw [if_neg (fun hh => hm hh.1.symm)]
  have hpl : ∀ m, pathsByLayer (layerStep fns t k) m
      = pathsByLayer t m ++ added.filter (fun path => path.layer = m) := by
    intro m
    unfold pathsByLayer
    rw [e]
    simp only [hpaths, List.filter_append]
  refine ⟨h.same.chain (layerStep_sameParams fns t k),
    ((layerStep_layers fns t k).1).trans h.length, ?_,
    fun m => ((layerStep_layers fns t k).2 m).trans (h.sizes m), ?_, ?_, ?_⟩
  · rw [e]
    simpa using h.actsLength
  · intro p hp
    rw [e] at hp
    simp only [hpaths, List.mem_append] at hp
    rcases hp with hp | hp
    · have := h.low p hp
      omega
    · have := a3 p hp
      omega
  · intro m hm
    rw [hact m (by omega)]
    exact h.todo m (by omega)
  · intro hlk
    by_cases hlt : l < k
    · obtain ⟨d1, d2, d3⟩ := h.done hlt
      rw [hlay l (by omega), hlay (l - 1) (by omega), hact l (by omega),
        hact (l - 1) (by omega), hpl]
      have hnil : added.filter (fun path => decide (path.layer = l - 1)) = [] := by
        rw [List.filter_eq_nil_iff]
        intro q hq
        have := a3 q hq
        simp only [decide_eq_true_eq]
        omega
      rw [hnil, List.append_nil]
      exact ⟨d1, d2, d3⟩
    · have hkl : l = k := by omega
      subst hkl
      have hrel := sourceLoop_accRel fns s t l cur cs htopo
        (by rw [← hcurk, h.sizes l, (forwardInit_layers s input).2 l hl])
        (h.todo l (le_refl _)) (by rw [h.sizes]; exact hrows) hroute
      rw [hWs, hbss] at hrel
      obtain ⟨r1, r2, _, r4⟩ := hrel
      have hadded : added = (layerFromContributions fns s l (t.layers.getD (l - 1) [])
          (t.activations.getD (l - 1) []) cs).paths := by
        have := hpaths.symm.trans r4
        exact List.append_cancel_left this
      rw [hlay (l - 1) (by omega), hact (l - 1) (by omega), hpl]
      have hold : pathsByLayer t (l - 1) = [] := by
        unfold pathsByLayer
        rw [List.filter_eq_nil_iff]
        intro q hq
        have := h.low q hq
        simp only [decide_eq_true_eq]
        omega
      have hall : added.filter (fun path => decide (path.layer = l - 1)) = added := by
        rw [List.filter_eq_self]
        intro q hq
        simpa using a3 q hq
      rw [hold, hall, List.nil_append, ← hadded]
      refine ⟨?_, ?_, rfl⟩
      · rw [e]
        simp only [getD_set]
        rw [if_pos ⟨trivial, hkL⟩, r1]
      · rw [e]
        simp only [getD_set]
        rw [if_pos ⟨trivial, hkA⟩, r2]

/-- After `forward` on a network of the diamond shape, layer `l`, its flags and the paths
recorded for the transition into it are what `layerFromContributions` builds from layer
`l - 1` of the final state, when the routing rule of the transition makes the contributions
`cs`. -/
theorem forwardState_layer (fns : MathFns) (s : DPNN) (input : Input) (hwf : WF s) (l : Nat)
    (hl : 1 ≤ l) (hl9 : l ≤ 9) (cs : Nat → Num → List (Nat × Num × Option Path))
    (hrows : ((forwardInit s input).layers.getD (l - 1) []).length
      ≤ (s.weights.getD (l - 1) []).length)
    (hroute : ∀ i a row prevLen st, (s.weights.getD (l - 1) [])[i]? = some row →
      st.currentLayer.length = (s.layers.getD l []).length →
      routeStep s l i a row prevLen st = addContributions (cs i a) st) :
    (forwardState fns s input).layers.getD l []
        = (layerFromContributions fns s l ((forwardState fns s input).layers.getD (l - 1) [])
            ((forwardState fns s input).activations.getD (l - 1) []) cs).currentLayer
      ∧ (forwardState fns s input).activations.getD l []
        = (layerFromContributions fns s l ((forwardState fns s input).layers.getD (l - 1) [])
            ((forwardState fns s input).activations.getD (l - 1) []) cs).acts
      ∧ pathsByLayer (forwardState fns s input) (l - 1)
        = (layerFromContributions fns s l ((forwardState fns s input).layers.getD (l - 1) [])
            ((forwardState fns s input).activations.getD (l - 1) []) cs).paths := by
  have hL : s.layers.length = 10 := by
    have := congrArg List.length hwf.2.2.2.2.1
    simpa [diamondSizes] using this
  have h := foldl_range'_inv (fun k t => LayerInv fns s input l cs k t) (layerStep fns) 1
    (s.layers.length - 1) (forwardInit s input) (layerInv_init fns s input l hl cs)
    (fun k t hk1 hk ht =>
      layerInv_next fns s input l hl cs hwf k t hk1 (by omega) hrows hroute ht)
  exact h.done (by omega)

theorem foldl_filterMap_eq {α β γ : Type} (f : α → Option β) (g : γ → β → γ) (xs : List α)
    (c : γ) :
    (xs.filterMap f).foldl g c
      = xs.foldl (fun c x => match f x with
          | none => c
          | some y => g c y) c := by
  induction xs generalizing c with
  | nil => rfl
  | cons x rest ih =>
      rcases h : f x with _ | y
      · simp only [List.filterMap_cons, h, List.foldl_cons]
        exact ih c
      · simp only [List.filterMap_cons, h, List.foldl_cons]
        exact ih (g c y)

theorem get3_row (m : List (List (List Num))) (l i j : Nat) (row : List Num)
    (h : (m.getD l [])[i]? = some row) : get3 m l i j = row.getD j 0 := by
  unfold get3 get2
  rw [getD_of_lookup _ _ _ _ h]

/-- A loop over the nodes `j` of the layer under construction in which a nonzero weight
`row[j]` adds `c j row[j]` and records `p j row[j]` makes the contributions of the nonzero
entries of the row, in their order. -/
theorem mesh_contributions (c : Nat → Num → Num) (p : Nat → Num → Option Path)
    (row : List Num) (n : Nat) (st : LayerAcc) :
    (List.range n).foldl (fun st j =>
        match row[j]? with
        | none => st
        | some w => if w = 0 then st else contribute st j (c j w) (p j w)) st
      = addContributions ((List.range n).filterMap (fun j =>
          if row.getD j 0 = 0 then none
          else some (j, c j (row.getD j 0), p j (row.getD j 0)))) st := by
  unfold addContributions
  rw [foldl_filterMap_eq]
  congr 1
  funext st j
  rcases hr : row[j]? with _ | w
  · simp [List.getD_eq_getElem?_getD, hr]
  · by_cases hw : w = 0
    · simp [List.getD_eq_getElem?_getD, hr, hw]
    · simp [List.getD_eq_getElem?_getD, hr, hw]

/-- The routing rule of the transitions into layers 4 and 5 of the diamond, as a list of
contributions. -/
theorem routeStep_central (s : DPNN) (hwf : WF s) (l : Nat) (hl : l = 4 ∨ l = 5) (i : Nat)
    (a : Num) (row : List Num) (prevLen : Nat) (st : LayerAcc)
    (hrow : (s.weights.getD (l - 1) [])[i]? = some row)
    (hlen : st.currentLayer.length = (s.layers.getD l []).length) :
    routeStep s l i a row prevLen st = addContributions (meshContributions s l i a) st := by
  rw [(routeStep_of_WF s hwf i a row prevLen st).2.2.1 l hl]
  unfold centralStep meshContributions
  rw [hlen]
  refine (mesh_contributions (fun _ w => a * w)
    (fun j _ => some ⟨l - 1, i, j, |a|, jsSign a, .central, decide (i = j)⟩) row _ st).trans ?_
  simp only [get3_row _ _ _ _ _ hrow]

/-- The routing rule of the transitions into layers 6 and 8 of the diamond, as a list of
contributions. -/
theorem routeStep_halfMesh (s : DPNN) (hwf : WF s) (i : Nat)
    (a : Num) (row : List Num) (prevLen : Nat) (st : LayerAcc) :
    (∀ l, l = 6 → (s.weights.getD (l - 1) [])[i]? = some row →
        st.currentLayer.length = (s.layers.getD l []).length →
        routeStep s l i a row prevLen st
          = addContributions (halfMeshContributions .central s l i a) st)
      ∧ (∀ l, l = 8 → (s.weights.getD (l - 1) [])[i]? = some row →
        st.currentLayer.length = (s.layers.getD l []).length →
        routeStep s l i a row prevLen st
          = addContributions (halfMeshContributions .contraction s l i a) st) := by
  have key : ∀ (ty : PathType) (l : Nat), (s.weights.getD (l - 1) [])[i]? = some row →
      st.currentLayer.length = (s.layers.getD l []).length →
      halfMeshStep ty l i a row st
        = addContributions (halfMeshContributions ty s l i a) st := by
    intro ty l hrow hlen
    unfold halfMeshStep halfMeshContributions
    rw [hlen]
    refine (mesh_contributions
      (fun j w => a * w * (if decide (i = j) = true then 1 else 0.5))
      (fun j _ => if decide (i = j) = true then none
        else some ⟨l - 1, i, j, |a| * 0.5, jsSign a, ty, false⟩) row _ st).trans ?_
    simp only [get3_row _ _ _ _ _ hrow]
    congr 2
    funext j
    by_cases hw : row.getD j 0 = 0
    · rw [if_pos hw, if_pos hw]
    · rw [if_neg hw, if_neg hw]
      by_cases hji : j = i
      · subst hji
        simp
      · have hij : ¬ i = j := fun hh => hji hh.symm
        simp only [decide_eq_true_eq, if_neg hij, if_neg hji]
        norm_num
        constructor <;> ring
  refine ⟨?_, ?_⟩
  · intro l hl hrow hlen
    subst hl
    rw [(routeStep_of_WF s hwf i a row prevLen st).2.2.2.1]
    exact key _ 6 hrow hlen
  · intro l hl hrow hlen
    subst hl
    rw [(routeStep_of_WF s hwf i a row prevLen st).2.2.2.2]
    exact key _ 8 hrow hlen

/-- The routing rule of the transitions into layers 1 and 2 of the diamond, as a list of
contributions. -/
theorem routeStep_fork (s : DPNN) (hwf : WF s) (l : Nat) (hl : l = 1 ∨ l = 2) (i : Nat)
    (a : Num) (row : List Num) (prevLen : Nat) (st : LayerAcc)
    (hrow : (s.weights.getD (l - 1) [])[i]? = some row)
    (hlen : st.currentLayer.length = (s.layers.getD l []).length) :
    routeStep s l i a row prevLen st = addContributions (forkContributions s l i a) st := by
  obtain ⟨_, _, hrows, _, hcols, _, hsize⟩ := hwf.shape (l - 1) (by omega)
  have hl1 : l - 1 + 1 = l := by omega
  rw [hl1] at hcols hsize
  have hpos : 0 < (s.layers.getD l []).length := by
    rw [hsize]
    rcases hl with rfl | rfl <;> simp [diamondSizes]
  have hi : i < (diamondSizes s.inputSize s.outputSize).getD (l - 1) 0 := by
    rw [← hrows]
    exact lookup_lt _ _ _ hrow
  have hrl : row.length = (s.layers.getD l []).length := by
    rw [hsize, ← (hcols i hi).1, getD_of_lookup _ _ _ _ hrow]
  have ht : forkTarget s l i a < (s.layers.getD l []).length := by
    unfold forkTarget
    split_ifs <;> exact Nat.mod_lt _ hpos
  obtain ⟨w, hw⟩ := lookup_of_lt row (forkTarget s l i a) (by rw [hrl]; exact ht)
  have hg : get3 s.weights (l - 1) i (forkTarget s l i a) = w :=
    get3_of_lookup _ _ _ _ _ _ hrow hw
  rw [(routeStep_of_WF s hwf i a row prevLen st).1 l hl]
  unfold expansionStep forkContributions addContributions
  simp only [hlen, List.foldl_cons, List.foldl_nil]
  have e : (if a ≥ 0 then i * 2 % (s.layers.getD l []).length
      else (i * 2 + 1) % (s.layers.getD l []).length) = forkTarget s l i a := by
    unfold forkTarget
    rw [Nat.mul_comm i 2]
  rw [if_neg (by omega), e, hw]
  simp only
  rw [if_pos ht, hg]

theorem addContributions_paths (cs : List (Nat × Num × Option Path)) (st : LayerAcc) :
    (addContributions cs st).paths = st.paths ++ cs.filterMap (fun c => c.2.2) := by
  induction cs generalizing st with
  | nil => simp [addContributions]
  | cons c rest ih =>
      have h := ih (contribute st c.1 c.2.1 c.2.2)
      unfold addContributions at h ⊢
      rw [List.foldl_cons, h]
      obtain ⟨j, v, p⟩ := c
      cases p <;> simp [contribute]

/-- The paths that `layerFromContributions` records: those of the contributions of each active
source, in the order of the sources. -/
theorem layerFromContributions_paths (fns : MathFns) (s : DPNN) (l : Nat)
    (prevLayer : List Num) (prevActs : List Bool)
    (cs : Nat → Num → List (Nat × Num × Option Path)) :
    (layerFromContributions fns s l prevLayer prevActs cs).paths
      = (List.range prevLayer.length).flatMap (fun i =>
          if prevActs.getD i false = true then
            (cs i (prevLayer.getD i 0)).filterMap (fun c => c.2.2)
          else []) := by
  unfold layerFromContributions
  rw [forceActivation_paths, List.range_eq_range']
  have h := foldl_range'_inv
    (fun k (st : LayerAcc) => st.paths = (List.range k).flatMap (fun i =>
      if prevActs.getD i false = true then
        (cs i (prevLayer.getD i 0)).filterMap (fun c => c.2.2)
      else []))
    (fun st i =>
      if prevActs.getD i false = true then
        activationLoop fns s.nodeActivationFuncs l s.layers.length (s.biases.getD (l - 1) [])
          (addContributions (cs i (prevLayer.getD i 0)) st)
      else st)
    0 prevLayer.length (clearedAcc (s.layers.getD l []).length) (by simp [clearedAcc])
    (by
      intro k b _ _ hb
      beta_reduce
      rw [List.range_succ, List.flatMap_append]
      by_cases hact : prevActs.getD k false = true
      · rw [if_pos hact, (activationLoop_paths _ _ _ _ _ _).1, addContributions_paths, hb]
        simp only [List.flatMap_cons, List.flatMap_nil, List.append_nil, if_pos hact]
      · rw [if_neg hact, hb]
        simp only [List.flatMap_cons, List.flatMap_nil, List.append_nil, if_neg hact])
  simpa [List.range_eq_range'] using h

theorem flatMap_ite_singleton {α β : Type} (p : α → Prop) [DecidablePred p] (f : α → β)
    (xs : List α) :
    xs.flatMap (fun i => if p i then [f i] else [])
      = xs.filterMap (fun i => if p i then some (f i) else none) := by
  induction xs with
  | nil => rfl
  | cons x rest ih =>
      rw [List.flatMap_cons, ih]
      by_cases hx : p x
      · simp [hx]
      · simp [hx]

/-- On a network of the diamond shape, layer `l - 1` of the state in which `forward` starts
has no more nodes than the matrix `l - 1` has rows, for `2 ≤ l ≤ 9`, and also for `l = 1` on
an input that the validation leaves at the length `inputSize`. -/
theorem forwardInit_rows (s : DPNN) (input : Input) (hwf : WF s) (l : Nat) (hl : 1 ≤ l)
    (hl9 : l ≤ 9) (hin : l = 1 → (safeInput s.inputSize input).length = s.inputSize) :
    ((forwardInit s input).layers.getD (l - 1) []).length
      ≤ (s.weights.getD (l - 1) []).length := by
  obtain ⟨_, _, hrows, _, _, hsize, _⟩ := hwf.shape (l - 1) (by omega)
  have hL : s.layers.length = 10 := by
    have := congrArg List.length hwf.2.2.2.2.1
    simpa [diamondSizes] using this
  rw [hrows]
  by_cases h1 : l = 1
  · subst h1
    simp only [forwardInit, getD_set]
    rw [if_pos ⟨trivial, by omega⟩, hin rfl]
    simp [diamondSizes]
  · rw [(forwardInit_layers s input).2 (l - 1) (by omega), hsize]

/-- C21: on a network of the diamond shape and an input that the validation leaves at the
length `inputSize`, `forward` computes the layers 1 and 2 by the Y-fork: layer `l`, its flags
and the paths recorded for the transition are those of the loop in which every active source
`i` of layer `l - 1`, of value `a`, contributes `|a| * weights[l-1][i][t]` to the single
target `t = (2 * i) mod size(l)` if `a ≥ 0` and `t = (2 * i + 1) mod size(l)` otherwise; and
the recorded paths `(l - 1, i, t)` are one for each active source, of value `|a|` and sign
`+1` or `-1`. -/
theorem C21_expansion_forks_to_one_target (fns : MathFns) (s : DPNN) (hwf : WF s)
    (input : Input) (hin : (safeInput s.inputSize input).length = s.inputSize) (l : Nat)
    (hl : l = 1 ∨ l = 2) :
    (forwardState fns s input).layers.getD l []
        = (layerFromContributions fns s l ((forwardState fns s input).layers.getD (l - 1) [])
            ((forwardState fns s input).activations.getD (l - 1) [])
            (forkContributions s l)).currentLayer
      ∧ (forwardState fns s input).activations.getD l []
        = (layerFromContributions fns s l ((forwardState fns s input).layers.getD (l - 1) [])
            ((forwardState fns s input).activations.getD (l - 1) [])
            (forkContributions s l)).acts
      ∧ pathsByLayer (forwardState fns s input) (l - 1)
        = (List.range ((forwardState fns s input).layers.getD (l - 1) []).length).filterMap
            (fun i =>
              if ((forwardState fns s input).activations.getD (l - 1) []).getD i false = true
              then some ⟨l - 1, i,
                forkTarget s l i (((forwardState fns s input).layers.getD (l - 1) []).getD i 0),
                |((forwardState fns s input).layers.getD (l - 1) []).getD i 0|,
                if ((forwardState fns s input).layers.getD (l - 1) []).getD i 0 ≥ 0
                  then 1 else -1,
                .expansion, true⟩
              else none) := by
  obtain ⟨h1, h2, h3⟩ := forwardState_layer fns s input hwf l (by omega) (by omega)
    (forkContributions s l)
    (forwardInit_rows s input hwf l (by omega) (by omega) (fun _ => hin))
    (fun i a row prevLen st hrow hlen => routeStep_fork s hwf l hl i a row prevLen st hrow hlen)
  refine ⟨h1, h2, ?_⟩
  rw [h3, layerFromContributions_paths, ← flatMap_ite_singleton]
  rfl

/-- The hypotheses of C21 hold of `twoSourceNet` and the input `[1, -1, 0, 0]`: the two active
sources record the paths `(0, 0, 0)`, of sign `+1`, and `(0, 1, 3)`, of sign `-1`. -/
theorem C21_witness :
    WF twoSourceNet
      ∧ (safeInput twoSourceNet.inputSize
          (.array [.num 1, .num (-1), .num 0, .num 0])).length = twoSourceNet.inputSize
      ∧ (forwardState sampleFns twoSourceNet
            (.array [.num 1, .num (-1), .num 0, .num 0])).layers.getD 1 []
          = (layerFromContributions sampleFns twoSourceNet 1
              ((forwardState sampleFns twoSourceNet
                (.array [.num 1, .num (-1), .num 0, .num 0])).layers.getD (1 - 1) [])
              ((forwardState sampleFns twoSourceNet
                (.array [.num 1, .num (-1), .num 0, .num 0])).activations.getD (1 - 1) [])
              (forkContributions twoSourceNet 1)).currentLayer
      ∧ pathsByLayer (forwardState sampleFns twoSourceNet
            (.array [.num 1, .num (-1), .num 0, .num 0])) 0
          = [⟨0, 0, 0, 1, 1, .expansion, true⟩, ⟨0, 1, 3, 1, -1, .expansion, true⟩] :=
  ⟨by decide!, by decide!,
    (C21_expansion_forks_to_one_target sampleFns twoSourceNet (by decide!)
      (.array [.num 1, .num (-1), .num 0, .num 0]) (by decide!) 1 (Or.inl rfl)).1,
    by decide!⟩

/-- C22: on a network of the diamond shape, `forward` computes the central layers by a mesh:
layer `l`, its flags and the paths recorded for the transition are those of the loop in which
every active source `i` of layer `l - 1`, of value `a`, adds to every node `j` of layer `l`
whose weight is not `0` the amount `a * weights[l-1][i][j]`, for `l = 4` and `l = 5`, and for
`l = 6` the amount `a * weights[5][i][j]` when `j = i` and one half of it when `j ≠ i`. -/
theorem C22_central_mesh_and_half_weight_mesh (fns : MathFns) (s : DPNN) (hwf : WF s)
    (input : Input) :
    (∀ l, l = 4 ∨ l = 5 →
      (forwardState fns s input).layers.getD l []
          = (layerFromContributions fns s l ((forwardState fns s input).layers.getD (l - 1) [])
              ((forwardState fns s input).activations.getD (l - 1) [])
              (meshContributions s l)).currentLayer
        ∧ (forwardState fns s input).activations.getD l []
          = (layerFromContributions fns s l ((forwardState fns s input).layers.getD (l - 1) [])
              ((forwardState fns s input).activations.getD (l - 1) [])
              (meshContributions s l)).acts
        ∧ pathsByLayer (forwardState fns s input) (l - 1)
          = (layerFromContributions fns s l ((forwardState fns s input).layers.getD (l - 1) [])
              ((forwardState fns s input).activations.getD (l - 1) [])
              (meshContributions s l)).paths)
      ∧ (forwardState fns s input).layers.getD 6 []
          = (layerFromContributions fns s 6 ((forwardState fns s input).layers.getD 5 [])
              ((forwardState fns s input).activations.getD 5 [])
              (halfMeshContributions .central s 6)).currentLayer
      ∧ (forwardState fns s input).activations.getD 6 []
          = (layerFromContributions fns s 6 ((forwardState fns s input).layers.getD 5 [])
              ((forwardState fns s input).activations.getD 5 [])
              (halfMeshContributions .central s 6)).acts
      ∧ pathsByLayer (forwardState fns s input) 5
          = (layerFromContributions fns s 6 ((forwardState fns s input).layers.getD 5 [])
              ((forwardState fns s input).activations.getD 5 [])
              (halfMeshContributions .central s 6)).paths := by
  refine ⟨?_, ?_⟩
  · intro l hl
    exact forwardState_layer fns s input hwf l (by omega) (by omega) (meshContributions s l)
      (forwardInit_rows s input hwf l (by omega) (by omega) (fun h => by omega))
      (fun i a row prevLen st hrow hlen =>
        routeStep_central s hwf l hl i a row prevLen st hrow hlen)
  · exact forwardState_layer fns s input hwf 6 (by omega) (by omega)
      (halfMeshContributions .central s 6)
      (forwardInit_rows s input hwf 6 (by omega) (by omega) (fun h => by omega))
      (fun i a row prevLen st hrow hlen =>
        (routeStep_halfMesh s hwf i a row prevLen st).1 6 rfl hrow hlen)

/-- The hypothesis of C22 holds of `sparseNet`: after the forward pass on `[1, 1, 1, 1]`,
layer 6 is the layer of the half-weight mesh, and node 1 of layer 6 holds `5 / 128`. -/
theorem C22_witness :
    WF sparseNet
      ∧ sparseState.layers.getD 6 []
          = (layerFromContributions sampleFns sparseNet 6 (sparseState.layers.getD 5 [])
              (sparseState.activations.getD 5 [])
              (halfMeshContributions .central sparseNet 6)).currentLayer
      ∧ get2 sparseState.layers 6 1 = 5 / 128 :=
  ⟨by decide!,
    (C22_central_mesh_and_half_weight_mesh sampleFns sparseNet (by decide!)
      (.array [.num 1, .num 1, .num 1, .num 1])).2.1,
    by decide!⟩

/-- C19, as amended: on a network of the diamond shape, `forward` computes layer 8 from layer
7 by the half-weight mesh: layer 8, its flags and the paths recorded for the transition are
those of the loop in which every active source `i` of layer 7, of value `a`, adds to every
node `j` of layer 8 whose weight is not `0` the amount `a * weights[7][i][j]` when `j = i` and
one half of it when `j ≠ i`; the pair-averaging rule is not taken. -/
theorem C19_final_contraction_is_a_half_weight_mesh (fns : MathFns) (s : DPNN) (hwf : WF s)
    (input : Input) :
    (forwardState fns s input).layers.getD 8 []
        = (layerFromContributions fns s 8 ((forwardState fns s input).layers.getD 7 [])
            ((forwardState fns s input).activations.getD 7 [])
            (halfMeshContributions .contraction s 8)).currentLayer
      ∧ (forwardState fns s input).activations.getD 8 []
        = (layerFromContributions fns s 8 ((forwardState fns s input).layers.getD 7 [])
            ((forwardState fns s input).activations.getD 7 [])
            (halfMeshContributions .contraction s 8)).acts
      ∧ pathsByLayer (forwardState fns s input) 7
        = (layerFromContributions fns s 8 ((forwardState fns s input).layers.getD 7 [])
            ((forwardState fns s input).activations.getD 7 [])
            (halfMeshContributions .contraction s 8)).paths :=
  forwardState_layer fns s input hwf 8 (by omega) (by omega)
    (halfMeshContributions .contraction s 8)
    (forwardInit_rows s input hwf 8 (by omega) (by omega) (fun h => by omega))
    (fun i a row prevLen st hrow hlen =>
      (routeStep_halfMesh s hwf i a row prevLen st).2 8 rfl hrow hlen)

/-- The hypothesis of C19 holds of `sparseNet`: after the forward pass on `[1, 1, 1, 1]`,
layer 8 is the layer of the half-weight mesh, and the paths recorded for the transition begin
with `(7, 0, 1)`. -/
theorem C19_witness :
    WF sparseNet
      ∧ pathsByLayer sparseState 7
          = (layerFromContributions sampleFns sparseNet 8 (sparseState.layers.getD 7 [])
              (sparseState.activations.getD 7 [])
              (halfMeshContributions .contraction sparseNet 8)).paths
      ∧ (pathsByLayer sparseState 7).head? = some ⟨7, 0, 1, 1 / 256, 1, .contraction, false⟩ :=
  ⟨by decide!,
    (C19_final_contraction_is_a_half_weight_mesh sampleFns sparseNet (by decide!)
      (.array [.num 1, .num 1, .num 1, .num 1])).2.2,
    by decide!⟩

end DPNNModel
